import Mathlib

/-! The cooperative proc runtime (`src/rt/rust.cpp`): a shallow embedding

The runtime state is embedded as a record of typed object heaps (procs, ports,
channels, stack segments), a flat byte memory for guest-visible data, and the
runtime's own fields.  Object pointers are natural numbers, `0` being `NULL`.
Every `I(rt, e)` assertion of the source is a `fatal` carrying its source line;
the host's `fatal` ends the process, so a failed assertion ends the run.
Logging is an effect of the host service and is not part of the state.
-/

namespace RustRt

/-! ## Results of runtime operations -/

/-- Ways in which an operation of the runtime stops instead of returning.
`fatal n`: the assertion `I(rt, e)` at line `n` of `rust.cpp` failed.
`bad_ptr`: a null or freed object pointer was dereferenced.
`oob`: a storage block was accessed outside its bounds.
`diverge`: a loop did not end within the fuel it was given. -/
inductive Err where
  | fatal (line : Nat)
  | bad_ptr
  | oob
  | diverge
deriving DecidableEq, Repr

/-- Outcome of a runtime operation: a value, or the reason the run stopped. -/
inductive Res (α : Type) where
  | ok (a : α)
  | err (e : Err)
deriving DecidableEq, Repr

/-- Sequencing of runtime operations: the first stop ends the run. -/
def Res.bind {α β : Type} (x : Res α) (f : α → Res β) : Res β :=
  match x with
  | .ok a => f a
  | .err e => .err e

instance : Monad Res where
  pure := Res.ok
  bind := Res.bind

/-- The source's `I(rt, e)`: a fatal at `line` unless `c` holds. -/
def I (line : Nat) (c : Prop) [Decidable c] : Res Unit :=
  if c then .ok () else .err (.fatal line)

/-! ## Object heaps -/

/-- Object pointer; `0` is `NULL`. -/
abbrev Ptr := Nat

/-- Heap of objects of one type: the object with pointer `p + 1` sits in slot
`p`; a freed slot holds `none`. -/
abbrev Store (α : Type) := List (Option α)

/-- Object a pointer refers to, if it is neither null nor freed. -/
def Store.get {α : Type} (st : Store α) (p : Ptr) : Option α :=
  match p with
  | 0 => none
  | q + 1 => (st[q]?).join

/-- Dereference of an object pointer. -/
def Store.deref {α : Type} (st : Store α) (p : Ptr) : Res α :=
  match st.get p with
  | some a => .ok a
  | none => .err .bad_ptr

/-- Overwrite the object behind a pointer. -/
def Store.put {α : Type} (st : Store α) (p : Ptr) (a : α) : Store α :=
  match p with
  | 0 => st
  | q + 1 => st.set q (some a)

/-- Release the object behind a pointer. -/
def Store.free {α : Type} (st : Store α) (p : Ptr) : Store α :=
  match p with
  | 0 => st
  | q + 1 => st.set q none

/-- Allocate a new object; its pointer is fresh. -/
def Store.alloc {α : Type} (st : Store α) (a : α) : Store α × Ptr :=
  (st ++ [some a], st.length + 1)

/-! ## Storage blocks -/

/-- Read slot `i` of a storage block. -/
def peek {α : Type} (d : List α) (i : Nat) : Res α :=
  match d[i]? with
  | some x => .ok x
  | none => .err .oob

/-- Write slot `i` of a storage block. -/
def poke {α : Type} (d : List α) (i : Nat) (x : α) : Res (List α) :=
  if i < d.length then .ok (d.set i x) else .err .oob

/-- Storage resized to `n` slots by `realloc`: the common prefix is kept, new
slots are modelled as `0`. -/
def realloc_slots (d : List Nat) (n : Nat) : List Nat :=
  (d ++ List.replicate n 0).take n

/-- Copy of `n` bytes from offset `soff` of block `src` to offset `doff` of
block `d`. -/
def memcpy_blk (d : List Nat) (doff : Nat) (src : List Nat) (soff n : Nat) : Res (List Nat) :=
  if soff + n ≤ src.length ∧ doff + n ≤ d.length then
    .ok (d.take doff ++ (src.drop soff).take n ++ d.drop (doff + n))
  else .err .oob

/-- The `n` bytes of flat memory starting at address `a`. -/
def mem_read (mem : Nat → Nat) (a n : Nat) : List Nat :=
  (List.range n).map fun k => mem (a + k)

/-- Flat memory after the bytes `bs` have been stored from address `a` on. -/
def mem_write (mem : Nat → Nat) (a : Nat) (bs : List Nat) : Nat → Nat :=
  fun x => if a ≤ x ∧ x < a + bs.length then bs.getD (x - a) 0 else mem x

/-! ## Data model -/

/-- Proc states (`proc_state_t`). -/
inductive proc_state_t where
  | running
  | calling_c
  | failing
  | blocked_exited
  | blocked_reading
  | blocked_writing
deriving DecidableEq, Repr

/-- The template `ptr_vec<T>`: the counters `alloc` and `fill` and the storage
block `data`, modelled slot by slot: the list holds one entry for each whole
pointer the block has room for. -/
structure ptr_vec where
  alloc : Nat
  fill : Nat
  data : List Ptr
deriving DecidableEq, Repr

/-- Byte-granular circular buffer of fixed-size units (`circ_buf`). -/
structure circ_buf where
  alloc : Nat
  unit_sz : Nat
  next : Nat
  unread : Nat
  data : List Nat
deriving DecidableEq, Repr

/-- Stack segment header (`stk_seg`); `data` is the address of `data[0]`. -/
structure stk_seg where
  prev : Ptr
  next : Ptr
  valgrind_id : Nat
  prev_fp : Nat
  prev_sp : Nat
  limit : Nat
  data : Nat
deriving DecidableEq, Repr

/-- The record `rust_proc`; `chans` is the proc's channel table in insertion
order. -/
structure rust_proc where
  stk : Ptr
  fn : Nat
  runtime_sp : Nat
  rust_sp : Nat
  state : proc_state_t
  idx : Nat
  refcnt : Nat
  chans : List Ptr
  gc_alloc_chain : Nat
  upcall_code : Nat
  upcall_args : List Nat
deriving DecidableEq, Repr

/-- Word `i` of the upcall argument area of a proc (`upcall_args[i]`). -/
def rust_proc.arg (p : rust_proc) (i : Nat) : Nat :=
  p.upcall_args.getD i 0

/-- The record `rust_port`. -/
structure rust_port where
  live_refcnt : Nat
  weak_refcnt : Nat
  proc : Ptr
  next : Ptr
  prev : Ptr
  unit_sz : Nat
  writers : ptr_vec
deriving DecidableEq, Repr

/-- The record `rust_chan`. -/
structure rust_chan where
  port : Ptr
  queued : Nat
  idx : Nat
  blocked : Ptr
  buf : circ_buf
deriving DecidableEq, Repr

/-- The runtime `rust_rt` together with the heaps of the objects it owns and
the flat memory guest code and upcalls share. -/
structure rust_rt where
  live_allocs : Nat
  running_procs : ptr_vec
  blocked_procs : ptr_vec
  root_proc : Ptr
  ports : Ptr
  procs : Store rust_proc
  port_heap : Store rust_port
  chan_heap : Store rust_chan
  stks : Store stk_seg
  mem : Nat → Nat

/-- Elements of a `ptr_vec` carry the index of the slot that holds them. -/
class HasIdx (α : Type) where
  idx : α → Nat
  set_idx : α → Nat → α

instance : HasIdx rust_proc where
  idx p := p.idx
  set_idx p i := { p with idx := i }

instance : HasIdx rust_chan where
  idx c := c.idx
  set_idx c i := { c with idx := i }

/-! ## Allocation accounting (`rust_rt::malloc`, `rust_rt::free`) -/

/-- The call `rust_rt::malloc`; the host allocator is taken to succeed. -/
def rust_rt.malloc (s : rust_rt) : rust_rt :=
  { s with live_allocs := s.live_allocs + 1 }

/-- The call `rust_rt::free` of a non-null block. -/
def rust_rt.free (s : rust_rt) : Res rust_rt := do
  I 1191 (s.live_allocs > 0)
  pure { s with live_allocs := s.live_allocs - 1 }

/-! ## `ptr_vec` -/

/-- Size in bytes of `uintptr_t`, `size_t` and of a pointer; the reference
target is i386. -/
def WORD : Nat := 4

/-- A freshly constructed `ptr_vec`: `new (rt) T*[alloc]` with `alloc` set to
`INIT_SIZE`, a storage block of 8 pointers. -/
def ptr_vec.init : ptr_vec := ⟨8, 0, List.replicate 8 0⟩

/-- The method `ptr_vec<T>::push`.  On growth the call is
`rt->realloc(data, alloc)` with the doubled `alloc` as the size in bytes: the
new block holds `alloc * 2 / WORD` pointers, and the store to `data[fill]`
that follows lies outside it. -/
def ptr_vec.push {α : Type} [HasIdx α] (v : ptr_vec) (heap : Store α) (p : Ptr) :
    Res (ptr_vec × Store α) := do
  let v1 : ptr_vec :=
    if v.fill = v.alloc then
      { v with alloc := v.alloc * 2, data := realloc_slots v.data (v.alloc * 2 / WORD) }
    else v
  I 462 (v1.fill < v1.alloc)
  let x ← heap.deref p
  let heap1 := heap.put p (HasIdx.set_idx x v1.fill)
  let d ← poke v1.data v1.fill p
  pure ({ v1 with data := d, fill := v1.fill + 1 }, heap1)

/-- The method `ptr_vec<T>::trim`.  On halving the call is
`rt->realloc(data, alloc)` with the halved `alloc` as the size in bytes: the
new block holds `alloc / 2 / WORD` pointers. -/
def ptr_vec.trim (v : ptr_vec) (sz : Nat) : Res ptr_vec :=
  if sz ≤ v.alloc / 4 ∧ v.alloc / 2 ≥ 8 then do
    let a := v.alloc / 2
    I 482 (a ≥ v.fill)
    pure { v with alloc := a, data := realloc_slots v.data (a / WORD) }
  else pure v

/-- The method `ptr_vec<T>::swapdel`. -/
def ptr_vec.swapdel {α : Type} [HasIdx α] (v : ptr_vec) (heap : Store α) (item : Ptr) :
    Res (ptr_vec × Store α) := do
  I 494 (v.fill > 0)
  let it ← heap.deref item
  I 495 (HasIdx.idx it < v.fill)
  let fill := v.fill - 1
  if fill > 0 then do
    let subst ← peek v.data fill
    let idx := HasIdx.idx it
    let d ← poke v.data idx subst
    let sb ← heap.deref subst
    pure ({ v with fill := fill, data := d }, heap.put subst (HasIdx.set_idx sb idx))
  else pure ({ v with fill := fill }, heap)

/-! ## `circ_buf` -/

/-- The constant `INIT_CIRC_BUF_UNITS`. -/
def INIT_CIRC_BUF_UNITS : Nat := 8

/-- The constant `MAX_CIRC_BUF_SIZE`. -/
def MAX_CIRC_BUF_SIZE : Nat := 1 <<< 24

/-- The constructor `circ_buf::circ_buf`: storage comes from `calloc`. -/
def circ_buf.new (s : rust_rt) (unit_sz : Nat) : Res (rust_rt × circ_buf) := do
  let alloc := INIT_CIRC_BUF_UNITS * unit_sz
  let s1 := s.malloc
  I 515 (unit_sz ≠ 0)
  pure (s1, { alloc := alloc, unit_sz := unit_sz, next := 0, unread := 0,
              data := List.replicate alloc 0 })

/-- The loop of `circ_buf::transfer`, `n` iterations from loop variable `i`. -/
def circ_buf.transfer_loop (b : circ_buf) : Nat → Nat → List Nat → Res (List Nat)
  | 0, _, d => .ok d
  | n + 1, i, d => do
    let d1 ← memcpy_blk d i b.data (b.next + i % b.alloc) b.unit_sz
    circ_buf.transfer_loop b n (i + b.unit_sz) d1

/-- The method `circ_buf::transfer` into the block `d`; the loop runs while
`i < unread`, stepping by `unit_sz`. -/
def circ_buf.transfer (b : circ_buf) (d : List Nat) : Res (List Nat) :=
  if b.unit_sz = 0 then
    (if b.unread = 0 then .ok d else .err .diverge)
  else b.transfer_loop ((b.unread + b.unit_sz - 1) / b.unit_sz) 0 d

/-- The method `circ_buf::push`, reading the unit at address `src`.  Storage
obtained from `malloc` is modelled zero-filled. -/
def circ_buf.push (s : rust_rt) (b : circ_buf) (src : Nat) : Res (rust_rt × circ_buf) := do
  I 555 (src ≠ 0)
  I 556 (b.unread ≤ b.alloc)
  let (s1, b1) ← (if b.unread = b.alloc then do
      I 560 (b.alloc ≤ MAX_CIRC_BUF_SIZE)
      let sa := s.malloc
      let tmp ← b.transfer (List.replicate (b.alloc <<< 1) 0)
      let sf ← sa.free
      pure (sf, { b with alloc := b.alloc <<< 1, data := tmp })
    else pure (s, b) : Res (rust_rt × circ_buf))
  I 572 (b1.unread < b1.alloc)
  I 573 (b1.unread + b1.unit_sz ≤ b1.alloc)
  let i := (b1.next + b1.unread) % b1.alloc
  let d ← memcpy_blk b1.data i (mem_read s1.mem src b1.unit_sz) 0 b1.unit_sz
  pure (s1, { b1 with data := d, unread := b1.unread + b1.unit_sz })

/-- The method `circ_buf::shift`, storing the unit at address `dst`. -/
def circ_buf.shift (s : rust_rt) (b : circ_buf) (dst : Nat) : Res (rust_rt × circ_buf) := do
  I 588 (dst ≠ 0)
  I 589 (b.unit_sz > 0)
  I 590 (b.unread ≥ b.unit_sz)
  I 591 (b.unread ≤ b.alloc)
  let i := b.next
  if i + b.unit_sz ≤ b.data.length then do
    let s1 : rust_rt := { s with mem := mem_write s.mem dst ((b.data.drop i).take b.unit_sz) }
    let unread := b.unread - b.unit_sz
    let next := b.next + b.unit_sz
    I 598 (next ≤ b.alloc)
    let b1 : circ_buf :=
      { b with unread := unread, next := if next = b.alloc then 0 else next }
    if b1.alloc ≥ INIT_CIRC_BUF_UNITS * b1.unit_sz ∧ b1.unread ≤ b1.alloc / 4 then do
      let sa := s1.malloc
      let tmp ← b1.transfer (List.replicate (b1.alloc / 2) 0)
      let sf ← sa.free
      pure (sf, { b1 with alloc := b1.alloc >>> 1, data := tmp })
    else pure (s1, b1)
  else .err .oob

/-! ## Proc state vectors -/

/-- The runtime's two proc vectors. -/
inductive vec_sel where
  | running_procs
  | blocked_procs
deriving DecidableEq, Repr

/-- Read one of the two proc vectors. -/
def rust_rt.vec (s : rust_rt) : vec_sel → ptr_vec
  | .running_procs => s.running_procs
  | .blocked_procs => s.blocked_procs

/-- Replace one of the two proc vectors. -/
def rust_rt.set_vec (s : rust_rt) (sel : vec_sel) (v : ptr_vec) : rust_rt :=
  match sel with
  | .running_procs => { s with running_procs := v }
  | .blocked_procs => { s with blocked_procs := v }

/-- The function `get_state_vec`. -/
def get_state_vec : proc_state_t → vec_sel
  | .running => .running_procs
  | .calling_c => .running_procs
  | .failing => .running_procs
  | .blocked_exited => .blocked_procs
  | .blocked_reading => .blocked_procs
  | .blocked_writing => .blocked_procs

/-- The function `get_proc_vec`. -/
def get_proc_vec (s : rust_rt) (proc : Ptr) : Res vec_sel := do
  let p ← s.procs.deref proc
  pure (get_state_vec p.state)

/-- The method `rust_rt::n_live_procs`. -/
def rust_rt.n_live_procs (s : rust_rt) : Nat :=
  s.running_procs.fill + s.blocked_procs.fill

/-- The function `add_proc_state_vec`. -/
def add_proc_state_vec (s : rust_rt) (proc : Ptr) : Res rust_rt := do
  let v ← get_proc_vec s proc
  let (vec, heap) ← (s.vec v).push s.procs proc
  pure { s.set_vec v vec with procs := heap }

/-- The function `remove_proc_from_state_vec`. -/
def remove_proc_from_state_vec (s : rust_rt) (proc : Ptr) : Res rust_rt := do
  let v ← get_proc_vec s proc
  let p ← s.procs.deref proc
  let x ← peek (s.vec v).data p.idx
  I 1028 (x = proc)
  let (vec, heap) ← (s.vec v).swapdel s.procs proc
  let s1 : rust_rt := { s.set_vec v vec with procs := heap }
  let vec1 ← vec.trim s1.n_live_procs
  pure (s1.set_vec v vec1)

/-- The function `proc_state_transition`. -/
def proc_state_transition (s : rust_rt) (proc : Ptr) (src dst : proc_state_t) : Res rust_rt := do
  let p ← s.procs.deref proc
  I 1044 (p.state = src)
  let s1 ← remove_proc_from_state_vec s proc
  let p1 ← s1.procs.deref proc
  let s2 : rust_rt := { s1 with procs := s1.procs.put proc { p1 with state := dst } }
  add_proc_state_vec s2 proc

/-- The function `fail_proc`. -/
def fail_proc (s : rust_rt) (proc : Ptr) : Res rust_rt := do
  let p ← s.procs.deref proc
  I 1056 (s.n_live_procs > 0)
  proc_state_transition s proc p.state .failing

/-! ## Channels: transmission, send, receive -/

/-- The function `attempt_transmission`; the result is the `int` it returns. -/
def attempt_transmission (s : rust_rt) (src dst : Ptr) : Res (rust_rt × Nat) := do
  I 1331 (src ≠ 0)
  I 1332 (dst ≠ 0)
  let d ← s.procs.deref dst
  if d.state ≠ .blocked_reading then pure (s, 0)
  else do
    let c ← s.chan_heap.deref src
    (if c.blocked ≠ 0 then do
        let b ← s.procs.deref c.blocked
        I 1342 (b.state = .blocked_writing)
      else pure () : Res Unit)
    if c.buf.unread = 0 then pure (s, 0)
    else do
      let dptr := d.arg 0
      let (s1, buf1) ← c.buf.shift s dptr
      let s2 : rust_rt := { s1 with chan_heap := s1.chan_heap.put src { c with buf := buf1 } }
      let s3 ← (if c.blocked ≠ 0 then do
          let t ← proc_state_transition s2 c.blocked .blocked_writing .running
          let c1 ← t.chan_heap.deref src
          pure { t with chan_heap := t.chan_heap.put src { c1 with blocked := 0 } }
        else pure s2 : Res rust_rt)
      let s4 ← proc_state_transition s3 dst .blocked_reading .running
      pure (s4, 1)

/-- Modelled from the spec: the lookup `HASH_FIND` of `uthash.h`, which is not
among the sources.  The channel table of a proc is keyed by destination port
pointer (spec 4.6); the lookup yields the table's channel for `port`, if any. -/
def hash_find (s : rust_rt) (head : List Ptr) (port : Ptr) : Option Ptr :=
  head.find? fun c =>
    match s.chan_heap.get c with
    | some ch => ch.port == port
    | none => false

/-- Modelled from the spec: the insertion `HASH_ADD` of `uthash.h`, which is
not among the sources; the table keeps its channels in insertion order. -/
def hash_add (head : List Ptr) (chan : Ptr) : List Ptr :=
  head ++ [chan]

/-- The expression `new (rt) rust_chan(port)`. -/
def rust_chan.new (s : rust_rt) (port : Ptr) : Res (rust_rt × Ptr) := do
  let s1 := s.malloc
  let pt ← s1.port_heap.deref port
  let _ ← s1.procs.deref pt.proc
  let (s2, buf) ← circ_buf.new s1 pt.unit_sz
  let (heap, c) := s2.chan_heap.alloc
    { port := port, queued := 0, idx := 0, blocked := 0, buf := buf }
  pure ({ s2 with chan_heap := heap }, c)

/-- The lookup-or-create step of `upcall_send` (`HASH_FIND`, then `new` and
`HASH_ADD` when nothing was found). -/
def find_or_new_chan (s : rust_rt) (src port : Ptr) : Res (rust_rt × Ptr) := do
  let sp ← s.procs.deref src
  match hash_find s sp.chans port with
  | some c => pure (s, c)
  | none => do
    let (s1, c) ← rust_chan.new s port
    let sp1 ← s1.procs.deref src
    pure ({ s1 with procs := s1.procs.put src { sp1 with chans := hash_add sp1.chans c } }, c)

/-- The function `upcall_send`. -/
def upcall_send (s : rust_rt) (src port : Ptr) (sptr : Nat) : Res rust_rt := do
  let _ ← s.procs.deref src
  if port = 0 then pure s
  else do
    I 1390 (src ≠ 0)
    I 1391 (port ≠ 0)
    I 1392 (sptr ≠ 0)
    let (s1, chan) ← find_or_new_chan s src port
    I 1398 (chan ≠ 0)
    let c ← s1.chan_heap.deref chan
    I 1399 (c.blocked = src ∨ c.blocked = 0)
    I 1400 (c.port ≠ 0)
    I 1401 (c.port = port)
    let pt ← s1.port_heap.deref port
    if pt.proc ≠ 0 then do
      let (s2, buf) ← c.buf.push s1 sptr
      let s3 : rust_rt :=
        { s2 with chan_heap := s2.chan_heap.put chan { c with blocked := src, buf := buf } }
      let s4 ← proc_state_transition s3 src .calling_c .blocked_writing
      let (s5, _) ← attempt_transmission s4 chan pt.proc
      let c5 ← s5.chan_heap.deref chan
      if c5.buf.unread ≠ 0 ∧ c5.queued = 0 then do
        let heap := s5.chan_heap.put chan { c5 with queued := 1 }
        let pt5 ← s5.port_heap.deref port
        let (w, heap1) ← pt5.writers.push heap chan
        pure { s5 with chan_heap := heap1,
                       port_heap := s5.port_heap.put port { pt5 with writers := w } }
      else pure s5
    else pure s1

/-- The function `upcall_recv`; `r` is the value `rand` returns when it is
called. -/
def upcall_recv (s : rust_rt) (dst port : Ptr) (r : Nat) : Res rust_rt := do
  let _ ← s.procs.deref dst
  I 1433 (port ≠ 0)
  let pt ← s.port_heap.deref port
  I 1434 (pt.proc ≠ 0)
  I 1435 (dst ≠ 0)
  I 1436 (pt.proc = dst)
  let s1 ← proc_state_transition s dst .calling_c .blocked_reading
  if pt.writers.fill > 0 then do
    let i := r % pt.writers.fill
    let schan ← peek pt.writers.data i
    let sc ← s1.chan_heap.deref schan
    I 1447 (sc.idx = i)
    let (s2, res) ← attempt_transmission s1 schan dst
    if res ≠ 0 then do
      let pt2 ← s2.port_heap.deref port
      let (w, heap) ← pt2.writers.swapdel s2.chan_heap schan
      let w1 ← w.trim w.fill
      let sc2 ← heap.deref schan
      pure { s2 with chan_heap := heap.put schan { sc2 with queued := 0 },
                     port_heap := s2.port_heap.put port { pt2 with writers := w1 } }
    else pure s2
  else pure s1

/-! ## Machine words and stack segments -/

/-- Number of values of a machine word. -/
def WORD_MOD : Nat := 2 ^ (8 * WORD)

/-- Subtraction of machine words. -/
def wsub (a b : Nat) : Nat := (a + WORD_MOD - b % WORD_MOD) % WORD_MOD

/-- Little-endian bytes of a machine word. -/
def word_bytes (v : Nat) : List Nat :=
  (List.range WORD).map fun k => (v / 256 ^ k) % 256

/-- The machine word stored at address `a`. -/
def read_word (mem : Nat → Nat) (a : Nat) : Nat :=
  ((List.range WORD).map fun k => mem (a + k) % 256 * 256 ^ k).sum

/-- Memory after the machine word `v` has been stored at address `a`. -/
def write_word (mem : Nat → Nat) (a v : Nat) : Nat → Nat :=
  mem_write mem a (word_bytes v)

/-- The statement `*spp-- = v` on a word pointer `spp`. -/
def store_dec (m : (Nat → Nat) × Nat) (v : Nat) : (Nat → Nat) × Nat :=
  (write_word m.1 m.2 v, wsub m.2 WORD)

/-- The constant `min_stk_bytes`. -/
def min_stk_bytes : Nat := 0x300

/-- The function `new_stk`; `base` is the address at which the host allocator
places `data[0]` of the new segment.  Outside valgrind the registration id
is 0. -/
def new_stk (s : rust_rt) (minsz base : Nat) : rust_rt × Ptr :=
  let minsz := if minsz < min_stk_bytes then min_stk_bytes else minsz
  let s1 := s.malloc
  let (heap, stk) := s1.stks.alloc
    { prev := 0, next := 0, valgrind_id := 0, prev_fp := 0, prev_sp := 0,
      limit := base + minsz, data := base }
  ({ s1 with stks := heap }, stk)

/-- The rewinding loop of `del_stk`. -/
def del_stk_rewind (s : rust_rt) : Nat → Ptr → Res Ptr
  | 0, _ => .err .diverge
  | n + 1, stk => do
    let seg ← s.stks.deref stk
    if seg.prev ≠ 0 then del_stk_rewind s n seg.prev else pure stk

/-- The freeing loop of `del_stk`. -/
def del_stk_free : Nat → rust_rt → Ptr → Res rust_rt
  | 0, _, _ => .err .diverge
  | n + 1, s, stk => do
    let seg ← s.stks.deref stk
    let s1 ← s.free
    let s2 : rust_rt := { s1 with stks := s1.stks.free stk }
    if seg.next ≠ 0 then del_stk_free n s2 seg.next else pure s2

/-- The function `del_stk`; each of its loops runs within `fuel` iterations. -/
def del_stk (fuel : Nat) (s : rust_rt) (stk : Ptr) : Res rust_rt := do
  let bottom ← del_stk_rewind s fuel stk
  del_stk_free fuel s bottom

/-! ## Proc construction and destruction -/

/-- The constant `n_callee_saves`. -/
def n_callee_saves : Nat := 4

/-- The constant `callee_save_fp`. -/
def callee_save_fp : Nat := 0

/-- The loop `for (j = 0; j < n_callee_saves; ++j) *spp-- = 0`. -/
def store_zero_saves (m : (Nat → Nat) × Nat) : (Nat → Nat) × Nat :=
  (List.range n_callee_saves).foldl (fun m _ => store_dec m 0) m

/-- The loop that lays down the callee-saves of the spawnee frame. -/
def store_spawnee_saves (m : (Nat → Nat) × Nat) (frame_base : Nat) : (Nat → Nat) × Nat :=
  (List.range n_callee_saves).foldl
    (fun m j => store_dec m (if j = callee_save_fp then frame_base else 0)) m

/-- The expression `new (rt) rust_proc(rt, spawner, exit_proc_glue, spawnee_fn,
callsz)`; `base` is where the host allocator places the first stack segment.
The upcall argument area is not initialised by the constructor and is modelled
as zeros. -/
def rust_proc.new (s : rust_rt) (spawner : Ptr) (exit_proc_glue spawnee_fn callsz base : Nat) :
    Res (rust_rt × Ptr) := do
  let s0 := s.malloc
  let this : Ptr := s0.procs.length + 1
  let (s1, stk) := new_stk s0 0 base
  let seg ← s1.stks.deref stk
  let sp1 := wsub seg.limit WORD
  let sp2 := sp1 - sp1 % 16
  let m := store_dec (s1.mem, sp2) this
  let m := store_dec m 0
  let m := store_dec m 0
  let m := store_zero_saves m
  let frame_base := (m.2 + WORD) % WORD_MOD
  let m := store_dec m 0
  let m ← (if spawner ≠ 0 then do
      let sp ← s1.procs.deref spawner
      let src := (sp.rust_sp + (1 + n_callee_saves + 1 + 1) * WORD) % WORD_MOD
      let callsz1 := wsub callsz (2 * WORD)
      let spp := wsub m.2 callsz1
      let mem1 := mem_write m.1 spp (mem_read m.1 src callsz1)
      pure (mem1, wsub spp WORD)
    else do
      I 895 (callsz = 0)
      pure m : Res ((Nat → Nat) × Nat))
  let m := store_dec m this
  let m := store_dec m 0
  let m := store_dec m exit_proc_glue
  let m := store_dec m spawnee_fn
  let m := store_spawnee_saves m frame_base
  let rec_ : rust_proc :=
    { stk := stk, fn := spawnee_fn, runtime_sp := 0, rust_sp := (m.2 + WORD) % WORD_MOD,
      state := .running, idx := 0, refcnt := 1, chans := [], gc_alloc_chain := 0,
      upcall_code := 0, upcall_args := List.replicate 8 0 }
  let (heap, p) := s1.procs.alloc rec_
  pure ({ s1 with procs := heap, mem := m.1 }, p)

/-- The function `upcall_new_proc`. -/
def upcall_new_proc (s : rust_rt) (spawner : Ptr) (exit_proc_glue spawnee_fn callsz base : Nat) :
    Res (rust_rt × Ptr) := do
  let _ ← s.procs.deref spawner
  let (s1, proc) ← rust_proc.new s spawner exit_proc_glue spawnee_fn callsz base
  let s2 ← add_proc_state_vec s1 proc
  pure (s2, proc)

/-- The function `get_callee_save_fp`, reading below the word pointer `top`. -/
def get_callee_save_fp (mem : Nat → Nat) (top : Nat) : Nat :=
  read_word mem (top + (n_callee_saves - (callee_save_fp + 1)) * WORD)

/-- The frame walk of the destructor `rust_proc::~rust_proc`, which only logs;
`n` bounds the number of frames visited. -/
def frame_walk (mem : Nat → Nat) : Nat → Nat → Res Unit
  | 0, _ => .err .diverge
  | n + 1, fp => if fp ≠ 0 then frame_walk mem n (get_callee_save_fp mem fp) else pure ()

/-- The statement `delete c` for a channel: the destructors of `rust_chan` and
of its `circ_buf`, then `operator delete`. -/
def rust_chan.delete (s : rust_rt) (c : Ptr) : Res rust_rt := do
  let ch ← s.chan_heap.deref c
  let pt ← s.port_heap.deref ch.port
  let _ ← s.procs.deref pt.proc
  I 528 (ch.buf.unread = 0)
  let s1 ← s.free
  let s2 ← s1.free
  pure { s2 with chan_heap := s2.chan_heap.free c }

/-- Deletion of the channels of a list, in order. -/
def delete_chans : rust_rt → List Ptr → Res rust_rt
  | s, [] => pure s
  | s, c :: cs => do
    let s1 ← rust_chan.delete s c
    delete_chans s1 cs

/-- The statement `delete proc`: the destructor `rust_proc::~rust_proc`, then
`operator delete`.  The channel table is emptied entry by entry (`HASH_DEL`). -/
def rust_proc.delete (fuel : Nat) (s : rust_rt) (proc : Ptr) : Res rust_rt := do
  let p ← s.procs.deref proc
  frame_walk s.mem fuel (get_callee_save_fp s.mem p.rust_sp)
  I 940 (p.refcnt = 0 ∨ (p.refcnt = 1 ∧ proc = s.root_proc))
  let s1 ← del_stk fuel s p.stk
  let s2 ← delete_chans s1 p.chans
  let s3 ← s2.free
  pure { s3 with procs := s3.procs.free proc }

/-- The function `upcall_del_proc`. -/
def upcall_del_proc (fuel : Nat) (s : rust_rt) (proc : Ptr) : Res rust_rt := do
  let _ ← s.procs.deref proc
  let s1 ← fail_proc s proc
  let s2 ← remove_proc_from_state_vec s1 proc
  rust_proc.delete fuel s2 proc

/-- The function `upcall_fail`: the host's `fatal` ends the process before
`fail_proc` is reached. -/
def upcall_fail (s : rust_rt) (proc : Ptr) (line : Nat) : Res rust_rt := do
  let _ ← s.procs.deref proc
  .err (.fatal line)

/-! ## Ports -/

/-- The function `upcall_new_port`, with the constructor `rust_port::rust_port`
(and that of its `writers` vector) written out. -/
def upcall_new_port (s : rust_rt) (proc : Ptr) (unit_sz : Nat) : Res (rust_rt × Ptr) := do
  let _ ← s.procs.deref proc
  let s1 := s.malloc
  let s2 := s1.malloc
  let this : Ptr := s2.port_heap.length + 1
  let heap ← (if s2.ports ≠ 0 then do
      let h ← s2.port_heap.deref s2.ports
      pure (s2.port_heap.put s2.ports { h with prev := this })
    else pure s2.port_heap : Res (Store rust_port))
  let rec_ : rust_port :=
    { live_refcnt := 1, weak_refcnt := 0, proc := proc, next := s2.ports, prev := 0,
      unit_sz := unit_sz, writers := ptr_vec.init }
  let (heap1, port) := Store.alloc heap rec_
  pure ({ s2 with port_heap := heap1, ports := this }, port)

/-- The loop `for (i = 0; i < writers.length(); ++i) delete writers[i]` of the
destructor `rust_port::~rust_port`, from index `i` for `n` more rounds. -/
def delete_writers (w : ptr_vec) : Nat → Nat → rust_rt → Res rust_rt
  | 0, _, s => pure s
  | n + 1, i, s => do
    let c ← peek w.data i
    let s1 ← rust_chan.delete s c
    delete_writers w n (i + 1) s1

/-- The statement `delete port`: the destructor `rust_port::~rust_port`, the
destructor of its `writers` vector, then `operator delete`. -/
def rust_port.delete (s : rust_rt) (port : Ptr) : Res rust_rt := do
  let pt ← s.port_heap.deref port
  let s1 ← delete_writers pt.writers pt.writers.fill 0 s
  let s2 ← (if pt.prev ≠ 0 then do
      let pv ← s1.port_heap.deref pt.prev
      pure { s1 with port_heap := s1.port_heap.put pt.prev { pv with next := pt.next } }
    else if port = s1.ports then pure { s1 with ports := pt.next }
    else pure s1 : Res rust_rt)
  let s3 ← (if pt.next ≠ 0 then do
      let nx ← s2.port_heap.deref pt.next
      pure { s2 with port_heap := s2.port_heap.put pt.next { nx with prev := pt.prev } }
    else pure s2 : Res rust_rt)
  I 449 (pt.writers.fill = 0)
  let s4 ← s3.free
  let s5 ← s4.free
  pure { s5 with port_heap := s5.port_heap.free port }

/-- The function `upcall_del_port`. -/
def upcall_del_port (s : rust_rt) (proc port : Ptr) : Res rust_rt := do
  let _ ← s.procs.deref proc
  let pt ← s.port_heap.deref port
  I 1296 (pt.live_refcnt = 0 ∨ pt.weak_refcnt = 0)
  if pt.live_refcnt = 0 ∧ pt.weak_refcnt = 0 then rust_port.delete s port else pure s

/-! ## Allocation upcalls, strings, stack growth -/

/-- The function `upcall_malloc`; `addr` is the block the host allocator
returns. -/
def upcall_malloc (s : rust_rt) (proc : Ptr) (addr : Nat) : Res (rust_rt × Nat) := do
  let _ ← s.procs.deref proc
  pure (s.malloc, addr)

/-- The function `upcall_free`. -/
def upcall_free (s : rust_rt) (proc : Ptr) (ptr : Nat) : Res rust_rt := do
  let _ ← s.procs.deref proc
  I 1189 (ptr ≠ 0)
  s.free

/-- The function `next_power_of_two` on machine words. -/
def next_power_of_two (s : Nat) : Nat :=
  let tmp := wsub s 1
  let tmp := tmp ||| (tmp >>> 1)
  let tmp := tmp ||| (tmp >>> 2)
  let tmp := tmp ||| (tmp >>> 4)
  let tmp := tmp ||| (tmp >>> 8)
  let tmp := tmp ||| (tmp >>> 16)
  (tmp + 1) % WORD_MOD

/-- The function `upcall_new_str`; `addr` is the block the host allocator
returns for the string. -/
def upcall_new_str (s : rust_rt) (proc : Ptr) (sptr fill addr : Nat) : Res (rust_rt × Nat) := do
  let _ ← s.procs.deref proc
  let alloc := next_power_of_two fill
  let s1 := s.malloc
  let m := write_word s1.mem addr 1
  let m := write_word m (addr + 2 * WORD) fill
  let m := write_word m (addr + WORD) alloc
  let m := if sptr ≠ 0 then mem_write m (addr + 3 * WORD) (mem_read m sptr fill) else m
  pure ({ s1 with mem := m }, addr)

/-- The function `upcall_grow_proc`; `base` is where the host allocator places
a segment that has to be allocated. -/
def upcall_grow_proc (s : rust_rt) (proc : Ptr) (n_call_bytes n_frame_bytes base : Nat) :
    Res rust_rt := do
  let p ← s.procs.deref proc
  let cur ← s.stks.deref p.stk
  let (s1, nstk) ← (if cur.next ≠ 0 then do
      let nx ← s.stks.deref cur.next
      let sz := wsub nx.limit cur.data
      if sz < n_frame_bytes then do
        let (t, n) := new_stk s n_frame_bytes base
        let ns ← t.stks.deref n
        let t1 : rust_rt := { t with stks := t.stks.put n { ns with next := cur.next } }
        let nn ← t1.stks.deref cur.next
        pure ({ t1 with stks := t1.stks.put cur.next { nn with prev := n } }, n)
      else pure (s, cur.next)
    else pure (new_stk s n_frame_bytes base) : Res (rust_rt × Ptr))
  I 800 (nstk ≠ 0)
  let cur1 ← s1.stks.deref p.stk
  let s2 : rust_rt := { s1 with stks := s1.stks.put p.stk { cur1 with next := nstk } }
  let ns ← s2.stks.deref nstk
  let s3 : rust_rt := { s2 with stks := s2.stks.put nstk { ns with prev := p.stk } }
  let target := wsub ns.limit n_call_bytes
  let mem1 := mem_write s3.mem target (mem_read s3.mem p.rust_sp n_call_bytes)
  let p1 ← s3.procs.deref proc
  pure { s3 with mem := mem1, procs := s3.procs.put proc { p1 with stk := nstk, rust_sp := target } }

/-! ## Scheduler, upcall dispatch, main loop -/

/-- What the host decides while an upcall runs: the value `rand` yields, the
block its allocator returns, and a bound on the length of the stack and frame
chains walked. -/
structure Env where
  rand : Nat
  addr : Nat
  fuel : Nat

/-- The method `rust_rt::sched`; `0` is the null proc. -/
def rust_rt.sched (s : rust_rt) (r : Nat) : Res Ptr := do
  I 1224 (s.n_live_procs > 0)
  if s.running_procs.fill > 0 then peek s.running_procs.data (r % s.running_procs.fill)
  else pure 0

/-- The function `handle_upcall`. -/
def handle_upcall (s : rust_rt) (proc : Ptr) (env : Env) : Res rust_rt := do
  let p ← s.procs.deref proc
  match p.upcall_code with
  | 0 => pure s
  | 1 => pure s
  | 2 => do
    let (s1, np) ← upcall_new_proc s proc (p.arg 1) (p.arg 2) (p.arg 3) env.addr
    pure { s1 with mem := write_word s1.mem (p.arg 0) np }
  | 3 => upcall_del_proc env.fuel s (p.arg 0)
  | 4 => upcall_fail s proc (p.arg 2)
  | 5 => do
    let (s1, a) ← upcall_malloc s proc env.addr
    pure { s1 with mem := write_word s1.mem (p.arg 0) a }
  | 6 => upcall_free s proc (p.arg 0)
  | 7 => do
    let (s1, port) ← upcall_new_port s proc (p.arg 1)
    pure { s1 with mem := write_word s1.mem (p.arg 0) port }
  | 8 => upcall_del_port s proc (p.arg 0)
  | 9 => upcall_send s proc (p.arg 0) (p.arg 1)
  | 10 => upcall_recv s proc (p.arg 1) env.rand
  | 11 => do
    let (s1, st) ← upcall_new_str s proc (p.arg 1) (p.arg 2) env.addr
    pure { s1 with mem := write_word s1.mem (p.arg 0) st }
  | 12 => upcall_grow_proc s proc (p.arg 0) (p.arg 1) env.addr
  | 13 => pure s
  | 14 => pure s
  | _ => pure s

/-- The assignment `proc->state = proc_state_running` the main loop makes
before it activates the proc the scheduler picked. -/
def main_loop_activate (s : rust_rt) (proc : Ptr) : Res rust_rt := do
  let p ← s.procs.deref proc
  pure { s with procs := s.procs.put proc { p with state := .running } }

/-- The body of the main loop after the activation of `proc` has returned: the
stack pointer checks and the `switch` on the proc's state. -/
def main_loop_handle (s : rust_rt) (proc : Ptr) (env : Env) : Res rust_rt := do
  let p ← s.procs.deref proc
  let seg ← s.stks.deref p.stk
  I 1722 (p.rust_sp ≥ seg.data)
  I 1723 (p.rust_sp < seg.limit)
  match p.state with
  | .running => pure s
  | .failing => pure s
  | .calling_c => do
    let s1 ← handle_upcall s proc env
    let p1 ← s1.procs.deref proc
    if p1.state = .calling_c then
      pure { s1 with procs := s1.procs.put proc { p1 with state := .running } }
    else pure s1
  | .blocked_exited => do
    let s1 : rust_rt := { s with procs := s.procs.put proc { p with state := .running } }
    proc_state_transition s1 proc .running .blocked_exited
  | .blocked_reading => .err (.fatal 1749)
  | .blocked_writing => .err (.fatal 1749)

/-! ## Well-formedness and invariants -/

/-- Storage of a `ptr_vec` is consistent: `alloc` slots, at most `alloc` in use. -/
def ptr_vec.wf (v : ptr_vec) : Prop :=
  v.fill ≤ v.alloc ∧ v.data.length = v.alloc ∧ 0 < v.alloc

instance (v : ptr_vec) : Decidable v.wf := by
  unfold ptr_vec.wf; exact inferInstance

/-- Half the capacity of the vector is below `INIT_SIZE` (8): a call of `trim`
leaves such a vector as it is. -/
def ptr_vec.small (v : ptr_vec) : Prop := v.alloc / 2 < 8

instance (v : ptr_vec) : Decidable v.small := by
  unfold ptr_vec.small; exact inferInstance

/-- The vector has a free slot: a call of `push` does not grow it. -/
def ptr_vec.room (v : ptr_vec) : Prop := v.fill < v.alloc

instance (v : ptr_vec) : Decidable v.room := by
  unfold ptr_vec.room; exact inferInstance

/-- Element stored in slot `j` of a `ptr_vec`, for a slot in use. -/
def ptr_vec.slot (v : ptr_vec) (j : Nat) : Option Ptr :=
  if j < v.fill then v.data[j]? else none

/-- Every slot in use of the proc vector `sel` holds a live proc other than
`ex` whose `idx` is that slot and whose state belongs to that vector. -/
def vec_slots_ok (s : rust_rt) (ex : Ptr) (sel : vec_sel) : Prop :=
  ∀ j, j < (s.vec sel).fill → ∀ q, q ∈ (s.vec sel).slot j →
    q ≠ ex ∧ ∃ r, r ∈ s.procs.get q ∧ r.idx = j ∧ get_state_vec r.state = sel

/-- The state-vector invariant for all live procs but `ex`: each live proc
other than `ex` sits at position `idx` of the vector `get_state_vec` assigns to
its state, and the two vectors hold nothing else. -/
def procs_inv_ex (s : rust_rt) (ex : Ptr) : Prop :=
  s.running_procs.wf ∧ s.blocked_procs.wf ∧
  (∀ p, p < s.procs.length + 1 → p ≠ ex → ∀ r, r ∈ s.procs.get p →
      (s.vec (get_state_vec r.state)).slot r.idx = some p) ∧
  vec_slots_ok s ex .running_procs ∧ vec_slots_ok s ex .blocked_procs

instance (s : rust_rt) (ex : Ptr) : Decidable (procs_inv_ex s ex) := by
  unfold procs_inv_ex vec_slots_ok; exact inferInstance

/-- The state-vector invariant: every live proc is in exactly one of
`running_procs` and `blocked_procs`, namely the vector `get_state_vec` assigns
to its state, and that vector holds it at position `idx`. -/
def procs_inv (s : rust_rt) : Prop := procs_inv_ex s 0

instance (s : rust_rt) : Decidable (procs_inv s) := by
  unfold procs_inv; exact inferInstance

/-- Both proc vectors are at a capacity `trim` does not halve. -/
def procs_small (s : rust_rt) : Prop := s.running_procs.small ∧ s.blocked_procs.small

instance (s : rust_rt) : Decidable (procs_small s) := by
  unfold procs_small; exact inferInstance

/-- The counters of the two proc vectors after one proc has left the vector
`a` and one proc has entered the vector `b`: the capacities are unchanged. -/
def vec_moved (s t : rust_rt) (a b : Option vec_sel) : Prop :=
  ∀ sel, (t.vec sel).alloc = (s.vec sel).alloc ∧
    (t.vec sel).fill + (if a = some sel then 1 else 0) =
      (s.vec sel).fill + (if b = some sel then 1 else 0)

/-- A proc record with its vector index masked out. -/
def rust_proc.core (r : rust_proc) : rust_proc := { r with idx := 0 }

/-- Everything of the runtime outside the proc heap and the two proc vectors
is the same in `s` and `t`. -/
def same_rest (s t : rust_rt) : Prop :=
  t.live_allocs = s.live_allocs ∧ t.root_proc = s.root_proc ∧ t.ports = s.ports ∧
  t.port_heap = s.port_heap ∧ t.chan_heap = s.chan_heap ∧ t.stks = s.stks ∧ t.mem = s.mem

/-- The unread bytes of a `circ_buf` are whole units lying in one piece inside
the storage, from offset `next` on. -/
def circ_buf.wf (b : circ_buf) : Prop :=
  0 < b.unit_sz ∧ b.data.length = b.alloc ∧ b.unit_sz ∣ b.unread ∧ b.next + b.unread ≤ b.alloc

instance (b : circ_buf) : Decidable b.wf := by
  unfold circ_buf.wf; exact inferInstance

/-- The oldest unread unit of a `circ_buf`: the `unit_sz` bytes at offset `next`. -/
def circ_buf.oldest (b : circ_buf) : List Nat :=
  (b.data.drop b.next).take b.unit_sz

/-- An empty `circ_buf` whose storage has room for one unit at offset `next`. -/
def circ_buf.room (b : circ_buf) : Prop :=
  0 < b.unit_sz ∧ b.data.length = b.alloc ∧ b.next + b.unit_sz ≤ b.alloc ∧ b.unread = 0

instance (b : circ_buf) : Decidable b.room := by
  unfold circ_buf.room; exact inferInstance

/-- An empty `circ_buf` after the unit `unit` has been stored at offset `next`. -/
def circ_buf.pushed (b : circ_buf) (unit : List Nat) : circ_buf :=
  { b with data := b.data.take b.next ++ unit ++ b.data.drop (b.next + b.unit_sz),
           unread := b.unit_sz }

/-- Slots of a `ptr_vec` after `swapdel` of the element at slot `i`: the last
element in use takes slot `i`, the other slots keep their elements. -/
def swapdel_slots (v : ptr_vec) (i : Nat) (j : Nat) : Option Ptr :=
  if j < v.fill - 1 then (if j = i then v.slot (v.fill - 1) else v.slot j) else none

/-- Procs of `t` are those of `s` up to the vector index. -/
def same_cores (s t : rust_rt) : Prop :=
  t.procs.length = s.procs.length ∧
  ∀ q, (t.procs.get q).map rust_proc.core = (s.procs.get q).map rust_proc.core

/-- Effect of a state transition on the proc heap: the proc `p` has its state
set to `dst`; nothing else but vector indices changes. -/
def proc_moved (s t : rust_rt) (p : Ptr) (dst : proc_state_t) : Prop :=
  t.procs.length = s.procs.length ∧
  (∀ q, q ≠ p → (t.procs.get q).map rust_proc.core = (s.procs.get q).map rust_proc.core) ∧
  (t.procs.get p).map rust_proc.core =
    (s.procs.get p).map fun r => ({ r with state := dst } : rust_proc).core

/-- Effect of a completed transmission from channel `src` (record `c`) to proc
`dst` (record `d`), `b1` being the channel's buffer after the shift. -/
def transmitted (s t : rust_rt) (src dst : Ptr) (d : rust_proc) (c : rust_chan)
    (b1 : circ_buf) : Prop :=
  t.chan_heap = s.chan_heap.put src { c with buf := b1, blocked := 0 } ∧
  t.port_heap = s.port_heap ∧ t.live_allocs = s.live_allocs ∧ t.stks = s.stks ∧
  t.root_proc = s.root_proc ∧ t.ports = s.ports ∧
  t.mem = mem_write s.mem (d.arg 0) c.buf.oldest ∧
  t.procs.length = s.procs.length ∧
  (∀ q, q ≠ dst → q ≠ c.blocked →
    (t.procs.get q).map rust_proc.core = (s.procs.get q).map rust_proc.core) ∧
  (∃ d', t.procs.get dst = some d' ∧ d'.state = .running ∧ d'.chans = d.chans ∧
    d'.upcall_args = d.upcall_args) ∧
  (∀ b, s.procs.get c.blocked = some b → ∃ b', t.procs.get c.blocked = some b' ∧
    b'.state = .running ∧ b'.chans = b.chans ∧ b'.upcall_args = b.upcall_args)

/-- A channel with an empty buffer as `rust_chan::rust_chan` builds it for a
port of unit size `u`. -/
def fresh_chan (port : Ptr) (u : Nat) : rust_chan :=
  { port := port, queued := 0, idx := 0, blocked := 0,
    buf := { alloc := INIT_CIRC_BUF_UNITS * u, unit_sz := u, next := 0, unread := 0,
             data := List.replicate (INIT_CIRC_BUF_UNITS * u) 0 } }

/-- Outcome of the lookup-or-create step of a send by `src` (record `sp`) to
`port`: state `s1`, channel `chan` with record `c`, sender record `sp1`. -/
def chan_located (s s1 : rust_rt) (src port chan : Ptr) (sp : rust_proc) (c : rust_chan)
    (sp1 : rust_proc) : Prop :=
  (procs_inv s → procs_inv s1) ∧ s1.chan_heap.get chan = some c ∧ c.port = port ∧
  s1.procs.get src = some sp1 ∧ sp1.state = sp.state ∧ sp1.upcall_args = sp.upcall_args ∧
  hash_find s1 sp1.chans port = some chan ∧
  (∀ q, q ≠ src → s1.procs.get q = s.procs.get q) ∧
  s1.procs.length = s.procs.length ∧
  (∀ x, x ≠ chan → s1.chan_heap.get x = s.chan_heap.get x) ∧
  s1.port_heap = s.port_heap ∧ s1.mem = s.mem ∧ s1.stks = s.stks ∧
  s1.root_proc = s.root_proc ∧ s1.ports = s.ports ∧
  ((hash_find s sp.chans port = some chan ∧ s1 = s ∧ sp1 = sp) ∨
   (hash_find s sp.chans port = none ∧ chan = s.chan_heap.length + 1 ∧
    s1.chan_heap.length = s.chan_heap.length + 1 ∧
    sp1.chans = sp.chans ++ [chan] ∧ s1.live_allocs = s.live_allocs + 2 ∧
    ∃ pt, s.port_heap.get port = some pt ∧ pt.unit_sz ≠ 0 ∧ c = fresh_chan port pt.unit_sz))

/-- Writers of port `w`: every slot in use holds a live channel that targets
`w`, is flagged as queued and records that slot as its index. -/
def writers_slots_ok (s : rust_rt) (w : Ptr) (pt : rust_port) : Prop :=
  ∀ j, j < pt.writers.fill → ∀ c, c ∈ pt.writers.slot j →
    ∃ ch, ch ∈ s.chan_heap.get c ∧ ch.port = w ∧ ch.idx = j ∧ ch.queued ≠ 0

instance (s : rust_rt) (w : Ptr) (pt : rust_port) : Decidable (writers_slots_ok s w pt) := by
  unfold writers_slots_ok; exact inferInstance

/-- Every channel whose queued flag is set sits at position `idx` of the
writers vector of its target port. -/
def queued_in_writers (s : rust_rt) : Prop :=
  ∀ c, c < s.chan_heap.length + 1 → ∀ ch, ch ∈ s.chan_heap.get c → ch.queued ≠ 0 →
    ∃ pt, pt ∈ s.port_heap.get ch.port ∧ pt.writers.slot ch.idx = some c

instance (s : rust_rt) : Decidable (queued_in_writers s) := by
  unfold queued_in_writers; exact inferInstance

/-- The writers invariant: a channel is in the writers vector of its target
port if and only if its queued flag is set, and then it sits at position
`idx` there; a writers vector holds nothing else. -/
def writers_inv (s : rust_rt) : Prop :=
  (∀ w, w < s.port_heap.length + 1 → ∀ pt, pt ∈ s.port_heap.get w →
    pt.writers.wf ∧ writers_slots_ok s w pt) ∧
  queued_in_writers s

instance (s : rust_rt) : Decidable (writers_inv s) := by
  unfold writers_inv; exact inferInstance

/-- The writers vector of every port is at a capacity `trim` does not halve. -/
def writers_small (s : rust_rt) : Prop :=
  ∀ w, w < s.port_heap.length + 1 → ∀ pt, pt ∈ s.port_heap.get w → pt.writers.small

instance (s : rust_rt) : Decidable (writers_small s) := by
  unfold writers_small; exact inferInstance

/-- The channel table of one proc: its entries are live channels, no two of
them with the same target port. -/
def table_ok (s : rust_rt) (r : rust_proc) : Prop :=
  r.chans.Nodup ∧ (∀ c, c ∈ r.chans → (s.chan_heap.get c).isSome) ∧
  (∀ c1, c1 ∈ r.chans → ∀ c2, c2 ∈ r.chans → ∀ ch1, ch1 ∈ s.chan_heap.get c1 →
    ∀ ch2, ch2 ∈ s.chan_heap.get c2 → ch1.port = ch2.port → c1 = c2)

/-- The table invariant: every proc has at most one channel per target port. -/
def tables_inv (s : rust_rt) : Prop :=
  ∀ p, p < s.procs.length + 1 → ∀ r, r ∈ s.procs.get p → table_ok s r

instance (s : rust_rt) (r : rust_proc) : Decidable (table_ok s r) := by
  unfold table_ok; exact inferInstance

instance (s : rust_rt) : Decidable (tables_inv s) := by
  unfold tables_inv; exact inferInstance

/-- The proc heap and the two proc vectors are the same in `s` and `t`. -/
def same_procs (s t : rust_rt) : Prop :=
  t.procs = s.procs ∧ t.running_procs = s.running_procs ∧ t.blocked_procs = s.blocked_procs

/-- Every channel of `s` is still there in `t`, with the same target port. -/
def chan_frame (s t : rust_rt) : Prop :=
  ∀ c ch, s.chan_heap.get c = some ch → ∃ ch', t.chan_heap.get c = some ch' ∧ ch'.port = ch.port

/-- The channels of `t` are those of `s`, each with the same target port. -/
def same_ports (s t : rust_rt) : Prop :=
  ∀ x, (t.chan_heap.get x).map (fun c => c.port) = (s.chan_heap.get x).map (fun c => c.port)

/-- The procs of `t` are those of `s`, each with the same channel table. -/
def same_tables (s t : rust_rt) : Prop :=
  ∀ q, (t.procs.get q).map (fun r => r.chans) = (s.procs.get q).map (fun r => r.chans)

/-- Modelled from the spec: the guest side of an upcall, which is not among the
sources.  The running proc `p` records the upcall code and arguments in its
proc record and enters calling-host (spec 4.3, transition running to
calling-host); both states belong to the runnable vector. -/
def enter_upcall (s : rust_rt) (p : Ptr) (code : Nat) (args : List Nat) : Res rust_rt := do
  let r ← s.procs.deref p
  if r.state = .running then
    pure { s with
      procs := s.procs.put p { r with state := .calling_c, upcall_code := code, upcall_args := args } }
  else .err .bad_ptr

/-- The channels of `t` are channels of `s`, unchanged. -/
def chan_sub (s t : rust_rt) : Prop :=
  ∀ c ch, t.chan_heap.get c = some ch → s.chan_heap.get c = some ch

/-- The transition table of the proc state machine (spec 4.3): the eight pairs
of states the spec lists as the only valid transitions. -/
def valid_transition : proc_state_t → proc_state_t → Bool
  | .running, .calling_c => true
  | .calling_c, .running => true
  | .calling_c, .blocked_reading => true
  | .calling_c, .blocked_writing => true
  | .blocked_reading, .running => true
  | .blocked_writing, .running => true
  | .running, .failing => true
  | .running, .blocked_exited => true
  | _, _ => false

/-- The transitions an upcall makes: out of calling-host, and from a blocked
communication state to running. -/
def upcall_transition : proc_state_t → proc_state_t → Bool
  | .calling_c, .running => true
  | .calling_c, .blocked_reading => true
  | .calling_c, .blocked_writing => true
  | .blocked_reading, .running => true
  | .blocked_writing, .running => true
  | _, _ => false

/-- Every proc that is live in `s` and in `t` has the same state in both, or
its states are related by `R`. -/
def steps (R : proc_state_t → proc_state_t → Prop) (s t : rust_rt) : Prop :=
  ∀ q a b, s.procs.get q = some a → t.procs.get q = some b →
    a.state = b.state ∨ R a.state b.state

/-- No proc that is live in `s` and in `t` has another state in `t` than in
`s`. -/
def same_states (s t : rust_rt) : Prop :=
  ∀ q a b, s.procs.get q = some a → t.procs.get q = some b → a.state = b.state

/-- The effect of one assignment to `proc->state`: the proc `p` is in state `a`
in `s` and in state `b` in `t`, and no other proc has another state in `t` than
in `s`. -/
def one_write (s t : rust_rt) (p : Ptr) (a b : proc_state_t) : Prop :=
  (∃ r, s.procs.get p = some r ∧ r.state = a) ∧ (∃ r, t.procs.get p = some r ∧ r.state = b) ∧
  ∀ q, q ≠ p → ∀ x y, s.procs.get q = some x → t.procs.get q = some y → x.state = y.state

/-- The procs live in `t` are those live in `s`. -/
def same_live (s t : rust_rt) : Prop :=
  ∀ q, (t.procs.get q).isSome = (s.procs.get q).isSome

/-- The fields of a channel the writers invariant speaks of. -/
def rust_chan.qview (c : rust_chan) : Ptr × Nat × Nat := (c.port, c.idx, c.queued)

/-! ## Results as values -/

/-- Whether an operation returned. -/
def Res.isOk {α : Type} : Res α → Bool
  | .ok _ => true
  | .err _ => false

/-- The value an operation returned, `d` if it stopped. -/
def Res.getD {α : Type} (x : Res α) (d : α) : α :=
  match x with
  | .ok a => a
  | .err _ => d

/-! ## Traces of sends and receives -/

/-- Shape of a channel buffer between upcalls: storage of `alloc` bytes that
is either of initial capacity, read from offset 0, or of half that capacity,
read from a unit boundary; it holds no unit or one unit. -/
def circ_buf.shape (b : circ_buf) : Prop :=
  0 < b.unit_sz ∧ b.data.length = b.alloc ∧
  ((b.alloc = INIT_CIRC_BUF_UNITS * b.unit_sz ∧ b.next = 0) ∨
   (b.alloc = 4 * b.unit_sz ∧ b.next % b.unit_sz = 0 ∧ b.next < b.alloc)) ∧
  (b.unread = 0 ∨ b.unread = b.unit_sz)

instance (b : circ_buf) : Decidable b.shape := by
  unfold circ_buf.shape; exact inferInstance

/-- The units a channel holds, oldest first, for a buffer of the shape
`circ_buf.shape`. -/
def rust_chan.units (c : rust_chan) : List (List Nat) :=
  if c.buf.unread = 0 then [] else [c.buf.oldest]

/-- The units buffered in channel `chan`, oldest first. -/
def pending (s : rust_rt) (chan : Ptr) : List (List Nat) :=
  match s.chan_heap.get chan with
  | some c => c.units
  | none => []

/-- The fields of a channel the channel invariant speaks of. -/
def rust_chan.bview (c : rust_chan) : circ_buf × Ptr := (c.buf, c.blocked)

/-- The state of proc `p`, if it is live. -/
def state_of (s : rust_rt) (p : Ptr) : Option proc_state_t :=
  (s.procs.get p).map fun r => r.state

/-- Proc `p` is live and in blocked-writing. -/
def in_blocked_writing (s : rust_rt) (p : Ptr) : Prop :=
  state_of s p = some .blocked_writing

instance (s : rust_rt) (p : Ptr) : Decidable (in_blocked_writing s p) := by
  unfold in_blocked_writing state_of; exact inferInstance

/-- The channel invariant of the traces: every channel buffer has the shape
`circ_buf.shape`, a channel that holds a unit names a blocked sender that is in
blocked-writing, and no two channels that hold a unit name the same sender. -/
def chan_inv (s : rust_rt) : Prop :=
  (∀ x, x < s.chan_heap.length + 1 → ∀ c, c ∈ s.chan_heap.get x →
    c.buf.shape ∧ (c.buf.unread ≠ 0 → in_blocked_writing s c.blocked)) ∧
  (∀ x, x < s.chan_heap.length + 1 → ∀ y, y < s.chan_heap.length + 1 →
    ∀ c1, c1 ∈ s.chan_heap.get x → ∀ c2, c2 ∈ s.chan_heap.get y →
      c1.buf.unread ≠ 0 → c2.buf.unread ≠ 0 → c1.blocked = c2.blocked → x = y)

instance (s : rust_rt) : Decidable (chan_inv s) := by
  unfold chan_inv; exact inferInstance

/-- The main loop's statement `if (proc->state == proc_state_calling_c)
proc->state = proc_state_running` after an upcall has been handled. -/
def restore_running (s : rust_rt) (p : Ptr) : Res rust_rt := do
  let r ← s.procs.deref p
  if r.state = .calling_c then
    pure { s with procs := s.procs.put p { r with state := .running } }
  else pure s

/-- One step of a trace: a send upcall, a receive upcall (with the value `r`
of the random pick), a proc entering an upcall after guest code has run and
left memory as `mem`, or the main loop putting a proc back to running. -/
inductive Event where
  | send (src port : Ptr) (sptr : Nat)
  | recv (dst port : Ptr) (r : Nat)
  | guest (p : Ptr) (code : Nat) (args : List Nat) (mem : Nat → Nat)
  | resume (p : Ptr)

/-- Units observed on channels, in order: pairs of channel and unit. -/
abbrev Log := List (Ptr × List Nat)

/-- The units of channel `chan` in a log, in order. -/
def Log.of (l : Log) (chan : Ptr) : List (List Nat) :=
  (l.filter fun x => x.1 = chan).map fun x => x.2

/-- The channel of proc `src` for `port` in runtime `t`, with its record. -/
def send_chan (t : rust_rt) (src port : Ptr) : Option (Ptr × rust_chan) :=
  match t.procs.get src with
  | none => none
  | some sp =>
    match hash_find t sp.chans port with
    | none => none
    | some chan =>
      match t.chan_heap.get chan with
      | none => none
      | some c => some (chan, c)

/-- What a send from `s` to `t` puts on a channel: the unit at `sptr`, on the
sender's channel for the port, when the port is live and has an owner. -/
def sent_obs (s t : rust_rt) (src port : Ptr) (sptr : Nat) : Log :=
  match s.port_heap.get port with
  | none => []
  | some pt =>
    if pt.proc = 0 then []
    else
      match send_chan t src port with
      | none => []
      | some (chan, c) => [(chan, mem_read s.mem sptr c.buf.unit_sz)]

/-- What the owner of the port receives during a send from `s` to `t`: when the
owner waited in blocked-reading and the send has put it to running, the unit
at its destination address, received from the sender's channel. -/
def woken_obs (s t : rust_rt) (src port : Ptr) : Log :=
  match s.port_heap.get port with
  | none => []
  | some pt =>
    match s.procs.get pt.proc, t.procs.get pt.proc with
    | some o, some o' =>
      if o.state = .blocked_reading ∧ o'.state = .running then
        match send_chan t src port with
        | none => []
        | some (chan, c) => [(chan, mem_read t.mem (o.arg 0) c.buf.unit_sz)]
      else []
    | _, _ => []

/-- What a receive from `s` to `t` hands to the receiver: when the receive has
left the receiver in running, the unit at its destination address, received
from the channel the random pick selected among the writers. -/
def recv_obs (s t : rust_rt) (dst port : Ptr) (r : Nat) : Log :=
  match s.port_heap.get port, s.procs.get dst, t.procs.get dst with
  | some pt, some d, some d' =>
    if 0 < pt.writers.fill ∧ d'.state = .running then
      match pt.writers.data[r % pt.writers.fill]? with
      | none => []
      | some schan =>
        match s.chan_heap.get schan with
        | none => []
        | some c => [(schan, mem_read t.mem (d.arg 0) c.buf.unit_sz)]
    else []
  | _, _, _ => []

/-- One step of a trace, with the units it sends and the units it delivers. -/
def step (s : rust_rt) : Event → Res (rust_rt × Log × Log)
  | .send src port sptr => do
    let t ← upcall_send s src port sptr
    pure (t, sent_obs s t src port sptr, woken_obs s t src port)
  | .recv dst port r => do
    let t ← upcall_recv s dst port r
    pure (t, [], recv_obs s t dst port r)
  | .guest p code args mem => do
    let t ← enter_upcall s p code args
    pure ({ t with mem := mem }, [], [])
  | .resume p => do
    let t ← restore_running s p
    pure (t, [], [])

/-- A trace: the final runtime, the log of units sent and the log of units
delivered. -/
def run : rust_rt → List Event → Res (rust_rt × Log × Log)
  | s, [] => pure (s, [], [])
  | s, e :: es => do
    let (t, a, b) ← step s e
    let (u, xs, ys) ← run t es
    pure (u, a ++ xs, b ++ ys)

/-- The reason an operation stopped, if it did. -/
def Res.stop {α : Type} : Res α → Option Err
  | .ok _ => none
  | .err e => some e

/-! ## Example runtimes

Two procs and one port: proc 1 owns port 1 (unit size 4), proc 2 sends to it.
The bytes `44 33 22 11` (the word `0x11223344`) lie at address 200; address 300
is the receive destination of proc 1. -/

/-- A proc record in state `st` at vector position `idx`, with stack segment
`stk`, channel table `chans` and upcall arguments `args`. -/
def demo_proc (stk : Ptr) (st : proc_state_t) (idx : Nat) (chans : List Ptr) (args : List Nat) :
    rust_proc :=
  { stk := stk, fn := 0, runtime_sp := 0, rust_sp := 0x1100, state := st, idx := idx,
    refcnt := 0, chans := chans, gc_alloc_chain := 0, upcall_code := 0, upcall_args := args }

/-- Flat memory holding the word `0x11223344` at address 200, zero elsewhere. -/
def demo_mem : Nat → Nat :=
  fun a => if a = 200 then 0x44 else if a = 201 then 0x33 else if a = 202 then 0x22
    else if a = 203 then 0x11 else 0

/-- A `ptr_vec` of initial capacity holding the pointers of `l`. -/
def demo_vec (l : List Ptr) : ptr_vec :=
  ⟨8, l.length, l ++ List.replicate (8 - l.length) 0⟩

/-- Port 1: owned by proc 1, unit size 4, with the given writers. -/
def demo_port (writers : List Ptr) : rust_port :=
  { live_refcnt := 1, weak_refcnt := 0, proc := 1, next := 0, prev := 0, unit_sz := 4,
    writers := demo_vec writers }

/-- A channel to port 1 with a buffer of initial capacity (8 units of 4 bytes)
whose unread bytes are the first `unread` bytes of `bytes`. -/
def demo_chan (queued idx : Nat) (blocked : Ptr) (unread : Nat) (bytes : List Nat) : rust_chan :=
  { port := 1, queued := queued, idx := idx, blocked := blocked,
    buf := { alloc := 32, unit_sz := 4, next := 0, unread := unread,
             data := bytes ++ List.replicate (32 - bytes.length) 0 } }

/-- A runtime with the given runnable and blocked vectors, procs, writers of
port 1 and channels; every proc has a stack segment of its own. -/
def demo_rt (run blk : List Ptr) (procs : List rust_proc) (writers : List Ptr)
    (chans : List rust_chan) : rust_rt :=
  { live_allocs := 16, running_procs := demo_vec run, blocked_procs := demo_vec blk,
    root_proc := 1, ports := 1, procs := procs.map some,
    port_heap := [some (demo_port writers)], chan_heap := chans.map some,
    stks := [some ⟨0, 0, 0, 0, 0, 0x1300, 0x1000⟩, some ⟨0, 0, 0, 0, 0, 0x2300, 0x2000⟩],
    mem := demo_mem }

/-- Proc 1 waits in blocked-reading on port 1 (destination address 300);
proc 2 is in calling-host and has no channel yet. -/
def demo_ready : rust_rt :=
  demo_rt [2] [1]
    [demo_proc 1 .blocked_reading 0 [] [300, 1], demo_proc 2 .calling_c 0 [] [1, 200]] [] []

/-- Proc 1 is running, proc 2 is in calling-host and has no channel yet. -/
def demo_busy : rust_rt :=
  demo_rt [1, 2] []
    [demo_proc 1 .running 0 [] [0, 0], demo_proc 2 .calling_c 1 [] [1, 200]] [] []

/-- Proc 2 has sent the word `0x11223344` and waits in blocked-writing, its
channel 1 queued at port 1; proc 1 is in calling-host, about to receive at
address 300. -/
def demo_queued : rust_rt :=
  demo_rt [1] [2]
    [demo_proc 1 .calling_c 0 [] [300, 1], demo_proc 2 .blocked_writing 0 [1] [1, 200]] [1]
    [demo_chan 1 0 2 4 [0x44, 0x33, 0x22, 0x11]]

/-- Proc 1 is in calling-host, about to receive on port 1, which has no
writers; proc 2 is running. -/
def demo_idle : rust_rt :=
  demo_rt [1, 2] []
    [demo_proc 1 .calling_c 0 [] [300, 1], demo_proc 2 .running 1 [] [0, 0]] [] []

/-- Proc 1 has returned from its activation in state blocked-exited, still
held in the runnable vector; proc 2 is running. -/
def demo_exited : rust_rt :=
  demo_rt [1, 2] []
    [demo_proc 1 .blocked_exited 0 [] [0, 0], demo_proc 2 .running 1 [] [0, 0]] [] []

/-- Proc 1 has returned from its activation in state failing and is still held
in the runnable vector; proc 2 is running. -/
def demo_failed : rust_rt :=
  demo_rt [1, 2] []
    [demo_proc 1 .failing 0 [] [0, 0], demo_proc 2 .running 1 [] [0, 0]] [] []

/-- Proc 1 waits in blocked-reading; channel 1 of proc 2 is empty and has no
blocked sender; proc 2 is running. -/
def demo_drained : rust_rt :=
  demo_rt [2] [1]
    [demo_proc 1 .blocked_reading 0 [] [300, 1], demo_proc 2 .running 0 [1] [1, 200]] []
    [demo_chan 0 0 0 0 []]

/-- As `demo_drained`, but channel 1 still names proc 2, which is running, as
its blocked sender. -/
def demo_stale : rust_rt :=
  demo_rt [2] [1]
    [demo_proc 1 .blocked_reading 0 [] [300, 1], demo_proc 2 .running 0 [1] [1, 200]] []
    [demo_chan 0 0 2 0 []]

/-- Eight procs are runnable, which fills the runnable vector: proc 2 is in
calling-host, about to send to port 1, and procs 3 to 9 are running; proc 1
waits in blocked-reading on port 1 (destination address 300). -/
def demo_run_full : rust_rt :=
  demo_rt [2, 3, 4, 5, 6, 7, 8, 9] [1]
    [demo_proc 1 .blocked_reading 0 [] [300, 1], demo_proc 2 .calling_c 0 [] [1, 200],
     demo_proc 2 .running 1 [] [0, 0], demo_proc 2 .running 2 [] [0, 0],
     demo_proc 2 .running 3 [] [0, 0], demo_proc 2 .running 4 [] [0, 0],
     demo_proc 2 .running 5 [] [0, 0], demo_proc 2 .running 6 [] [0, 0],
     demo_proc 2 .running 7 [] [0, 0]] [] []

/-- Eight procs have exited and wait in blocked-exited, which fills the blocked
vector; proc 1, the owner of port 1, is runnable in state `st`. -/
def demo_blocked_full (st : proc_state_t) : rust_rt :=
  demo_rt [1] [2, 3, 4, 5, 6, 7, 8, 9]
    [demo_proc 1 st 0 [] [300, 1], demo_proc 2 .blocked_exited 0 [] [0, 0],
     demo_proc 2 .blocked_exited 1 [] [0, 0], demo_proc 2 .blocked_exited 2 [] [0, 0],
     demo_proc 2 .blocked_exited 3 [] [0, 0], demo_proc 2 .blocked_exited 4 [] [0, 0],
     demo_proc 2 .blocked_exited 5 [] [0, 0], demo_proc 2 .blocked_exited 6 [] [0, 0],
     demo_proc 2 .blocked_exited 7 [] [0, 0]] [] []

/-- Eight procs, 3 to 10, have each sent one word to port 1 and wait in
blocked-writing, their channels 1 to 8 queued at the port: the blocked vector
and the writers vector of port 1 are full.  Proc 1, the owner, is running;
proc 2 is in calling-host, about to send to port 1 as the ninth sender. -/
def demo_nine_senders : rust_rt :=
  demo_rt [1, 2] [3, 4, 5, 6, 7, 8, 9, 10]
    [demo_proc 1 .running 0 [] [0, 0], demo_proc 2 .calling_c 1 [] [1, 200],
     demo_proc 2 .blocked_writing 0 [1] [1, 200], demo_proc 2 .blocked_writing 1 [2] [1, 200],
     demo_proc 2 .blocked_writing 2 [3] [1, 200], demo_proc 2 .blocked_writing 3 [4] [1, 200],
     demo_proc 2 .blocked_writing 4 [5] [1, 200], demo_proc 2 .blocked_writing 5 [6] [1, 200],
     demo_proc 2 .blocked_writing 6 [7] [1, 200], demo_proc 2 .blocked_writing 7 [8] [1, 200]]
    [1, 2, 3, 4, 5, 6, 7, 8]
    [demo_chan 1 0 3 4 [0x44, 0x33, 0x22, 0x11], demo_chan 1 1 4 4 [0x44, 0x33, 0x22, 0x11],
     demo_chan 1 2 5 4 [0x44, 0x33, 0x22, 0x11], demo_chan 1 3 6 4 [0x44, 0x33, 0x22, 0x11],
     demo_chan 1 4 7 4 [0x44, 0x33, 0x22, 0x11], demo_chan 1 5 8 4 [0x44, 0x33, 0x22, 0x11],
     demo_chan 1 6 9 4 [0x44, 0x33, 0x22, 0x11], demo_chan 1 7 10 4 [0x44, 0x33, 0x22, 0x11]]

/-- The runtime after proc 2 has sent the word at address 200 to port 1 from
`demo_ready`. -/
def demo_sent : rust_rt := (upcall_send demo_ready 2 1 200).getD demo_ready

/-- Proc 2 enters the send upcall a second time, from `demo_sent`. -/
def demo_again : rust_rt := (enter_upcall demo_sent 2 9 [1, 200]).getD demo_sent

/-! ## An example trace -/

/-- An example trace from `demo_busy`: proc 2 sends the word at address 200
while proc 1 is running, proc 1 receives it at address 300; proc 2 sends the
word at address 201, proc 1 receives it at address 304; proc 1 receives again
and waits, and proc 2 sends the word at address 202, which is delivered at
address 308 during the send. -/
def demo_trace : List Event :=
  [.send 2 1 200, .guest 1 10 [300, 1] demo_mem, .recv 1 1 7,
   .guest 2 9 [1, 201] demo_mem, .send 2 1 201, .guest 1 10 [304, 1] demo_mem, .recv 1 1 3,
   .guest 1 10 [308, 1] demo_mem, .recv 1 1 0, .guest 2 9 [1, 202] demo_mem, .send 2 1 202,
   .resume 2]

/-- The outcome of the example trace. -/
def demo_final : rust_rt × Log × Log := (run demo_busy demo_trace).getD (demo_busy, [], [])

/-! ## Sequences of pushes and shifts -/

/-- Successive calls of `circ_buf::push`, one for each source address of the
list, in order. -/
def circ_buf.push_all (s : rust_rt) (b : circ_buf) : List Nat → Res (rust_rt × circ_buf)
  | [] => pure (s, b)
  | a :: l => do
    let (s1, b1) ← b.push s a
    circ_buf.push_all s1 b1 l

/-- Successive calls of `circ_buf::shift` to the destination address `dst`,
`n` of them; the result lists the units found at `dst` after each call. -/
def circ_buf.shift_all (s : rust_rt) (b : circ_buf) (dst : Nat) :
    Nat → Res (rust_rt × circ_buf × List (List Nat))
  | 0 => pure (s, b, [])
  | n + 1 => do
    let (s1, b1) ← b.shift s dst
    let (s2, b2, us) ← circ_buf.shift_all s1 b1 dst n
    pure (s2, b2, mem_read s1.mem dst b.unit_sz :: us)

/-- A freshly constructed `circ_buf` of unit size `u`, pushes from the source
addresses `srcs`, then `n` shifts to address `dst`: the buffer at the end and
the units the shifts returned. -/
def push_then_shift (s : rust_rt) (u : Nat) (srcs : List Nat) (dst n : Nat) :
    Res (circ_buf × List (List Nat)) := do
  let (s1, b) ← circ_buf.new s u
  let (s2, b1) ← circ_buf.push_all s1 b srcs
  let (_, b2, us) ← circ_buf.shift_all s2 b1 dst n
  pure (b2, us)

/-- The runtime `demo_busy` with a memory that holds the byte `a % 256` at
every address `a`. -/
def demo_bytes : rust_rt := { demo_busy with mem := fun a => a % 256 }

/-- A full `circ_buf` whose read offset is not 0: a freshly constructed buffer
of unit size 1 after eight pushes (the bytes 1 to 8), one shift and one more
push (the byte 9). -/
def demo_full : Res (rust_rt × circ_buf) := do
  let (s1, b) ← circ_buf.new demo_bytes 1
  let (s2, b1) ← circ_buf.push_all s1 b [1, 2, 3, 4, 5, 6, 7, 8]
  let (s3, b2) ← b1.shift s2 300
  b2.push s3 9

/-! ## The index invariant of a `ptr_vec` -/

/-- Every stored element of the vector is live and has its position in the
vector as its `idx` field. -/
def ptr_vec.idx_ok {α : Type} [HasIdx α] (v : ptr_vec) (H : Store α) : Prop :=
  ∀ j, j < v.fill → ∀ q, q ∈ v.slot j → ∃ x, x ∈ H.get q ∧ HasIdx.idx x = j

instance {α : Type} [HasIdx α] (v : ptr_vec) (H : Store α) : Decidable (v.idx_ok H) := by
  unfold ptr_vec.idx_ok; exact inferInstance

/-- The pointer `p` is stored in the vector. -/
def ptr_vec.stores (v : ptr_vec) (p : Ptr) : Prop := ∃ j, j < v.fill ∧ v.slot j = some p

instance (v : ptr_vec) (p : Ptr) : Decidable (v.stores p) := by
  unfold ptr_vec.stores; exact inferInstance

/-- Four empty channels to port 1; the first three have their heap position
less one as `idx`, as elements 0, 1, 2 of a vector. -/
def demo_chans : Store rust_chan :=
  [some (demo_chan 1 0 0 0 []), some (demo_chan 1 1 0 0 []), some (demo_chan 1 2 0 0 []),
   some (demo_chan 0 0 0 0 [])]

/-- Nine empty channels, each with its heap position less one as `idx`: the
first eight are the elements 0 to 7 of a full vector. -/
def demo_row : Store rust_chan :=
  (List.range 9).map fun i => some (demo_chan 0 i 0 0 [])

/-! ## Example runtimes for the scheduler -/

/-- A runtime without procs: both proc vectors are empty. -/
def demo_none : rust_rt := demo_rt [] [] [] [] []

/-- An ill-formed runtime in which proc 1 is held in both proc vectors. -/
def demo_twice : rust_rt := demo_rt [1] [1] [demo_proc 1 .running 0 [] []] [] []

/-- Proc 1 waits in blocked-reading and there is no other proc: the runnable
vector is empty, the blocked vector is not. -/
def demo_blocked : rust_rt :=
  demo_rt [] [1] [demo_proc 1 .blocked_reading 0 [] [300, 1]] [] []

/-! ## Allocation accounting, call by call -/

/-- The call `rust_rt::calloc`: `rust_rt::malloc`, then `memset`. -/
def rust_rt.calloc (s : rust_rt) : rust_rt := s.malloc

/-- The call `rust_rt::realloc` of the block `p` (`0` is the null pointer); the
host allocator is taken to succeed. -/
def rust_rt.realloc (s : rust_rt) (p : Nat) : rust_rt :=
  if p = 0 then { s with live_allocs := s.live_allocs + 1 } else s

/-- The call `rust_rt::free` of the block `p`, with its assertion that `p` is
not null. -/
def rust_rt.free_blk (s : rust_rt) (p : Nat) : Res rust_rt := do
  I 1189 (p ≠ 0)
  s.free

/-- The allocator calls of `ptr_vec<T>::push` on a vector whose storage is the
block `data`. -/
def ptr_vec.push_allocs (s : rust_rt) (v : ptr_vec) (data : Nat) : Res rust_rt := do
  I 457 (data ≠ 0)
  let s1 := if v.fill = v.alloc then s.realloc data else s
  I 462 (v.fill < (if v.fill = v.alloc then v.alloc * 2 else v.alloc))
  pure s1

/-- The allocator calls of `ptr_vec<T>::trim` on a vector whose storage is the
block `data`. -/
def ptr_vec.trim_allocs (s : rust_rt) (v : ptr_vec) (data sz : Nat) : Res rust_rt := do
  I 478 (data ≠ 0)
  if sz ≤ v.alloc / 4 ∧ v.alloc / 2 ≥ 8 then do
    I 482 (v.alloc / 2 ≥ v.fill)
    pure (s.realloc data)
  else pure s

/-- A call of the runtime's allocator. -/
inductive AllocOp where
  | malloc
  | calloc
  | realloc (p : Nat)
  | free (p : Nat)
deriving DecidableEq, Repr

/-- The runtime after one allocator call. -/
def AllocOp.apply (s : rust_rt) : AllocOp → Res rust_rt
  | .malloc => pure s.malloc
  | .calloc => pure s.calloc
  | .realloc p => pure (s.realloc p)
  | .free p => s.free_blk p

/-- The runtime after a sequence of allocator calls. -/
def alloc_run : rust_rt → List AllocOp → Res rust_rt
  | s, [] => pure s
  | s, op :: ops => do
    let s1 ← op.apply s
    alloc_run s1 ops

/-- Whether an allocator call makes an allocation: `malloc`, `calloc`, and
`realloc` of the null pointer. -/
def AllocOp.allocates : AllocOp → Bool
  | .malloc => true
  | .calloc => true
  | .realloc p => p = 0
  | .free _ => false

/-- Whether an allocator call is a free. -/
def AllocOp.frees : AllocOp → Bool
  | .free _ => true
  | _ => false

/-- The number of allocations made by a sequence of allocator calls. -/
def allocs_made (ops : List AllocOp) : Nat := ops.countP AllocOp.allocates

/-- The number of frees performed by a sequence of allocator calls. -/
def frees_made (ops : List AllocOp) : Nat := ops.countP AllocOp.frees

/-- A runtime with one proc, proc 1 in calling-host, whose stack is a chain of
two segments: segment 1 (data at `0x1000`, limit `0x1300`), the current segment
of the proc, has segment 2 (data at `0x2000`, limit `0x2300`, so `0x300` usable
bytes) as its next segment. -/
def demo_chain : rust_rt :=
  { demo_rt [1] [] [demo_proc 1 .calling_c 0 [] [16, 0x1000]] [] [] with
    stks := [some ⟨0, 2, 0, 0, 0, 0x1300, 0x1000⟩, some ⟨1, 0, 0, 0, 0, 0x2300, 0x2000⟩] }

/-! ## The main loop and the teardown of the runtime -/

/-- The constructor `rust_rt::rust_rt` for a counter `live_allocs` that starts
at 0, with memory `mem`: the two proc vectors allocate their storage. -/
def rust_rt.create (mem : Nat → Nat) : rust_rt :=
  (({ live_allocs := 0, running_procs := ptr_vec.init, blocked_procs := ptr_vec.init,
      root_proc := 0, ports := 0, procs := [], port_heap := [], chan_heap := [], stks := [],
      mem := mem } : rust_rt).malloc).malloc

/-- The function `del_all_procs` on the proc vector `sel`: while the vector is
not empty, its last element is popped and deleted; `n` bounds the number of
rounds. -/
def del_all_procs (fuel : Nat) (sel : vec_sel) : Nat → rust_rt → Res rust_rt
  | 0, s => if (s.vec sel).fill = 0 then pure s else .err .diverge
  | n + 1, s =>
    if (s.vec sel).fill = 0 then pure s
    else do
      let v := s.vec sel
      let proc ← peek v.data (v.fill - 1)
      let s1 := s.set_vec sel { v with fill := v.fill - 1 }
      let s2 ← rust_proc.delete fuel s1 proc
      del_all_procs fuel sel n s2

/-- The loop `while (ports) delete ports` of the destructor `rust_rt::~rust_rt`;
`n` bounds the number of rounds. -/
def del_all_ports : Nat → rust_rt → Res rust_rt
  | 0, s => if s.ports = 0 then pure s else .err .diverge
  | n + 1, s =>
    if s.ports = 0 then pure s
    else do
      let s1 ← rust_port.delete s s.ports
      del_all_ports n s1

/-- The destructor `ptr_vec<T>::~ptr_vec` of the proc vector `sel`. -/
def ptr_vec_delete (s : rust_rt) (sel : vec_sel) : Res rust_rt := do
  I 449 ((s.vec sel).fill = 0)
  s.free

/-- The destructor `rust_rt::~rust_rt`, followed by the destructors of the
members `blocked_procs` and `running_procs`, in the reverse order of their
declaration. -/
def rust_rt.destroy (fuel : Nat) (s : rust_rt) : Res rust_rt := do
  let s1 ← del_all_procs fuel .running_procs s.running_procs.fill s
  let s2 ← del_all_procs fuel .blocked_procs s1.blocked_procs.fill s1
  let s3 ← del_all_ports fuel s2
  let s4 ← ptr_vec_delete s3 .blocked_procs
  ptr_vec_delete s4 .running_procs

/-- The end of `rust_main_loop`, once the scheduler has returned no proc: the
runtime is torn down, then `live_allocs` is checked. -/
def main_loop_end (fuel : Nat) (s : rust_rt) : Res rust_rt := do
  let t ← s.destroy fuel
  if t.live_allocs ≠ 0 then .err (.fatal 1759) else pure t

/-- What guest code leaves in its proc record when an activation returns: the
state, and the code and arguments of an upcall. -/
structure Activation where
  state : proc_state_t
  code : Nat
  args : List Nat
deriving DecidableEq, Repr

/-- The loop `while (proc)` of `rust_main_loop`, from the proc the scheduler
picked; the list gives the outcome of each activation, in order. -/
def main_loop (env : Env) : List Activation → rust_rt → Ptr → Res rust_rt
  | [], s, proc => if proc = 0 then pure s else .err .diverge
  | a :: acts, s, proc =>
    if proc = 0 then pure s
    else do
      let s1 ← main_loop_activate s proc
      let p ← s1.procs.deref proc
      let s2 : rust_rt := { s1 with
        procs := s1.procs.put proc
          { p with state := a.state, upcall_code := a.code, upcall_args := a.args } }
      let s3 ← main_loop_handle s2 proc env
      let next ← s3.sched env.rand
      main_loop env acts s3 next

/-- The function `rust_main_loop`: the runtime and the root proc are made, the
loop runs, the runtime is torn down and `live_allocs` is checked; `base` is
where the host allocator places the stack of the root proc. -/
def rust_main_loop (env : Env) (mem : Nat → Nat) (main_fn main_exit_proc_glue base : Nat)
    (acts : List Activation) : Res rust_rt := do
  let s := rust_rt.create mem
  let (s1, root) ← rust_proc.new s 0 main_exit_proc_glue main_fn 0 base
  let s2 ← add_proc_state_vec { s1 with root_proc := root } root
  let proc ← s2.sched env.rand
  let s3 ← main_loop env acts s2 proc
  main_loop_end env.fuel s3

/-! ## The log mask -/

/-- The constant `LOG_ALL`. -/
def LOG_ALL : Nat := 0xffffffff

/-- The constant `LOG_ERR`. -/
def LOG_ERR : Nat := 0x1

/-- The constant `LOG_MEM`. -/
def LOG_MEM : Nat := 0x2

/-- The constant `LOG_COMM`. -/
def LOG_COMM : Nat := 0x4

/-- The constant `LOG_PROC`. -/
def LOG_PROC : Nat := 0x8

/-- The constant `LOG_UPCALL`. -/
def LOG_UPCALL : Nat := 0x10

/-- The constant `LOG_RT`. -/
def LOG_RT : Nat := 0x20

/-- The constant `LOG_ULOG`. -/
def LOG_ULOG : Nat := 0x40

/-- The constant `LOG_TRACE`. -/
def LOG_TRACE : Nat := 0x80

/-- The test `strstr(c, key) != NULL` of the C library: `key` occurs in `c` as a
block of consecutive characters. -/
def strstr : List Char → List Char → Bool
  | [], key => key.isEmpty
  | c :: cs, key => key.isPrefixOf (c :: cs) || strstr cs key

/-- The function `get_logbits`; `env` is what `getenv("RUST_LOG")` returns,
`none` for the null pointer. -/
def get_logbits (env : Option (List Char)) : Nat :=
  match env with
  | none => LOG_ULOG ||| LOG_ERR
  | some c =>
    let bits := 0
    let bits := if strstr c "err".toList then bits ||| LOG_ERR else bits
    let bits := if strstr c "mem".toList then bits ||| LOG_MEM else bits
    let bits := if strstr c "comm".toList then bits ||| LOG_COMM else bits
    let bits := if strstr c "proc".toList then bits ||| LOG_PROC else bits
    let bits := if strstr c "up".toList then bits ||| LOG_UPCALL else bits
    let bits := if strstr c "rt".toList then bits ||| LOG_RT else bits
    let bits := if strstr c "ulog".toList then bits ||| LOG_ULOG else bits
    let bits := if strstr c "trace".toList then bits ||| LOG_TRACE else bits
    if strstr c "all".toList then 0xffffffff else bits

/-- The mask `get_logbits` builds from the outcomes of its nine `strstr` tests,
in the order of the source: `err`, `mem`, `comm`, `proc`, `up`, `rt`, `ulog`,
`trace`, `all`. -/
def flags_mask (e m c p u r g t a : Bool) : Nat :=
  let bits := 0
  let bits := if e then bits ||| LOG_ERR else bits
  let bits := if m then bits ||| LOG_MEM else bits
  let bits := if c then bits ||| LOG_COMM else bits
  let bits := if p then bits ||| LOG_PROC else bits
  let bits := if u then bits ||| LOG_UPCALL else bits
  let bits := if r then bits ||| LOG_RT else bits
  let bits := if g then bits ||| LOG_ULOG else bits
  let bits := if t then bits ||| LOG_TRACE else bits
  if a then 0xffffffff else bits

/-- The keywords the specification names for the variable `RUST_LOG`. -/
inductive Keyword where
  | errors
  | memory
  | communication
  | proc
  | upcall
  | runtime
  | user_log
  | trace
  | all
  deriving DecidableEq, Repr

/-- The spelling of a keyword. -/
def Keyword.text : Keyword → List Char
  | .errors => "errors".toList
  | .memory => "memory".toList
  | .communication => "communication".toList
  | .proc => "proc".toList
  | .upcall => "upcall".toList
  | .runtime => "runtime".toList
  | .user_log => "user-log".toList
  | .trace => "trace".toList
  | .all => "all".toList

/-- The bits the specification gives to a keyword: the bit of the category it
names, every bit for `all`. -/
def Keyword.bit : Keyword → Nat
  | .errors => LOG_ERR
  | .memory => LOG_MEM
  | .communication => LOG_COMM
  | .proc => LOG_PROC
  | .upcall => LOG_UPCALL
  | .runtime => LOG_RT
  | .user_log => LOG_ULOG
  | .trace => LOG_TRACE
  | .all => LOG_ALL

/-- The value of `RUST_LOG` that lists the keywords `ks`, separated by
commas. -/
def keyword_list : List Keyword → List Char
  | [] => []
  | [k] => k.text
  | k :: k1 :: ks => k.text ++ ',' :: keyword_list (k1 :: ks)

/-- The mask the specification describes for a list of keywords: the union of
the bits of the keywords named. -/
def spec_logbits (ks : List Keyword) : Nat :=
  ks.foldr (fun k acc => k.bit ||| acc) 0

/-- The union of the masks `get_logbits` returns for the keywords of a list
when each is the whole value of `RUST_LOG`. -/
def union_of_single (ks : List Keyword) : Nat :=
  ks.foldr (fun k acc => get_logbits (some k.text) ||| acc) 0

/-! ## Powers of two -/

/-- The function `next_power_of_two` as compiled for a target whose `size_t`
has 64 bits (`SIZE_MAX == UINT64_MAX`), with the additional shift by 32; the
arithmetic is modulo `2 ^ 64 = 18446744073709551616`. -/
def next_power_of_two_64 (s : Nat) : Nat :=
  let tmp := (s + 18446744073709551616 - 1) % 18446744073709551616
  let tmp := tmp ||| (tmp >>> 1)
  let tmp := tmp ||| (tmp >>> 2)
  let tmp := tmp ||| (tmp >>> 4)
  let tmp := tmp ||| (tmp >>> 8)
  let tmp := tmp ||| (tmp >>> 16)
  let tmp := tmp ||| (tmp >>> 32)
  (tmp + 1) % 18446744073709551616

/-! ## The list of ports -/

/-- The ports `l`, in order, are what the `next` fields reach from `cur`, the
last of them having no successor; each names its predecessor in `prev`, the
first one naming `prev`. -/
def port_chain (H : Store rust_port) : List Ptr → Ptr → Ptr → Prop
  | [], _, cur => cur = 0
  | p :: ps, prev, cur =>
    cur = p ∧
      match H.get p with
      | some r => r.prev = prev ∧ port_chain H ps p r.next
      | none => False

instance (H : Store rust_port) : ∀ l prev cur, Decidable (port_chain H l prev cur)
  | [], _, cur => by
    unfold port_chain
    infer_instance
  | p :: ps, prev, cur => by
    unfold port_chain
    cases h : H.get p with
    | none =>
      simp only
      infer_instance
    | some r =>
      simp only
      have := instDecidablePort_chain H ps p r.next
      infer_instance

/-- The runtime port list holds exactly the ports `l`, in order from the head
`rt->ports`, each once, with `prev` and `next` agreeing. -/
def ports_are (s : rust_rt) (l : List Ptr) : Prop :=
  port_chain s.port_heap l 0 s.ports ∧ l.Nodup

instance (s : rust_rt) (l : List Ptr) : Decidable (ports_are s l) := by
  unfold ports_are
  infer_instance

/-- A port record without its links `prev` and `next`. -/
def rust_port.unlinked (r : rust_port) : rust_port := { r with prev := 0, next := 0 }

/-- A port of proc 1 with unit size 4, no reference and no writers, linked
between `prev` and `next`. -/
def demo_link (prev next : Ptr) : rust_port :=
  { live_refcnt := 0, weak_refcnt := 0, proc := 1, next := next, prev := prev, unit_sz := 4,
    writers := demo_vec [] }

/-- The runtime `demo_busy` with three ports of proc 1: port 3 is the head of
the port list, port 2 follows, port 1 is the tail. -/
def demo_ports : rust_rt :=
  { demo_busy with
    ports := 3
    port_heap := [some (demo_link 2 0), some (demo_link 3 1), some (demo_link 0 2)] }

/-- Procs 2 and 3 wait in blocked-writing, each with one unit of 4 bytes in its
channel (channels 1 and 2), both queued at port 1, which proc 1 owns and to
which no reference is left. -/
def demo_two_queued : rust_rt :=
  { demo_rt [1] [2, 3]
      [demo_proc 1 .calling_c 0 [] [1, 0], demo_proc 2 .blocked_writing 0 [1] [1, 200],
       demo_proc 1 .blocked_writing 1 [2] [1, 200]]
      [1, 2]
      [demo_chan 1 0 2 4 [0x44, 0x33, 0x22, 0x11], demo_chan 1 1 3 4 [0x44, 0x33, 0x22, 0x11]] with
    port_heap := [some { demo_port [1, 2] with live_refcnt := 0 }] }

/-! ## Frames and stack segments -/

/-- The method `rust_proc::get_fp`. -/
def rust_proc.get_fp (mem : Nat → Nat) (p : rust_proc) : Nat :=
  get_callee_save_fp mem p.rust_sp

/-- The method `rust_proc::get_previous_fp`. -/
def get_previous_fp (mem : Nat → Nat) (fp : Nat) : Nat :=
  get_callee_save_fp mem fp

/-- The method `rust_proc::get_frame_glue_fns`. -/
def get_frame_glue_fns (mem : Nat → Nat) (fp : Nat) : Nat :=
  read_word mem (wsub fp WORD)

/-- The frame pointers the loop `for (fp = get_fp(); fp; fp = get_previous_fp(fp))`
of the destructor `rust_proc::~rust_proc` visits, from `fp` on; `n` bounds
their number. -/
def frames_walked (mem : Nat → Nat) : Nat → Nat → Res (List Nat)
  | 0, _ => .err .diverge
  | n + 1, fp =>
    if fp ≠ 0 then do
      let l ← frames_walked mem n (get_previous_fp mem fp)
      pure (fp :: l)
    else pure []

/-- The statements `*spp-- = v` for the values `v` of a list, in order. -/
def store_list (m : (Nat → Nat) × Nat) (vs : List Nat) : (Nat → Nat) × Nat :=
  vs.foldl store_dec m

/-- Proc 1, in calling-host with its stack pointer at `0x1810`, runs on segment
1, of `0x1000` bytes (data at `0x1000`, limit `0x2000`); segment 2, of `0x300`
bytes (data at `0x2020`, limit `0x2320`), is its next segment and lies right
above it in memory.  The byte at address `a` is `a % 256`. -/
def demo_tall : rust_rt :=
  { demo_rt [1] [] [{ demo_proc 1 .calling_c 0 [] [0x400, 0x500] with rust_sp := 0x1810 }] [] [] with
    stks := [some ⟨0, 2, 0, 0, 0, 0x2000, 0x1000⟩, some ⟨1, 0, 0, 0, 0, 0x2320, 0x2020⟩]
    mem := fun a => a % 256 }

/-- Proc 1, in calling-host with its stack pointer at `0x1800`, runs on its
only segment, of `0x1000` bytes (data at `0x1000`, limit `0x2000`).  The byte
at address `a` is `a % 256`. -/
def demo_spawner : rust_rt :=
  { demo_rt [1] [] [{ demo_proc 1 .calling_c 0 [] [0, 0] with rust_sp := 0x1800 }] [] [] with
    stks := [some ⟨0, 0, 0, 0, 0, 0x2000, 0x1000⟩]
    mem := fun a => a % 256 }

/-! ## The state-name table -/

/-- The numeric value of a proc state in the enumeration `proc_state_t`. -/
def proc_state_t.val : proc_state_t → Nat
  | .running => 0
  | .calling_c => 1
  | .failing => 2
  | .blocked_exited => 3
  | .blocked_reading => 4
  | .blocked_writing => 5

/-- The name of a proc state: its enumerator without the prefix `proc_state_`. -/
def proc_state_t.own_name : proc_state_t → String
  | .running => "running"
  | .calling_c => "calling_c"
  | .failing => "failing"
  | .blocked_exited => "blocked_exited"
  | .blocked_reading => "blocked_reading"
  | .blocked_writing => "blocked_writing"

/-- The table `state_names`. -/
def state_names : List String :=
  ["running", "calling_c", "exited", "blocked_reading", "blocked_writing"]

/-- The expression `state_names[st]` of the logging calls; `none` stands for a
read past the end of the table. -/
def state_name (st : proc_state_t) : Option String :=
  state_names[st.val]?

/-- All proc states. -/
def all_states : List proc_state_t :=
  [.running, .calling_c, .failing, .blocked_exited, .blocked_reading, .blocked_writing]

/-! ## Byte sizes requested for the storage of a `ptr_vec` -/

/-- The size in bytes the constructor `ptr_vec<T>::ptr_vec` requests for the
storage: `new (rt) T*[alloc]` asks for `alloc * sizeof(T*)` bytes. -/
def ptr_vec.init_bytes : Nat := ptr_vec.init.alloc * WORD

/-- The size in bytes most recently requested for the storage after a call of
`ptr_vec<T>::push` on the vector `v`, for which it was `bytes` before: on
growth the call is `rt->realloc(data, alloc)` with the doubled `alloc`. -/
def ptr_vec.push_bytes (v : ptr_vec) (bytes : Nat) : Nat :=
  if v.fill = v.alloc then v.alloc * 2 else bytes

/-- The size in bytes most recently requested for the storage after a call of
`ptr_vec<T>::trim`: on halving the call is `rt->realloc(data, alloc)` with the
halved `alloc`. -/
def ptr_vec.trim_bytes (v : ptr_vec) (sz bytes : Nat) : Nat :=
  if sz ≤ v.alloc / 4 ∧ v.alloc / 2 ≥ 8 then v.alloc / 2 else bytes

/-- Successive calls of `ptr_vec<T>::push`, one for each element of the list,
on a vector whose storage was last requested with `bytes` bytes. -/
def ptr_vec.push_all {α : Type} [HasIdx α] :
    ptr_vec → Nat → Store α → List Ptr → Res (ptr_vec × Nat × Store α)
  | v, bytes, H, [] => pure (v, bytes, H)
  | v, bytes, H, p :: ps => do
    let (v1, H1) ← v.push H p
    ptr_vec.push_all v1 (v.push_bytes bytes) H1 ps

/-- Nine channels to port 1, not queued. -/
def demo_nine : Store rust_chan :=
  List.replicate 9 (some (demo_chan 0 0 0 0 []))

/-! ## Sequences of pushes and shifts on a `circ_buf` -/

/-- A call of `circ_buf::push` (from a source address) or of `circ_buf::shift`
(to a destination address). -/
inductive BufOp where
  | push (src : Nat)
  | shift (dst : Nat)
deriving DecidableEq, Repr

/-- The buffer after a sequence of pushes and shifts. -/
def buf_run : rust_rt → circ_buf → List BufOp → Res (rust_rt × circ_buf)
  | s, b, [] => pure (s, b)
  | s, b, .push src :: ops => do
    let (s1, b1) ← b.push s src
    buf_run s1 b1 ops
  | s, b, .shift dst :: ops => do
    let (s1, b1) ← b.shift s dst
    buf_run s1 b1 ops

/-- A freshly constructed `circ_buf` of unit size `u` after a sequence of
pushes and shifts. -/
def fresh_run (s : rust_rt) (u : Nat) (ops : List BufOp) : Res (rust_rt × circ_buf) := do
  let (s1, b) ← circ_buf.new s u
  buf_run s1 b ops

/-- The bounds on the read offset and the fill of a `circ_buf`: `next < alloc`,
`next + unit_sz ≤ alloc` and `unread ≤ alloc`. -/
def circ_buf.in_bounds (b : circ_buf) : Prop :=
  b.next < b.alloc ∧ b.next + b.unit_sz ≤ b.alloc ∧ b.unread ≤ b.alloc

instance (b : circ_buf) : Decidable b.in_bounds := by
  unfold circ_buf.in_bounds; exact inferInstance

/-! ## `implode` -/

/-- The loop `for (i = 0; i < fill; ++i) *dst++ = *src` of `implode`, with `n`
iterations left: each iteration stores the 32-bit value at `src`, converted to
`uint8_t`, at `dst` and advances `dst`. -/
def implode_loop (src : Nat) : Nat → Nat → (Nat → Nat) → (Nat → Nat)
  | 0, _, mem => mem
  | n + 1, dst, mem => implode_loop src n (dst + 1) (mem_write mem dst [read_word mem src % 256])

/-- The function `implode` on the vector at address `v`; `addr` is the block
the host allocator returns for the string. -/
def implode (s : rust_rt) (proc v addr : Nat) : Res (rust_rt × Nat) := do
  let fill := read_word s.mem (v + 2 * WORD) >>> 2
  let (s1, st) ← upcall_new_str s proc 0 fill addr
  let src := v + 3 * WORD
  let dst := st + 3 * WORD
  pure ({ s1 with mem := implode_loop src fill dst s1.mem }, st)

/-- The runtime `demo_idle` with a vector at address 400 that holds the two
32-bit characters `0x61` and `0x62` (fill 8 bytes, data from address 412). -/
def demo_chars : rust_rt :=
  { demo_idle with
    mem := fun a => if a = 408 then 8 else if a = 412 then 0x61 else if a = 416 then 0x62 else 0 }

/-! ## Channels and their owners -/

/-- A channel that holds a unit is in the channel table of the proc it names
as its blocked sender. -/
def owner_inv (s : rust_rt) : Prop :=
  ∀ x, x < s.chan_heap.length + 1 → ∀ c, c ∈ s.chan_heap.get x → c.buf.unread ≠ 0 →
    ∃ r, r ∈ s.procs.get c.blocked ∧ x ∈ r.chans

instance (s : rust_rt) : Decidable (owner_inv s) := by
  unfold owner_inv; exact inferInstance

/-- Proc 1 owns port 1 (unit size 4) and port 2 (unit size 8) and is in
calling-host, about to receive on port 1 at address 300; proc 2 is running. -/
def demo_two_ports : rust_rt :=
  { demo_idle with
    port_heap := [some (demo_port []), some { demo_port [] with unit_sz := 8 }]
    mem := fun a => a % 256 }

/-- The trace on `demo_two_ports`: proc 1 receives on port 1, which has no
writers, and blocks; proc 2 enters the send upcall for port 2 with the unit at
address 200 and sends. -/
def demo_cross : List Event :=
  [.recv 1 1 0, .guest 2 9 [2, 200] (fun a => a % 256), .send 2 2 200]

/-- The runtime `demo_two_ports` after the first two steps of `demo_cross`:
proc 1 waits in blocked-reading for a unit of port 1, proc 2 is in
calling-host with the send upcall for port 2. -/
def demo_cross_waiting : rust_rt :=
  ((run demo_two_ports [.recv 1 1 0, .guest 2 9 [2, 200] (fun a => a % 256)]).getD
    (demo_two_ports, [], [])).1

/-! ## Sequencing lemmas -/

@[simp] theorem Res.pure_eq {α : Type} (a : α) : (pure a : Res α) = Res.ok a := rfl

@[simp] theorem Res.ok_bind {α β : Type} (a : α) (f : α → Res β) :
    (Res.ok a >>= f) = f a := rfl

@[simp] theorem Res.err_bind {α β : Type} (e : Err) (f : α → Res β) :
    (Res.err e >>= f) = Res.err e := rfl

theorem Res.bind_eq_ok {α β : Type} {x : Res α} {f : α → Res β} {b : β} :
    (x >>= f) = Res.ok b ↔ ∃ a, x = Res.ok a ∧ f a = Res.ok b := by
  cases x with
  | ok a => simp
  | err e => simp

theorem I_ok {n : Nat} {c : Prop} [Decidable c] (h : c) : I n c = Res.ok () := by
  simp [I, h]

@[simp] theorem I_eq_ok {n : Nat} {c : Prop} [Decidable c] : I n c = Res.ok () ↔ c := by
  unfold I; split <;> simp [*]

@[simp] theorem I_bind {β : Type} {n : Nat} {c : Prop} [Decidable c] (f : Unit → Res β) :
    (I n c >>= f) = if c then f () else Res.err (Err.fatal n) := by
  unfold I; split <;> rfl

theorem I_bind_eq_ok {β : Type} {n : Nat} {c : Prop} [Decidable c] {f : Unit → Res β} {b : β} :
    (I n c >>= f) = Res.ok b ↔ c ∧ f () = Res.ok b := by
  unfold I; split <;> simp [*]

theorem ok_eq_ok {α : Type} {a b : α} : (Res.ok a = Res.ok b) ↔ a = b := by
  constructor
  · intro h; cases h; rfl
  · intro h; rw [h]

/-! ## Heap lemmas -/

@[simp] theorem Store.get_zero {α : Type} (st : Store α) : st.get 0 = none := rfl

theorem Store.ne_zero_of_get {α : Type} {st : Store α} {p : Ptr} {a : α}
    (h : st.get p = some a) : p ≠ 0 := by
  rintro rfl; simp at h

theorem Store.deref_eq_ok {α : Type} {st : Store α} {p : Ptr} {a : α} :
    st.deref p = Res.ok a ↔ st.get p = some a := by
  unfold Store.deref; split <;> simp [*]

theorem Store.deref_of_get {α : Type} {st : Store α} {p : Ptr} {a : α}
    (h : st.get p = some a) : st.deref p = Res.ok a := Store.deref_eq_ok.2 h

theorem Store.get_put {α : Type} {st : Store α} {p : Ptr} {b : α} (a : α)
    (h : st.get p = some b) (q : Ptr) :
    (st.put p a).get q = if q = p then some a else st.get q := by
  cases p with
  | zero => simp at h
  | succ p =>
    cases q with
    | zero => simp [Store.get]
    | succ q =>
      have hlt : p < st.length := by
        by_contra hge
        simp [Store.get, List.getElem?_eq_none (not_lt.mp hge)] at h
      simp only [Store.get, Store.put, List.getElem?_set, Nat.add_right_cancel_iff]
      by_cases hpq : p = q
      · subst hpq; simp [hlt]
      · have : ¬ q = p := fun h => hpq h.symm
        simp [hpq, this]

theorem Store.get_put_self {α : Type} {st : Store α} {p : Ptr} {b : α} (a : α)
    (h : st.get p = some b) : (st.put p a).get p = some a := by
  simp [Store.get_put a h]

theorem Store.get_put_ne {α : Type} {st : Store α} {p q : Ptr} (a : α)
    (h : q ≠ p) : (st.put p a).get q = st.get q := by
  cases p with
  | zero => rfl
  | succ p =>
    cases q with
    | zero => rfl
    | succ q =>
      have : p ≠ q := fun e => h (by rw [e])
      simp [Store.get, Store.put, List.getElem?_set_ne this]

@[simp] theorem Store.length_put {α : Type} (st : Store α) (p : Ptr) (a : α) :
    (st.put p a).length = st.length := by
  cases p <;> simp [Store.put]

theorem Store.put_same {α : Type} {st : Store α} {p : Ptr} {a : α}
    (h : st.get p = some a) : st.put p a = st := by
  cases p with
  | zero => rfl
  | succ p =>
    simp only [Store.put]
    apply List.ext_getElem?
    intro j
    by_cases hj : p = j
    · subst hj
      have hlt : p < st.length := by
        by_contra hge
        simp [Store.get, List.getElem?_eq_none (not_lt.mp hge)] at h
      simp only [Store.get] at h
      rw [List.getElem?_set_self hlt]
      cases h2 : st[p]? with
      | none => simp [h2] at h
      | some o => simp [h2] at h; simp [h]
    · rw [List.getElem?_set_ne hj]

theorem Store.get_free {α : Type} (st : Store α) (p q : Ptr) :
    (st.free p).get q = if q = p then none else st.get q := by
  cases p with
  | zero =>
    cases q <;> simp [Store.free, Store.get]
  | succ p =>
    cases q with
    | zero => simp [Store.get]
    | succ q =>
      simp only [Store.get, Store.free, List.getElem?_set, Nat.add_right_cancel_iff]
      by_cases hpq : p = q
      · subst hpq
        by_cases hlt : p < st.length
        · simp [hlt]
        · simp [hlt, List.getElem?_eq_none (not_lt.mp hlt)]
      · have : ¬ q = p := fun h => hpq h.symm
        simp [hpq, this]

theorem Store.get_of_length_lt {α : Type} (st : Store α) {q : Nat} (h : st.length < q) :
    st.get q = none := by
  cases q with
  | zero => rfl
  | succ q =>
    have : st.length ≤ q := by omega
    simp [Store.get, List.getElem?_eq_none this]

theorem Store.get_alloc {α : Type} (st : Store α) (a : α) (q : Ptr) :
    (st.alloc a).1.get q = if q = st.length + 1 then some a else st.get q := by
  cases q with
  | zero => simp [Store.get]
  | succ q =>
    simp only [Store.alloc, Store.get, Nat.add_right_cancel_iff]
    by_cases h : q = st.length
    · subst h; simp
    · have h' : ¬ q.succ = st.length + 1 := by omega
      rw [if_neg h']
      by_cases hlt : q < st.length
      · rw [List.getElem?_append_left hlt]
      · have hge : st.length ≤ q := not_lt.mp hlt
        rw [List.getElem?_append_right hge, List.getElem?_eq_none hge]
        have : 1 ≤ q - st.length := by omega
        simp [List.getElem?_eq_none, this]

theorem Store.lt_of_get {α : Type} {st : Store α} {p : Nat} {a : α}
    (h : st.get p = some a) : p ≤ st.length := by
  by_contra hlt
  rw [Store.get_of_length_lt st (not_le.mp hlt)] at h
  simp at h

theorem deref_bind_eq_ok {α β : Type} {st : Store α} {p : Ptr} {f : α → Res β} {b : β} :
    (st.deref p >>= f) = Res.ok b ↔ ∃ a, st.get p = some a ∧ f a = Res.ok b := by
  rw [Res.bind_eq_ok]
  constructor
  · rintro ⟨a, h1, h2⟩; exact ⟨a, Store.deref_eq_ok.1 h1, h2⟩
  · rintro ⟨a, h1, h2⟩; exact ⟨a, Store.deref_eq_ok.2 h1, h2⟩

/-! ## `ptr_vec` lemmas -/

theorem realloc_slots_length (d : List Nat) (n : Nat) : (realloc_slots d n).length = n := by
  simp [realloc_slots]

theorem realloc_slots_getElem? (d : List Nat) (n j : Nat) (hj : j < n) (hd : j < d.length) :
    (realloc_slots d n)[j]? = d[j]? := by
  rw [realloc_slots, List.getElem?_take, if_pos hj]
  exact List.getElem?_append_left hd

theorem peek_eq_ok {α : Type} {d : List α} {i : Nat} {x : α} :
    peek d i = Res.ok x ↔ d[i]? = some x := by
  unfold peek; split <;> simp [*]

theorem poke_eq_ok {α : Type} {d : List α} {i : Nat} {x : α} {d' : List α} :
    poke d i x = Res.ok d' ↔ i < d.length ∧ d' = d.set i x := by
  unfold poke; split <;> simp [*, eq_comm]

theorem ptr_vec.slot_eq_some {v : ptr_vec} {j : Nat} {q : Ptr} :
    v.slot j = some q ↔ j < v.fill ∧ v.data[j]? = some q := by
  unfold ptr_vec.slot; split <;> simp [*]

theorem ptr_vec.slot_of_ge {v : ptr_vec} {j : Nat} (h : v.fill ≤ j) : v.slot j = none := by
  unfold ptr_vec.slot; rw [if_neg (by omega)]

/-- Dividing by the size of a pointer. -/
theorem div_WORD (n : Nat) : n / WORD = n / 4 := rfl

/-- A `push` onto a full vector does not return: the block it reallocates is
too small for the slot it then stores to. -/
theorem ptr_vec.push_full {α : Type} [HasIdx α] {v : ptr_vec} {H : Store α} {p : Ptr}
    (hfull : v.fill = v.alloc) (r : ptr_vec × Store α) : v.push H p ≠ Res.ok r := by
  intro h
  unfold ptr_vec.push at h
  rw [if_pos hfull] at h
  simp only [I_bind_eq_ok] at h
  obtain ⟨h0, h⟩ := h
  rw [deref_bind_eq_ok] at h
  obtain ⟨x, _, h⟩ := h
  rw [Res.bind_eq_ok] at h
  obtain ⟨d, hd, _⟩ := h
  have hl := (poke_eq_ok.1 hd).1
  rw [realloc_slots_length, div_WORD] at hl
  have h0' : v.fill < v.alloc * 2 := h0
  have hl' : v.fill < v.alloc * 2 / 4 := hl
  omega

/-- A `push` that returns found room in the vector. -/
theorem ptr_vec.push_has_room {α : Type} [HasIdx α] {v : ptr_vec} {H : Store α} {p : Ptr}
    {r : ptr_vec × Store α} (h : v.push H p = Res.ok r) : v.fill < v.alloc := by
  by_cases hfull : v.fill = v.alloc
  · exact absurd h (ptr_vec.push_full hfull r)
  · unfold ptr_vec.push at h
    rw [if_neg hfull] at h
    simp only [I_bind_eq_ok] at h
    exact h.1

/-- A `push` of a live element onto a full vector of `alloc` slots stops at the
store to `data[fill]`, which lies outside the reallocated block. -/
theorem ptr_vec.push_full_oob {α : Type} [HasIdx α] {v : ptr_vec} {H : Store α} {p : Ptr}
    {x : α} (hfull : v.fill = v.alloc) (hpos : 0 < v.alloc) (hp : H.get p = some x) :
    v.push H p = Res.err Err.oob := by
  have hlt : v.alloc < v.alloc * 2 := by omega
  have hn : ¬ v.alloc < v.alloc * 2 / 4 := by omega
  simp [ptr_vec.push, hfull, Store.deref_of_get hp, poke, realloc_slots_length, hlt, div_WORD, hn]

theorem ptr_vec.push_ok {α : Type} [HasIdx α] {v : ptr_vec} {H : Store α} {p : Ptr} {x : α}
    (hv : v.wf) (hroom : v.fill < v.alloc) (hp : H.get p = some x) :
    ∃ v', v.push H p = Res.ok (v', H.put p (HasIdx.set_idx x v.fill)) ∧ v'.wf ∧
      v'.fill = v.fill + 1 ∧ ∀ j, v'.slot j = if j = v.fill then some p else v.slot j := by
  obtain ⟨h1, h2, h3⟩ := hv
  have hfull : ¬ v.fill = v.alloc := by omega
  refine ⟨⟨v.alloc, v.fill + 1, v.data.set v.fill p⟩, ?_, ?_, rfl, ?_⟩
  · have hlt : v.fill < v.alloc := by omega
    simp [ptr_vec.push, hfull, Store.deref_of_get hp, poke, h2, hlt]
  · refine ⟨?_, ?_, ?_⟩ <;> simp <;> omega
  · intro j
    simp only [ptr_vec.slot]
    by_cases hj : j = v.fill
    · subst hj
      have hfa : v.fill < v.alloc := by omega
      have hlt : v.fill < v.data.length := by omega
      simp [hlt]
    · by_cases hlt : j < v.fill
      · have : j < v.fill + 1 := by omega
        rw [if_pos this, if_neg hj, if_pos hlt, List.getElem?_set_ne (Ne.symm hj)]
      · have : ¬ j < v.fill + 1 := by omega
        rw [if_neg this, if_neg hj, if_neg hlt]

/-- A `push` leaves the capacity as it is. -/
theorem ptr_vec.push_keeps_alloc {α : Type} [HasIdx α] {v w : ptr_vec} {H H1 : Store α} {p : Ptr}
    (h : v.push H p = Res.ok (w, H1)) : w.alloc = v.alloc := by
  have hroom := ptr_vec.push_has_room h
  have hfull : ¬ v.fill = v.alloc := by omega
  unfold ptr_vec.push at h
  rw [if_neg hfull] at h
  simp only [I_bind_eq_ok] at h
  obtain ⟨_, h⟩ := h
  rw [deref_bind_eq_ok] at h
  obtain ⟨x, _, h⟩ := h
  rw [Res.bind_eq_ok] at h
  obtain ⟨d, _, h⟩ := h
  simp only [Res.pure_eq, ok_eq_ok, Prod.mk.injEq] at h
  rw [← h.1]

/-- A `trim` of a vector whose half capacity is below the initial size leaves
the vector as it is. -/
theorem ptr_vec.trim_small {v : ptr_vec} (z : Nat) (hcap : v.small) :
    v.trim z = Res.ok v := by
  have hcap' : v.alloc / 2 < 8 := hcap
  have hc : ¬ (z ≤ v.alloc / 4 ∧ v.alloc / 2 ≥ 8) := by omega
  simp [ptr_vec.trim, hc]

theorem ptr_vec.trim_ok {v : ptr_vec} {z : Nat} (hv : v.wf) (hcap : v.small)
    (_hsz : v.fill ≤ z) :
    ∃ v', v.trim z = Res.ok v' ∧ v'.wf ∧ v'.fill = v.fill ∧ (∀ j, v'.slot j = v.slot j) ∧
      v' = v :=
  ⟨v, ptr_vec.trim_small z hcap, hv, rfl, fun _ => rfl, rfl⟩

/-- A `trim` that returns leaves `fill` as it is and does not raise the
capacity. -/
theorem ptr_vec.trim_fill {v w : ptr_vec} {z : Nat} (h : v.trim z = Res.ok w) :
    w.fill = v.fill ∧ w.alloc ≤ v.alloc := by
  unfold ptr_vec.trim at h
  split at h
  · simp only [I_bind_eq_ok, Res.pure_eq, ok_eq_ok] at h
    rw [← h.2]
    exact ⟨rfl, Nat.div_le_self _ _⟩
  · simp only [Res.pure_eq, ok_eq_ok] at h
    rw [← h]
    exact ⟨rfl, le_refl _⟩

theorem ptr_vec.swapdel_one {α : Type} [HasIdx α] {v : ptr_vec} {H : Store α} {item : Ptr}
    {it : α} (hv : v.wf) (hp : H.get item = some it) (hi : HasIdx.idx it < v.fill)
    (h1 : v.fill = 1) :
    ∃ v', v.swapdel H item = Res.ok (v', H) ∧ v'.wf ∧ v'.fill = 0 ∧
      ∀ j, v'.slot j = none := by
  obtain ⟨h1', h2, h3⟩ := hv
  refine ⟨⟨v.alloc, 0, v.data⟩, ?_, ⟨by simp, h2, h3⟩, rfl, ?_⟩
  · have h0 : HasIdx.idx it = 0 := by omega
    simp [ptr_vec.swapdel, Store.deref_of_get hp, h0, h1]
  · intro j; simp [ptr_vec.slot]

theorem ptr_vec.swapdel_many {α : Type} [HasIdx α] {v : ptr_vec} {H : Store α} {item : Ptr}
    {it : α} {q : Ptr} {sb : α} (hv : v.wf) (hp : H.get item = some it)
    (hi : HasIdx.idx it < v.fill) (h1 : 1 < v.fill) (hq : v.slot (v.fill - 1) = some q)
    (hsb : H.get q = some sb) :
    ∃ v', v.swapdel H item =
        Res.ok (v', H.put q (HasIdx.set_idx sb (HasIdx.idx it))) ∧ v'.wf ∧
      v'.fill = v.fill - 1 ∧ ∀ j, v'.slot j = swapdel_slots v (HasIdx.idx it) j := by
  obtain ⟨h1', h2, h3⟩ := hv
  obtain ⟨hq1, hq2⟩ := ptr_vec.slot_eq_some.1 hq
  refine ⟨⟨v.alloc, v.fill - 1, v.data.set (HasIdx.idx it) q⟩, ?_, ?_, rfl, ?_⟩
  · have hpos : v.fill - 1 > 0 := by omega
    have hfp : v.fill > 0 := by omega
    have hil : HasIdx.idx it < v.data.length := by omega
    simp [ptr_vec.swapdel, Store.deref_of_get hp, hi, hpos, hfp, peek, hq2, poke, hil,
      Store.deref_of_get hsb]
  · refine ⟨?_, ?_, ?_⟩ <;> simp <;> omega
  · intro j
    simp only [ptr_vec.slot, swapdel_slots]
    by_cases hlt : j < v.fill - 1
    · have hjf : j < v.fill := by omega
      rw [if_pos hlt, if_pos hlt]
      by_cases hj : j = HasIdx.idx it
      · subst hj
        have hil : HasIdx.idx it < v.data.length := by omega
        rw [if_pos rfl, if_pos hq1, List.getElem?_set_self hil, hq2]
      · rw [if_neg hj, if_pos hjf, List.getElem?_set_ne (Ne.symm hj)]
    · rw [if_neg hlt, if_neg hlt]

/-- A `swapdel` that returns has changed at most the index of one element. -/
theorem ptr_vec.swapdel_heap {α : Type} [HasIdx α] {v w : ptr_vec} {heap heap1 : Store α}
    {item : Ptr} (h : v.swapdel heap item = Res.ok (w, heap1)) :
    heap1 = heap ∨
      ∃ q sb i, heap.get q = some sb ∧ heap1 = heap.put q (HasIdx.set_idx sb i) := by
  unfold ptr_vec.swapdel at h
  simp only [I_bind_eq_ok] at h
  obtain ⟨_, h⟩ := h
  rw [deref_bind_eq_ok] at h
  obtain ⟨it, hit, h⟩ := h
  simp only [I_bind_eq_ok] at h
  obtain ⟨_, h⟩ := h
  split at h
  · rw [Res.bind_eq_ok] at h
    obtain ⟨q, _, h⟩ := h
    rw [Res.bind_eq_ok] at h
    obtain ⟨d, _, h⟩ := h
    rw [deref_bind_eq_ok] at h
    obtain ⟨sb, hsb, h⟩ := h
    simp only [Res.pure_eq, ok_eq_ok, Prod.mk.injEq] at h
    exact Or.inr ⟨q, sb, _, hsb, h.2.symm⟩
  · simp only [Res.pure_eq, ok_eq_ok, Prod.mk.injEq] at h
    exact Or.inl h.2.symm

/-- A `swapdel` leaves the capacity as it is and lowers `fill` by one. -/
theorem ptr_vec.swapdel_alloc {α : Type} [HasIdx α] {v w : ptr_vec} {heap heap1 : Store α}
    {item : Ptr} (h : v.swapdel heap item = Res.ok (w, heap1)) :
    w.alloc = v.alloc ∧ w.fill = v.fill - 1 ∧ 0 < v.fill := by
  unfold ptr_vec.swapdel at h
  simp only [I_bind_eq_ok] at h
  obtain ⟨h0, h⟩ := h
  rw [deref_bind_eq_ok] at h
  obtain ⟨it, hit, h⟩ := h
  simp only [I_bind_eq_ok] at h
  obtain ⟨_, h⟩ := h
  split at h
  · rw [Res.bind_eq_ok] at h
    obtain ⟨q, _, h⟩ := h
    rw [Res.bind_eq_ok] at h
    obtain ⟨d, _, h⟩ := h
    rw [deref_bind_eq_ok] at h
    obtain ⟨sb, hsb, h⟩ := h
    simp only [Res.pure_eq, ok_eq_ok, Prod.mk.injEq] at h
    rw [← h.1]
    exact ⟨rfl, rfl, h0⟩
  · simp only [Res.pure_eq, ok_eq_ok, Prod.mk.injEq] at h
    rw [← h.1]
    exact ⟨rfl, rfl, h0⟩

/-- A `push` that returns has changed the index of the pushed element only. -/
theorem ptr_vec.push_heap {α : Type} [HasIdx α] {v w : ptr_vec} {heap heap1 : Store α}
    {p : Ptr} (h : v.push heap p = Res.ok (w, heap1)) :
    ∃ x i, heap.get p = some x ∧ heap1 = heap.put p (HasIdx.set_idx x i) := by
  unfold ptr_vec.push at h
  simp only [I_bind_eq_ok] at h
  obtain ⟨_, h⟩ := h
  rw [deref_bind_eq_ok] at h
  obtain ⟨x, hx, h⟩ := h
  rw [Res.bind_eq_ok] at h
  obtain ⟨d, _, h⟩ := h
  simp only [Res.pure_eq, ok_eq_ok, Prod.mk.injEq] at h
  exact ⟨x, _, hx, h.2.symm⟩

/-! ## Proc state vectors -/

@[simp] theorem vec_set_vec (s : rust_rt) (sel sel' : vec_sel) (v : ptr_vec) :
    (s.set_vec sel v).vec sel' = if sel' = sel then v else s.vec sel' := by
  cases sel <;> cases sel' <;> simp [rust_rt.set_vec, rust_rt.vec]

@[simp] theorem vec_with_procs (s : rust_rt) (h : Store rust_proc) (sel : vec_sel) :
    ({ s with procs := h } : rust_rt).vec sel = s.vec sel := by
  cases sel <;> rfl

@[simp] theorem procs_set_vec (s : rust_rt) (sel : vec_sel) (v : ptr_vec) :
    (s.set_vec sel v).procs = s.procs := by
  cases sel <;> rfl

theorem same_rest_set_vec (s : rust_rt) (sel : vec_sel) (v : ptr_vec) :
    same_rest s (s.set_vec sel v) := by
  cases sel <;> simp [same_rest, rust_rt.set_vec]

theorem same_rest_refl (s : rust_rt) : same_rest s s := by simp [same_rest]

theorem same_rest_trans {s t u : rust_rt} (h1 : same_rest s t) (h2 : same_rest t u) :
    same_rest s u := by
  obtain ⟨a1, a2, a3, a4, a5, a6, a7⟩ := h1
  obtain ⟨b1, b2, b3, b4, b5, b6, b7⟩ := h2
  exact ⟨b1.trans a1, b2.trans a2, b3.trans a3, b4.trans a4, b5.trans a5, b6.trans a6,
    b7.trans a7⟩

theorem procs_small_iff (s : rust_rt) : procs_small s ↔ ∀ sel, (s.vec sel).small := by
  constructor
  · rintro ⟨h1, h2⟩ sel
    cases sel <;> assumption
  · intro h
    exact ⟨h .running_procs, h .blocked_procs⟩

theorem procs_small_of_moved {s t : rust_rt} {a b : Option vec_sel} (h : vec_moved s t a b)
    (hs : procs_small s) : procs_small t := by
  rw [procs_small_iff] at hs ⊢
  intro sel
  have := hs sel
  unfold ptr_vec.small at this ⊢
  rw [(h sel).1]
  exact this

theorem vec_moved_trans {s t u : rust_rt} {a b c : vec_sel}
    (h1 : vec_moved s t (some a) none) (h2 : vec_moved t u none (some c)) (hb : b = c) :
    vec_moved s u (some a) (some b) := by
  subst hb
  intro sel
  obtain ⟨a1, a2⟩ := h1 sel
  obtain ⟨b1, b2⟩ := h2 sel
  refine ⟨b1.trans a1, ?_⟩
  simp only [reduceCtorEq, if_false, Nat.add_zero] at a2 b2
  omega

theorem vec_moved_congr {s s' t : rust_rt} {a b : Option vec_sel}
    (h : vec_moved s t a b) (h1 : s'.running_procs = s.running_procs)
    (h2 : s'.blocked_procs = s.blocked_procs) : vec_moved s' t a b := by
  intro sel
  have e : s'.vec sel = s.vec sel := by cases sel <;> simp [rust_rt.vec, h1, h2]
  rw [e]
  exact h sel

theorem procs_small_congr {s t : rust_rt} (h1 : t.running_procs = s.running_procs)
    (h2 : t.blocked_procs = s.blocked_procs) (h : procs_small s) : procs_small t := by
  unfold procs_small at h ⊢
  rw [h1, h2]
  exact h

/-- The counters of the running vector after a move. -/
theorem vec_moved_running {s t : rust_rt} {a b : vec_sel} (h : vec_moved s t (some a) (some b)) :
    t.running_procs.alloc = s.running_procs.alloc ∧
    t.running_procs.fill + (if a = .running_procs then 1 else 0) =
      s.running_procs.fill + (if b = .running_procs then 1 else 0) := by
  have := h .running_procs
  simpa only [Option.some.injEq] using this

/-- The counters of the blocked vector after a move. -/
theorem vec_moved_blocked {s t : rust_rt} {a b : vec_sel} (h : vec_moved s t (some a) (some b)) :
    t.blocked_procs.alloc = s.blocked_procs.alloc ∧
    t.blocked_procs.fill + (if a = .blocked_procs then 1 else 0) =
      s.blocked_procs.fill + (if b = .blocked_procs then 1 else 0) := by
  have := h .blocked_procs
  simpa only [Option.some.injEq] using this

theorem n_live_eq (s : rust_rt) :
    s.n_live_procs = (s.vec .running_procs).fill + (s.vec .blocked_procs).fill := rfl

/-- The state-vector invariant in unbounded form. -/
theorem procs_inv_ex_iff (s : rust_rt) (ex : Ptr) :
    procs_inv_ex s ex ↔
      (∀ sel, (s.vec sel).wf) ∧
      (∀ p r, s.procs.get p = some r → p ≠ ex →
        (s.vec (get_state_vec r.state)).slot r.idx = some p) ∧
      (∀ sel j q, (s.vec sel).slot j = some q →
        q ≠ ex ∧ ∃ r, s.procs.get q = some r ∧ r.idx = j ∧ get_state_vec r.state = sel) := by
  constructor
  · rintro ⟨h1, h2, h3, h4, h5⟩
    refine ⟨?_, ?_, ?_⟩
    · intro sel; cases sel <;> assumption
    · intro p r hp hne
      exact h3 p (by have := Store.lt_of_get hp; omega) hne r hp
    · intro sel j q hq
      have hj := (ptr_vec.slot_eq_some.1 hq).1
      cases sel
      · obtain ⟨a, r, b, c⟩ := h4 j hj q hq
        exact ⟨a, r, b, c⟩
      · obtain ⟨a, r, b, c⟩ := h5 j hj q hq
        exact ⟨a, r, b, c⟩
  · rintro ⟨h1, h2, h3⟩
    refine ⟨h1 .running_procs, h1 .blocked_procs, ?_, ?_, ?_⟩
    · intro p _ hne r hr
      exact h2 p r hr hne
    · intro j _ q hq
      obtain ⟨a, r, b, c⟩ := h3 _ j q hq
      exact ⟨a, r, b, c⟩
    · intro j _ q hq
      obtain ⟨a, r, b, c⟩ := h3 _ j q hq
      exact ⟨a, r, b, c⟩

@[simp] theorem idx_proc (r : rust_proc) : HasIdx.idx r = r.idx := rfl
@[simp] theorem set_idx_proc (r : rust_proc) (i : Nat) :
    HasIdx.set_idx r i = { r with idx := i } := rfl
@[simp] theorem idx_chan (c : rust_chan) : HasIdx.idx c = c.idx := rfl
@[simp] theorem set_idx_chan (c : rust_chan) (i : Nat) :
    HasIdx.set_idx c i = { c with idx := i } := rfl

@[simp] theorem core_set_idx (r : rust_proc) (i : Nat) :
    ({ r with idx := i } : rust_proc).core = r.core := rfl

theorem fill_le_n_live (s : rust_rt) (sel : vec_sel) : (s.vec sel).fill ≤ s.n_live_procs := by
  cases sel <;> simp [rust_rt.n_live_procs, rust_rt.vec]

theorem same_rest_remove (s : rust_rt) (sel : vec_sel) (v v' : ptr_vec) (h : Store rust_proc) :
    same_rest s (({ s.set_vec sel v with procs := h } : rust_rt).set_vec sel v') := by
  cases sel <;> simp [same_rest, rust_rt.set_vec]

theorem vec_moved_remove (s : rust_rt) (sel : vec_sel) (v v' : ptr_vec) (h : Store rust_proc)
    (h1 : v.alloc = (s.vec sel).alloc) (h2 : v.fill = (s.vec sel).fill - 1)
    (h3 : 0 < (s.vec sel).fill) (h4 : v' = v) :
    vec_moved s (({ s.set_vec sel v with procs := h } : rust_rt).set_vec sel v')
      (some sel) none := by
  subst h4
  intro x
  by_cases hx : x = sel
  · subst hx
    simp only [vec_set_vec, if_true, reduceCtorEq, if_false]
    exact ⟨h1, by omega⟩
  · have hx' : ¬ (some sel = some x) := fun e => hx (Option.some.inj e).symm
    simp [hx, hx']

theorem remove_spec {s : rust_rt} {p : Ptr} {r : rust_proc} (hinv : procs_inv s)
    (hsm : procs_small s) (hp : s.procs.get p = some r) :
    ∃ t, remove_proc_from_state_vec s p = Res.ok t ∧ procs_inv_ex t p ∧ same_rest s t ∧
      same_cores s t ∧ (∃ r', t.procs.get p = some r' ∧ r'.core = r.core) ∧
      vec_moved s t (some (get_state_vec r.state)) none := by
  obtain ⟨hwf, hpos, hslot⟩ := (procs_inv_ex_iff s 0).1 hinv
  have hsmall := (procs_small_iff s).1 hsm (get_state_vec r.state)
  have hp0 : p ≠ 0 := Store.ne_zero_of_get hp
  have hps : (s.vec (get_state_vec r.state)).slot r.idx = some p := hpos p r hp hp0
  obtain ⟨hidx, hdat⟩ := ptr_vec.slot_eq_some.1 hps
  by_cases h1 : (s.vec (get_state_vec r.state)).fill = 1
  · obtain ⟨v', hsw, hv'wf, hv'fill, hv'slot⟩ :=
      ptr_vec.swapdel_one (H := s.procs) (hwf _) hp (by simpa using hidx) h1
    have hv'a := ptr_vec.swapdel_alloc hsw
    have hv'small : v'.small := by
      unfold ptr_vec.small at hsmall ⊢
      rw [hv'a.1]; exact hsmall
    obtain ⟨v'', htr, hv''wf, hv''fill, hv''slot, hv''eq⟩ :=
      ptr_vec.trim_ok hv'wf hv'small
        (z := ({ s.set_vec (get_state_vec r.state) v' with procs := s.procs } : rust_rt).n_live_procs)
        (by
          have := fill_le_n_live
            ({ s.set_vec (get_state_vec r.state) v' with procs := s.procs } : rust_rt)
            (get_state_vec r.state)
          simpa using this)
    refine ⟨({ s.set_vec (get_state_vec r.state) v' with procs := s.procs } : rust_rt).set_vec
      (get_state_vec r.state) v'', ?_, ?_, ?_, ?_, ?_, ?_⟩
    · simp [remove_proc_from_state_vec, get_proc_vec, Store.deref_of_get hp, peek, hdat, hsw, htr]
    · rw [procs_inv_ex_iff]
      refine ⟨?_, ?_, ?_⟩
      · intro sel
        by_cases hs : sel = get_state_vec r.state
        · simp [hs, hv''wf]
        · simp [hs, hwf sel]
      · intro q rq hq hne
        simp only [procs_set_vec] at hq
        have hq0 : q ≠ 0 := Store.ne_zero_of_get hq
        have hqs := hpos q rq hq hq0
        by_cases hs : get_state_vec rq.state = get_state_vec r.state
        · exfalso
          rw [hs] at hqs
          obtain ⟨hqi, hqd⟩ := ptr_vec.slot_eq_some.1 hqs
          have e1 : rq.idx = 0 := by omega
          have e2 : r.idx = 0 := by omega
          rw [e1] at hqd; rw [e2] at hdat
          rw [hdat] at hqd
          exact hne (Option.some.inj hqd).symm
        · simpa [hs] using hqs
      · intro sel j q hq
        by_cases hs : sel = get_state_vec r.state
        · simp [hs, hv''slot, hv'slot] at hq
        · simp only [vec_set_vec, hs, if_false, vec_with_procs] at hq
          obtain ⟨_, rq, hrq, hj, hsq⟩ := hslot sel j q hq
          refine ⟨?_, rq, by simpa using hrq, hj, hsq⟩
          intro e
          rw [e, hp] at hrq
          cases hrq
          exact hs hsq.symm
    · exact same_rest_remove _ _ _ _ _
    · exact ⟨by simp, fun q => by simp⟩
    · exact ⟨r, by simpa using hp, rfl⟩
    · exact vec_moved_remove _ _ _ _ _ hv'a.1 hv'a.2.1 hv'a.2.2 hv''eq
  · have hgt : 1 < (s.vec (get_state_vec r.state)).fill := by omega
    obtain ⟨hw1, hw2, hw3⟩ := hwf (get_state_vec r.state)
    have hlast : ∃ q, (s.vec (get_state_vec r.state)).slot
        ((s.vec (get_state_vec r.state)).fill - 1) = some q := by
      have hlt : (s.vec (get_state_vec r.state)).fill - 1 <
          (s.vec (get_state_vec r.state)).data.length := by omega
      refine ⟨(s.vec (get_state_vec r.state)).data[(s.vec (get_state_vec r.state)).fill - 1], ?_⟩
      rw [ptr_vec.slot_eq_some]
      exact ⟨by omega, List.getElem?_eq_getElem hlt⟩
    obtain ⟨q, hq⟩ := hlast
    obtain ⟨hq0, rq, hrq, hrqi, hrqs⟩ := hslot _ _ _ hq
    obtain ⟨v', hsw, hv'wf, hv'fill, hv'slot⟩ :=
      ptr_vec.swapdel_many (H := s.procs) (hwf _) hp (by simpa using hidx) hgt hq hrq
    simp only [idx_proc, set_idx_proc] at hsw hv'slot
    have hv'a := ptr_vec.swapdel_alloc hsw
    have hv'small : v'.small := by
      unfold ptr_vec.small at hsmall ⊢
      rw [hv'a.1]; exact hsmall
    obtain ⟨v'', htr, hv''wf, hv''fill, hv''slot, hv''eq⟩ :=
      ptr_vec.trim_ok hv'wf hv'small
        (z := ({ s.set_vec (get_state_vec r.state) v' with
                  procs := s.procs.put q { rq with idx := r.idx } } : rust_rt).n_live_procs)
        (by
          have := fill_le_n_live
            ({ s.set_vec (get_state_vec r.state) v' with
                procs := s.procs.put q { rq with idx := r.idx } } : rust_rt)
            (get_state_vec r.state)
          simpa using this)
    -- the proc heap after the removal
    have hget : ∀ x, (s.procs.put q { rq with idx := r.idx }).get x =
        if x = q then some { rq with idx := r.idx } else s.procs.get x :=
      fun x => Store.get_put _ hrq x
    refine ⟨({ s.set_vec (get_state_vec r.state) v' with
        procs := s.procs.put q { rq with idx := r.idx } } : rust_rt).set_vec
      (get_state_vec r.state) v'', ?_, ?_, ?_, ?_, ?_, ?_⟩
    · simp [remove_proc_from_state_vec, get_proc_vec, Store.deref_of_get hp, peek, hdat, hsw, htr]
    · rw [procs_inv_ex_iff]
      refine ⟨?_, ?_, ?_⟩
      · intro sel
        by_cases hs : sel = get_state_vec r.state
        · simp [hs, hv''wf]
        · simp [hs, hwf sel]
      · intro x rx hx hne
        simp only [procs_set_vec, hget] at hx
        by_cases hxq : x = q
        · subst hxq
          rw [if_pos rfl] at hx
          cases hx
          have hne' : r.idx ≠ (s.vec (get_state_vec r.state)).fill - 1 := by
            intro e
            rw [e, hq] at hps
            exact hne (Option.some.inj hps)
          have hlt : r.idx < (s.vec (get_state_vec r.state)).fill - 1 := by omega
          simp [hrqs, hv''slot, hv'slot, swapdel_slots, hlt, hq]
        · rw [if_neg hxq] at hx
          have hx0 : x ≠ 0 := Store.ne_zero_of_get hx
          have hxs := hpos x rx hx hx0
          by_cases hs : get_state_vec rx.state = get_state_vec r.state
          · rw [hs] at hxs
            have hn1 : rx.idx ≠ r.idx := by
              intro e; rw [e, hps] at hxs; exact hne (Option.some.inj hxs).symm
            have hn2 : rx.idx ≠ (s.vec (get_state_vec r.state)).fill - 1 := by
              intro e; rw [e, hq] at hxs; exact hxq (Option.some.inj hxs).symm
            have hlt : rx.idx < (s.vec (get_state_vec r.state)).fill - 1 := by
              have := (ptr_vec.slot_eq_some.1 hxs).1; omega
            simp [hs, hv''slot, hv'slot, swapdel_slots, hlt, hn1, hxs]
          · simpa [hs] using hxs
      · intro sel j x hx
        by_cases hs : sel = get_state_vec r.state
        · subst hs
          simp only [vec_set_vec, if_true, hv''slot, hv'slot, swapdel_slots] at hx
          by_cases hlt : j < (s.vec (get_state_vec r.state)).fill - 1
          · rw [if_pos hlt] at hx
            by_cases hj : j = r.idx
            · rw [if_pos hj, hq] at hx
              have hxq : x = q := (Option.some.inj hx).symm
              rw [hxq]
              have hxp : q ≠ p := by
                intro e
                rw [e, hp] at hrq; cases hrq
                omega
              refine ⟨hxp, { rq with idx := r.idx }, ?_, hj.symm, hrqs⟩
              simp [hget]
            · rw [if_neg hj] at hx
              obtain ⟨_, rx, hrx, hrxi, hrxs⟩ := hslot _ j x hx
              have hxp : x ≠ p := by
                intro e
                rw [e, hp] at hrx; cases hrx
                exact hj hrxi.symm
              have hxq : x ≠ q := by
                intro e
                rw [e, hrq] at hrx; cases hrx
                omega
              refine ⟨hxp, rx, ?_, hrxi, hrxs⟩
              simp [hget, hxq, hrx]
          · rw [if_neg hlt] at hx; cases hx
        · simp only [vec_set_vec, hs, if_false, vec_with_procs] at hx
          obtain ⟨_, rx, hrx, hj, hsx⟩ := hslot sel j x hx
          have hxp : x ≠ p := by
            intro e
            rw [e, hp] at hrx; cases hrx
            exact hs hsx.symm
          have hxq : x ≠ q := by
            intro e
            rw [e, hrq] at hrx; cases hrx
            exact hs (hsx.symm.trans hrqs)
          refine ⟨hxp, rx, ?_, hj, hsx⟩
          simp [hget, hxq, hrx]
    · exact same_rest_remove _ _ _ _ _
    · refine ⟨by simp, fun x => ?_⟩
      simp only [procs_set_vec, hget]
      by_cases hxq : x = q
      · subst hxq; simp [hrq]
      · simp [hxq]
    · simp only [procs_set_vec, hget]
      by_cases hpq : p = q
      · subst hpq
        rw [hp] at hrq; cases hrq
        exact ⟨_, by simp, rfl⟩
      · exact ⟨r, by simp [hpq, hp], rfl⟩
    · exact vec_moved_remove _ _ _ _ _ hv'a.1 hv'a.2.1 hv'a.2.2 hv''eq

theorem same_rest_add (s : rust_rt) (sel : vec_sel) (v : ptr_vec) (h : Store rust_proc) :
    same_rest s ({ s.set_vec sel v with procs := h } : rust_rt) := by
  cases sel <;> simp [same_rest, rust_rt.set_vec]

theorem vec_moved_add (s : rust_rt) (sel : vec_sel) (v : ptr_vec) (h : Store rust_proc)
    (h1 : v.alloc = (s.vec sel).alloc) (h2 : v.fill = (s.vec sel).fill + 1) :
    vec_moved s ({ s.set_vec sel v with procs := h } : rust_rt) none (some sel) := by
  intro x
  by_cases hx : x = sel
  · subst hx
    simp only [vec_with_procs, vec_set_vec, if_true, reduceCtorEq, if_false]
    exact ⟨h1, by omega⟩
  · have hx' : ¬ (some sel = some x) := fun e => hx (Option.some.inj e).symm
    simp [hx, hx']

theorem add_spec {s : rust_rt} {p : Ptr} {r : rust_proc} (hinv : procs_inv_ex s p)
    (hp : s.procs.get p = some r) (hroom : (s.vec (get_state_vec r.state)).room) :
    ∃ t, add_proc_state_vec s p = Res.ok t ∧ procs_inv t ∧ same_rest s t ∧ same_cores s t ∧
      vec_moved s t none (some (get_state_vec r.state)) := by
  obtain ⟨hwf, hpos, hslot⟩ := (procs_inv_ex_iff s p).1 hinv
  obtain ⟨v', hpush, hv'wf, hv'fill, hv'slot⟩ :=
    ptr_vec.push_ok (H := s.procs) (hwf (get_state_vec r.state)) hroom hp
  have hv'a := ptr_vec.push_keeps_alloc hpush
  simp only [set_idx_proc] at hpush
  have hget : ∀ x, (s.procs.put p { r with idx := (s.vec (get_state_vec r.state)).fill }).get x =
      if x = p then some { r with idx := (s.vec (get_state_vec r.state)).fill }
      else s.procs.get x :=
    fun x => Store.get_put _ hp x
  refine ⟨{ s.set_vec (get_state_vec r.state) v' with
      procs := s.procs.put p { r with idx := (s.vec (get_state_vec r.state)).fill } }, ?_, ?_,
    same_rest_add _ _ _ _, ?_, vec_moved_add _ _ _ _ hv'a hv'fill⟩
  · simp [add_proc_state_vec, get_proc_vec, Store.deref_of_get hp, hpush]
  · unfold procs_inv
    rw [procs_inv_ex_iff]
    refine ⟨?_, ?_, ?_⟩
    · intro sel
      by_cases hs : sel = get_state_vec r.state
      · simp [hs, hv'wf]
      · simp [hs, hwf sel]
    · intro x rx hx _
      simp only [hget] at hx
      by_cases hxp : x = p
      · rw [if_pos hxp] at hx
        cases hx
        simp [hv'slot, hxp]
      · rw [if_neg hxp] at hx
        have hxs := hpos x rx hx hxp
        by_cases hs : get_state_vec rx.state = get_state_vec r.state
        · rw [hs] at hxs
          have hlt := (ptr_vec.slot_eq_some.1 hxs).1
          have hne : rx.idx ≠ (s.vec (get_state_vec r.state)).fill := by omega
          simp [hs, hv'slot, hne, hxs]
        · simpa [hs] using hxs
    · intro sel j x hx
      by_cases hs : sel = get_state_vec r.state
      · subst hs
        simp only [vec_with_procs, vec_set_vec, if_true, hv'slot] at hx
        by_cases hj : j = (s.vec (get_state_vec r.state)).fill
        · rw [if_pos hj] at hx
          have hxp : x = p := (Option.some.inj hx).symm
          rw [hxp]
          exact ⟨Store.ne_zero_of_get hp, { r with idx := (s.vec (get_state_vec r.state)).fill },
            by simp [hget], hj.symm, rfl⟩
        · rw [if_neg hj] at hx
          obtain ⟨hxp, rx, hrx, hrxi, hrxs⟩ := hslot _ j x hx
          exact ⟨Store.ne_zero_of_get hrx, rx, by simp [hget, hxp, hrx], hrxi, hrxs⟩
      · simp only [vec_with_procs, vec_set_vec, hs, if_false] at hx
        obtain ⟨hxp, rx, hrx, hrxi, hrxs⟩ := hslot sel j x hx
        exact ⟨Store.ne_zero_of_get hrx, rx, by simp [hget, hxp, hrx], hrxi, hrxs⟩
  · refine ⟨by simp, fun x => ?_⟩
    simp only [hget]
    by_cases hxp : x = p
    · subst hxp; simp [hp]
    · simp [hxp]

/-- Rewriting the record of the excluded proc keeps the invariant of the others. -/
theorem procs_inv_ex_put {s : rust_rt} {p : Ptr} {r : rust_proc} (r' : rust_proc)
    (hinv : procs_inv_ex s p) (hp : s.procs.get p = some r) :
    procs_inv_ex ({ s with procs := s.procs.put p r' } : rust_rt) p := by
  obtain ⟨hwf, hpos, hslot⟩ := (procs_inv_ex_iff s p).1 hinv
  have hget : ∀ x, (s.procs.put p r').get x = if x = p then some r' else s.procs.get x :=
    fun x => Store.get_put _ hp x
  rw [procs_inv_ex_iff]
  refine ⟨fun sel => by simpa using hwf sel, ?_, ?_⟩
  · intro x rx hx hxp
    simp only [hget, if_neg hxp] at hx
    simpa using hpos x rx hx hxp
  · intro sel j x hx
    simp only [vec_with_procs] at hx
    obtain ⟨hxp, rx, hrx, hrxi, hrxs⟩ := hslot sel j x hx
    exact ⟨hxp, rx, by simp [hget, hxp, hrx], hrxi, hrxs⟩

theorem core_state {a b : rust_proc} (h : a.core = b.core) : a.state = b.state := by
  have := congrArg rust_proc.state h
  simpa [rust_proc.core] using this

theorem core_chans {a b : rust_proc} (h : a.core = b.core) : a.chans = b.chans := by
  have := congrArg rust_proc.chans h
  simpa [rust_proc.core] using this

theorem core_args {a b : rust_proc} (h : a.core = b.core) : a.upcall_args = b.upcall_args := by
  have := congrArg rust_proc.upcall_args h
  simpa [rust_proc.core] using this

theorem core_with_state {a b : rust_proc} (h : a.core = b.core) (st : proc_state_t) :
    ({ a with state := st } : rust_proc).core = ({ b with state := st } : rust_proc).core := by
  cases a; cases b
  simp only [rust_proc.core, rust_proc.mk.injEq] at h ⊢
  obtain ⟨h1, h2, h3, h4, h5, h6, h7, h8, h9, h10, h11⟩ := h
  simp [*]

theorem same_cores_get {s t : rust_rt} (h : same_cores s t) {q : Ptr} {r : rust_proc}
    (hq : s.procs.get q = some r) : ∃ r', t.procs.get q = some r' ∧ r'.core = r.core := by
  have := h.2 q
  rw [hq] at this
  cases h' : t.procs.get q with
  | none => simp [h'] at this
  | some r' => exact ⟨r', rfl, by simpa [h'] using this⟩

theorem same_cores_get_rev {s t : rust_rt} (h : same_cores s t) {q : Ptr} {r : rust_proc}
    (hq : t.procs.get q = some r) : ∃ r', s.procs.get q = some r' ∧ r'.core = r.core := by
  have := h.2 q
  rw [hq] at this
  cases h' : s.procs.get q with
  | none => simp [h'] at this
  | some r' => exact ⟨r', rfl, by simpa [h'] using this.symm⟩

theorem pst_spec {s : rust_rt} {p : Ptr} {r : rust_proc} {a : proc_state_t}
    (dst : proc_state_t) (hinv : procs_inv s) (hsm : procs_small s)
    (hp : s.procs.get p = some r) (hst : r.state = a)
    (hroom : get_state_vec dst ≠ get_state_vec a → (s.vec (get_state_vec dst)).room) :
    ∃ t, proc_state_transition s p a dst = Res.ok t ∧ procs_inv t ∧ same_rest s t ∧
      proc_moved s t p dst ∧
      vec_moved s t (some (get_state_vec a)) (some (get_state_vec dst)) := by
  obtain ⟨t1, h1, hinv1, hrest1, hcores1, ⟨r1, hr1, hc1⟩, hvm1⟩ := remove_spec hinv hsm hp
  rw [hst] at hvm1
  have hinv2 := procs_inv_ex_put { r1 with state := dst } hinv1 hr1
  have hget2 : ∀ x, (t1.procs.put p { r1 with state := dst }).get x =
      if x = p then some { r1 with state := dst } else t1.procs.get x :=
    fun x => Store.get_put _ hr1 x
  have hp2 : ({ t1 with procs := t1.procs.put p { r1 with state := dst } } : rust_rt).procs.get p
      = some { r1 with state := dst } := by simp [hget2]
  have hroom2 : (({ t1 with procs := t1.procs.put p { r1 with state := dst } } : rust_rt).vec
      (get_state_vec ({ r1 with state := dst } : rust_proc).state)).room := by
    show ((({ t1 with procs := t1.procs.put p { r1 with state := dst } } : rust_rt).vec
      (get_state_vec dst)).fill < _)
    rw [vec_with_procs]
    obtain ⟨e1, e2⟩ := hvm1 (get_state_vec dst)
    rw [e1]
    simp only [reduceCtorEq, if_false, Nat.add_zero] at e2
    by_cases hsame : get_state_vec dst = get_state_vec a
    · have hw := ((procs_inv_ex_iff s 0).1 hinv).1 (get_state_vec dst)
      have hps := ((procs_inv_ex_iff s 0).1 hinv).2.1 p r hp (Store.ne_zero_of_get hp)
      rw [hst, ← hsame] at hps
      have hlt := (ptr_vec.slot_eq_some.1 hps).1
      rw [if_pos (by rw [hsame])] at e2
      have := hw.1
      omega
    · have := hroom hsame
      unfold ptr_vec.room at this
      rw [if_neg (fun e => hsame (Option.some.inj e).symm)] at e2
      omega
  obtain ⟨t3, h3, hinv3, hrest3, hcores3, hvm3⟩ := add_spec hinv2 hp2 hroom2
  refine ⟨t3, ?_, hinv3, ?_, ⟨?_, ?_, ?_⟩, ?_⟩
  · simp [proc_state_transition, Store.deref_of_get hp, hst, h1, Store.deref_of_get hr1, h3]
  · exact same_rest_trans hrest1 (same_rest_trans (by simp [same_rest]) hrest3)
  · rw [hcores3.1]; simpa using hcores1.1
  · intro q hq
    rw [hcores3.2 q]
    simp only [hget2, if_neg hq]
    exact hcores1.2 q
  · rw [hcores3.2 p]
    simp only [hget2, if_true, hp, Option.map_some']
    exact congrArg some (core_with_state hc1 dst)
  · exact vec_moved_trans hvm1 (vec_moved_congr hvm3 rfl rfl) rfl

/-- A state transition that moves a proc into the other vector, which is full,
stops at the store outside the storage the push reallocates. -/
theorem pst_full_oob {s : rust_rt} {p : Ptr} {r : rust_proc} {a : proc_state_t}
    (dst : proc_state_t) (hinv : procs_inv s) (hsm : procs_small s)
    (hp : s.procs.get p = some r) (hst : r.state = a)
    (hne : get_state_vec dst ≠ get_state_vec a)
    (hfull : (s.vec (get_state_vec dst)).fill = (s.vec (get_state_vec dst)).alloc) :
    proc_state_transition s p a dst = Res.err Err.oob := by
  obtain ⟨t1, h1, hinv1, hrest1, hcores1, ⟨r1, hr1, hc1⟩, hvm1⟩ := remove_spec hinv hsm hp
  rw [hst] at hvm1
  have hget2 : (t1.procs.put p { r1 with state := dst }).get p = some { r1 with state := dst } :=
    Store.get_put_self _ hr1
  obtain ⟨e1, e2⟩ := hvm1 (get_state_vec dst)
  rw [if_neg (fun e => hne (Option.some.inj e).symm)] at e2
  simp only [reduceCtorEq, if_false, Nat.add_zero] at e2
  have hwf := ((procs_inv_ex_iff t1 p).1 hinv1).1 (get_state_vec dst)
  have hpush := ptr_vec.push_full_oob (H := t1.procs.put p { r1 with state := dst })
    (v := t1.vec (get_state_vec dst)) (by rw [e1, e2]; exact hfull) hwf.2.2 hget2
  simp [proc_state_transition, Store.deref_of_get hp, hst, h1, Store.deref_of_get hr1,
    add_proc_state_vec, get_proc_vec, Store.deref_of_get hget2, hpush]

/-! ## `circ_buf` lemmas -/

theorem memcpy_blk_ok {d e : List Nat} {a b n : Nat} (h1 : b + n ≤ e.length)
    (h2 : a + n ≤ d.length) :
    memcpy_blk d a e b n =
      Res.ok (d.take a ++ (e.drop b).take n ++ d.drop (a + n)) := by
  simp [memcpy_blk, h1, h2]

theorem memcpy_blk_length {d e : List Nat} {a b n : Nat} (h1 : b + n ≤ e.length)
    (h2 : a + n ≤ d.length) :
    (d.take a ++ (e.drop b).take n ++ d.drop (a + n)).length = d.length := by
  simp only [List.length_append, List.length_take, List.length_drop]
  omega

theorem memcpy_blk_read {d e : List Nat} {a b n : Nat} (h1 : b + n ≤ e.length)
    (h2 : a + n ≤ d.length) :
    ((d.take a ++ (e.drop b).take n ++ d.drop (a + n)).drop a).take n =
      (e.drop b).take n := by
  have hl : (d.take a).length = a := by
    rw [List.length_take]; omega
  have hn : ((e.drop b).take n).length = n := by
    rw [List.length_take, List.length_drop]; omega
  rw [List.append_assoc, List.drop_append_eq_append_drop, hl, Nat.sub_self, List.drop_zero,
    List.drop_eq_nil_of_le (by omega), List.nil_append, List.take_append_eq_append_take, hn,
    Nat.sub_self, List.take_zero, List.append_nil, List.take_of_length_le (by omega)]

theorem transfer_loop_ok (b : circ_buf) (n : Nat) :
    ∀ (i : Nat) (d : List Nat),
      (∀ k, k < n → b.next + (i + k * b.unit_sz) % b.alloc + b.unit_sz ≤ b.data.length ∧
        (i + k * b.unit_sz) + b.unit_sz ≤ d.length) →
      ∃ d', b.transfer_loop n i d = Res.ok d' ∧ d'.length = d.length := by
  induction n with
  | zero => intro i d _; exact ⟨d, rfl, rfl⟩
  | succ n ih =>
    intro i d h
    have h0 := h 0 (by omega)
    simp only [Nat.zero_mul, Nat.add_zero] at h0
    have hlen := memcpy_blk_length (d := d) (e := b.data) (a := i)
      (b := b.next + i % b.alloc) (n := b.unit_sz) h0.1 h0.2
    obtain ⟨d', hd', hl'⟩ := ih (i + b.unit_sz)
      (d.take i ++ (b.data.drop (b.next + i % b.alloc)).take b.unit_sz ++ d.drop (i + b.unit_sz))
      (by
        intro k hk
        have := h (k + 1) (by omega)
        rw [hlen]
        have e : i + (k + 1) * b.unit_sz = i + b.unit_sz + k * b.unit_sz := by ring
        rw [e] at this
        exact this)
    refine ⟨d', ?_, by rw [hl', hlen]⟩
    simp only [circ_buf.transfer_loop, memcpy_blk_ok h0.1 h0.2, Res.ok_bind]
    exact hd'

theorem ceil_units {u x k : Nat} (hu : 0 < u) (hdvd : u ∣ x) (hk : k < (x + u - 1) / u) :
    k * u + u ≤ x := by
  obtain ⟨m, rfl⟩ := hdvd
  have h := (Nat.le_div_iff_mul_le hu).1 (Nat.succ_le_of_lt hk)
  have h' : k * u + u ≤ u * m + u - 1 := by rw [← Nat.succ_mul]; exact h
  have hkm : k < m := by
    by_contra hge
    have hge : m ≤ k := not_lt.mp hge
    have h2 : u * m ≤ k * u := Nat.mul_comm u m ▸ Nat.mul_le_mul_right u hge
    omega
  have h3 : (k + 1) * u ≤ m * u := Nat.mul_le_mul_right u hkm
  rw [Nat.succ_mul, Nat.mul_comm m u] at h3
  exact h3

/-- The transfer that compacts a contiguous buffer into storage of `n` bytes
ends normally. -/
theorem transfer_ok {b : circ_buf} {n : Nat} (hu : 0 < b.unit_sz) (hd : b.data.length = b.alloc)
    (hdvd : b.unit_sz ∣ b.unread) (hc : b.next + b.unread ≤ b.alloc) (hn : b.unread ≤ n) :
    ∃ d', b.transfer (List.replicate n 0) = Res.ok d' ∧ d'.length = n := by
  have hne : b.unit_sz ≠ 0 := by omega
  simp only [circ_buf.transfer, hne, if_false]
  obtain ⟨d', h1, h2⟩ := transfer_loop_ok b ((b.unread + b.unit_sz - 1) / b.unit_sz) 0
    (List.replicate n 0) (by
      intro k hk
      have hku := ceil_units hu hdvd hk
      have hlt : 0 + k * b.unit_sz < b.alloc := by omega
      rw [Nat.mod_eq_of_lt hlt, List.length_replicate]
      omega)
  exact ⟨d', h1, by simpa using h2⟩

@[simp] theorem malloc_free (s : rust_rt) : s.malloc.free = Res.ok s := by
  simp [rust_rt.free, rust_rt.malloc]

theorem shift_ok {b : circ_buf} {dst : Nat} (hb : b.wf)
    (hu : b.unit_sz ≤ b.unread) (hd : dst ≠ 0) :
    ∃ b1, (∀ s : rust_rt, b.shift s dst =
        Res.ok ({ s with mem := mem_write s.mem dst b.oldest }, b1)) ∧
      b1.unread = b.unread - b.unit_sz ∧ b1.unit_sz = b.unit_sz := by
  obtain ⟨h1, h2, h3, h4⟩ := hb
  have hnl : b.next + b.unit_sz ≤ b.data.length := by omega
  have hna : b.next + b.unit_sz ≤ b.alloc := by omega
  have hua : b.unread ≤ b.alloc := by omega
  by_cases hsh : b.alloc ≥ INIT_CIRC_BUF_UNITS * b.unit_sz ∧ b.unread - b.unit_sz ≤ b.alloc / 4
  · -- the storage is halved
    have hdvd' : b.unit_sz ∣ b.unread - b.unit_sz := (Nat.dvd_sub' h3 (dvd_refl _))
    obtain ⟨d', hd', _⟩ := transfer_ok
      (b := { b with unread := b.unread - b.unit_sz,
                     next := if b.next + b.unit_sz = b.alloc then 0 else b.next + b.unit_sz })
      (n := b.alloc / 2) h1 h2 hdvd'
      (by
        show (if b.next + b.unit_sz = b.alloc then 0 else b.next + b.unit_sz) +
          (b.unread - b.unit_sz) ≤ b.alloc
        split <;> omega)
      (by show b.unread - b.unit_sz ≤ b.alloc / 2; omega)
    refine ⟨{ b with unread := b.unread - b.unit_sz,
                     next := if b.next + b.unit_sz = b.alloc then 0 else b.next + b.unit_sz,
                     alloc := b.alloc >>> 1, data := d' }, ?_, rfl, rfl⟩
    intro s
    simp only [circ_buf.shift, I_bind, hd, h1, hu, hua, hnl, hna, ne_eq, not_false_eq_true,
      if_true, gt_iff_lt, ge_iff_le, hsh, and_self, Res.ok_bind, Res.pure_eq, hd']
    rw [show ∀ t : rust_rt, t.malloc.free = Res.ok t from malloc_free]
    rfl
  · refine ⟨{ b with unread := b.unread - b.unit_sz,
                     next := if b.next + b.unit_sz = b.alloc then 0 else b.next + b.unit_sz },
      ?_, rfl, rfl⟩
    intro s
    simp only [circ_buf.shift, I_bind, hd, h1, hu, hua, hnl, hna, ne_eq, not_false_eq_true,
      if_true, gt_iff_lt, ge_iff_le, hsh, if_false, Res.ok_bind, Res.pure_eq]
    rfl

theorem push_empty_ok {s : rust_rt} {b : circ_buf} {src : Nat} (hu : 0 < b.unit_sz)
    (hl : b.data.length = b.alloc) (hn : b.next + b.unit_sz ≤ b.alloc) (h0 : b.unread = 0)
    (hs : src ≠ 0) :
    b.push s src = Res.ok (s,
      { b with data := b.data.take b.next ++ mem_read s.mem src b.unit_sz ++
                 b.data.drop (b.next + b.unit_sz),
               unread := b.unit_sz }) := by
  have hne : ¬ (0 = b.alloc) := by omega
  have hlt : b.next < b.alloc := by omega
  have hmr : (mem_read s.mem src b.unit_sz).length = b.unit_sz := by simp [mem_read]
  have hcp := memcpy_blk_ok (d := b.data) (e := mem_read s.mem src b.unit_sz) (a := b.next)
    (b := 0) (n := b.unit_sz) (by omega) (by omega)
  have ht : (mem_read s.mem src b.unit_sz).take b.unit_sz = mem_read s.mem src b.unit_sz :=
    List.take_of_length_le (by omega)
  rw [List.drop_zero, ht] at hcp
  have hpos : 0 < b.alloc := by omega
  have hle : b.unit_sz ≤ b.alloc := by omega
  simp [circ_buf.push, hs, h0, hne, hpos, hle, Nat.mod_eq_of_lt hlt, hcp]

theorem mem_read_write (mem : Nat → Nat) (a : Nat) (bs : List Nat) :
    mem_read (mem_write mem a bs) a bs.length = bs := by
  apply List.ext_getElem
  · simp [mem_read]
  · intro i h1 h2
    simp only [mem_read, List.getElem_map, List.getElem_range, mem_write]
    have : a ≤ a + i ∧ a + i < a + bs.length := by omega
    rw [if_pos this]
    simp [h2]



/-- Whatever the buffer looks like, a shift that returns has stored the oldest
unit at `dst` and released nothing else of the runtime. -/
theorem shift_inv {s s1 : rust_rt} {b b1 : circ_buf} {dst : Nat}
    (h : b.shift s dst = Res.ok (s1, b1)) :
    s1 = { s with mem := mem_write s.mem dst b.oldest } ∧ b1.unit_sz = b.unit_sz ∧
      b1.unread = b.unread - b.unit_sz ∧ dst ≠ 0 ∧ 0 < b.unit_sz ∧ b.unit_sz ≤ b.unread := by
  unfold circ_buf.shift at h
  simp only [I_bind_eq_ok] at h
  obtain ⟨h1, h2, h3, _, h⟩ := h
  split at h
  · simp only [I_bind_eq_ok] at h
    obtain ⟨_, h⟩ := h
    split at h
    · rw [Res.bind_eq_ok] at h
      obtain ⟨d', _, h⟩ := h
      rw [show ∀ t : rust_rt, t.malloc.free = Res.ok t from malloc_free] at h
      simp only [Res.ok_bind, Res.pure_eq, ok_eq_ok, Prod.mk.injEq] at h
      obtain ⟨e1, e2⟩ := h
      subst e1 e2
      exact ⟨rfl, rfl, rfl, h1, h2, h3⟩
    · simp only [Res.pure_eq, ok_eq_ok, Prod.mk.injEq] at h
      obtain ⟨e1, e2⟩ := h
      subst e1 e2
      exact ⟨rfl, rfl, rfl, h1, h2, h3⟩
  · cases h

/-- Whatever the buffer looks like, a push that returns leaves the runtime as
it was and adds one unit to the unread count. -/
theorem push_inv {s s1 : rust_rt} {b b1 : circ_buf} {src : Nat}
    (h : b.push s src = Res.ok (s1, b1)) :
    s1 = s ∧ b1.unit_sz = b.unit_sz ∧ b1.unread = b.unread + b.unit_sz ∧ src ≠ 0 := by
  unfold circ_buf.push at h
  simp only [I_bind_eq_ok] at h
  obtain ⟨h1, _, h⟩ := h
  rw [Res.bind_eq_ok] at h
  obtain ⟨⟨s2, b2⟩, hg, h⟩ := h
  have hg' : s2 = s ∧ b2.unit_sz = b.unit_sz ∧ b2.unread = b.unread := by
    split at hg
    · simp only [I_bind_eq_ok] at hg
      obtain ⟨_, hg⟩ := hg
      rw [Res.bind_eq_ok] at hg
      obtain ⟨d', _, hg⟩ := hg
      rw [show ∀ t : rust_rt, t.malloc.free = Res.ok t from malloc_free] at hg
      simp only [Res.ok_bind, Res.pure_eq, ok_eq_ok, Prod.mk.injEq] at hg
      obtain ⟨e1, e2⟩ := hg
      subst e1 e2
      exact ⟨rfl, rfl, rfl⟩
    · simp only [Res.pure_eq, ok_eq_ok, Prod.mk.injEq] at hg
      obtain ⟨e1, e2⟩ := hg
      subst e1 e2
      exact ⟨rfl, rfl, rfl⟩
  obtain ⟨e1, e2, e3⟩ := hg'
  subst e1
  simp only [I_bind_eq_ok] at h
  obtain ⟨_, _, h⟩ := h
  rw [Res.bind_eq_ok] at h
  obtain ⟨d, _, h⟩ := h
  simp only [Res.pure_eq, ok_eq_ok, Prod.mk.injEq] at h
  obtain ⟨e4, e5⟩ := h
  subst e4 e5
  exact ⟨rfl, e2, by simp [e2, e3], h1⟩

/-! ## Transmission -/

theorem procs_inv_ex_congr {s t : rust_rt} {ex : Ptr} (h1 : t.procs = s.procs)
    (h2 : t.running_procs = s.running_procs) (h3 : t.blocked_procs = s.blocked_procs)
    (h : procs_inv_ex s ex) : procs_inv_ex t ex := by
  have hv : ∀ sel, t.vec sel = s.vec sel := by
    intro sel; cases sel <;> simp [rust_rt.vec, h2, h3]
  unfold procs_inv_ex vec_slots_ok at *
  simp only [hv, h1, h2, h3]
  exact h

theorem procs_inv_congr {s t : rust_rt} (h1 : t.procs = s.procs)
    (h2 : t.running_procs = s.running_procs) (h3 : t.blocked_procs = s.blocked_procs)
    (h : procs_inv s) : procs_inv t :=
  procs_inv_ex_congr h1 h2 h3 h

theorem proc_moved_ne {s t : rust_rt} {p q : Ptr} {dst : proc_state_t} {r : rust_proc}
    (h : proc_moved s t p dst) (hq : q ≠ p) (hr : s.procs.get q = some r) :
    ∃ r', t.procs.get q = some r' ∧ r'.core = r.core := by
  have := h.2.1 q hq
  rw [hr] at this
  cases h' : t.procs.get q with
  | none => simp [h'] at this
  | some r' => exact ⟨r', rfl, by simpa [h'] using this⟩

theorem proc_moved_self {s t : rust_rt} {p : Ptr} {dst : proc_state_t} {r : rust_proc}
    (h : proc_moved s t p dst) (hr : s.procs.get p = some r) :
    ∃ r', t.procs.get p = some r' ∧ r'.state = dst ∧ r'.chans = r.chans ∧
      r'.upcall_args = r.upcall_args := by
  have := h.2.2
  rw [hr] at this
  cases h' : t.procs.get p with
  | none => simp [h'] at this
  | some r' =>
    have hc : r'.core = ({ r with state := dst } : rust_proc).core := by simpa [h'] using this
    exact ⟨r', rfl, core_state hc, core_chans (b := { r with state := dst }) hc,
      core_args (b := { r with state := dst }) hc⟩

/-- With a destination that is not in blocked-reading the transmission is
incomplete and the runtime is untouched. -/
theorem attempt_not_reading {s : rust_rt} {src dst : Ptr} {d : rust_proc} (hsrc : src ≠ 0)
    (hd : s.procs.get dst = some d) (hst : d.state ≠ .blocked_reading) :
    attempt_transmission s src dst = Res.ok (s, 0) := by
  have hdst : dst ≠ 0 := Store.ne_zero_of_get hd
  simp [attempt_transmission, hsrc, hdst, Store.deref_of_get hd, hst]

/-- With an empty buffer (and a blocked sender, if any, in blocked-writing) the
transmission is incomplete and the runtime is untouched. -/
theorem attempt_empty {s : rust_rt} {src dst : Ptr} {d : rust_proc} {c : rust_chan}
    (hd : s.procs.get dst = some d) (hc : s.chan_heap.get src = some c)
    (hbl : c.blocked = 0 ∨ ∃ b, s.procs.get c.blocked = some b ∧ b.state = .blocked_writing)
    (h0 : c.buf.unread = 0) :
    attempt_transmission s src dst = Res.ok (s, 0) := by
  have hdst : dst ≠ 0 := Store.ne_zero_of_get hd
  have hsrc : src ≠ 0 := Store.ne_zero_of_get hc
  by_cases hst : d.state = .blocked_reading
  · rcases hbl with hb0 | ⟨b, hb, hbs⟩
    · simp [attempt_transmission, hsrc, hdst, Store.deref_of_get hd, hst,
        Store.deref_of_get hc, hb0, h0]
    · have hbn : c.blocked ≠ 0 := Store.ne_zero_of_get hb
      simp [attempt_transmission, hsrc, hdst, Store.deref_of_get hd, hst,
        Store.deref_of_get hc, hbn, Store.deref_of_get hb, hbs, h0]
  · exact attempt_not_reading hsrc hd hst

/-- A transmission to a destination in blocked-reading from a channel whose
buffer is not empty and can be shifted completes; its effect on the runtime. -/
theorem attempt_complete_of_shift {s s' : rust_rt} {src dst : Ptr} {d : rust_proc}
    {c : rust_chan} {b1 : circ_buf}
    (hinv : procs_inv s) (hd : s.procs.get dst = some d) (hst : d.state = .blocked_reading)
    (hc : s.chan_heap.get src = some c) (hne0 : c.buf.unread ≠ 0)
    (hshift : c.buf.shift s (d.arg 0) = Res.ok (s', b1))
    (hbl : c.blocked = 0 ∨ ∃ b, s.procs.get c.blocked = some b ∧ b.state = .blocked_writing)
    (hsm : procs_small s)
    (hroom : s.running_procs.fill + (if c.blocked = 0 then 1 else 2) ≤ s.running_procs.alloc) :
    ∃ t, attempt_transmission s src dst = Res.ok (t, 1) ∧ procs_inv t ∧
      t.chan_heap = s.chan_heap.put src { c with buf := b1, blocked := 0 } ∧
      t.port_heap = s.port_heap ∧ t.live_allocs = s.live_allocs ∧ t.stks = s.stks ∧
      t.root_proc = s.root_proc ∧ t.ports = s.ports ∧
      t.mem = mem_write s.mem (d.arg 0) c.buf.oldest ∧
      t.procs.length = s.procs.length ∧
      (∀ q, q ≠ dst → q ≠ c.blocked →
        (t.procs.get q).map rust_proc.core = (s.procs.get q).map rust_proc.core) ∧
      (∃ d', t.procs.get dst = some d' ∧ d'.state = .running ∧ d'.chans = d.chans ∧
        d'.upcall_args = d.upcall_args) ∧
      (∀ b, s.procs.get c.blocked = some b → ∃ b', t.procs.get c.blocked = some b' ∧
        b'.state = .running ∧ b'.chans = b.chans ∧ b'.upcall_args = b.upcall_args) := by
  have hdst : dst ≠ 0 := Store.ne_zero_of_get hd
  have hsrc : src ≠ 0 := Store.ne_zero_of_get hc
  have hsh : c.buf.shift s (d.arg 0) =
      Res.ok ({ s with mem := mem_write s.mem (d.arg 0) c.buf.oldest }, b1) := by
    rw [hshift, (shift_inv hshift).1]
  rcases hbl with hb0 | ⟨b, hbget, hbs⟩
  · -- no blocked sender
    obtain ⟨cp, cq, ci, cb, cbuf⟩ := c
    simp only at hb0 hne0 hroom
    subst hb0
    rw [if_pos rfl] at hroom
    have hinv2 : procs_inv ({ s with
        mem := mem_write s.mem (d.arg 0) cbuf.oldest,
        chan_heap := s.chan_heap.put src (⟨cp, cq, ci, 0, b1⟩ : rust_chan) } : rust_rt) :=
      procs_inv_congr rfl rfl rfl hinv
    obtain ⟨t, ht, hinvt, hrest, hmoved, _⟩ :=
      pst_spec (a := .blocked_reading) .running hinv2 hsm (p := dst) (r := d) hd hst
        (fun _ => by
          show s.running_procs.fill < s.running_procs.alloc
          omega)
    obtain ⟨a1, a2, a3, a4, a5, a6, a7⟩ := hrest
    refine ⟨t, ?_, hinvt, ?_, a4, a1, a6, a2, a3, a7, hmoved.1, ?_, ?_, ?_⟩
    · simp [attempt_transmission, hsrc, hdst, Store.deref_of_get hd, hst,
        Store.deref_of_get hc, hne0, hsh, ht]
    · rw [a5]
    · intro q hq _
      exact hmoved.2.1 q hq
    · exact proc_moved_self hmoved hd
    · intro b hb
      simp at hb
  · -- a blocked sender is woken
    have hbn : c.blocked ≠ 0 := Store.ne_zero_of_get hbget
    have hne : dst ≠ c.blocked := by
      intro e
      rw [e, hbget] at hd
      cases hd
      rw [hst] at hbs; cases hbs
    have hinv2 : procs_inv ({ s with
        mem := mem_write s.mem (d.arg 0) c.buf.oldest,
        chan_heap := s.chan_heap.put src { c with buf := b1 } } : rust_rt) :=
      procs_inv_congr rfl rfl rfl hinv
    rw [if_neg hbn] at hroom
    obtain ⟨t, ht, hinvt, hrest, hmoved, hvm⟩ :=
      pst_spec (a := .blocked_writing) .running hinv2 hsm (p := c.blocked) (r := b) hbget hbs
        (fun _ => by
          show s.running_procs.fill < s.running_procs.alloc
          omega)
    have hsmt : procs_small t := procs_small_of_moved hvm hsm
    have hvr := hvm .running_procs
    simp only [get_state_vec, Option.some.injEq, reduceCtorEq, if_false, if_true, Nat.add_zero] at hvr
    obtain ⟨a1, a2, a3, a4, a5, a6, a7⟩ := hrest
    have hct : t.chan_heap.get src = some { c with buf := b1 } := by
      rw [a5]; exact Store.get_put_self _ hc
    have hinv3 : procs_inv
        ({ t with chan_heap := t.chan_heap.put src { c with buf := b1, blocked := 0 } } : rust_rt) :=
      procs_inv_congr rfl rfl rfl hinvt
    obtain ⟨d1, hd1, hd1c⟩ := proc_moved_ne hmoved hne hd
    have hd1s : d1.state = .blocked_reading := (core_state hd1c).trans hst
    obtain ⟨u, hu', hinvu, hrestu, hmovedu, _⟩ :=
      pst_spec (a := .blocked_reading) .running hinv3 hsmt (p := dst) (r := d1) hd1 hd1s
        (fun _ => by
          show t.running_procs.fill < t.running_procs.alloc
          have e1 : (t.vec .running_procs).alloc = s.running_procs.alloc := hvr.1
          have e2 : (t.vec .running_procs).fill = s.running_procs.fill + 1 := hvr.2
          have e3 : t.vec .running_procs = t.running_procs := rfl
          rw [e3] at e1 e2
          omega)
    obtain ⟨c1, c2, c3, c4, c5, c6, c7⟩ := hrestu
    refine ⟨u, ?_, hinvu, ?_, c4.trans a4, c1.trans a1, c6.trans a6, c2.trans a2,
      c3.trans a3, c7.trans a7, hmovedu.1.trans hmoved.1, ?_, ?_, ?_⟩
    · simp [attempt_transmission, hsrc, hdst, Store.deref_of_get hd, hst,
        Store.deref_of_get hc, hbn, Store.deref_of_get hbget, hbs, hne0, hsh, ht,
        Store.deref_of_get hct, hu']
    · rw [c5]
      show t.chan_heap.put src _ = _
      rw [a5]
      show (s.chan_heap.put src { c with buf := b1 }).put src _ = _
      cases src with
      | zero => exact absurd rfl hsrc
      | succ n => simp [Store.put]
    · intro q hq1 hq2
      rw [hmovedu.2.1 q hq1]
      exact hmoved.2.1 q hq2
    · obtain ⟨d', hd', e1, e2, e3⟩ := proc_moved_self hmovedu hd1
      exact ⟨d', hd', e1, e2.trans (core_chans hd1c), e3.trans (core_args hd1c)⟩
    · intro b' hb'
      rw [hbget] at hb'; cases hb'
      obtain ⟨b1', hb1', e1, e2, e3⟩ := proc_moved_self hmoved hbget
      obtain ⟨b2, hb2, hb2c⟩ := proc_moved_ne hmovedu (Ne.symm hne) hb1'
      exact ⟨b2, hb2, (core_state hb2c).trans e1, (core_chans hb2c).trans e2,
        (core_args hb2c).trans e3⟩

/-- A transmission to a destination in blocked-reading from a channel that
holds at least one unit completes. -/
theorem attempt_complete {s : rust_rt} {src dst : Ptr} {d : rust_proc} {c : rust_chan}
    (hinv : procs_inv s) (hd : s.procs.get dst = some d) (hst : d.state = .blocked_reading)
    (hc : s.chan_heap.get src = some c) (hb : c.buf.wf) (hu : c.buf.unit_sz ≤ c.buf.unread)
    (hdp : d.arg 0 ≠ 0)
    (hbl : c.blocked = 0 ∨ ∃ b, s.procs.get c.blocked = some b ∧ b.state = .blocked_writing)
    (hsm : procs_small s)
    (hroom : s.running_procs.fill + (if c.blocked = 0 then 1 else 2) ≤ s.running_procs.alloc) :
    ∃ t b1, attempt_transmission s src dst = Res.ok (t, 1) ∧ procs_inv t ∧
      (∀ x : rust_rt, c.buf.shift x (d.arg 0) =
        Res.ok ({ x with mem := mem_write x.mem (d.arg 0) c.buf.oldest }, b1)) ∧
      b1.unread = c.buf.unread - c.buf.unit_sz ∧ b1.unit_sz = c.buf.unit_sz ∧
      t.chan_heap = s.chan_heap.put src { c with buf := b1, blocked := 0 } ∧
      t.port_heap = s.port_heap ∧ t.live_allocs = s.live_allocs ∧ t.stks = s.stks ∧
      t.root_proc = s.root_proc ∧ t.ports = s.ports ∧
      t.mem = mem_write s.mem (d.arg 0) c.buf.oldest ∧
      t.procs.length = s.procs.length ∧
      (∀ q, q ≠ dst → q ≠ c.blocked →
        (t.procs.get q).map rust_proc.core = (s.procs.get q).map rust_proc.core) ∧
      (∃ d', t.procs.get dst = some d' ∧ d'.state = .running ∧ d'.chans = d.chans ∧
        d'.upcall_args = d.upcall_args) ∧
      (∀ b, s.procs.get c.blocked = some b → ∃ b', t.procs.get c.blocked = some b' ∧
        b'.state = .running ∧ b'.chans = b.chans ∧ b'.upcall_args = b.upcall_args) := by
  have hupos : 0 < c.buf.unit_sz := hb.1
  have hne0 : c.buf.unread ≠ 0 := by omega
  obtain ⟨b1, hsh, hb1u, hb1s⟩ := shift_ok hb hu hdp
  obtain ⟨t, h⟩ := attempt_complete_of_shift hinv hd hst hc hne0 (hsh s) hbl hsm hroom
  exact ⟨t, b1, h.1, h.2.1, hsh, hb1u, hb1s, h.2.2⟩

/-! ## Receive -/

theorem arg_of_args {a b : rust_proc} (h : a.upcall_args = b.upcall_args) (i : Nat) :
    a.arg i = b.arg i := by
  simp [rust_proc.arg, h]

/-- Receive on a port without queued writers: the receiver blocks. -/
theorem recv_empty {s : rust_rt} {dst port : Ptr} {d : rust_proc} {pt : rust_port} (r : Nat)
    (hinv : procs_inv s) (hd : s.procs.get dst = some d) (hst : d.state = .calling_c)
    (hpt : s.port_heap.get port = some pt) (hown : pt.proc = dst) (h0 : pt.writers.fill = 0)
    (hsm : procs_small s) (hbr : s.blocked_procs.room) :
    ∃ t, upcall_recv s dst port r = Res.ok t ∧ procs_inv t ∧ same_rest s t ∧
      proc_moved s t dst .blocked_reading := by
  have hdst : dst ≠ 0 := Store.ne_zero_of_get hd
  have hport : port ≠ 0 := Store.ne_zero_of_get hpt
  obtain ⟨t, ht, hinvt, hrest, hmoved, _⟩ :=
    pst_spec (a := .calling_c) .blocked_reading hinv hsm hd hst (fun _ => hbr)
  refine ⟨t, ?_, hinvt, hrest, hmoved⟩
  simp [upcall_recv, Store.deref_of_get hd, hport, Store.deref_of_get hpt, hown, hdst, ht, h0]

/-- Receive on a port with queued writers, for the writer the random value
picks: the transmission completes and the writer leaves the vector. -/
theorem recv_ready {s : rust_rt} {dst port schan : Ptr} {d : rust_proc} {pt : rust_port}
    {c : rust_chan} (r : Nat)
    (hinv : procs_inv s) (hd : s.procs.get dst = some d) (hst : d.state = .calling_c)
    (hpt : s.port_heap.get port = some pt) (hown : pt.proc = dst) (hw : pt.writers.wf)
    (hpos : 0 < pt.writers.fill)
    (hpick : pt.writers.slot (r % pt.writers.fill) = some schan)
    (hc : s.chan_heap.get schan = some c) (hidx : c.idx = r % pt.writers.fill)
    (hb : c.buf.wf) (hu : c.buf.unit_sz ≤ c.buf.unread) (hdp : d.arg 0 ≠ 0)
    (hbl : c.blocked = 0 ∨ ∃ b, s.procs.get c.blocked = some b ∧ b.state = .blocked_writing)
    (hlast : ∀ q, pt.writers.slot (pt.writers.fill - 1) = some q →
      ∃ cq, s.chan_heap.get q = some cq)
    (hsm : procs_small s) (hbr : s.blocked_procs.room)
    (hrr : s.running_procs.fill + (if c.blocked = 0 then 0 else 1) ≤ s.running_procs.alloc)
    (hws : pt.writers.small) :
    ∃ t b1 w, upcall_recv s dst port r = Res.ok t ∧ procs_inv t ∧
      (∀ x : rust_rt, c.buf.shift x (d.arg 0) =
        Res.ok ({ x with mem := mem_write x.mem (d.arg 0) c.buf.oldest }, b1)) ∧
      b1.unread = c.buf.unread - c.buf.unit_sz ∧ b1.unit_sz = c.buf.unit_sz ∧
      t.mem = mem_write s.mem (d.arg 0) c.buf.oldest ∧
      t.chan_heap.get schan = some { c with buf := b1, blocked := 0, queued := 0 } ∧
      (∀ q, q ≠ schan → pt.writers.slot (pt.writers.fill - 1) ≠ some q →
        t.chan_heap.get q = s.chan_heap.get q) ∧
      (∀ q cq, q ≠ schan → pt.writers.slot (pt.writers.fill - 1) = some q →
        s.chan_heap.get q = some cq →
        t.chan_heap.get q = some { cq with idx := r % pt.writers.fill }) ∧
      t.chan_heap.length = s.chan_heap.length ∧
      t.port_heap = s.port_heap.put port { pt with writers := w } ∧
      w.wf ∧ w.fill = pt.writers.fill - 1 ∧
      (∀ j, w.slot j = swapdel_slots pt.writers (r % pt.writers.fill) j) ∧
      t.live_allocs = s.live_allocs ∧ t.stks = s.stks ∧ t.root_proc = s.root_proc ∧
      t.ports = s.ports ∧ t.procs.length = s.procs.length ∧
      (∀ q, q ≠ dst → q ≠ c.blocked →
        (t.procs.get q).map rust_proc.core = (s.procs.get q).map rust_proc.core) ∧
      (∃ d', t.procs.get dst = some d' ∧ d'.state = .running ∧ d'.chans = d.chans ∧
        d'.upcall_args = d.upcall_args) ∧
      (∀ b, s.procs.get c.blocked = some b → ∃ b', t.procs.get c.blocked = some b' ∧
        b'.state = .running ∧ b'.chans = b.chans ∧ b'.upcall_args = b.upcall_args) := by
  have hdst : dst ≠ 0 := Store.ne_zero_of_get hd
  have hport : port ≠ 0 := Store.ne_zero_of_get hpt
  have hschan : schan ≠ 0 := Store.ne_zero_of_get hc
  obtain ⟨hpi, hpd⟩ := ptr_vec.slot_eq_some.1 hpick
  -- the receiver blocks
  obtain ⟨s1, hs1, hinv1, hrest1, hmoved1, hvm1⟩ :=
    pst_spec (a := .calling_c) .blocked_reading hinv hsm hd hst (fun _ => hbr)
  have hsm1 : procs_small s1 := procs_small_of_moved hvm1 hsm
  have hroom1 : s1.running_procs.fill + (if c.blocked = 0 then 1 else 2) ≤
      s1.running_procs.alloc := by
    have hvr := hvm1 .running_procs
    simp only [get_state_vec, Option.some.injEq, reduceCtorEq, if_false, if_true, Nat.add_zero] at hvr
    have e3 : s1.vec .running_procs = s1.running_procs := rfl
    have e4 : s.vec .running_procs = s.running_procs := rfl
    rw [e3, e4] at hvr
    split at hrr <;> rename_i hcb
    · rw [if_pos hcb]; omega
    · rw [if_neg hcb]; omega
  obtain ⟨a1, a2, a3, a4, a5, a6, a7⟩ := hrest1
  obtain ⟨d1, hd1, hd1s, hd1c, hd1a⟩ := proc_moved_self hmoved1 hd
  have hc1 : s1.chan_heap.get schan = some c := by rw [a5]; exact hc
  have hbl1 : c.blocked = 0 ∨
      ∃ b, s1.procs.get c.blocked = some b ∧ b.state = .blocked_writing := by
    rcases hbl with h | ⟨b, hbg, hbs⟩
    · exact Or.inl h
    · have hne : c.blocked ≠ dst := by
        intro e; rw [e, hd] at hbg; cases hbg; rw [hst] at hbs; cases hbs
      obtain ⟨b', hb', hb'c⟩ := proc_moved_ne hmoved1 hne hbg
      exact Or.inr ⟨b', hb', (core_state hb'c).trans hbs⟩
  have hdp1 : d1.arg 0 ≠ 0 := by rw [arg_of_args hd1a]; exact hdp
  -- the transmission completes
  obtain ⟨s2, b1, hs2, hinv2, hsh, hb1u, hb1s, hch2, hph2, hla2, hst2, hrp2, hpo2, hmem2, hlen2,
    hoth2, hd2, hb2⟩ := attempt_complete hinv1 hd1 hd1s hc1 hb hu hdp1 hbl1 hsm1 hroom1
  rw [arg_of_args hd1a] at hsh hmem2
  have hpt2 : s2.port_heap.get port = some pt := by rw [hph2, a4]; exact hpt
  have hget2 : ∀ x, s2.chan_heap.get x =
      if x = schan then some { c with buf := b1, blocked := 0 } else s.chan_heap.get x := by
    intro x; rw [hch2, a5]; exact Store.get_put _ hc x
  have hc2 : s2.chan_heap.get schan = some { c with buf := b1, blocked := 0 } := by
    simp [hget2]
  have hi2 : HasIdx.idx ({ c with buf := b1, blocked := 0 } : rust_chan) < pt.writers.fill := by
    simpa [hidx] using hpi
  have hprocs : ∀ q, q ≠ dst → q ≠ c.blocked →
      (s2.procs.get q).map rust_proc.core = (s.procs.get q).map rust_proc.core := by
    intro q h1 h2
    rw [hoth2 q h1 h2]
    exact hmoved1.2.1 q h1
  have hdfin : ∃ d', s2.procs.get dst = some d' ∧ d'.state = .running ∧ d'.chans = d.chans ∧
      d'.upcall_args = d.upcall_args := by
    obtain ⟨d', e0, e1, e2, e3⟩ := hd2
    exact ⟨d', e0, e1, e2.trans hd1c, e3.trans hd1a⟩
  have hbfin : ∀ b, s.procs.get c.blocked = some b → ∃ b', s2.procs.get c.blocked = some b' ∧
      b'.state = .running ∧ b'.chans = b.chans ∧ b'.upcall_args = b.upcall_args := by
    intro b hbg
    have hne : c.blocked ≠ dst := by
      intro e
      rcases hbl with h | ⟨b0, hbg0, hbs0⟩
      · rw [h] at hbg; simp at hbg
      · rw [e, hd] at hbg0; cases hbg0; rw [hst] at hbs0; cases hbs0
    obtain ⟨b', hb', hb'c⟩ := proc_moved_ne hmoved1 hne hbg
    obtain ⟨b'', e0, e1, e2, e3⟩ := hb2 b' hb'
    exact ⟨b'', e0, e1, e2.trans (core_chans hb'c), e3.trans (core_args hb'c)⟩
  by_cases h1 : pt.writers.fill = 1
  · obtain ⟨w, hsw, hwwf, hwfill, hwslot⟩ :=
      ptr_vec.swapdel_one (H := s2.chan_heap) hw hc2 hi2 h1
    obtain ⟨w1, htr, hw1wf, hw1fill, hw1slot, _⟩ :=
      ptr_vec.trim_ok hwwf (by
        unfold ptr_vec.small at hws ⊢
        rw [(ptr_vec.swapdel_alloc hsw).1]; exact hws) (le_refl w.fill)
    refine ⟨{ s2 with
        chan_heap := s2.chan_heap.put schan { c with buf := b1, blocked := 0, queued := 0 },
        port_heap := s2.port_heap.put port { pt with writers := w1 } },
      b1, w1, ?_, procs_inv_congr rfl rfl rfl hinv2, hsh, hb1u, hb1s, hmem2.trans (by rw [a7]),
      ?_, ?_, ?_, ?_, ?_, hw1wf, ?_, ?_, hla2.trans a1, hst2.trans a6, hrp2.trans a2,
      hpo2.trans a3, hlen2.trans hmoved1.1, hprocs, hdfin, hbfin⟩
    · simp [upcall_recv, Store.deref_of_get hd, hport, Store.deref_of_get hpt, hown, hdst, hs1,
        hpos, peek, hpd, Store.deref_of_get hc1, hidx, hs2, Store.deref_of_get hpt2, hsw, htr,
        Store.deref_of_get hc2]
    · exact Store.get_put_self _ hc2
    · intro q hq _
      show (s2.chan_heap.put schan _).get q = _
      rw [Store.get_put_ne _ hq, hget2, if_neg hq]
    · intro q cq hq hql _
      exfalso
      have : pt.writers.fill - 1 = r % pt.writers.fill := by
        have := Nat.mod_lt r hpos; omega
      rw [this, hpick] at hql
      exact hq (Option.some.inj hql).symm
    · show (s2.chan_heap.put schan _).length = _
      rw [Store.length_put, hch2, Store.length_put, a5]
    · show s2.port_heap.put port _ = _
      rw [hph2, a4]
    · rw [hw1fill, hwfill, h1]
    · intro j
      rw [hw1slot, hwslot]
      simp [swapdel_slots, h1]
  · have hgt : 1 < pt.writers.fill := by omega
    obtain ⟨hw1', hw2', hw3'⟩ := hw
    have hlq : ∃ q, pt.writers.slot (pt.writers.fill - 1) = some q := by
      have hlt : pt.writers.fill - 1 < pt.writers.data.length := by omega
      refine ⟨pt.writers.data[pt.writers.fill - 1], ?_⟩
      rw [ptr_vec.slot_eq_some]
      exact ⟨by omega, List.getElem?_eq_getElem hlt⟩
    obtain ⟨q, hq⟩ := hlq
    obtain ⟨cq, hcq⟩ := hlast q hq
    by_cases hqs : q = schan
    · -- the picked channel is the last one
      subst hqs
      obtain ⟨w, hsw, hwwf, hwfill, hwslot⟩ :=
        ptr_vec.swapdel_many (H := s2.chan_heap) ⟨hw1', hw2', hw3'⟩ hc2 hi2 hgt hq hc2
      simp only [idx_chan, set_idx_chan, hidx] at hsw hwslot
      have hrec : ({ c with buf := b1, blocked := 0, idx := r % pt.writers.fill } : rust_chan)
          = { c with buf := b1, blocked := 0 } := by
        cases c; simp at hidx; simp [hidx]
      obtain ⟨w1, htr, hw1wf, hw1fill, hw1slot, _⟩ :=
      ptr_vec.trim_ok hwwf (by
        unfold ptr_vec.small at hws ⊢
        rw [(ptr_vec.swapdel_alloc hsw).1]; exact hws) (le_refl w.fill)
      have hc3 : (s2.chan_heap.put q
          { c with buf := b1, blocked := 0, idx := r % pt.writers.fill }).get q =
          some { c with buf := b1, blocked := 0 } := by
        rw [Store.get_put_self _ hc2, hrec]
      refine ⟨{ s2 with
        chan_heap := ((s2.chan_heap.put q
          { c with buf := b1, blocked := 0, idx := r % pt.writers.fill }).put q
            { c with buf := b1, blocked := 0, queued := 0 }),
        port_heap := s2.port_heap.put port { pt with writers := w1 } },
        b1, w1, ?_, procs_inv_congr rfl rfl rfl hinv2, hsh, hb1u, hb1s, hmem2.trans (by rw [a7]),
        ?_, ?_, ?_, ?_, ?_, hw1wf, ?_, ?_, hla2.trans a1, hst2.trans a6, hrp2.trans a2,
        hpo2.trans a3, hlen2.trans hmoved1.1, hprocs, hdfin, hbfin⟩
      · simp [upcall_recv, Store.deref_of_get hd, hport, Store.deref_of_get hpt, hown, hdst, hs1,
          hpos, peek, hpd, Store.deref_of_get hc1, hidx, hs2, Store.deref_of_get hpt2, hsw, htr,
          Store.deref_of_get hc3]
      · exact Store.get_put_self _ hc3
      · intro x hx _
        show ((s2.chan_heap.put q _).put q _).get x = _
        rw [Store.get_put_ne _ hx, Store.get_put_ne _ hx, hget2, if_neg hx]
      · intro x cx hx hxl _
        rw [hq] at hxl
        exact absurd (Option.some.inj hxl).symm hx
      · show ((s2.chan_heap.put q _).put q _).length = _
        rw [Store.length_put, Store.length_put, hch2, Store.length_put, a5]
      · show s2.port_heap.put port _ = _
        rw [hph2, a4]
      · rw [hw1fill, hwfill]
      · intro j
        rw [hw1slot, hwslot]
    · -- another channel is moved into the slot of the picked one
      have hcq2 : s2.chan_heap.get q = some cq := by rw [hget2, if_neg hqs]; exact hcq
      obtain ⟨w, hsw, hwwf, hwfill, hwslot⟩ :=
        ptr_vec.swapdel_many (H := s2.chan_heap) ⟨hw1', hw2', hw3'⟩ hc2 hi2 hgt hq hcq2
      simp only [idx_chan, set_idx_chan, hidx] at hsw hwslot
      obtain ⟨w1, htr, hw1wf, hw1fill, hw1slot, _⟩ :=
      ptr_vec.trim_ok hwwf (by
        unfold ptr_vec.small at hws ⊢
        rw [(ptr_vec.swapdel_alloc hsw).1]; exact hws) (le_refl w.fill)
      have hc3 : (s2.chan_heap.put q { cq with idx := r % pt.writers.fill }).get schan =
          some { c with buf := b1, blocked := 0 } := by
        rw [Store.get_put_ne _ (Ne.symm hqs)]; exact hc2
      refine ⟨{ s2 with
        chan_heap := ((s2.chan_heap.put q
          { cq with idx := r % pt.writers.fill }).put schan
            { c with buf := b1, blocked := 0, queued := 0 }),
        port_heap := s2.port_heap.put port { pt with writers := w1 } },
        b1, w1, ?_, procs_inv_congr rfl rfl rfl hinv2, hsh, hb1u, hb1s, hmem2.trans (by rw [a7]),
        ?_, ?_, ?_, ?_, ?_, hw1wf, ?_, ?_, hla2.trans a1, hst2.trans a6, hrp2.trans a2,
        hpo2.trans a3, hlen2.trans hmoved1.1, hprocs, hdfin, hbfin⟩
      · simp [upcall_recv, Store.deref_of_get hd, hport, Store.deref_of_get hpt, hown, hdst, hs1,
          hpos, peek, hpd, Store.deref_of_get hc1, hidx, hs2, Store.deref_of_get hpt2, hsw, htr,
          Store.deref_of_get hc3]
      · exact Store.get_put_self _ hc3
      · intro x hx hxl
        have hxq : x ≠ q := by
          intro e; rw [e] at hxl; exact hxl hq
        show ((s2.chan_heap.put q _).put schan _).get x = _
        rw [Store.get_put_ne _ hx, Store.get_put_ne _ hxq, hget2, if_neg hx]
      · intro x cx hx hxl hcx
        rw [hq] at hxl
        have hxq : x = q := (Option.some.inj hxl).symm
        subst hxq
        rw [hcq] at hcx; cases hcx
        show ((s2.chan_heap.put x _).put schan _).get x = _
        rw [Store.get_put_ne _ hx, Store.get_put_self _ hcq2]
      · show ((s2.chan_heap.put q _).put schan _).length = _
        rw [Store.length_put, Store.length_put, hch2, Store.length_put, a5]
      · show s2.port_heap.put port _ = _
        rw [hph2, a4]
      · rw [hw1fill, hwfill]
      · intro j
        rw [hw1slot, hwslot]

/-! ## Send -/

theorem hash_find_some {s : rust_rt} {l : List Ptr} {port c : Ptr}
    (h : hash_find s l port = some c) :
    c ∈ l ∧ ∃ ch, s.chan_heap.get c = some ch ∧ ch.port = port := by
  unfold hash_find at h
  refine ⟨List.mem_of_find?_eq_some h, ?_⟩
  have := List.find?_some h
  cases hc : s.chan_heap.get c with
  | none => simp [hc] at this
  | some ch => exact ⟨ch, rfl, by simpa [hc] using this⟩

theorem find?_append_new {α : Type} (p : α → Bool) (n : α) (hn : p n = true) :
    ∀ l : List α, (∀ c, c ∈ l → p c = true → c = n) → (l ++ [n]).find? p = some n := by
  intro l
  induction l with
  | nil => intro _; simp [List.find?, hn]
  | cons a l ih =>
    intro h
    by_cases ha : p a = true
    · have := h a (List.mem_cons_self _ _) ha
      subst this
      simp [List.find?, ha]
    · have hf : p a = false := by simpa using ha
      simp only [List.cons_append, List.find?, hf]
      exact ih fun c hc hpc => h c (List.mem_cons_of_mem _ hc) hpc

/-- Changing fields of a live proc other than its state and index keeps the
state-vector invariant. -/
theorem procs_inv_put {s : rust_rt} {p : Ptr} {r : rust_proc} (r' : rust_proc)
    (hinv : procs_inv s) (hp : s.procs.get p = some r) (hs : r'.state = r.state)
    (hi : r'.idx = r.idx) :
    procs_inv ({ s with procs := s.procs.put p r' } : rust_rt) := by
  obtain ⟨hwf, hpos, hslot⟩ := (procs_inv_ex_iff s 0).1 hinv
  have hget : ∀ x, (s.procs.put p r').get x = if x = p then some r' else s.procs.get x :=
    fun x => Store.get_put _ hp x
  unfold procs_inv
  rw [procs_inv_ex_iff]
  refine ⟨fun sel => by simpa using hwf sel, ?_, ?_⟩
  · intro x rx hx hx0
    simp only [hget] at hx
    by_cases hxp : x = p
    · rw [if_pos hxp] at hx
      cases hx
      rw [hxp]
      simpa [hs, hi] using hpos p r hp (Store.ne_zero_of_get hp)
    · rw [if_neg hxp] at hx
      simpa using hpos x rx hx hx0
  · intro sel j x hx
    simp only [vec_with_procs] at hx
    obtain ⟨hx0, rx, hrx, hrxi, hrxs⟩ := hslot sel j x hx
    by_cases hxp : x = p
    · rw [hxp] at hrx
      rw [hp] at hrx; cases hrx
      exact ⟨hx0, r', by simp [hget, hxp], hi.trans hrxi, by rw [hs]; exact hrxs⟩
    · exact ⟨hx0, rx, by simp [hget, hxp, hrx], hrxi, hrxs⟩

/-- The channel a send uses: the one found in the sender's table, or a fresh
one with an empty buffer of the port's unit size. -/
theorem find_or_new_ok {s : rust_rt} {src port : Ptr} {sp : rust_proc}
    (hsp : s.procs.get src = some sp)
    (hnew : hash_find s sp.chans port = none →
      ∃ pt o, s.port_heap.get port = some pt ∧ s.procs.get pt.proc = some o ∧ pt.unit_sz ≠ 0) :
    ∃ s1 chan c sp1, find_or_new_chan s src port = Res.ok (s1, chan) ∧
      chan_located s s1 src port chan sp c sp1 := by
  cases hf : hash_find s sp.chans port with
  | some chan =>
    obtain ⟨_, ch, hch, hchp⟩ := hash_find_some hf
    refine ⟨s, chan, ch, sp, ?_, fun hinv => hinv, hch, hchp, hsp, rfl, rfl, hf, fun _ _ => rfl, rfl,
      fun _ _ => rfl, rfl, rfl, rfl, rfl, rfl, Or.inl ⟨hf, rfl, rfl⟩⟩
    simp [find_or_new_chan, Store.deref_of_get hsp, hf]
  | none =>
    obtain ⟨pt, o, hpt, ho, hu'⟩ := hnew hf
    have hfresh : s.chan_heap.get (s.chan_heap.length + 1) = none :=
      Store.get_of_length_lt _ (by omega)
    have hga := Store.get_alloc s.chan_heap (fresh_chan port pt.unit_sz)
    simp only [Store.alloc] at hga
    refine ⟨{ s with
        live_allocs := s.live_allocs + 1 + 1,
        chan_heap := s.chan_heap ++ [some (fresh_chan port pt.unit_sz)],
        procs := s.procs.put src { sp with chans := sp.chans ++ [s.chan_heap.length + 1] } },
      s.chan_heap.length + 1, fresh_chan port pt.unit_sz,
      { sp with chans := sp.chans ++ [s.chan_heap.length + 1] },
      ?_, ?_, ?_, rfl, ?_, rfl, rfl, ?_, ?_, ?_, ?_, rfl, rfl, rfl, rfl, rfl,
      Or.inr ⟨hf, rfl, ?_, rfl, rfl, pt, hpt, hu', rfl⟩⟩
    · simp [find_or_new_chan, Store.deref_of_get hsp, hf, rust_chan.new, rust_rt.malloc,
        Store.deref_of_get hpt, Store.deref_of_get ho, circ_buf.new, hu', Store.alloc, hash_add,
        fresh_chan]
    · intro hinv
      exact procs_inv_congr rfl rfl rfl (procs_inv_put _ hinv hsp rfl rfl)
    · simp [hga]
    · exact Store.get_put_self _ hsp
    · -- the new channel is found in the extended table
      unfold hash_find
      apply find?_append_new
      · simp only [hga, if_true]
        simp [fresh_chan]
      · intro c hc hpc
        by_contra hne
        simp only [hga, if_neg hne] at hpc
        unfold hash_find at hf
        have := List.find?_eq_none.1 hf c hc
        exact this hpc
    · intro q hq
      exact Store.get_put_ne _ hq
    · simp
    · intro x hx
      simp [hga, hx]
    · simp

/-- The lookup-or-create step returns under the conditions of `find_or_new_ok`
and leaves the two proc vectors as they are. -/
theorem find_or_new_ok_vecs {s : rust_rt} {src port : Ptr} {sp : rust_proc}
    (hsp : s.procs.get src = some sp)
    (hnew : hash_find s sp.chans port = none →
      ∃ pt o, s.port_heap.get port = some pt ∧ s.procs.get pt.proc = some o ∧ pt.unit_sz ≠ 0) :
    ∃ s1 chan, find_or_new_chan s src port = Res.ok (s1, chan) ∧
      s1.running_procs = s.running_procs ∧ s1.blocked_procs = s.blocked_procs := by
  cases hf : hash_find s sp.chans port with
  | some chan =>
    refine ⟨s, chan, ?_, rfl, rfl⟩
    simp [find_or_new_chan, Store.deref_of_get hsp, hf]
  | none =>
    obtain ⟨pt, o, hpt, ho, hu'⟩ := hnew hf
    refine ⟨{ s with
        live_allocs := s.live_allocs + 1 + 1,
        chan_heap := s.chan_heap ++ [some (fresh_chan port pt.unit_sz)],
        procs := s.procs.put src { sp with chans := sp.chans ++ [s.chan_heap.length + 1] } },
      s.chan_heap.length + 1, ?_, rfl, rfl⟩
    simp [find_or_new_chan, Store.deref_of_get hsp, hf, rust_chan.new, rust_rt.malloc,
      Store.deref_of_get hpt, Store.deref_of_get ho, circ_buf.new, hu', Store.alloc, hash_add,
      fresh_chan]

/-- A lookup-or-create step that returns has located the channel. -/
theorem find_or_new_inv {s s1 : rust_rt} {src port chan : Ptr}
    (h : find_or_new_chan s src port = Res.ok (s1, chan)) :
    ∃ sp c sp1, s.procs.get src = some sp ∧ chan_located s s1 src port chan sp c sp1 := by
  cases hsp : s.procs.get src with
  | none => simp [find_or_new_chan, Store.deref, hsp] at h
  | some sp =>
    have hnew : hash_find s sp.chans port = none →
        ∃ pt o, s.port_heap.get port = some pt ∧ s.procs.get pt.proc = some o ∧
          pt.unit_sz ≠ 0 := by
      intro hf
      cases hpt : s.port_heap.get port with
      | none =>
        simp [find_or_new_chan, Store.deref, hsp, hf, rust_chan.new, rust_rt.malloc, hpt] at h
      | some pt =>
        cases ho : s.procs.get pt.proc with
        | none =>
          simp [find_or_new_chan, Store.deref, hsp, hf, rust_chan.new, rust_rt.malloc, hpt,
            ho] at h
        | some o =>
          by_cases hu : pt.unit_sz = 0
          · simp [find_or_new_chan, Store.deref, hsp, hf, rust_chan.new, rust_rt.malloc, hpt,
              ho, circ_buf.new, hu] at h
          · exact ⟨pt, o, rfl, ho, hu⟩
    obtain ⟨s1', chan', c, sp1, h', hl⟩ := find_or_new_ok hsp hnew
    rw [h'] at h
    simp only [ok_eq_ok, Prod.mk.injEq] at h
    obtain ⟨e1, e2⟩ := h
    subst e1 e2
    exact ⟨sp, c, sp1, rfl, hl⟩

/-- A lookup-or-create step that returns has left the two proc vectors as they
are. -/
theorem find_or_new_vecs {s s1 : rust_rt} {src port chan : Ptr}
    (h : find_or_new_chan s src port = Res.ok (s1, chan)) :
    s1.running_procs = s.running_procs ∧ s1.blocked_procs = s.blocked_procs := by
  cases hsp : s.procs.get src with
  | none => simp [find_or_new_chan, Store.deref, hsp] at h
  | some sp =>
    have hnew : hash_find s sp.chans port = none →
        ∃ pt o, s.port_heap.get port = some pt ∧ s.procs.get pt.proc = some o ∧
          pt.unit_sz ≠ 0 := by
      intro hf
      cases hpt : s.port_heap.get port with
      | none =>
        simp [find_or_new_chan, Store.deref, hsp, hf, rust_chan.new, rust_rt.malloc, hpt] at h
      | some pt =>
        cases ho : s.procs.get pt.proc with
        | none =>
          simp [find_or_new_chan, Store.deref, hsp, hf, rust_chan.new, rust_rt.malloc, hpt,
            ho] at h
        | some o =>
          by_cases hu : pt.unit_sz = 0
          · simp [find_or_new_chan, Store.deref, hsp, hf, rust_chan.new, rust_rt.malloc, hpt,
              ho, circ_buf.new, hu] at h
          · exact ⟨pt, o, rfl, ho, hu⟩
    obtain ⟨s1', chan', h', hl⟩ := find_or_new_ok_vecs hsp hnew
    rw [h'] at h
    simp only [ok_eq_ok, Prod.mk.injEq] at h
    obtain ⟨e1, e2⟩ := h
    subst e1 e2
    exact hl

theorem oldest_after_push {b : circ_buf} {unit : List Nat} (hr : b.room)
    (hl : unit.length = b.unit_sz) :
    (b.pushed unit).oldest = unit := by
  obtain ⟨h1, h2, h3, h4⟩ := hr
  have := memcpy_blk_read (d := b.data) (e := unit) (a := b.next) (b := 0)
    (n := b.unit_sz) (by omega) (by omega)
  rw [List.drop_zero, List.take_of_length_le (le_of_eq hl)] at this
  simp only [circ_buf.oldest, circ_buf.pushed]
  rw [this]

theorem wf_after_push {b : circ_buf} {unit : List Nat} (hr : b.room)
    (hl : unit.length = b.unit_sz) :
    (b.pushed unit).wf := by
  obtain ⟨h1, h2, h3, h4⟩ := hr
  refine ⟨h1, ?_, dvd_refl _, h3⟩
  show (b.data.take b.next ++ unit ++ b.data.drop (b.next + b.unit_sz)).length = b.alloc
  have := memcpy_blk_length (d := b.data) (e := unit) (a := b.next) (b := 0)
    (n := b.unit_sz) (by omega) (by omega)
  rw [List.drop_zero, List.take_of_length_le (le_of_eq hl)] at this
  exact this.trans h2

theorem mem_read_length (mem : Nat → Nat) (a n : Nat) : (mem_read mem a n).length = n := by
  simp [mem_read]

/-- The first half of a send: the channel is found or made, the unit is
buffered and the sender is moved to blocked-writing. -/
theorem send_first_half {s : rust_rt} {src port : Ptr} {sptr : Nat} {sp o : rust_proc}
    {pt : rust_port}
    (hinv : procs_inv s) (hsp : s.procs.get src = some sp) (hst : sp.state = .calling_c)
    (hpt : s.port_heap.get port = some pt) (ho : s.procs.get pt.proc = some o)
    (hsptr : sptr ≠ 0)
    (hnew : hash_find s sp.chans port = none → pt.unit_sz ≠ 0)
    (hold : ∀ chan c, hash_find s sp.chans port = some chan → s.chan_heap.get chan = some c →
      c.buf.room ∧ (c.blocked = 0 ∨ c.blocked = src))
    (hsm : procs_small s) (hbr : s.blocked_procs.room) :
    ∃ s1 chan c s4, find_or_new_chan s src port = Res.ok (s1, chan) ∧
      s1.chan_heap.get chan = some c ∧ c.port = port ∧ c.buf.room ∧
      (hash_find s sp.chans port = some chan ∧ s.chan_heap.get chan = some c ∨
        hash_find s sp.chans port = none ∧ c.queued = 0 ∧ c.buf.unit_sz = pt.unit_sz ∧
          s.chan_heap.get chan = none) ∧
      procs_inv s4 ∧
      s4.chan_heap = s1.chan_heap.put chan
        { c with blocked := src, buf := c.buf.pushed (mem_read s.mem sptr c.buf.unit_sz) } ∧
      (∀ x, x ≠ chan → s1.chan_heap.get x = s.chan_heap.get x) ∧
      s4.port_heap = s.port_heap ∧ s4.mem = s.mem ∧
      (∃ sp4, s4.procs.get src = some sp4 ∧ sp4.state = .blocked_writing ∧
        sp4.upcall_args = sp.upcall_args ∧ hash_find s4 sp4.chans port = some chan) ∧
      (∀ q r, q ≠ src → s.procs.get q = some r →
        ∃ r', s4.procs.get q = some r' ∧ r'.core = r.core) ∧
      vec_moved s s4 (some .running_procs) (some .blocked_procs) ∧
      upcall_send s src port sptr = (do
        let (s5, _) ← attempt_transmission s4 chan pt.proc
        let c5 ← s5.chan_heap.deref chan
        if c5.buf.unread ≠ 0 ∧ c5.queued = 0 then do
          let heap := s5.chan_heap.put chan { c5 with queued := 1 }
          let pt5 ← s5.port_heap.deref port
          let (w, heap1) ← pt5.writers.push heap chan
          pure { s5 with chan_heap := heap1,
                         port_heap := s5.port_heap.put port { pt5 with writers := w } }
        else pure s5) := by
  have hsrc : src ≠ 0 := Store.ne_zero_of_get hsp
  have hport : port ≠ 0 := Store.ne_zero_of_get hpt
  have hown : pt.proc ≠ 0 := Store.ne_zero_of_get ho
  obtain ⟨s1, chan, c, sp1, hfn, hinv1', hc1, hcp, hsp1, hsp1s, hsp1a, hfind1, hoth1, hlen1,
    hch1, hph1, hmem1, _, _, _, hcase⟩ := find_or_new_ok hsp
      (fun hf => ⟨pt, o, hpt, ho, hnew hf⟩)
  have hinv1 : procs_inv s1 := hinv1' hinv
  have hchan : chan ≠ 0 := Store.ne_zero_of_get hc1
  have hroom : c.buf.room ∧ (c.blocked = 0 ∨ c.blocked = src) := by
    rcases hcase with ⟨hf, he, _⟩ | ⟨hf, _, _, _, _, pt', hpt', _, hce⟩
    · rw [he] at hc1
      exact hold chan c hf hc1
    · have hu := hnew hf
      rw [hpt] at hpt'; cases hpt'
      rw [hce]
      refine ⟨⟨by show 0 < pt.unit_sz; omega, by simp [fresh_chan], ?_, rfl⟩, Or.inl rfl⟩
      show 0 + pt.unit_sz ≤ INIT_CIRC_BUF_UNITS * pt.unit_sz
      simp [INIT_CIRC_BUF_UNITS]; omega
  obtain ⟨hr, hblk⟩ := hroom
  have hpush := push_empty_ok (s := s1) hr.1 hr.2.1 hr.2.2.1 hr.2.2.2 hsptr
  rw [hmem1] at hpush
  have hpt1 : s1.port_heap.get port = some pt := by rw [hph1]; exact hpt
  have hpush' : c.buf.push s1 sptr =
      Res.ok (s1, c.buf.pushed (mem_read s.mem sptr c.buf.unit_sz)) := hpush
  have hinv3 : procs_inv ({ s1 with
      chan_heap := s1.chan_heap.put chan
        { c with blocked := src, buf := c.buf.pushed (mem_read s.mem sptr c.buf.unit_sz) } }
      : rust_rt) :=
    procs_inv_congr rfl rfl rfl hinv1
  obtain ⟨hv1, hv2⟩ := find_or_new_vecs hfn
  have hsm1 : procs_small s1 := procs_small_congr hv1 hv2 hsm
  obtain ⟨s4, hs4, hinv4, hrest4, hmoved4, hvm4⟩ :=
    pst_spec (a := .calling_c) .blocked_writing hinv3 hsm1 (p := src) (r := sp1) hsp1
      (hsp1s.trans hst) (fun _ => by
        show s1.blocked_procs.fill < s1.blocked_procs.alloc
        rw [hv2]; exact hbr)
  obtain ⟨a1, a2, a3, a4, a5, a6, a7⟩ := hrest4
  obtain ⟨sp4, hsp4, hsp4s, hsp4c, hsp4a⟩ := proc_moved_self hmoved4 hsp1
  have hblk' : c.blocked = src ∨ c.blocked = 0 := hblk.symm
  refine ⟨s1, chan, c, s4, hfn, hc1, hcp, hr, ?_, hinv4, a5, hch1, a4.trans hph1,
    a7.trans hmem1, ⟨sp4, hsp4, hsp4s, hsp4a.trans hsp1a, ?_⟩, ?_,
    vec_moved_congr (s := _) hvm4 hv1.symm hv2.symm, ?_⟩
  · rcases hcase with ⟨hf, he, _⟩ | ⟨hf, hcn, _, _, _, pt', hpt', _, hce⟩
    · exact Or.inl ⟨hf, by rw [he] at hc1; exact hc1⟩
    · rw [hpt] at hpt'; cases hpt'
      refine Or.inr ⟨hf, by rw [hce]; rfl, by rw [hce]; rfl, ?_⟩
      rw [hcn]
      exact Store.get_of_length_lt _ (by omega)
  · -- the table entry is still found
    rw [hsp4c]
    have : ∀ l, hash_find s4 l port = hash_find s1 l port := by
      intro l
      unfold hash_find
      congr 1
      funext x
      rw [a5]
      show (match (s1.chan_heap.put chan _).get x with
        | some ch => ch.port == port | none => false) = _
      rw [Store.get_put _ hc1]
      by_cases hx : x = chan
      · subst hx; simp [hc1]
      · rw [if_neg hx] <;> rfl
    rw [this]
    exact hfind1
  · intro q r hq hr'
    rw [← hoth1 q hq] at hr'
    exact proc_moved_ne hmoved4 hq hr'
  · have hs4' := hs4
    simp only [hcp] at hs4'
    simp only [upcall_send, Store.deref_of_get hsp, Res.ok_bind, hport, if_false, I_bind, hsrc,
      hsptr, ne_eq, not_false_eq_true, if_true, hfn, hchan, Store.deref_of_get hc1, hblk', hcp,
      Store.deref_of_get hpt1, hown, hpush', hs4']

/-! ## What a returning operation must have done -/

theorem same_cores_refl (s : rust_rt) : same_cores s s := ⟨rfl, fun _ => rfl⟩

theorem same_cores_trans {s t u : rust_rt} (h1 : same_cores s t) (h2 : same_cores t u) :
    same_cores s u := ⟨h2.1.trans h1.1, fun q => (h2.2 q).trans (h1.2 q)⟩

theorem same_cores_put_idx {s t : rust_rt} {q : Ptr} {sb : rust_proc} {i : Nat}
    (hq : s.procs.get q = some sb) (ht : t.procs = s.procs.put q { sb with idx := i }) :
    same_cores s t := by
  refine ⟨by rw [ht, Store.length_put], ?_⟩
  intro x
  rw [ht, Store.get_put _ hq]
  by_cases hx : x = q
  · rw [if_pos hx, hx, hq]
    rfl
  · rw [if_neg hx]

/-- Removal from the state vector changes vector indices only. -/
theorem remove_frame {s t : rust_rt} {p : Ptr} (h : remove_proc_from_state_vec s p = Res.ok t) :
    same_rest s t ∧ same_cores s t := by
  unfold remove_proc_from_state_vec at h
  rw [Res.bind_eq_ok] at h
  obtain ⟨v, _, h⟩ := h
  rw [deref_bind_eq_ok] at h
  obtain ⟨r, hr, h⟩ := h
  rw [Res.bind_eq_ok] at h
  obtain ⟨x, _, h⟩ := h
  simp only [I_bind_eq_ok] at h
  obtain ⟨_, h⟩ := h
  rw [Res.bind_eq_ok] at h
  obtain ⟨⟨vec, heap⟩, hsw, h⟩ := h
  simp only at h
  rw [Res.bind_eq_ok] at h
  obtain ⟨vec1, _, h⟩ := h
  simp only [Res.pure_eq, ok_eq_ok] at h
  subst h
  refine ⟨same_rest_remove s v vec vec1 heap, ?_⟩
  rcases ptr_vec.swapdel_heap hsw with e | ⟨q, sb, i, hq, e⟩
  · subst e
    exact ⟨by simp, fun x => by simp⟩
  · exact same_cores_put_idx (i := i) hq (by simp [e])

/-- Insertion into the state vector changes vector indices only. -/
theorem add_frame {s t : rust_rt} {p : Ptr} (h : add_proc_state_vec s p = Res.ok t) :
    same_rest s t ∧ same_cores s t := by
  unfold add_proc_state_vec at h
  rw [Res.bind_eq_ok] at h
  obtain ⟨v, _, h⟩ := h
  rw [Res.bind_eq_ok] at h
  obtain ⟨⟨vec, heap⟩, hpush, h⟩ := h
  simp only [Res.pure_eq, ok_eq_ok] at h
  subst h
  refine ⟨same_rest_add s v vec heap, ?_⟩
  obtain ⟨x, i, hx, e⟩ := ptr_vec.push_heap hpush
  exact same_cores_put_idx (i := i) hx (by simp [e])

/-- A state transition that returns has found the proc in state `a` and has
set its state to `b`; apart from vector indices nothing else has changed. -/
theorem pst_frame {s t : rust_rt} {p : Ptr} {a b : proc_state_t}
    (h : proc_state_transition s p a b = Res.ok t) :
    ∃ r, s.procs.get p = some r ∧ r.state = a ∧ same_rest s t ∧ proc_moved s t p b := by
  unfold proc_state_transition at h
  rw [deref_bind_eq_ok] at h
  obtain ⟨r, hr, h⟩ := h
  simp only [I_bind_eq_ok] at h
  obtain ⟨hst, h⟩ := h
  rw [Res.bind_eq_ok] at h
  obtain ⟨s1, hrem, h⟩ := h
  rw [deref_bind_eq_ok] at h
  obtain ⟨p1, hp1, h⟩ := h
  obtain ⟨hr1, hc1⟩ := remove_frame hrem
  obtain ⟨hr2, hc2⟩ := add_frame h
  refine ⟨r, hr, hst, ?_, ?_⟩
  · exact same_rest_trans hr1 hr2
  · have hget : ∀ x, (s1.procs.put p { p1 with state := b }).get x =
        if x = p then some { p1 with state := b } else s1.procs.get x :=
      fun x => Store.get_put _ hp1 x
    have hcore : p1.core = r.core := by
      have := hc1.2 p
      rw [hp1, hr] at this
      simpa using this
    refine ⟨?_, ?_, ?_⟩
    · rw [hc2.1]
      show (s1.procs.put p _).length = _
      rw [Store.length_put, hc1.1]
    · intro q hq
      rw [hc2.2 q]
      show ((s1.procs.put p _).get q).map _ = _
      rw [hget, if_neg hq, hc1.2 q]
    · rw [hc2.2 p]
      show ((s1.procs.put p _).get p).map _ = _
      rw [hget, if_pos rfl, hr]
      simp only [Option.map_some']
      exact congrArg some (core_with_state hcore b)

/-- A removal that returns, from vectors `trim` does not halve: the counters. -/
theorem remove_counts {s t : rust_rt} {p : Ptr} (h : remove_proc_from_state_vec s p = Res.ok t)
    (hsm : procs_small s) :
    ∃ r, s.procs.get p = some r ∧ vec_moved s t (some (get_state_vec r.state)) none := by
  unfold remove_proc_from_state_vec at h
  rw [Res.bind_eq_ok] at h
  obtain ⟨v, hv, h⟩ := h
  rw [deref_bind_eq_ok] at h
  obtain ⟨r, hr, h⟩ := h
  have ev : v = get_state_vec r.state := by
    unfold get_proc_vec at hv
    rw [Store.deref_of_get hr] at hv
    simp only [Res.ok_bind, Res.pure_eq, ok_eq_ok] at hv
    exact hv.symm
  subst ev
  rw [Res.bind_eq_ok] at h
  obtain ⟨x, _, h⟩ := h
  simp only [I_bind_eq_ok] at h
  obtain ⟨_, h⟩ := h
  rw [Res.bind_eq_ok] at h
  obtain ⟨⟨vec, heap⟩, hsw, h⟩ := h
  simp only at h
  rw [Res.bind_eq_ok] at h
  obtain ⟨vec1, htr, h⟩ := h
  simp only [Res.pure_eq, ok_eq_ok] at h
  subst h
  have ha := ptr_vec.swapdel_alloc hsw
  have hsmall : vec.small := by
    have := (procs_small_iff s).1 hsm (get_state_vec r.state)
    unfold ptr_vec.small at this ⊢
    rw [ha.1]; exact this
  rw [ptr_vec.trim_small _ hsmall] at htr
  simp only [ok_eq_ok] at htr
  exact ⟨r, hr, vec_moved_remove _ _ _ _ _ ha.1 ha.2.1 ha.2.2 htr.symm⟩

/-- An insertion that returns found room in the vector: the counters. -/
theorem add_counts {s t : rust_rt} {p : Ptr} (h : add_proc_state_vec s p = Res.ok t) :
    ∃ r, s.procs.get p = some r ∧ (s.vec (get_state_vec r.state)).room ∧
      vec_moved s t none (some (get_state_vec r.state)) := by
  unfold add_proc_state_vec at h
  rw [Res.bind_eq_ok] at h
  obtain ⟨v, hv, h⟩ := h
  unfold get_proc_vec at hv
  rw [deref_bind_eq_ok] at hv
  obtain ⟨r, hr, hv⟩ := hv
  simp only [Res.pure_eq, ok_eq_ok] at hv
  subst hv
  rw [Res.bind_eq_ok] at h
  obtain ⟨⟨vec, heap⟩, hpush, h⟩ := h
  simp only [Res.pure_eq, ok_eq_ok] at h
  subst h
  have hroom := ptr_vec.push_has_room hpush
  have ha := ptr_vec.push_keeps_alloc hpush
  have hf : vec.fill = (s.vec (get_state_vec r.state)).fill + 1 := by
    have hfull : ¬ (s.vec (get_state_vec r.state)).fill = (s.vec (get_state_vec r.state)).alloc := by
      omega
    unfold ptr_vec.push at hpush
    rw [if_neg hfull] at hpush
    simp only [I_bind_eq_ok] at hpush
    obtain ⟨_, hpush⟩ := hpush
    rw [deref_bind_eq_ok] at hpush
    obtain ⟨x, _, hpush⟩ := hpush
    rw [Res.bind_eq_ok] at hpush
    obtain ⟨d, _, hpush⟩ := hpush
    simp only [Res.pure_eq, ok_eq_ok, Prod.mk.injEq] at hpush
    rw [← hpush.1]
  exact ⟨r, hr, hroom, vec_moved_add _ _ _ _ ha hf⟩

/-- A state transition that returns, from vectors `trim` does not halve: the
proc has left the vector of state `a` and entered the vector of state `b`,
which had room for it. -/
theorem pst_counts {s t : rust_rt} {p : Ptr} {a b : proc_state_t}
    (h : proc_state_transition s p a b = Res.ok t) (hsm : procs_small s) :
    vec_moved s t (some (get_state_vec a)) (some (get_state_vec b)) ∧
    (get_state_vec b ≠ get_state_vec a → (s.vec (get_state_vec b)).room) := by
  unfold proc_state_transition at h
  rw [deref_bind_eq_ok] at h
  obtain ⟨r, hr, h⟩ := h
  simp only [I_bind_eq_ok] at h
  obtain ⟨hst, h⟩ := h
  rw [Res.bind_eq_ok] at h
  obtain ⟨s1, hrem, h⟩ := h
  rw [deref_bind_eq_ok] at h
  obtain ⟨p1, hp1, h⟩ := h
  obtain ⟨r', hr', hvm1⟩ := remove_counts hrem hsm
  rw [hr] at hr'
  cases hr'
  rw [hst] at hvm1
  obtain ⟨r2, hr2, hroom2, hvm2⟩ := add_counts h
  have hr2' : r2 = { p1 with state := b } := by
    have : ({ s1 with procs := s1.procs.put p { p1 with state := b } } : rust_rt).procs.get p =
        some { p1 with state := b } := Store.get_put_self _ hp1
    rw [this] at hr2
    exact (Option.some.inj hr2).symm
  subst hr2'
  refine ⟨vec_moved_trans hvm1 (vec_moved_congr hvm2 rfl rfl) rfl, ?_⟩
  intro hne
  have hroom3 : (s1.vec (get_state_vec b)).fill < (s1.vec (get_state_vec b)).alloc := by
    have := hroom2
    unfold ptr_vec.room at this
    simpa using this
  obtain ⟨e1, e2⟩ := hvm1 (get_state_vec b)
  rw [if_neg (fun e => hne (Option.some.inj e).symm)] at e2
  simp only [reduceCtorEq, if_false, Nat.add_zero] at e2
  unfold ptr_vec.room
  omega

/-- A state transition that returns keeps the vectors at a capacity `trim`
does not halve. -/
theorem pst_small {s t : rust_rt} {p : Ptr} {a b : proc_state_t}
    (h : proc_state_transition s p a b = Res.ok t) (hsm : procs_small s) : procs_small t :=
  procs_small_of_moved (pst_counts h hsm).1 hsm

theorem pst_inv {s t : rust_rt} {p : Ptr} {a b : proc_state_t}
    (h : proc_state_transition s p a b = Res.ok t) :
    ∃ r, s.procs.get p = some r ∧ r.state = a ∧ (procs_inv s → procs_small s → procs_inv t) ∧
      same_rest s t ∧ proc_moved s t p b := by
  obtain ⟨r, hr, hst, h1, h2⟩ := pst_frame h
  refine ⟨r, hr, hst, ?_, h1, h2⟩
  intro hinv hsm
  obtain ⟨t', ht', h3, _⟩ := pst_spec b hinv hsm hr hst (pst_counts h hsm).2
  rw [ht'] at h
  cases h
  exact h3

/-- The counters of the running vector after a transmission that returns: a
completed transmission has moved the destination, and the blocked sender if
there is one, into the running vector, which had room for them. -/
theorem attempt_counts {s t : rust_rt} {src dst : Ptr} {n : Nat}
    (h : attempt_transmission s src dst = Res.ok (t, n)) (hsm : procs_small s) :
    procs_small t ∧
    ((n = 0 ∧ t = s) ∨
     (n = 1 ∧ ∃ c, s.chan_heap.get src = some c ∧
        s.running_procs.fill + (if c.blocked = 0 then 1 else 2) ≤ s.running_procs.alloc ∧
        t.running_procs.alloc = s.running_procs.alloc ∧
        t.blocked_procs.alloc = s.blocked_procs.alloc ∧
        t.running_procs.fill = s.running_procs.fill + (if c.blocked = 0 then 1 else 2) ∧
        t.blocked_procs.fill + (if c.blocked = 0 then 1 else 2) = s.blocked_procs.fill)) := by
  unfold attempt_transmission at h
  simp only [I_bind_eq_ok] at h
  obtain ⟨hsrc, hdst, h⟩ := h
  rw [deref_bind_eq_ok] at h
  obtain ⟨d, hd, h⟩ := h
  by_cases hst : d.state ≠ .blocked_reading
  · rw [if_pos hst] at h
    simp only [Res.pure_eq, ok_eq_ok, Prod.mk.injEq] at h
    rw [← h.1]
    exact ⟨hsm, Or.inl ⟨h.2.symm, rfl⟩⟩
  rw [if_neg hst] at h
  rw [deref_bind_eq_ok] at h
  obtain ⟨c, hc, h⟩ := h
  rw [Res.bind_eq_ok] at h
  obtain ⟨u, hchk, h⟩ := h
  by_cases h0 : c.buf.unread = 0
  · rw [if_pos h0] at h
    simp only [Res.pure_eq, ok_eq_ok, Prod.mk.injEq] at h
    rw [← h.1]
    exact ⟨hsm, Or.inl ⟨h.2.symm, rfl⟩⟩
  rw [if_neg h0] at h
  rw [Res.bind_eq_ok] at h
  obtain ⟨⟨s1, b1⟩, hsh, h⟩ := h
  simp only at h
  rw [Res.bind_eq_ok] at h
  obtain ⟨s3, hs3, h⟩ := h
  rw [Res.bind_eq_ok] at h
  obtain ⟨s4, hs4, h⟩ := h
  simp only [Res.pure_eq, ok_eq_ok, Prod.mk.injEq] at h
  obtain ⟨e1, e2⟩ := h
  subst e1
  obtain ⟨es1, _⟩ := shift_inv hsh
  subst es1
  by_cases hb0 : c.blocked = 0
  · rw [if_neg (by simpa using hb0)] at hs3
    simp only [Res.pure_eq, ok_eq_ok] at hs3
    subst hs3
    have hsm2 := procs_small_congr (t := _) rfl rfl hsm
    obtain ⟨hvm, hroom⟩ := pst_counts hs4 hsm2
    have hr := vec_moved_running hvm
    have hb := vec_moved_blocked hvm
    have hroom' := hroom (by decide)
    simp only [get_state_vec, reduceCtorEq, if_false, if_true, Nat.add_zero] at hr hb
    refine ⟨procs_small_of_moved hvm hsm2, Or.inr ⟨e2.symm, c, hc, ?_, hr.1, hb.1, ?_, ?_⟩⟩
    · rw [if_pos hb0]
      exact hroom'
    · rw [if_pos hb0]; exact hr.2
    · rw [if_pos hb0]; exact hb.2
  · rw [if_pos hb0] at hs3
    rw [Res.bind_eq_ok] at hs3
    obtain ⟨t1, ht1, hs3⟩ := hs3
    rw [deref_bind_eq_ok] at hs3
    obtain ⟨c1, hc1, hs3⟩ := hs3
    simp only [Res.pure_eq, ok_eq_ok] at hs3
    subst hs3
    have hsm2 := procs_small_congr (t := _) rfl rfl hsm
    obtain ⟨hvm, hroom⟩ := pst_counts ht1 hsm2
    have hsm3 : procs_small t1 := procs_small_of_moved hvm hsm2
    have hsm4 := procs_small_congr (t := _) rfl rfl hsm3
    obtain ⟨hvm', hroom'⟩ := pst_counts hs4 hsm4
    have hr := vec_moved_running hvm
    have hb := vec_moved_blocked hvm
    have hr' := vec_moved_running hvm'
    have hb' := vec_moved_blocked hvm'
    have hroom1 := hroom' (by decide)
    simp only [get_state_vec, reduceCtorEq, if_false, if_true, Nat.add_zero] at hr hb hr' hb'
    have hroom2 : t1.running_procs.fill < t1.running_procs.alloc := hroom1
    have q1 : t1.running_procs.alloc = s.running_procs.alloc := hr.1
    have q2 : t1.running_procs.fill = s.running_procs.fill + 1 := hr.2
    have q3 : t1.blocked_procs.alloc = s.blocked_procs.alloc := hb.1
    have q4 : t1.blocked_procs.fill + 1 = s.blocked_procs.fill := hb.2
    have q5 : s4.running_procs.alloc = t1.running_procs.alloc := hr'.1
    have q6 : s4.running_procs.fill = t1.running_procs.fill + 1 := hr'.2
    have q7 : s4.blocked_procs.alloc = t1.blocked_procs.alloc := hb'.1
    have q8 : s4.blocked_procs.fill + 1 = t1.blocked_procs.fill := hb'.2
    refine ⟨procs_small_of_moved hvm' hsm4, Or.inr ⟨e2.symm, c, hc, ?_, ?_, ?_, ?_, ?_⟩⟩
    · rw [if_neg hb0]; omega
    · omega
    · omega
    · rw [if_neg hb0]; omega
    · rw [if_neg hb0]; omega

/-- A transmission that returns was incomplete and changed nothing, or it was
complete with the effect `transmitted`. -/
theorem attempt_inv_shift {s t : rust_rt} {src dst : Ptr} {n : Nat}
    (h : attempt_transmission s src dst = Res.ok (t, n)) :
    (n = 0 ∧ t = s) ∨
    (n = 1 ∧ ∃ d c b1, s.procs.get dst = some d ∧ d.state = .blocked_reading ∧
      s.chan_heap.get src = some c ∧ c.buf.unread ≠ 0 ∧
      (c.blocked = 0 ∨ ∃ b, s.procs.get c.blocked = some b ∧ b.state = .blocked_writing) ∧
      b1.unit_sz = c.buf.unit_sz ∧ b1.unread = c.buf.unread - c.buf.unit_sz ∧
      0 < c.buf.unit_sz ∧ c.buf.unit_sz ≤ c.buf.unread ∧ d.arg 0 ≠ 0 ∧
      (procs_inv s → procs_small s → procs_inv t) ∧ transmitted s t src dst d c b1 ∧
      c.buf.shift s (d.arg 0) =
        Res.ok ({ s with mem := mem_write s.mem (d.arg 0) c.buf.oldest }, b1)) := by
  have h' := h
  unfold attempt_transmission at h
  simp only [I_bind_eq_ok] at h
  obtain ⟨hsrc, hdst, h⟩ := h
  rw [deref_bind_eq_ok] at h
  obtain ⟨d, hd, h⟩ := h
  by_cases hst : d.state ≠ .blocked_reading
  · rw [if_pos hst] at h
    simp only [Res.pure_eq, ok_eq_ok, Prod.mk.injEq] at h
    exact Or.inl ⟨h.2.symm, h.1.symm⟩
  rw [if_neg hst] at h
  have hst' : d.state = .blocked_reading := by simpa using hst
  rw [deref_bind_eq_ok] at h
  obtain ⟨c, hc, h⟩ := h
  rw [Res.bind_eq_ok] at h
  obtain ⟨u, hchk, h⟩ := h
  have hbl : c.blocked = 0 ∨
      ∃ b, s.procs.get c.blocked = some b ∧ b.state = .blocked_writing := by
    by_cases hb0 : c.blocked = 0
    · exact Or.inl hb0
    · right
      rw [if_pos hb0, deref_bind_eq_ok] at hchk
      obtain ⟨b, hb, hchk⟩ := hchk
      exact ⟨b, hb, I_eq_ok.1 hchk⟩
  by_cases h0 : c.buf.unread = 0
  · rw [if_pos h0] at h
    simp only [Res.pure_eq, ok_eq_ok, Prod.mk.injEq] at h
    exact Or.inl ⟨h.2.symm, h.1.symm⟩
  rw [if_neg h0] at h
  rw [Res.bind_eq_ok] at h
  obtain ⟨⟨s1, b1⟩, hsh, h⟩ := h
  simp only at h
  rw [Res.bind_eq_ok] at h
  obtain ⟨s3, hs3, h⟩ := h
  rw [Res.bind_eq_ok] at h
  obtain ⟨s4, hs4, h⟩ := h
  simp only [Res.pure_eq, ok_eq_ok, Prod.mk.injEq] at h
  obtain ⟨e1, e2⟩ := h
  subst e1
  obtain ⟨es1, i2, i3, i4, i5, i6⟩ := shift_inv hsh
  subst es1
  right
  refine ⟨e2.symm, d, c, b1, hd, hst', hc, h0, hbl, i2, i3, i5, i6, i4, ?_, ?_, hsh⟩
  · intro hinv hsm
    have hcnt := (attempt_counts h' hsm).2
    have hroom : s.running_procs.fill + (if c.blocked = 0 then 1 else 2) ≤
        s.running_procs.alloc := by
      rcases hcnt with ⟨hn0, _⟩ | ⟨_, c', hc', hle, _⟩
      · rw [hn0] at e2; cases e2
      · rw [hc] at hc'; cases hc'
        exact hle
    obtain ⟨t', ht', hinv', _⟩ :=
      attempt_complete_of_shift hinv hd hst' hc h0 hsh hbl hsm hroom
    rw [ht'] at h'
    simp only [ok_eq_ok, Prod.mk.injEq] at h'
    rw [← h'.1]
    exact hinv'
  · by_cases hb0 : c.blocked = 0
    · -- no blocked sender
      rw [if_neg (by simpa using hb0)] at hs3
      simp only [Res.pure_eq, ok_eq_ok] at hs3
      subst hs3
      obtain ⟨d1, hd1, _, hrest, hmoved⟩ := pst_frame hs4
      obtain ⟨a1, a2, a3, a4, a5, a6, a7⟩ := hrest
      refine ⟨?_, a4, a1, a6, a2, a3, a7, hmoved.1, ?_, ?_, ?_⟩
      · rw [a5]
        show s.chan_heap.put src _ = _
        obtain ⟨cp, cq, ci, cb, cbuf⟩ := c
        simp only at hb0
        subst hb0
        rfl
      · intro q hq _
        exact hmoved.2.1 q hq
      · exact proc_moved_self hmoved hd
      · intro b hb
        rw [hb0, Store.get_zero] at hb
        cases hb
    · -- a blocked sender is woken
      rcases hbl with hb0' | ⟨b, hbget, hbs⟩
      · exact absurd hb0' hb0
      have hne : dst ≠ c.blocked := by
        intro e
        rw [e, hbget] at hd
        cases hd
        rw [hst'] at hbs
        cases hbs
      rw [if_pos hb0] at hs3
      rw [Res.bind_eq_ok] at hs3
      obtain ⟨t1, ht1, hs3⟩ := hs3
      rw [deref_bind_eq_ok] at hs3
      obtain ⟨c1, hc1, hs3⟩ := hs3
      simp only [Res.pure_eq, ok_eq_ok] at hs3
      subst hs3
      obtain ⟨_, _, _, hrest, hmoved⟩ := pst_frame ht1
      obtain ⟨a1, a2, a3, a4, a5, a6, a7⟩ := hrest
      have hct : t1.chan_heap.get src = some { c with buf := b1 } := by
        rw [a5]
        exact Store.get_put_self _ hc
      rw [hc1] at hct
      cases hct
      obtain ⟨_, _, _, hrestu, hmovedu⟩ := pst_frame hs4
      obtain ⟨c1, c2, c3, c4, c5, c6, c7⟩ := hrestu
      obtain ⟨d1, hd1, hd1c⟩ := proc_moved_ne hmoved hne hd
      refine ⟨?_, c4.trans a4, c1.trans a1, c6.trans a6, c2.trans a2,
        c3.trans a3, c7.trans a7, hmovedu.1.trans hmoved.1, ?_, ?_, ?_⟩
      · rw [c5]
        show t1.chan_heap.put src _ = _
        rw [a5]
        show (s.chan_heap.put src { c with buf := b1 }).put src _ = _
        cases src with
        | zero => exact absurd rfl hsrc
        | succ n => simp [Store.put]
      · intro q hq1 hq2
        rw [hmovedu.2.1 q hq1]
        exact hmoved.2.1 q hq2
      · obtain ⟨d', hd', e1, e2', e3⟩ := proc_moved_self hmovedu hd1
        exact ⟨d', hd', e1, e2'.trans (core_chans hd1c), e3.trans (core_args hd1c)⟩
      · intro b' hb'
        rw [hbget] at hb'
        cases hb'
        obtain ⟨b1', hb1', e1, e2', e3⟩ := proc_moved_self hmoved hbget
        obtain ⟨b2, hb2, hb2c⟩ := proc_moved_ne hmovedu (Ne.symm hne) hb1'
        exact ⟨b2, hb2, (core_state hb2c).trans e1, (core_chans hb2c).trans e2',
          (core_args hb2c).trans e3⟩

/-- A transmission that returns was incomplete and changed nothing, or it was
complete with the effect `transmitted`. -/
theorem attempt_inv {s t : rust_rt} {src dst : Ptr} {n : Nat}
    (h : attempt_transmission s src dst = Res.ok (t, n)) :
    (n = 0 ∧ t = s) ∨
    (n = 1 ∧ ∃ d c b1, s.procs.get dst = some d ∧ d.state = .blocked_reading ∧
      s.chan_heap.get src = some c ∧ c.buf.unread ≠ 0 ∧
      (c.blocked = 0 ∨ ∃ b, s.procs.get c.blocked = some b ∧ b.state = .blocked_writing) ∧
      b1.unit_sz = c.buf.unit_sz ∧ b1.unread = c.buf.unread - c.buf.unit_sz ∧
      0 < c.buf.unit_sz ∧ c.buf.unit_sz ≤ c.buf.unread ∧ d.arg 0 ≠ 0 ∧
      (procs_inv s → procs_small s → procs_inv t) ∧ transmitted s t src dst d c b1) := by
  rcases attempt_inv_shift h with h0 | ⟨h1, d, c, b1, a1, a2, a3, a4, a5, a6, a7, a8, a9, a10,
    a11, a12, _⟩
  · exact Or.inl h0
  · exact Or.inr ⟨h1, d, c, b1, a1, a2, a3, a4, a5, a6, a7, a8, a9, a10, a11, a12⟩

theorem hash_find_congr {s t : rust_rt} (h : ∀ x, (t.chan_heap.get x).map (fun c => c.port) =
    (s.chan_heap.get x).map (fun c => c.port)) (l : List Ptr) (port : Ptr) :
    hash_find t l port = hash_find s l port := by
  unfold hash_find
  congr 1
  funext x
  have := h x
  cases h1 : t.chan_heap.get x <;> cases h2 : s.chan_heap.get x <;> simp [h1, h2] at this ⊢
  rw [this]

/-- A send on an empty channel to a port whose owner is blocked reading hands
the unit over at once. -/
theorem send_delivered {s : rust_rt} {src port : Ptr} {sptr : Nat} {sp o : rust_proc}
    {pt : rust_port}
    (hinv : procs_inv s) (hsp : s.procs.get src = some sp) (hst : sp.state = .calling_c)
    (hpt : s.port_heap.get port = some pt) (ho : s.procs.get pt.proc = some o)
    (hsptr : sptr ≠ 0)
    (hnew : hash_find s sp.chans port = none → pt.unit_sz ≠ 0)
    (hold : ∀ chan c, hash_find s sp.chans port = some chan → s.chan_heap.get chan = some c →
      c.buf.room ∧ (c.blocked = 0 ∨ c.blocked = src))
    (hos : o.state = .blocked_reading) (harg : o.arg 0 ≠ 0)
    (hsm : procs_small s) (hbr : s.blocked_procs.room) (hrr : s.running_procs.room) :
    ∃ t s1 chan c b1, upcall_send s src port sptr = Res.ok t ∧ procs_inv t ∧
      find_or_new_chan s src port = Res.ok (s1, chan) ∧
      s1.chan_heap.get chan = some c ∧ c.port = port ∧ c.buf.room ∧
      (hash_find s sp.chans port = some chan ∧ s.chan_heap.get chan = some c ∨
        hash_find s sp.chans port = none ∧ c.queued = 0 ∧ c.buf.unit_sz = pt.unit_sz ∧
          s.chan_heap.get chan = none) ∧
      t.chan_heap = s1.chan_heap.put chan { c with blocked := 0, buf := b1 } ∧
      b1.unread = 0 ∧ b1.unit_sz = c.buf.unit_sz ∧
      (∀ x, x ≠ chan → s1.chan_heap.get x = s.chan_heap.get x) ∧
      t.port_heap = s.port_heap ∧
      t.mem = mem_write s.mem (o.arg 0) (mem_read s.mem sptr c.buf.unit_sz) ∧
      (∃ sp', t.procs.get src = some sp' ∧ sp'.state = .running ∧
        sp'.upcall_args = sp.upcall_args ∧ hash_find t sp'.chans port = some chan) ∧
      (∃ o', t.procs.get pt.proc = some o' ∧ o'.state = .running ∧ o'.chans = o.chans ∧
        o'.upcall_args = o.upcall_args) ∧
      (∀ q r, q ≠ src → q ≠ pt.proc → s.procs.get q = some r →
        ∃ r', t.procs.get q = some r' ∧ r'.core = r.core) := by
  obtain ⟨s1, chan, c, s4, hfn, hc1, hcp, hroom, hcase, hinv4, hch4, hch1, hph4, hmem4,
    ⟨sp4, hsp4, hsp4s, hsp4a, hfind4⟩, hoth4, hvm4, hsend⟩ :=
    send_first_half hinv hsp hst hpt ho hsptr hnew hold hsm hbr
  have hne : pt.proc ≠ src := by
    intro e; rw [e, hsp] at ho; cases ho; rw [hst] at hos; cases hos
  obtain ⟨o4, ho4, ho4c⟩ := hoth4 pt.proc o hne ho
  have hc4 : s4.chan_heap.get chan = some
      { c with blocked := src, buf := c.buf.pushed (mem_read s.mem sptr c.buf.unit_sz) } := by
    rw [hch4]; exact Store.get_put_self _ hc1
  have hlen := mem_read_length s.mem sptr c.buf.unit_sz
  have hwf := wf_after_push hroom hlen
  have hold' := oldest_after_push hroom hlen
  obtain ⟨t, b1, ht, hinvt, _, hb1u, hb1s, hcht, hpht, _, _, _, _, hmemt, _, hotht, hdt, hbt⟩ :=
    attempt_complete (s := s4) hinv4 ho4 ((core_state ho4c).trans hos) hc4 hwf
      (by show c.buf.unit_sz ≤ c.buf.unit_sz; exact le_refl _)
      (by rw [arg_of_args (core_args ho4c)]; exact harg)
      (Or.inr ⟨sp4, hsp4, hsp4s⟩) (procs_small_of_moved hvm4 hsm)
      (by
        have hr := vec_moved_running hvm4
        simp only [reduceCtorEq, if_false, if_true, Nat.add_zero] at hr
        have hsrc : src ≠ 0 := Store.ne_zero_of_get hsp
        show s4.running_procs.fill + (if src = 0 then 1 else 2) ≤ s4.running_procs.alloc
        rw [if_neg hsrc]
        have := hrr
        unfold ptr_vec.room at this
        omega)
  have hb10 : b1.unread = 0 := by
    rw [hb1u]; show c.buf.unit_sz - c.buf.unit_sz = 0; omega
  have hgett : t.chan_heap.get chan = some
      { c with blocked := 0, buf := b1 } := by
    rw [hcht]; exact Store.get_put_self _ hc4
  have hports : ∀ x, (t.chan_heap.get x).map (fun c => c.port) =
      (s4.chan_heap.get x).map (fun c => c.port) := by
    intro x
    rw [hcht, Store.get_put _ hc4]
    by_cases hx : x = chan
    · subst hx; simp [hc4]
    · simp [hx]
  obtain ⟨sp', hsp', hsp's, hsp'c, hsp'a⟩ := hbt sp4 hsp4
  refine ⟨t, s1, chan, c, b1, ?_, hinvt, hfn, hc1, hcp, hroom, hcase, ?_, hb10, hb1s, hch1,
    hpht.trans hph4, ?_, ⟨sp', hsp', hsp's, hsp'a.trans hsp4a, ?_⟩, ?_, ?_⟩
  · rw [hsend, ht]
    simp [Store.deref_of_get hgett, hb10]
  · rw [hcht, hch4]
    cases chan with
    | zero => exact absurd rfl (Store.ne_zero_of_get hc1)
    | succ n => simp [Store.put]
  · rw [hmemt, hmem4, arg_of_args (core_args ho4c), hold']
  · rw [hsp'c, hash_find_congr hports]
    exact hfind4
  · obtain ⟨d', h1, h2, h3, h4⟩ := hdt
    exact ⟨d', h1, h2, h3.trans (core_chans ho4c), h4.trans (core_args ho4c)⟩
  · intro q r hq1 hq2 hr
    obtain ⟨r4, hr4, hr4c⟩ := hoth4 q r hq1 hr
    have := hotht q hq2 hq1
    rw [hr4] at this
    cases hq : t.procs.get q with
    | none => simp [hq] at this
    | some r' =>
      refine ⟨r', rfl, ?_⟩
      have e : r'.core = r4.core := by simpa [hq] using this
      exact e.trans hr4c

/-- A send on an empty, unqueued channel to a port whose owner is not blocked
reading leaves the sender in blocked-writing and queues the channel. -/
theorem send_blocked {s : rust_rt} {src port : Ptr} {sptr : Nat} {sp o : rust_proc}
    {pt : rust_port}
    (hinv : procs_inv s) (hsp : s.procs.get src = some sp) (hst : sp.state = .calling_c)
    (hpt : s.port_heap.get port = some pt) (ho : s.procs.get pt.proc = some o)
    (hsptr : sptr ≠ 0)
    (hnew : hash_find s sp.chans port = none → pt.unit_sz ≠ 0)
    (hold : ∀ chan c, hash_find s sp.chans port = some chan → s.chan_heap.get chan = some c →
      c.buf.room ∧ (c.blocked = 0 ∨ c.blocked = src))
    (hq0 : ∀ chan c, hash_find s sp.chans port = some chan → s.chan_heap.get chan = some c →
      c.queued = 0)
    (hw : pt.writers.wf)
    (hos : o.state ≠ .blocked_reading)
    (hsm : procs_small s) (hbr : s.blocked_procs.room) (hwr : pt.writers.room) :
    ∃ t s1 chan c w, upcall_send s src port sptr = Res.ok t ∧ procs_inv t ∧
      find_or_new_chan s src port = Res.ok (s1, chan) ∧
      s1.chan_heap.get chan = some c ∧ c.port = port ∧ c.buf.room ∧
      (hash_find s sp.chans port = some chan ∧ s.chan_heap.get chan = some c ∨
        hash_find s sp.chans port = none ∧ c.queued = 0 ∧ c.buf.unit_sz = pt.unit_sz ∧
          s.chan_heap.get chan = none) ∧
      t.chan_heap = s1.chan_heap.put chan
        { c with blocked := src, queued := 1, idx := pt.writers.fill,
                 buf := c.buf.pushed (mem_read s.mem sptr c.buf.unit_sz) } ∧
      (∀ x, x ≠ chan → s1.chan_heap.get x = s.chan_heap.get x) ∧
      t.port_heap = s.port_heap.put port { pt with writers := w } ∧
      w.wf ∧ w.fill = pt.writers.fill + 1 ∧
      (∀ j, w.slot j = if j = pt.writers.fill then some chan else pt.writers.slot j) ∧
      t.mem = s.mem ∧
      (∃ sp', t.procs.get src = some sp' ∧ sp'.state = .blocked_writing ∧
        sp'.upcall_args = sp.upcall_args ∧ hash_find t sp'.chans port = some chan) ∧
      (∀ q r, q ≠ src → s.procs.get q = some r →
        ∃ r', t.procs.get q = some r' ∧ r'.core = r.core) := by
  obtain ⟨s1, chan, c, s4, hfn, hc1, hcp, hroom, hcase, hinv4, hch4, hch1, hph4, hmem4,
    ⟨sp4, hsp4, hsp4s, hsp4a, hfind4⟩, hoth4, hvm4, hsend⟩ :=
    send_first_half hinv hsp hst hpt ho hsptr hnew hold hsm hbr
  have hchan : chan ≠ 0 := Store.ne_zero_of_get hc1
  have hc4 : s4.chan_heap.get chan = some
      { c with blocked := src, buf := c.buf.pushed (mem_read s.mem sptr c.buf.unit_sz) } := by
    rw [hch4]; exact Store.get_put_self _ hc1
  have hcq : c.queued = 0 := by
    rcases hcase with ⟨hf, hg⟩ | ⟨_, h, _⟩
    · exact hq0 chan c hf hg
    · exact h
  -- the owner is not reading, so nothing is transmitted
  have hatt : attempt_transmission s4 chan pt.proc = Res.ok (s4, 0) := by
    by_cases he : pt.proc = src
    · rw [he]
      exact attempt_not_reading hchan hsp4 (by rw [hsp4s]; decide)
    · obtain ⟨o4, ho4, ho4c⟩ := hoth4 pt.proc o he ho
      exact attempt_not_reading hchan ho4 (by rw [core_state ho4c]; exact hos)
  have hpt4 : s4.port_heap.get port = some pt := by rw [hph4]; exact hpt
  have hu : c.buf.unit_sz ≠ 0 := by have := hroom.1; omega
  have hc4' : (s4.chan_heap.put chan
      { c with blocked := src, queued := 1,
               buf := c.buf.pushed (mem_read s.mem sptr c.buf.unit_sz) }).get chan = some
      { c with blocked := src, queued := 1,
               buf := c.buf.pushed (mem_read s.mem sptr c.buf.unit_sz) } :=
    Store.get_put_self _ hc4
  obtain ⟨w, hpush, hwwf, hwfill, hwslot⟩ := ptr_vec.push_ok hw hwr hc4'
  simp only [set_idx_chan] at hpush
  have hfinal : ((s4.chan_heap.put chan
      { c with blocked := src, queued := 1,
               buf := c.buf.pushed (mem_read s.mem sptr c.buf.unit_sz) }).put chan
      { c with blocked := src, queued := 1, idx := pt.writers.fill,
               buf := c.buf.pushed (mem_read s.mem sptr c.buf.unit_sz) }) =
      s1.chan_heap.put chan
        { c with blocked := src, queued := 1, idx := pt.writers.fill,
                 buf := c.buf.pushed (mem_read s.mem sptr c.buf.unit_sz) } := by
    rw [hch4]
    cases chan with
    | zero => exact absurd rfl hchan
    | succ n => simp [Store.put]
  have hports : ∀ x, ((s1.chan_heap.put chan
        { c with blocked := src, queued := 1, idx := pt.writers.fill,
                 buf := c.buf.pushed (mem_read s.mem sptr c.buf.unit_sz) }).get x).map
        (fun c => c.port) = (s4.chan_heap.get x).map (fun c => c.port) := by
    intro x
    rw [hch4, Store.get_put _ hc1, Store.get_put _ hc1]
    by_cases hx : x = chan
    · subst hx; simp
    · simp [hx]
  refine ⟨{ s4 with
      chan_heap := s1.chan_heap.put chan
        { c with blocked := src, queued := 1, idx := pt.writers.fill,
                 buf := c.buf.pushed (mem_read s.mem sptr c.buf.unit_sz) },
      port_heap := s4.port_heap.put port { pt with writers := w } },
    s1, chan, c, w, ?_, procs_inv_congr rfl rfl rfl hinv4, hfn, hc1, hcp, hroom, hcase, rfl,
    hch1, ?_, hwwf, hwfill, hwslot, hmem4, ⟨sp4, hsp4, hsp4s, hsp4a, ?_⟩, hoth4⟩
  · rw [hsend, hatt]
    have hun : (c.buf.pushed (mem_read s.mem sptr c.buf.unit_sz)).unread ≠ 0 := hu
    simp only [Res.ok_bind, Store.deref_of_get hc4, hun, ne_eq, not_false_eq_true, hcq,
      and_self, if_true, Store.deref_of_get hpt4, hpush, Res.pure_eq, hfinal]
  · show s4.port_heap.put port _ = _
    rw [hph4]
  · have := hash_find_congr (s := s4) (t := { s4 with
      chan_heap := s1.chan_heap.put chan
        { c with blocked := src, queued := 1, idx := pt.writers.fill,
                 buf := c.buf.pushed (mem_read s.mem sptr c.buf.unit_sz) },
      port_heap := s4.port_heap.put port { pt with writers := w } }) hports sp4.chans port
    rw [this]
    exact hfind4

/-- The steps a returning send has gone through. -/
theorem send_inv {s t : rust_rt} {src port : Ptr} {sptr : Nat}
    (h : upcall_send s src port sptr = Res.ok t) :
    (port = 0 ∧ t = s) ∨
    (port ≠ 0 ∧ sptr ≠ 0 ∧ ∃ sp s1 chan c sp1 pt, s.procs.get src = some sp ∧
      find_or_new_chan s src port = Res.ok (s1, chan) ∧
      chan_located s s1 src port chan sp c sp1 ∧ s.port_heap.get port = some pt ∧
      (c.blocked = src ∨ c.blocked = 0) ∧
      ((pt.proc = 0 ∧ t = s1) ∨
       (pt.proc ≠ 0 ∧ ∃ buf s4 s5 n c5, c.buf.push s1 sptr = Res.ok (s1, buf) ∧
          proc_state_transition
            { s1 with chan_heap := s1.chan_heap.put chan { c with blocked := src, buf := buf } }
            src .calling_c .blocked_writing = Res.ok s4 ∧
          attempt_transmission s4 chan pt.proc = Res.ok (s5, n) ∧
          s5.chan_heap.get chan = some c5 ∧
          ((¬ (c5.buf.unread ≠ 0 ∧ c5.queued = 0) ∧ t = s5) ∨
           (c5.buf.unread ≠ 0 ∧ c5.queued = 0 ∧ ∃ pt5 w heap1,
              s5.port_heap.get port = some pt5 ∧
              pt5.writers.push (s5.chan_heap.put chan { c5 with queued := 1 }) chan =
                Res.ok (w, heap1) ∧
              t = { s5 with chan_heap := heap1,
                            port_heap := s5.port_heap.put port { pt5 with writers := w } }))))) := by
  unfold upcall_send at h
  rw [deref_bind_eq_ok] at h
  obtain ⟨sp, hsp, h⟩ := h
  by_cases hport : port = 0
  · left
    simp only [hport, if_true, Res.pure_eq, ok_eq_ok] at h
    exact ⟨hport, h.symm⟩
  · right
    simp only [hport, if_false, I_bind_eq_ok] at h
    obtain ⟨_, _, hsptr, h⟩ := h
    rw [Res.bind_eq_ok] at h
    obtain ⟨⟨s1, chan⟩, hfn, h⟩ := h
    simp only [I_bind_eq_ok] at h
    obtain ⟨_, h⟩ := h
    rw [deref_bind_eq_ok] at h
    obtain ⟨c, hc, h⟩ := h
    simp only [I_bind_eq_ok] at h
    obtain ⟨hblk, _, hcp, h⟩ := h
    rw [deref_bind_eq_ok] at h
    obtain ⟨pt, hpt1, h⟩ := h
    obtain ⟨sp', c', sp1, hsp', hloc⟩ := find_or_new_inv hfn
    rw [hsp] at hsp'; cases hsp'
    have hc' : s1.chan_heap.get chan = some c' := hloc.2.1
    rw [hc] at hc'; cases hc'
    have hph : s1.port_heap = s.port_heap := hloc.2.2.2.2.2.2.2.2.2.2.1
    have hpt : s.port_heap.get port = some pt := by rw [← hph]; exact hpt1
    refine ⟨hport, hsptr, sp, s1, chan, c, sp1, pt, hsp, hfn, hloc, hpt, hblk, ?_⟩
    by_cases hown : pt.proc = 0
    · left
      simp only [hown, ne_eq, not_true_eq_false, if_false, Res.pure_eq, ok_eq_ok] at h
      exact ⟨hown, h.symm⟩
    · right
      simp only [hown, ne_eq, not_false_eq_true, if_true] at h
      rw [Res.bind_eq_ok] at h
      obtain ⟨⟨s2, buf⟩, hpush, h⟩ := h
      have hs2 : s2 = s1 := (push_inv hpush).1
      subst hs2
      simp only at h
      rw [Res.bind_eq_ok] at h
      obtain ⟨s4, hs4, h⟩ := h
      rw [Res.bind_eq_ok] at h
      obtain ⟨⟨s5, n⟩, hs5, h⟩ := h
      simp only at h
      rw [deref_bind_eq_ok] at h
      obtain ⟨c5, hc5, h⟩ := h
      refine ⟨hown, buf, s4, s5, n, c5, hpush, hs4, hs5, hc5, ?_⟩
      by_cases hq : c5.buf.unread ≠ 0 ∧ c5.queued = 0
      · right
        rw [if_pos hq] at h
        rw [deref_bind_eq_ok] at h
        obtain ⟨pt5, hpt5, h⟩ := h
        rw [Res.bind_eq_ok] at h
        obtain ⟨⟨w, heap1⟩, hw, h⟩ := h
        simp only [Res.pure_eq, ok_eq_ok] at h
        exact ⟨hq.1, hq.2, pt5, w, heap1, hpt5, hw, h.symm⟩
      · left
        rw [if_neg hq] at h
        simp only [Res.pure_eq, ok_eq_ok] at h
        exact ⟨hq, h.symm⟩

/-- The steps a returning receive has gone through. -/
theorem recv_inv {s t : rust_rt} {dst port : Ptr} {r : Nat}
    (h : upcall_recv s dst port r = Res.ok t) :
    ∃ d pt s1, s.procs.get dst = some d ∧ d.state = .calling_c ∧
      s.port_heap.get port = some pt ∧ pt.proc = dst ∧
      proc_state_transition s dst .calling_c .blocked_reading = Res.ok s1 ∧
      ((pt.writers.fill = 0 ∧ t = s1) ∨
       (0 < pt.writers.fill ∧ ∃ schan sc s2 res,
          pt.writers.data[r % pt.writers.fill]? = some schan ∧
          s1.chan_heap.get schan = some sc ∧ sc.idx = r % pt.writers.fill ∧
          attempt_transmission s1 schan dst = Res.ok (s2, res) ∧
          ((res = 0 ∧ t = s2) ∨
           (res ≠ 0 ∧ ∃ pt2 w heap w1 sc2, s2.port_heap.get port = some pt2 ∧
              pt2.writers.swapdel s2.chan_heap schan = Res.ok (w, heap) ∧
              w.trim w.fill = Res.ok w1 ∧ heap.get schan = some sc2 ∧
              t = { s2 with chan_heap := heap.put schan { sc2 with queued := 0 },
                            port_heap := s2.port_heap.put port { pt2 with writers := w1 } })))) := by
  unfold upcall_recv at h
  rw [deref_bind_eq_ok] at h
  obtain ⟨d, hd, h⟩ := h
  simp only [I_bind_eq_ok] at h
  obtain ⟨_, h⟩ := h
  rw [deref_bind_eq_ok] at h
  obtain ⟨pt, hpt, h⟩ := h
  simp only [I_bind_eq_ok] at h
  obtain ⟨_, _, hown, h⟩ := h
  rw [Res.bind_eq_ok] at h
  obtain ⟨s1, hs1, h⟩ := h
  obtain ⟨d', hd', hds, _, _, _⟩ := pst_inv hs1
  rw [hd] at hd'; cases hd'
  refine ⟨d, pt, s1, hd, hds, hpt, hown, hs1, ?_⟩
  by_cases hfill : pt.writers.fill > 0
  · right
    rw [if_pos hfill] at h
    rw [Res.bind_eq_ok] at h
    obtain ⟨schan, hpk, h⟩ := h
    rw [deref_bind_eq_ok] at h
    obtain ⟨sc, hsc, h⟩ := h
    simp only [I_bind_eq_ok] at h
    obtain ⟨hidx, h⟩ := h
    rw [Res.bind_eq_ok] at h
    obtain ⟨⟨s2, res⟩, hatt, h⟩ := h
    simp only at h
    refine ⟨hfill, schan, sc, s2, res, peek_eq_ok.1 hpk, hsc, hidx, hatt, ?_⟩
    by_cases hres : res ≠ 0
    · right
      rw [if_pos hres] at h
      rw [deref_bind_eq_ok] at h
      obtain ⟨pt2, hpt2, h⟩ := h
      rw [Res.bind_eq_ok] at h
      obtain ⟨⟨w, heap⟩, hsw, h⟩ := h
      simp only at h
      rw [Res.bind_eq_ok] at h
      obtain ⟨w1, htr, h⟩ := h
      rw [deref_bind_eq_ok] at h
      obtain ⟨sc2, hsc2, h⟩ := h
      simp only [Res.pure_eq, ok_eq_ok] at h
      exact ⟨hres, pt2, w, heap, w1, sc2, hpt2, hsw, htr, hsc2, h.symm⟩
    · left
      rw [if_neg hres] at h
      simp only [Res.pure_eq, ok_eq_ok] at h
      exact ⟨by simpa using hres, h.symm⟩
  · left
    rw [if_neg hfill] at h
    simp only [Res.pure_eq, ok_eq_ok] at h
    exact ⟨by omega, h.symm⟩

/-! ## The state-vector invariant is preserved -/

theorem fail_proc_inv {s t : rust_rt} {p : Ptr} (hinv : procs_inv s) (hsm : procs_small s)
    (h : fail_proc s p = Res.ok t) :
    ∃ r, s.procs.get p = some r ∧ procs_inv t ∧ same_rest s t ∧ proc_moved s t p .failing := by
  unfold fail_proc at h
  rw [deref_bind_eq_ok] at h
  obtain ⟨r, hr, h⟩ := h
  simp only [I_bind_eq_ok] at h
  obtain ⟨_, h⟩ := h
  obtain ⟨r', hr', _, h1, h2, h3⟩ := pst_inv h
  exact ⟨r, hr, h1 hinv hsm, h2, h3⟩

theorem fail_proc_small {s t : rust_rt} {p : Ptr} (hsm : procs_small s)
    (h : fail_proc s p = Res.ok t) : procs_small t := by
  unfold fail_proc at h
  rw [deref_bind_eq_ok] at h
  obtain ⟨r, hr, h⟩ := h
  simp only [I_bind_eq_ok] at h
  obtain ⟨_, h⟩ := h
  exact pst_small h hsm

theorem attempt_procs_inv {s t : rust_rt} {src dst : Ptr} {n : Nat} (hinv : procs_inv s)
    (hsm : procs_small s) (h : attempt_transmission s src dst = Res.ok (t, n)) :
    procs_inv t := by
  rcases attempt_inv h with ⟨_, e⟩ | ⟨_, _, _, _, _, _, _, _, _, _, _, _, _, _, h', _⟩
  · rw [e]; exact hinv
  · exact h' hinv hsm

theorem attempt_small {s t : rust_rt} {src dst : Ptr} {n : Nat} (hsm : procs_small s)
    (h : attempt_transmission s src dst = Res.ok (t, n)) : procs_small t :=
  (attempt_counts h hsm).1

theorem send_procs_inv {s t : rust_rt} {src port : Ptr} {sptr : Nat} (hinv : procs_inv s)
    (hsm : procs_small s) (h : upcall_send s src port sptr = Res.ok t) :
    procs_inv t ∧ procs_small t := by
  rcases send_inv h with ⟨_, e⟩ | ⟨_, _, sp, s1, chan, c, sp1, pt, _, hfn, hloc, _, _, hrest⟩
  · rw [e]; exact ⟨hinv, hsm⟩
  · have hinv1 : procs_inv s1 := hloc.1 hinv
    obtain ⟨hv1, hv2⟩ := find_or_new_vecs hfn
    have hsm1 : procs_small s1 := procs_small_congr hv1 hv2 hsm
    rcases hrest with ⟨_, e⟩ | ⟨_, buf, s4, s5, n, c5, _, hs4, hs5, _, hfin⟩
    · rw [e]; exact ⟨hinv1, hsm1⟩
    · have hinv3 : procs_inv ({ s1 with
          chan_heap := s1.chan_heap.put chan { c with blocked := src, buf := buf } } : rust_rt) :=
        procs_inv_congr rfl rfl rfl hinv1
      have hsm3 := procs_small_congr (t := _) rfl rfl hsm1
      obtain ⟨_, _, _, hinv4', _, _⟩ := pst_inv hs4
      have hinv4 := hinv4' hinv3 hsm3
      have hsm4 := pst_small hs4 hsm3
      have hinv5 := attempt_procs_inv hinv4 hsm4 hs5
      have hsm5 := attempt_small hsm4 hs5
      rcases hfin with ⟨_, e⟩ | ⟨_, _, pt5, w, heap1, _, _, e⟩
      · rw [e]; exact ⟨hinv5, hsm5⟩
      · rw [e]; exact ⟨procs_inv_congr rfl rfl rfl hinv5, procs_small_congr rfl rfl hsm5⟩

theorem recv_procs_inv {s t : rust_rt} {dst port : Ptr} {r : Nat} (hinv : procs_inv s)
    (hsm : procs_small s) (h : upcall_recv s dst port r = Res.ok t) :
    procs_inv t ∧ procs_small t := by
  obtain ⟨d, pt, s1, _, _, _, _, hs1, hrest⟩ := recv_inv h
  obtain ⟨_, _, _, hinv1', _, _⟩ := pst_inv hs1
  have hinv1 := hinv1' hinv hsm
  have hsm1 := pst_small hs1 hsm
  rcases hrest with ⟨_, e⟩ | ⟨_, schan, sc, s2, res, _, _, _, hatt, hfin⟩
  · rw [e]; exact ⟨hinv1, hsm1⟩
  · have hinv2 := attempt_procs_inv hinv1 hsm1 hatt
    have hsm2 := attempt_small hsm1 hatt
    rcases hfin with ⟨_, e⟩ | ⟨_, pt2, w, heap, w1, sc2, _, _, _, _, e⟩
    · rw [e]; exact ⟨hinv2, hsm2⟩
    · rw [e]; exact ⟨procs_inv_congr rfl rfl rfl hinv2, procs_small_congr rfl rfl hsm2⟩

theorem same_procs_refl (s : rust_rt) : same_procs s s := ⟨rfl, rfl, rfl⟩

theorem same_procs_trans {s t u : rust_rt} (h1 : same_procs s t) (h2 : same_procs t u) :
    same_procs s u :=
  ⟨h2.1.trans h1.1, h2.2.1.trans h1.2.1, h2.2.2.trans h1.2.2⟩

theorem free_inv {s t : rust_rt} (h : s.free = Res.ok t) :
    t = { s with live_allocs := s.live_allocs - 1 } ∧ 0 < s.live_allocs := by
  unfold rust_rt.free at h
  simp only [I_bind_eq_ok, Res.pure_eq, ok_eq_ok] at h
  exact ⟨h.2.symm, h.1⟩

theorem free_same_procs {s t : rust_rt} (h : s.free = Res.ok t) : same_procs s t := by
  rw [(free_inv h).1]; exact ⟨rfl, rfl, rfl⟩

theorem del_stk_free_same (n : Nat) : ∀ (s t : rust_rt) (stk : Ptr),
    del_stk_free n s stk = Res.ok t → same_procs s t ∧ t.chan_heap = s.chan_heap ∧
      t.port_heap = s.port_heap ∧ t.mem = s.mem := by
  induction n with
  | zero => intro s t stk h; cases h
  | succ n ih =>
    intro s t stk h
    unfold del_stk_free at h
    rw [deref_bind_eq_ok] at h
    obtain ⟨seg, _, h⟩ := h
    rw [Res.bind_eq_ok] at h
    obtain ⟨s1, hs1, h⟩ := h
    have e := (free_inv hs1).1
    subst e
    simp only at h
    split at h
    · obtain ⟨a, b, c, d⟩ := ih _ _ _ h
      exact ⟨same_procs_trans ⟨rfl, rfl, rfl⟩ a, b, c, d⟩
    · simp only [Res.pure_eq, ok_eq_ok] at h
      subst h
      exact ⟨⟨rfl, rfl, rfl⟩, rfl, rfl, rfl⟩

theorem del_stk_same {fuel : Nat} {s t : rust_rt} {stk : Ptr}
    (h : del_stk fuel s stk = Res.ok t) :
    same_procs s t ∧ t.chan_heap = s.chan_heap ∧ t.port_heap = s.port_heap ∧ t.mem = s.mem := by
  unfold del_stk at h
  rw [Res.bind_eq_ok] at h
  obtain ⟨b, _, h⟩ := h
  exact del_stk_free_same _ _ _ _ h

theorem chan_delete_inv {s t : rust_rt} {c : Ptr} (h : rust_chan.delete s c = Res.ok t) :
    same_procs s t ∧ t.port_heap = s.port_heap ∧ t.mem = s.mem ∧
      t.chan_heap = s.chan_heap.free c ∧
      ∃ ch, s.chan_heap.get c = some ch ∧ ch.buf.unread = 0 := by
  unfold rust_chan.delete at h
  rw [deref_bind_eq_ok] at h
  obtain ⟨ch, hch, h⟩ := h
  rw [deref_bind_eq_ok] at h
  obtain ⟨pt, _, h⟩ := h
  rw [deref_bind_eq_ok] at h
  obtain ⟨_, _, h⟩ := h
  simp only [I_bind_eq_ok] at h
  obtain ⟨h0, h⟩ := h
  rw [Res.bind_eq_ok] at h
  obtain ⟨s1, hs1, h⟩ := h
  rw [Res.bind_eq_ok] at h
  obtain ⟨s2, hs2, h⟩ := h
  have e1 := (free_inv hs1).1
  subst e1
  have e2 := (free_inv hs2).1
  subst e2
  simp only [Res.pure_eq, ok_eq_ok] at h
  subst h
  exact ⟨⟨rfl, rfl, rfl⟩, rfl, rfl, rfl, ch, hch, h0⟩

theorem delete_chans_same (l : List Ptr) : ∀ (s t : rust_rt),
    delete_chans s l = Res.ok t → same_procs s t ∧ t.port_heap = s.port_heap ∧
      t.mem = s.mem := by
  induction l with
  | nil =>
    intro s t h
    simp only [delete_chans, Res.pure_eq, ok_eq_ok] at h
    subst h
    exact ⟨⟨rfl, rfl, rfl⟩, rfl, rfl⟩
  | cons c cs ih =>
    intro s t h
    unfold delete_chans at h
    rw [Res.bind_eq_ok] at h
    obtain ⟨s1, hs1, h⟩ := h
    obtain ⟨a1, a2, a3, _⟩ := chan_delete_inv hs1
    obtain ⟨b1, b2, b3⟩ := ih _ _ h
    exact ⟨same_procs_trans a1 b1, b2.trans a2, b3.trans a3⟩

theorem procs_inv_ex_same {s t : rust_rt} {ex : Ptr} (h : same_procs s t)
    (hinv : procs_inv_ex s ex) : procs_inv_ex t ex :=
  procs_inv_ex_congr h.1 h.2.1 h.2.2 hinv

/-- Once the proc left out of the invariant is freed, the invariant holds for
all live procs. -/
theorem procs_inv_of_free {s : rust_rt} {p : Ptr} (hinv : procs_inv_ex s p) :
    procs_inv ({ s with procs := s.procs.free p } : rust_rt) := by
  obtain ⟨hwf, hpos, hslot⟩ := (procs_inv_ex_iff s p).1 hinv
  unfold procs_inv
  rw [procs_inv_ex_iff]
  refine ⟨fun sel => by simpa using hwf sel, ?_, ?_⟩
  · intro x rx hx _
    simp only [Store.get_free] at hx
    by_cases hxp : x = p
    · simp [hxp] at hx
    · rw [if_neg hxp] at hx
      simpa using hpos x rx hx hxp
  · intro sel j x hx
    simp only [vec_with_procs] at hx
    obtain ⟨hxp, rx, hrx, hrxi, hrxs⟩ := hslot sel j x hx
    exact ⟨Store.ne_zero_of_get hrx, rx, by simp [Store.get_free, hxp, hrx], hrxi, hrxs⟩

theorem proc_delete_inv {fuel : Nat} {s t : rust_rt} {p : Ptr}
    (h : rust_proc.delete fuel s p = Res.ok t) :
    ∃ u, same_procs s u ∧ t = { u with procs := u.procs.free p } ∧
      u.port_heap = s.port_heap ∧ u.mem = s.mem := by
  unfold rust_proc.delete at h
  rw [deref_bind_eq_ok] at h
  obtain ⟨r, _, h⟩ := h
  rw [Res.bind_eq_ok] at h
  obtain ⟨_, _, h⟩ := h
  simp only [I_bind_eq_ok] at h
  obtain ⟨_, h⟩ := h
  rw [Res.bind_eq_ok] at h
  obtain ⟨s1, hs1, h⟩ := h
  rw [Res.bind_eq_ok] at h
  obtain ⟨s2, hs2, h⟩ := h
  rw [Res.bind_eq_ok] at h
  obtain ⟨s3, hs3, h⟩ := h
  simp only [Res.pure_eq, ok_eq_ok] at h
  obtain ⟨a1, _, a3, a4⟩ := del_stk_same hs1
  obtain ⟨b1, b2, b3⟩ := delete_chans_same _ _ _ hs2
  have e := (free_inv hs3).1
  subst e
  refine ⟨{ s2 with live_allocs := s2.live_allocs - 1 },
    same_procs_trans (same_procs_trans a1 b1) ⟨rfl, rfl, rfl⟩, h.symm, ?_, ?_⟩
  · exact b2.trans a3
  · exact b3.trans a4

theorem del_proc_procs_inv {fuel : Nat} {s t : rust_rt} {p : Ptr} (hinv : procs_inv s)
    (hsm : procs_small s) (h : upcall_del_proc fuel s p = Res.ok t) :
    (procs_inv t ∧ procs_small t) ∧ t.procs.get p = none ∧
      ∀ q, q ≠ p → (t.procs.get q).map rust_proc.core = (s.procs.get q).map rust_proc.core := by
  unfold upcall_del_proc at h
  rw [deref_bind_eq_ok] at h
  obtain ⟨r, hr, h⟩ := h
  rw [Res.bind_eq_ok] at h
  obtain ⟨s1, hs1, h⟩ := h
  rw [Res.bind_eq_ok] at h
  obtain ⟨s2, hs2, h⟩ := h
  obtain ⟨_, _, hinv1, _, hmoved⟩ := fail_proc_inv hinv hsm hs1
  have hsm1 := fail_proc_small hsm hs1
  obtain ⟨r1, hr1, _, _, _⟩ := proc_moved_self hmoved hr
  obtain ⟨s2', hs2', hinv2, _, hcores, _, hvm2⟩ := remove_spec hinv1 hsm1 hr1
  rw [hs2'] at hs2
  cases hs2
  have hsm2 := procs_small_of_moved hvm2 hsm1
  obtain ⟨u, hu, e, _, _⟩ := proc_delete_inv h
  have hinvu := procs_inv_ex_same hu hinv2
  subst e
  refine ⟨⟨procs_inv_of_free hinvu, procs_small_congr hu.2.1 hu.2.2 hsm2⟩,
    by simp [Store.get_free], ?_⟩
  intro q hq
  show ((u.procs.free p).get q).map _ = _
  rw [Store.get_free, if_neg hq, hu.1, hcores.2 q]
  exact hmoved.2.1 q hq

/-- A proc record appended to the heap is outside the vectors: the invariant
holds for all procs but the new one. -/
theorem procs_inv_ex_alloc {s t : rust_rt} (rec_ : rust_proc) (hinv : procs_inv s)
    (h1 : t.procs = s.procs ++ [some rec_]) (h2 : t.running_procs = s.running_procs)
    (h3 : t.blocked_procs = s.blocked_procs) :
    procs_inv_ex t (s.procs.length + 1) := by
  obtain ⟨hwf, hpos, hslot⟩ := (procs_inv_ex_iff s 0).1 hinv
  have hv : ∀ sel, t.vec sel = s.vec sel := by
    intro sel; cases sel <;> simp [rust_rt.vec, h2, h3]
  have hga := Store.get_alloc s.procs rec_
  simp only [Store.alloc] at hga
  rw [procs_inv_ex_iff]
  refine ⟨fun sel => by rw [hv]; exact hwf sel, ?_, ?_⟩
  · intro x rx hx hne
    rw [h1, hga, if_neg hne] at hx
    rw [hv]
    exact hpos x rx hx (Store.ne_zero_of_get hx)
  · intro sel j x hx
    rw [hv] at hx
    obtain ⟨_, rx, hrx, hrxi, hrxs⟩ := hslot sel j x hx
    have hne : x ≠ s.procs.length + 1 := by
      intro e
      rw [e, Store.get_of_length_lt s.procs (by omega)] at hrx
      cases hrx
    exact ⟨hne, rx, by rw [h1, hga, if_neg hne]; exact hrx, hrxi, hrxs⟩

theorem proc_new_inv {s t : rust_rt} {spawner p : Ptr} {a b c base : Nat}
    (h : rust_proc.new s spawner a b c base = Res.ok (t, p)) :
    p = s.procs.length + 1 ∧ ∃ rec_ : rust_proc, rec_.state = .running ∧
      t.procs = s.procs ++ [some rec_] ∧ t.running_procs = s.running_procs ∧
      t.blocked_procs = s.blocked_procs ∧ t.chan_heap = s.chan_heap ∧
      t.port_heap = s.port_heap := by
  unfold rust_proc.new at h
  simp only [new_stk, rust_rt.malloc, Store.alloc] at h
  rw [deref_bind_eq_ok] at h
  obtain ⟨seg, _, h⟩ := h
  rw [Res.bind_eq_ok] at h
  obtain ⟨m, _, h⟩ := h
  simp only [Res.pure_eq, ok_eq_ok, Prod.mk.injEq] at h
  obtain ⟨e1, e2⟩ := h
  subst e1 e2
  exact ⟨rfl, _, rfl, rfl, rfl, rfl, rfl, rfl⟩

theorem new_proc_procs_inv {s t : rust_rt} {spawner p : Ptr} {a b c base : Nat}
    (hinv : procs_inv s) (hsm : procs_small s)
    (h : upcall_new_proc s spawner a b c base = Res.ok (t, p)) :
    (procs_inv t ∧ procs_small t) ∧ p = s.procs.length + 1 ∧
      (∀ q r, s.procs.get q = some r → ∃ r', t.procs.get q = some r' ∧ r'.core = r.core) ∧
      t.chan_heap = s.chan_heap ∧ t.port_heap = s.port_heap := by
  unfold upcall_new_proc at h
  rw [deref_bind_eq_ok] at h
  obtain ⟨_, _, h⟩ := h
  rw [Res.bind_eq_ok] at h
  obtain ⟨⟨s1, p1⟩, hnew, h⟩ := h
  simp only at h
  rw [Res.bind_eq_ok] at h
  obtain ⟨s2, hadd, h⟩ := h
  simp only [Res.pure_eq, ok_eq_ok, Prod.mk.injEq] at h
  obtain ⟨e1, e2⟩ := h
  subst e1 e2
  obtain ⟨hp, rec_, _, hprocs, hr, hb, hch, hph⟩ := proc_new_inv hnew
  subst hp
  have hex := procs_inv_ex_alloc rec_ hinv hprocs hr hb
  have hga := Store.get_alloc s.procs rec_
  simp only [Store.alloc] at hga
  have hlive : s1.procs.get (s.procs.length + 1) = some rec_ := by
    rw [hprocs, hga, if_pos rfl]
  obtain ⟨r2, hr2, hroom2, _⟩ := add_counts hadd
  rw [hlive] at hr2
  cases hr2
  obtain ⟨t', ht', hinvt, hrest, hcores, hvm⟩ := add_spec hex hlive hroom2
  rw [ht'] at hadd
  cases hadd
  have hsm1 : procs_small s1 := procs_small_congr hr hb hsm
  refine ⟨⟨hinvt, procs_small_of_moved hvm hsm1⟩, rfl, ?_, hrest.2.2.2.2.1.trans hch,
    hrest.2.2.2.1.trans hph⟩
  intro q r hq
  have hne : q ≠ s.procs.length + 1 := by
    intro e
    rw [e, Store.get_of_length_lt s.procs (by omega)] at hq
    cases hq
  have h1 : s1.procs.get q = some r := by rw [hprocs, hga, if_neg hne]; exact hq
  exact same_cores_get hcores h1

/-! ## The writers invariant is preserved -/

theorem writers_inv_iff (s : rust_rt) :
    writers_inv s ↔
      (∀ w pt, s.port_heap.get w = some pt → pt.writers.wf ∧
        ∀ j c, pt.writers.slot j = some c →
          ∃ ch, s.chan_heap.get c = some ch ∧ ch.port = w ∧ ch.idx = j ∧ ch.queued ≠ 0) ∧
      (∀ c ch, s.chan_heap.get c = some ch → ch.queued ≠ 0 →
        ∃ pt, s.port_heap.get ch.port = some pt ∧ pt.writers.slot ch.idx = some c) := by
  constructor
  · rintro ⟨h1, h2⟩
    refine ⟨?_, ?_⟩
    · intro w pt hpt
      obtain ⟨a, b⟩ := h1 w (by have := Store.lt_of_get hpt; omega) pt hpt
      refine ⟨a, ?_⟩
      intro j c hc
      obtain ⟨ch, x, y⟩ := b j (ptr_vec.slot_eq_some.1 hc).1 c hc
      exact ⟨ch, x, y⟩
    · intro c ch hc hq
      obtain ⟨pt, a, b⟩ := h2 c (by have := Store.lt_of_get hc; omega) ch hc hq
      exact ⟨pt, a, b⟩
  · rintro ⟨h1, h2⟩
    refine ⟨?_, ?_⟩
    · intro w _ pt hpt
      obtain ⟨a, b⟩ := h1 w pt hpt
      refine ⟨a, ?_⟩
      intro j _ c hc
      obtain ⟨ch, x, y⟩ := b j c hc
      exact ⟨ch, x, y⟩
    · intro c _ ch hc hq
      obtain ⟨pt, a, b⟩ := h2 c ch hc hq
      exact ⟨pt, a, b⟩

theorem qview_eq {a b : rust_chan} (h : a.qview = b.qview) :
    a.port = b.port ∧ a.idx = b.idx ∧ a.queued = b.queued := by
  simp only [rust_chan.qview, Prod.mk.injEq] at h
  exact h

/-- The writers invariant survives changes of the channel heap that keep the
target, index and queued flag of every channel and add only unqueued ones. -/
theorem writers_inv_mono {s t : rust_rt} (hp : t.port_heap = s.port_heap)
    (h1 : ∀ x ch, s.chan_heap.get x = some ch →
      ∃ ch', t.chan_heap.get x = some ch' ∧ ch'.qview = ch.qview)
    (h2 : ∀ x ch', t.chan_heap.get x = some ch' → s.chan_heap.get x = none → ch'.queued = 0)
    (h : writers_inv s) : writers_inv t := by
  rw [writers_inv_iff] at h ⊢
  obtain ⟨ha, hb⟩ := h
  refine ⟨?_, ?_⟩
  · intro w pt hpt
    rw [hp] at hpt
    obtain ⟨a, b⟩ := ha w pt hpt
    refine ⟨a, ?_⟩
    intro j c hc
    obtain ⟨ch, x, y1, y2, y3⟩ := b j c hc
    obtain ⟨ch', x', e⟩ := h1 c ch x
    obtain ⟨e1, e2, e3⟩ := qview_eq e
    exact ⟨ch', x', e1.trans y1, e2.trans y2, by rw [e3]; exact y3⟩
  · intro c ch' hc hq
    cases hs : s.chan_heap.get c with
    | none => exact absurd (h2 c ch' hc hs) hq
    | some ch =>
      obtain ⟨ch'', x', e⟩ := h1 c ch hs
      rw [hc] at x'; cases x'
      obtain ⟨e1, e2, e3⟩ := qview_eq e
      obtain ⟨pt, a, b⟩ := hb c ch hs (by rw [← e3]; exact hq)
      exact ⟨pt, by rw [hp, e1]; exact a, by rw [e2]; exact b⟩

/-- A transmission keeps target, index and queued flag of every channel. -/
theorem attempt_qview {s t : rust_rt} {src dst : Ptr} {n : Nat}
    (h : attempt_transmission s src dst = Res.ok (t, n)) :
    t.port_heap = s.port_heap ∧ t.chan_heap.length = s.chan_heap.length ∧
    (∀ x ch, s.chan_heap.get x = some ch →
      ∃ ch', t.chan_heap.get x = some ch' ∧ ch'.qview = ch.qview) ∧
    (∀ x, s.chan_heap.get x = none → t.chan_heap.get x = none) := by
  rcases attempt_inv h with ⟨_, e⟩ | ⟨_, d, c, b1, _, _, hc, _, _, _, _, _, _, _, _, htr⟩
  · subst e
    exact ⟨rfl, rfl, fun x ch hx => ⟨ch, hx, rfl⟩, fun x hx => hx⟩
  · obtain ⟨hch, hph, _⟩ := htr
    refine ⟨hph, by rw [hch, Store.length_put], ?_, ?_⟩
    · intro x ch hx
      rw [hch, Store.get_put _ hc]
      by_cases hxs : x = src
      · subst hxs
        rw [hc] at hx; cases hx
        exact ⟨{ c with buf := b1, blocked := 0 }, by simp, rfl⟩
      · exact ⟨ch, by simp [hxs, hx], rfl⟩
    · intro x hx
      rw [hch, Store.get_put _ hc]
      by_cases hxs : x = src
      · subst hxs; rw [hc] at hx; cases hx
      · simp [hxs, hx]

theorem writers_inv_queue {s : rust_rt} {port chan : Ptr} {pt : rust_port} {c : rust_chan}
    {w : ptr_vec} (hW : writers_inv s) (hpt : s.port_heap.get port = some pt)
    (hc : s.chan_heap.get chan = some c) (hcp : c.port = port) (hq : c.queued = 0)
    (hwfill : w.fill = pt.writers.fill + 1) (hwwf : w.wf)
    (hwslot : ∀ j, w.slot j = if j = pt.writers.fill then some chan else pt.writers.slot j) :
    writers_inv ({ s with
      chan_heap := (s.chan_heap.put chan { c with queued := 1 }).put chan
        { c with queued := 1, idx := pt.writers.fill },
      port_heap := s.port_heap.put port { pt with writers := w } } : rust_rt) := by
  rw [writers_inv_iff] at hW ⊢
  obtain ⟨ha, hb⟩ := hW
  have hc1 : (s.chan_heap.put chan { c with queued := 1 }).get chan =
      some { c with queued := 1 } := Store.get_put_self _ hc
  have hgc : ∀ x, ((s.chan_heap.put chan { c with queued := 1 }).put chan
      { c with queued := 1, idx := pt.writers.fill }).get x =
      if x = chan then some { c with queued := 1, idx := pt.writers.fill }
      else s.chan_heap.get x := by
    intro x
    rw [Store.get_put _ hc1, Store.get_put _ hc]
    by_cases hx : x = chan <;> simp [hx]
  have hgp : ∀ x, (s.port_heap.put port { pt with writers := w }).get x =
      if x = port then some { pt with writers := w } else s.port_heap.get x :=
    fun x => Store.get_put _ hpt x
  have hnotin : ∀ w' pt' j, s.port_heap.get w' = some pt' → pt'.writers.slot j ≠ some chan := by
    intro w' pt' j hpt' hj
    obtain ⟨ch, x, _, _, y⟩ := (ha w' pt' hpt').2 j chan hj
    rw [hc] at x; cases x
    exact y hq
  refine ⟨?_, ?_⟩
  · intro w' pt' hpt'
    simp only [hgp] at hpt'
    by_cases hw' : w' = port
    · rw [if_pos hw'] at hpt'
      cases hpt'
      refine ⟨hwwf, ?_⟩
      intro j x hx
      simp only [hwslot] at hx
      by_cases hj : j = pt.writers.fill
      · rw [if_pos hj] at hx
        have hxc : x = chan := (Option.some.inj hx).symm
        rw [hxc]
        refine ⟨{ c with queued := 1, idx := pt.writers.fill }, by simp [hgc], ?_, ?_, ?_⟩
        · rw [hw']; exact hcp
        · exact hj.symm
        · show (1 : Nat) ≠ 0
          omega
      · rw [if_neg hj] at hx
        obtain ⟨ch, a, b⟩ := (ha port pt hpt).2 j x hx
        have hxc : x ≠ chan := by
          intro e; rw [e] at hx; exact hnotin port pt j hpt hx
        exact ⟨ch, by simp [hgc, hxc, a], by rw [hw']; exact b.1, b.2⟩
    · rw [if_neg hw'] at hpt'
      obtain ⟨a, b⟩ := ha w' pt' hpt'
      refine ⟨a, ?_⟩
      intro j x hx
      obtain ⟨ch, a', b'⟩ := b j x hx
      have hxc : x ≠ chan := by
        intro e; rw [e] at hx; exact hnotin w' pt' j hpt' hx
      exact ⟨ch, by simp [hgc, hxc, a'], b'⟩
  · intro x ch hx hqx
    simp only [hgc] at hx
    by_cases hxc : x = chan
    · rw [if_pos hxc] at hx
      cases hx
      refine ⟨{ pt with writers := w }, by simp [hgp, hcp], ?_⟩
      show w.slot pt.writers.fill = some x
      rw [hwslot, if_pos rfl, hxc]
    · rw [if_neg hxc] at hx
      obtain ⟨pt', a, b⟩ := hb x ch hx hqx
      by_cases hp' : ch.port = port
      · rw [hp', hpt] at a; cases a
        refine ⟨{ pt with writers := w }, by simp [hgp, hp'], ?_⟩
        show w.slot ch.idx = some x
        have hlt := (ptr_vec.slot_eq_some.1 b).1
        rw [hwslot, if_neg (by omega)]
        exact b
      · exact ⟨pt', by simp [hgp, hp', a], b⟩

theorem send_writers_inv {s t : rust_rt} {src port : Ptr} {sptr : Nat}
    (hW : writers_inv s) (h : upcall_send s src port sptr = Res.ok t) : writers_inv t := by
  rcases send_inv h with ⟨_, e⟩ | ⟨_, _, sp, s1, chan, c, sp1, pt, _, _, hloc, hpt, _, hrest⟩
  · rw [e]; exact hW
  · obtain ⟨hinv1, hc1, hcp, _, _, _, _, _, _, hch1, hph1, _, _, _, _, hcase⟩ := hloc
    -- the lookup adds at most an unqueued channel
    have hW1 : writers_inv s1 := by
      rcases hcase with ⟨_, e, _⟩ | ⟨_, hcn, _, _, _, pt', _, _, hce⟩
      · rw [e]; exact hW
      · refine writers_inv_mono hph1 ?_ ?_ hW
        · intro x ch hx
          have hne : x ≠ chan := by
            intro e
            rw [e, hcn, Store.get_of_length_lt s.chan_heap (by omega)] at hx
            cases hx
          exact ⟨ch, by rw [hch1 x hne]; exact hx, rfl⟩
        · intro x ch' hx hnone
          by_cases hxc : x = chan
          · rw [hxc, hc1] at hx; cases hx
            rw [hce]; rfl
          · rw [hch1 x hxc, hnone] at hx; cases hx
    rcases hrest with ⟨_, e⟩ | ⟨_, buf, s4, s5, n, c5, _, hs4, hs5, hc5, hfin⟩
    · rw [e]; exact hW1
    · obtain ⟨_, _, _, hinv4, hrest4, _⟩ := pst_inv hs4
      obtain ⟨_, _, _, a4, a5, _, _⟩ := hrest4
      have hg3 : ∀ x, (s1.chan_heap.put chan { c with blocked := src, buf := buf }).get x =
          if x = chan then some { c with blocked := src, buf := buf } else s1.chan_heap.get x :=
        fun x => Store.get_put _ hc1 x
      have hW4 : writers_inv s4 := by
        refine writers_inv_mono (s := s1) (a4.trans rfl) ?_ ?_ hW1
        · intro x ch hx
          rw [a5]
          show ∃ ch', (s1.chan_heap.put chan _).get x = some ch' ∧ _
          rw [hg3]
          by_cases hxc : x = chan
          · rw [hxc, hc1] at hx; cases hx
            exact ⟨{ c with blocked := src, buf := buf }, by simp [hxc], rfl⟩
          · exact ⟨ch, by simp [hxc, hx], rfl⟩
        · intro x ch' hx hnone
          rw [a5] at hx
          have hx' : (s1.chan_heap.put chan { c with blocked := src, buf := buf }).get x =
              some ch' := hx
          rw [hg3] at hx'
          by_cases hxc : x = chan
          · rw [hxc, hc1] at hnone; cases hnone
          · rw [if_neg hxc, hnone] at hx'; cases hx'
      obtain ⟨b1, _, b3, b4⟩ := attempt_qview hs5
      have hW5 : writers_inv s5 := by
        refine writers_inv_mono b1 b3 ?_ hW4
        intro x ch' hx hnone
        rw [b4 x hnone] at hx; cases hx
      rcases hfin with ⟨_, e⟩ | ⟨_, hq, pt5, w, heap1, hpt5, hpush, e⟩
      · rw [e]; exact hW5
      · -- the channel is queued
        have hc4 : s4.chan_heap.get chan = some { c with blocked := src, buf := buf } := by
          rw [a5]; exact Store.get_put_self _ hc1
        obtain ⟨c5', hc5', hqv⟩ := b3 chan _ hc4
        rw [hc5] at hc5'; cases hc5'
        have hc5p : c5.port = port := (qview_eq hqv).1.trans hcp
        have hwf5 : pt5.writers.wf := ((writers_inv_iff s5).1 hW5).1 port pt5 hpt5 |>.1
        have hc5q : (s5.chan_heap.put chan { c5 with queued := 1 }).get chan =
            some { c5 with queued := 1 } := Store.get_put_self _ hc5
        obtain ⟨w', hpush', hw'wf, hw'fill, hw'slot⟩ :=
          ptr_vec.push_ok hwf5 (ptr_vec.push_has_room hpush) hc5q
        rw [hpush'] at hpush
        simp only [ok_eq_ok, Prod.mk.injEq, set_idx_chan] at hpush
        obtain ⟨e1, e2⟩ := hpush
        subst e1 e2 e
        exact writers_inv_queue hW5 hpt5 hc5 hc5p hq hw'fill hw'wf hw'slot

theorem slot_last {v : ptr_vec} (hv : v.wf) (h : 0 < v.fill) :
    ∃ q, v.slot (v.fill - 1) = some q := by
  obtain ⟨h1, h2, _⟩ := hv
  have hlt : v.fill - 1 < v.data.length := by omega
  refine ⟨v.data[v.fill - 1], ?_⟩
  simp only [ptr_vec.slot]
  rw [if_pos (by omega)]
  exact List.getElem?_eq_getElem hlt

/-- Shape of the writers vector and the channel heap after `swapdel` and `trim`
of a queued channel. -/
theorem dequeue_shape {s : rust_rt} {port schan : Ptr} {pt : rust_port} {sc : rust_chan}
    {w w1 : ptr_vec} {heap : Store rust_chan} (hW : writers_inv s)
    (hpt : s.port_heap.get port = some pt) (hsc : s.chan_heap.get schan = some sc)
    (hport : sc.port = port) (hq : sc.queued ≠ 0)
    (hsw : pt.writers.swapdel s.chan_heap schan = Res.ok (w, heap))
    (htr : w.trim w.fill = Res.ok w1) (hws : pt.writers.small) :
    sc.idx < pt.writers.fill ∧ pt.writers.slot sc.idx = some schan ∧
    ∃ q cq, pt.writers.slot (pt.writers.fill - 1) = some q ∧ s.chan_heap.get q = some cq ∧
      cq.port = port ∧ cq.idx = pt.writers.fill - 1 ∧ cq.queued ≠ 0 ∧
      (∀ x, heap.get x = if x = q then some { cq with idx := sc.idx } else s.chan_heap.get x) ∧
      w1.wf ∧ w1.fill = pt.writers.fill - 1 ∧
      ∀ j, w1.slot j = swapdel_slots pt.writers sc.idx j := by
  obtain ⟨ha, hb⟩ := (writers_inv_iff s).1 hW
  obtain ⟨pt', hpt', hslot⟩ := hb schan sc hsc hq
  rw [hport, hpt] at hpt'; cases hpt'
  obtain ⟨hwf, hsl⟩ := ha port pt hpt
  have hlt := (ptr_vec.slot_eq_some.1 hslot).1
  refine ⟨hlt, hslot, ?_⟩
  obtain ⟨q, hq1⟩ := slot_last hwf (by omega)
  obtain ⟨cq, hcq, hcqp, hcqi, hcqq⟩ := hsl _ q hq1
  refine ⟨q, cq, hq1, hcq, hcqp, hcqi, hcqq, ?_⟩
  by_cases h1 : pt.writers.fill = 1
  · obtain ⟨v', hv', hv'wf, hv'fill, hv'slot⟩ :=
      ptr_vec.swapdel_one hwf hsc (by simpa [idx_chan] using hlt) h1
    rw [hv'] at hsw
    simp only [ok_eq_ok, Prod.mk.injEq] at hsw
    obtain ⟨e1, e2⟩ := hsw
    subst e1 e2
    obtain ⟨v1, hv1, hv1wf, hv1fill, hv1slot, _⟩ :=
      ptr_vec.trim_ok hv'wf (by
        unfold ptr_vec.small at hws ⊢
        rw [(ptr_vec.swapdel_alloc hv').1]; exact hws) (le_refl _)
    rw [hv1] at htr
    simp only [ok_eq_ok] at htr
    subst htr
    have hi0 : sc.idx = 0 := by omega
    have hqs : q = schan := by
      rw [h1] at hq1
      rw [hi0] at hslot
      simp only [Nat.sub_self] at hq1
      rw [hq1] at hslot
      exact Option.some.inj hslot
    refine ⟨?_, hv1wf, by omega, ?_⟩
    · intro x
      by_cases hx : x = q
      · rw [if_pos hx, hx, hcq]
        rw [hqs, hsc] at hcq
        cases hcq
        rfl
      · rw [if_neg hx]
    · intro j
      rw [hv1slot, hv'slot]
      simp [swapdel_slots, h1]
  · obtain ⟨v', hv', hv'wf, hv'fill, hv'slot⟩ :=
      ptr_vec.swapdel_many hwf hsc (by simpa [idx_chan] using hlt) (by omega) hq1 hcq
    rw [hv'] at hsw
    simp only [ok_eq_ok, Prod.mk.injEq] at hsw
    obtain ⟨e1, e2⟩ := hsw
    subst e1 e2
    obtain ⟨v1, hv1, hv1wf, hv1fill, hv1slot, _⟩ :=
      ptr_vec.trim_ok hv'wf (by
        unfold ptr_vec.small at hws ⊢
        rw [(ptr_vec.swapdel_alloc hv').1]; exact hws) (le_refl _)
    rw [hv1] at htr
    simp only [ok_eq_ok] at htr
    subst htr
    refine ⟨?_, hv1wf, by omega, ?_⟩
    · intro x
      rw [Store.get_put _ hcq]
      rfl
    · intro j
      rw [hv1slot, hv'slot]
      rfl

theorem writers_inv_dequeue {s : rust_rt} {port schan : Ptr} {pt : rust_port}
    {sc sc2 : rust_chan} {w w1 : ptr_vec} {heap : Store rust_chan} (hW : writers_inv s)
    (hpt : s.port_heap.get port = some pt) (hsc : s.chan_heap.get schan = some sc)
    (hport : sc.port = port) (hq : sc.queued ≠ 0)
    (hsw : pt.writers.swapdel s.chan_heap schan = Res.ok (w, heap))
    (htr : w.trim w.fill = Res.ok w1) (hsc2 : heap.get schan = some sc2)
    (hws : pt.writers.small) :
    writers_inv ({ s with
      chan_heap := heap.put schan { sc2 with queued := 0 },
      port_heap := s.port_heap.put port { pt with writers := w1 } } : rust_rt) := by
  obtain ⟨hlt, hslot, q, cq, hq1, hcq, hcqp, hcqi, hcqq, hheap, hw1wf, hw1fill, hw1slot⟩ :=
    dequeue_shape hW hpt hsc hport hq hsw htr hws
  obtain ⟨ha, hb⟩ := (writers_inv_iff s).1 hW
  rw [writers_inv_iff]
  have hgc : ∀ x, (heap.put schan { sc2 with queued := 0 }).get x =
      if x = schan then some { sc2 with queued := 0 }
      else if x = q then some { cq with idx := sc.idx } else s.chan_heap.get x := by
    intro x
    rw [Store.get_put _ hsc2, hheap]
  have hgp : ∀ x, (s.port_heap.put port { pt with writers := w1 }).get x =
      if x = port then some { pt with writers := w1 } else s.port_heap.get x :=
    fun x => Store.get_put _ hpt x
  refine ⟨?_, ?_⟩
  · intro w' pt' hpt'
    simp only [hgp] at hpt'
    by_cases hw' : w' = port
    · rw [if_pos hw'] at hpt'
      cases hpt'
      refine ⟨hw1wf, ?_⟩
      intro j x hx
      have hx' : swapdel_slots pt.writers sc.idx j = some x := by rw [← hw1slot]; exact hx
      simp only [swapdel_slots] at hx'
      by_cases hj : j < pt.writers.fill - 1
      · rw [if_pos hj] at hx'
        by_cases hji : j = sc.idx
        · rw [if_pos hji, hq1] at hx'
          have hxq : x = q := (Option.some.inj hx').symm
          have hqs : q ≠ schan := by
            intro e
            rw [e, hsc] at hcq
            cases hcq
            omega
          refine ⟨{ cq with idx := sc.idx }, ?_, ?_, ?_, ?_⟩
          · rw [hgc, hxq, if_neg hqs, if_pos rfl]
          · rw [hw']; exact hcqp
          · exact hji.symm
          · exact hcqq
        · rw [if_neg hji] at hx'
          obtain ⟨ch, a, b1, b2, b3⟩ := (ha port pt hpt).2 j x hx'
          have hxs : x ≠ schan := by
            intro e
            rw [e, hsc] at a
            cases a
            exact hji b2.symm
          have hxq : x ≠ q := by
            intro e
            rw [e, hcq] at a
            cases a
            omega
          exact ⟨ch, by rw [hgc, if_neg hxs, if_neg hxq]; exact a, by rw [hw']; exact b1, b2, b3⟩
      · rw [if_neg hj] at hx'
        cases hx'
    · rw [if_neg hw'] at hpt'
      obtain ⟨a, b⟩ := ha w' pt' hpt'
      refine ⟨a, ?_⟩
      intro j x hx
      obtain ⟨ch, a', b1, b2, b3⟩ := b j x hx
      have hxs : x ≠ schan := by
        intro e
        rw [e, hsc] at a'
        cases a'
        exact hw' (b1.symm.trans hport)
      have hxq : x ≠ q := by
        intro e
        rw [e, hcq] at a'
        cases a'
        exact hw' (b1.symm.trans hcqp)
      exact ⟨ch, by rw [hgc, if_neg hxs, if_neg hxq]; exact a', b1, b2, b3⟩
  · intro x ch hx hqx
    rw [hgc] at hx
    by_cases hxs : x = schan
    · rw [if_pos hxs] at hx
      cases hx
      exact absurd rfl hqx
    · rw [if_neg hxs] at hx
      by_cases hxq : x = q
      · rw [if_pos hxq] at hx
        cases hx
        refine ⟨{ pt with writers := w1 }, by rw [hgp]; simp [hcqp], ?_⟩
        show w1.slot sc.idx = some x
        have hne : sc.idx ≠ pt.writers.fill - 1 := by
          intro e
          rw [← e, hslot] at hq1
          exact hxs (hxq.trans (Option.some.inj hq1).symm)
        rw [hw1slot]
        simp only [swapdel_slots]
        rw [if_pos (by omega)]
        simp only [if_true, hq1, hxq]
      · rw [if_neg hxq] at hx
        obtain ⟨pt', a, b⟩ := hb x ch hx hqx
        by_cases hp' : ch.port = port
        · rw [hp', hpt] at a
          cases a
          refine ⟨{ pt with writers := w1 }, by rw [hgp]; simp [hp'], ?_⟩
          show w1.slot ch.idx = some x
          have hl := (ptr_vec.slot_eq_some.1 b).1
          have hne1 : ch.idx ≠ sc.idx := by
            intro e
            rw [e, hslot] at b
            exact hxs (Option.some.inj b).symm
          have hne2 : ch.idx ≠ pt.writers.fill - 1 := by
            intro e
            rw [e, hq1] at b
            exact hxq (Option.some.inj b).symm
          rw [hw1slot]
          simp only [swapdel_slots]
          rw [if_pos (by omega), if_neg hne1]
          exact b
        · exact ⟨pt', by rw [hgp, if_neg hp']; exact a, b⟩

/-- The writers vectors stay at a capacity `trim` does not halve when the port
heap is unchanged. -/
theorem writers_small_congr {s t : rust_rt} (h : t.port_heap = s.port_heap)
    (hs : writers_small s) : writers_small t := by
  unfold writers_small at hs ⊢
  rw [h]
  exact hs

/-- The writers vectors stay at a capacity `trim` does not halve when one of
them is replaced by a vector of the same capacity. -/
theorem writers_small_put {s t : rust_rt} {port : Ptr} {pt : rust_port} {w : ptr_vec}
    (hs : writers_small s) (hpt : s.port_heap.get port = some pt)
    (ha : w.alloc = pt.writers.alloc)
    (h : t.port_heap = s.port_heap.put port { pt with writers := w }) : writers_small t := by
  intro x _ px hpx
  have hpx' : t.port_heap.get x = some px := hpx
  rw [h, Store.get_put _ hpt] at hpx'
  by_cases hx : x = port
  · rw [if_pos hx] at hpx'
    cases hpx'
    have := hs port (by have := Store.lt_of_get hpt; omega) pt hpt
    unfold ptr_vec.small at this ⊢
    show w.alloc / 2 < 8
    rw [ha]; exact this
  · rw [if_neg hx] at hpx'
    exact hs x (by have := Store.lt_of_get hpx'; omega) px hpx'

theorem writers_small_get {s : rust_rt} {port : Ptr} {pt : rust_port}
    (hs : writers_small s) (hpt : s.port_heap.get port = some pt) : pt.writers.small :=
  hs port (by have := Store.lt_of_get hpt; omega) pt hpt

/-- A send that returns keeps the writers vectors at a capacity `trim` does not
halve. -/
theorem send_writers_small {s t : rust_rt} {src port : Ptr} {sptr : Nat}
    (hWs : writers_small s) (h : upcall_send s src port sptr = Res.ok t) :
    writers_small t := by
  rcases send_inv h with ⟨_, e⟩ | ⟨_, _, sp, s1, chan, c, sp1, pt, _, hfn, hloc, _, _, hrest⟩
  · rw [e]; exact hWs
  · obtain ⟨_, _, _, _, _, _, _, _, _, _, hph1, _⟩ := hloc
    have hWs1 : writers_small s1 := writers_small_congr hph1 hWs
    rcases hrest with ⟨_, e⟩ | ⟨_, buf, s4, s5, n, c5, _, hs4, hs5, _, hfin⟩
    · rw [e]; exact hWs1
    · obtain ⟨_, _, _, _, hrest4, _⟩ := pst_inv hs4
      obtain ⟨_, _, _, a4, _, _, _⟩ := hrest4
      have hWs4 : writers_small s4 := writers_small_congr (a4.trans rfl) hWs1
      obtain ⟨b1, _, _, _⟩ := attempt_qview hs5
      have hWs5 : writers_small s5 := writers_small_congr b1 hWs4
      rcases hfin with ⟨_, e⟩ | ⟨_, _, pt5, w, heap1, hpt5, hpush, e⟩
      · rw [e]; exact hWs5
      · rw [e]
        exact writers_small_put hWs5 hpt5 (ptr_vec.push_keeps_alloc hpush) rfl

theorem recv_writers_inv {s t : rust_rt} {dst port : Ptr} {r : Nat}
    (hW : writers_inv s) (hWs : writers_small s) (h : upcall_recv s dst port r = Res.ok t) :
    writers_inv t ∧ writers_small t := by
  obtain ⟨d, pt, s1, hd, hds, hpt, _, hs1, hrest⟩ := recv_inv h
  obtain ⟨_, _, _, hinv1, hrest1, _⟩ := pst_inv hs1
  obtain ⟨_, _, _, a4, a5, _, _⟩ := hrest1
  have hW1 : writers_inv s1 :=
    writers_inv_mono a4 (fun x ch hx => ⟨ch, by rw [a5]; exact hx, rfl⟩)
      (fun x ch' hx hn => by rw [a5, hn] at hx; cases hx) hW
  have hWs1 : writers_small s1 := writers_small_congr a4 hWs
  rcases hrest with ⟨_, e⟩ | ⟨hfill, schan, sc, s2, res, hpk, hsc, hidx, hatt, hfin⟩
  · rw [e]; exact ⟨hW1, hWs1⟩
  · obtain ⟨b1, _, b3, b4⟩ := attempt_qview hatt
    have hW2 : writers_inv s2 := by
      refine writers_inv_mono b1 b3 ?_ hW1
      intro x ch' hx hnone
      rw [b4 x hnone] at hx; cases hx
    have hWs2 : writers_small s2 := writers_small_congr b1 hWs1
    rcases hfin with ⟨_, e⟩ | ⟨_, pt2, w, heap, w1, sc2, hpt2, hsw, htr, hsc2, e⟩
    · rw [e]; exact ⟨hW2, hWs2⟩
    · -- the picked channel is queued at the port
      have hlt : r % pt.writers.fill < pt.writers.fill := Nat.mod_lt _ hfill
      have hsl : pt.writers.slot (r % pt.writers.fill) = some schan := by
        simp only [ptr_vec.slot]
        rw [if_pos hlt]
        exact hpk
      obtain ⟨ch, hch, hchp, _, hchq⟩ := (((writers_inv_iff s).1 hW).1 port pt hpt).2 _ _ hsl
      rw [← a5, hsc] at hch
      cases hch
      obtain ⟨sc', hsc', hqv⟩ := b3 schan sc hsc
      obtain ⟨e1, _, e3⟩ := qview_eq hqv
      have hws2 := writers_small_get hWs2 hpt2
      have hwsm : w.small := by
        unfold ptr_vec.small at hws2 ⊢
        rw [(ptr_vec.swapdel_alloc hsw).1]; exact hws2
      have hw1 : w1 = w := by
        rw [ptr_vec.trim_small _ hwsm] at htr
        exact (Res.ok.inj htr).symm
      rw [e]
      refine ⟨writers_inv_dequeue hW2 hpt2 hsc' (e1.trans hchp) (by rw [e3]; exact hchq)
        hsw htr hsc2 hws2, ?_⟩
      exact writers_small_put hWs2 hpt2 (by rw [hw1]; exact (ptr_vec.swapdel_alloc hsw).1) rfl

theorem Res.eq_ok_of_isOk {α : Type} {x : Res α} (d : α) (h : x.isOk = true) :
    x = Res.ok (x.getD d) := by
  cases x with
  | ok a => rfl
  | err e => cases h

/-! ## C6: the state-vector invariant -/

/-- C6: in a runtime whose two proc vectors are at a capacity `trim` does not
halve, the state-vector invariant `procs_inv` (every live proc sits at position
`idx` of the vector `get_state_vec` assigns to its state, and the two vectors
hold nothing else) holds again after every call of `proc_state_transition`,
`upcall_new_proc`, `fail_proc`, `attempt_transmission`, `upcall_send`,
`upcall_recv` and `upcall_del_proc` that returns, the capacities being
unchanged and the deleted proc being gone.  The insertion of a proc into a
vector that is full does not return: `push` reallocates the storage with the
doubled slot count as its size in bytes and the store of the proc lies outside
the block, so that the vector does not hold the proc at position `idx`. -/
theorem C6_state_vector_invariant_preserved (s : rust_rt) (hinv : procs_inv s)
    (hsm : procs_small s) :
    (∀ p a b t, proc_state_transition s p a b = Res.ok t → procs_inv t ∧ procs_small t) ∧
    (∀ spawner glue fn callsz base t p,
      upcall_new_proc s spawner glue fn callsz base = Res.ok (t, p) →
        procs_inv t ∧ procs_small t) ∧
    (∀ p t, fail_proc s p = Res.ok t → procs_inv t ∧ procs_small t) ∧
    (∀ src dst t n, attempt_transmission s src dst = Res.ok (t, n) →
      procs_inv t ∧ procs_small t) ∧
    (∀ src port sptr t, upcall_send s src port sptr = Res.ok t → procs_inv t ∧ procs_small t) ∧
    (∀ dst port r t, upcall_recv s dst port r = Res.ok t → procs_inv t ∧ procs_small t) ∧
    (∀ fuel p t, upcall_del_proc fuel s p = Res.ok t →
      (procs_inv t ∧ procs_small t) ∧ t.procs.get p = none) ∧
    (∀ p r, s.procs.get p = some r →
      (s.vec (get_state_vec r.state)).fill = (s.vec (get_state_vec r.state)).alloc →
        add_proc_state_vec s p = Res.err Err.oob) := by
  refine ⟨?_, ?_, ?_, ?_, ?_, ?_, ?_, ?_⟩
  · intro p a b t h
    obtain ⟨_, _, _, h1, _⟩ := pst_inv h
    exact ⟨h1 hinv hsm, pst_small h hsm⟩
  · intro spawner glue fn callsz base t p h
    exact (new_proc_procs_inv hinv hsm h).1
  · intro p t h
    obtain ⟨_, _, h1, _⟩ := fail_proc_inv hinv hsm h
    exact ⟨h1, fail_proc_small hsm h⟩
  · intro src dst t n h
    exact ⟨attempt_procs_inv hinv hsm h, attempt_small hsm h⟩
  · intro src port sptr t h
    exact send_procs_inv hinv hsm h
  · intro dst port r t h
    exact recv_procs_inv hinv hsm h
  · intro fuel p t h
    exact ⟨(del_proc_procs_inv hinv hsm h).1, (del_proc_procs_inv hinv hsm h).2.1⟩
  · intro p r hp hfull
    have hwf := ((procs_inv_ex_iff s 0).1 hinv).1 (get_state_vec r.state)
    have hpush := ptr_vec.push_full_oob (H := s.procs) hfull hwf.2.2 hp
    simp [add_proc_state_vec, get_proc_vec, Store.deref_of_get hp, hpush]

/-- Witness of C6 on the example runtimes: a state transition, a spawn, a
failure, a delivering send, a receive from a queued channel and the deletion of
a proc all return and leave the invariant in place.  In `demo_run_full` eight
procs are runnable: the spawn of a ninth stops at the store outside the
storage of the runnable vector. -/
theorem C6_state_vector_invariant_preserved_witness :
    procs_inv demo_busy ∧ procs_small demo_busy ∧
    procs_inv ((proc_state_transition demo_busy 2 .calling_c .blocked_writing).getD demo_busy) ∧
    procs_inv ((upcall_new_proc demo_busy 1 0x500 0x600 8 0x3000).getD (demo_busy, 0)).1 ∧
    procs_inv ((fail_proc demo_busy 1).getD demo_busy) ∧
    procs_inv ((upcall_send demo_ready 2 1 200).getD demo_ready) ∧
    procs_inv ((upcall_recv demo_queued 1 1 7).getD demo_queued) ∧
    procs_inv ((upcall_del_proc 4 demo_busy 2).getD demo_busy) ∧
    ((upcall_del_proc 4 demo_busy 2).getD demo_busy).procs.get 2 = none ∧
    procs_inv demo_run_full ∧ procs_small demo_run_full ∧
    demo_run_full.running_procs.fill = 8 ∧ demo_run_full.running_procs.alloc = 8 ∧
    (upcall_new_proc demo_run_full 2 0x500 0x600 8 0x3000).stop = some Err.oob ∧
    add_proc_state_vec demo_run_full 2 = Res.err Err.oob :=
  ⟨by decide, by decide,
   ((C6_state_vector_invariant_preserved demo_busy (by decide) (by decide)).1 2 .calling_c
     .blocked_writing _ (Res.eq_ok_of_isOk _ (by rfl))).1,
   ((C6_state_vector_invariant_preserved demo_busy (by decide) (by decide)).2.1 1 0x500 0x600 8
     0x3000 _ _ (Res.eq_ok_of_isOk (demo_busy, 0) (by rfl))).1,
   ((C6_state_vector_invariant_preserved demo_busy (by decide) (by decide)).2.2.1 1 _
     (Res.eq_ok_of_isOk _ (by rfl))).1,
   ((C6_state_vector_invariant_preserved demo_ready (by decide) (by decide)).2.2.2.2.1 2 1 200 _
     (Res.eq_ok_of_isOk _ (by rfl))).1,
   ((C6_state_vector_invariant_preserved demo_queued (by decide) (by decide)).2.2.2.2.2.1 1 1 7 _
     (Res.eq_ok_of_isOk _ (by rfl))).1,
   ((C6_state_vector_invariant_preserved demo_busy (by decide) (by decide)).2.2.2.2.2.2.1 4 2 _
     (Res.eq_ok_of_isOk _ (by rfl))).1.1,
   ((C6_state_vector_invariant_preserved demo_busy (by decide) (by decide)).2.2.2.2.2.2.1 4 2 _
     (Res.eq_ok_of_isOk _ (by rfl))).2,
   by decide, by decide, by decide, by decide, by rfl,
   (C6_state_vector_invariant_preserved demo_run_full (by decide) (by decide)).2.2.2.2.2.2.2 2 _
     (by rfl) (by decide)⟩

/-! ## C7: the writers invariant -/

theorem attempt_chan_frame {s t : rust_rt} {src dst : Ptr} {n : Nat}
    (h : attempt_transmission s src dst = Res.ok (t, n)) :
    ∀ x, x ≠ src → t.chan_heap.get x = s.chan_heap.get x := by
  rcases attempt_inv h with ⟨_, e⟩ | ⟨_, d, c, b1, _, _, hc, _, _, _, _, _, _, _, _, htr⟩
  · subst e
    intro x _
    rfl
  · obtain ⟨hch, _⟩ := htr
    intro x hx
    rw [hch, Store.get_put _ hc, if_neg hx]

theorem push_heap_chan {v w : ptr_vec} {heap heap1 : Store rust_chan} {p : Ptr}
    {x : rust_chan} (hx : heap.get p = some x) (h : v.push heap p = Res.ok (w, heap1)) :
    ∃ i, heap1 = heap.put p { x with idx := i } := by
  unfold ptr_vec.push at h
  simp only [I_bind_eq_ok] at h
  obtain ⟨_, h⟩ := h
  rw [deref_bind_eq_ok] at h
  obtain ⟨x', hx', h⟩ := h
  rw [hx] at hx'; cases hx'
  rw [Res.bind_eq_ok] at h
  obtain ⟨d, _, h⟩ := h
  simp only [Res.pure_eq, ok_eq_ok, Prod.mk.injEq] at h
  exact ⟨_, h.2.symm⟩

/-- After a send every channel is untouched, empty, or flagged as queued. -/
theorem send_channels {s t : rust_rt} {src port : Ptr} {sptr : Nat}
    (h : upcall_send s src port sptr = Res.ok t) :
    ∀ x ch, t.chan_heap.get x = some ch →
      s.chan_heap.get x = some ch ∨ ch.buf.unread = 0 ∨ ch.queued ≠ 0 := by
  intro x ch hx
  rcases send_inv h with ⟨_, e⟩ | ⟨_, _, sp, s1, chan, c, sp1, pt, _, _, hloc, hpt, _, hrest⟩
  · rw [e] at hx; exact Or.inl hx
  · obtain ⟨hinv1, hc1, hcp, _, _, _, _, _, _, hch1, hph1, _, _, _, _, hcase⟩ := hloc
    have hfresh : s1.chan_heap.get x = some ch →
        s.chan_heap.get x = some ch ∨ ch.buf.unread = 0 ∨ ch.queued ≠ 0 := by
      intro hx1
      by_cases hxc : x = chan
      · rcases hcase with ⟨_, e, _⟩ | ⟨_, _, _, _, _, pt', _, _, hce⟩
        · rw [e] at hx1; exact Or.inl hx1
        · rw [hxc, hc1] at hx1
          cases hx1
          rw [hce]
          exact Or.inr (Or.inl rfl)
      · rw [hch1 x hxc] at hx1
        exact Or.inl hx1
    rcases hrest with ⟨_, e⟩ | ⟨_, buf, s4, s5, n, c5, _, hs4, hs5, hc5, hfin⟩
    · rw [e] at hx; exact hfresh hx
    · obtain ⟨_, _, _, hinv4, hrest4, _⟩ := pst_inv hs4
      obtain ⟨_, _, _, a4, a5, _, _⟩ := hrest4
      have hfr5 := attempt_chan_frame hs5
      have hother : x ≠ chan → s5.chan_heap.get x = s1.chan_heap.get x := by
        intro hxc
        rw [hfr5 x hxc, a5]
        show (s1.chan_heap.put chan _).get x = _
        rw [Store.get_put _ hc1, if_neg hxc]
      rcases hfin with ⟨hno, e⟩ | ⟨_, hq, pt5, w, heap1, hpt5, hpush, e⟩
      · rw [e] at hx
        by_cases hxc : x = chan
        · rw [hxc, hc5] at hx
          cases hx
          by_cases hu : ch.buf.unread = 0
          · exact Or.inr (Or.inl hu)
          · exact Or.inr (Or.inr fun hq0 => hno ⟨hu, hq0⟩)
        · rw [hother hxc] at hx
          exact hfresh hx
      · have hc5q : (s5.chan_heap.put chan { c5 with queued := 1 }).get chan =
            some { c5 with queued := 1 } := Store.get_put_self _ hc5
        obtain ⟨i, hh⟩ := push_heap_chan hc5q hpush
        rw [e] at hx
        have hx' : heap1.get x = some ch := hx
        rw [hh, Store.get_put _ hc5q] at hx'
        by_cases hxc : x = chan
        · rw [if_pos hxc] at hx'
          cases hx'
          refine Or.inr (Or.inr ?_)
          show (1 : Nat) ≠ 0
          omega
        · rw [if_neg hxc, Store.get_put _ hc5, if_neg hxc, hother hxc] at hx'
          exact hfresh hx'

/-- C7: in a runtime whose writers vectors are at a capacity `trim` does not
halve, the writers invariant `writers_inv` (a channel is in the writers vector
of its target port if and only if its queued flag is set, and then it sits at
position `idx` there) holds again after every `upcall_send` and `upcall_recv`
that returns, the capacities being unchanged.  After `upcall_send`, a channel
whose buffer is non-empty sits in exactly one slot of the writers vector of its
target port, unless it is an unqueued channel the send left as it was.  The
push of a channel onto a writers vector that is full does not return: `push`
reallocates the storage with the doubled slot count as its size in bytes and
the store of the channel lies outside the block. -/
theorem C7_writers_invariant_preserved (s : rust_rt) (hW : writers_inv s)
    (hWs : writers_small s) :
    (∀ src port sptr t, upcall_send s src port sptr = Res.ok t →
      (writers_inv t ∧ writers_small t) ∧
      ∀ c ch, t.chan_heap.get c = some ch → ch.buf.unread ≠ 0 →
        (s.chan_heap.get c = some ch ∧ ch.queued = 0) ∨
        ∃ pt, t.port_heap.get ch.port = some pt ∧
          ∀ j, pt.writers.slot j = some c ↔ j = ch.idx) ∧
    (∀ dst port r t, upcall_recv s dst port r = Res.ok t → writers_inv t ∧ writers_small t) ∧
    (∀ port pt c ch, s.port_heap.get port = some pt → pt.writers.fill = pt.writers.alloc →
      s.chan_heap.get c = some ch → pt.writers.push s.chan_heap c = Res.err Err.oob) := by
  refine ⟨?_, ?_, ?_⟩
  · intro src port sptr t h
    have hWt := send_writers_inv hW h
    refine ⟨⟨hWt, send_writers_small hWs h⟩, ?_⟩
    intro c ch hc hu
    obtain ⟨ha, hb⟩ := (writers_inv_iff t).1 hWt
    by_cases hq : ch.queued = 0
    · rcases send_channels h c ch hc with h1 | h1 | h1
      · exact Or.inl ⟨h1, hq⟩
      · exact absurd h1 hu
      · exact absurd hq h1
    · right
      obtain ⟨pt, hpt, hslot⟩ := hb c ch hc hq
      refine ⟨pt, hpt, ?_⟩
      intro j
      constructor
      · intro hj
        obtain ⟨ch', hc', _, hidx, _⟩ := (ha ch.port pt hpt).2 j c hj
        rw [hc] at hc'
        cases hc'
        exact hidx.symm
      · intro hj
        rw [hj]
        exact hslot
  · intro dst port r t h
    exact recv_writers_inv hW hWs h
  · intro port pt c ch hpt hfull hc
    have hwf := (((writers_inv_iff s).1 hW).1 port pt hpt).1
    exact ptr_vec.push_full_oob hfull hwf.2.2 hc

/-- Witness of C7 on the example runtimes: a send to a port whose owner is not
reading queues the channel, a receive dequeues it, and the invariant holds
after each.  In `demo_nine_senders` eight channels are queued at port 1 and
their eight senders are blocked: the send of a ninth proc stops when the sender
is stored in the blocked vector, which is full, outside the storage the push
reallocates, and the push of a ninth channel onto the writers vector of the
port stops in the same way. -/
theorem C7_writers_invariant_preserved_witness :
    writers_inv demo_busy ∧ writers_small demo_busy ∧
    writers_inv ((upcall_send demo_busy 2 1 200).getD demo_busy) ∧
    (((upcall_send demo_busy 2 1 200).getD demo_busy).port_heap.get 1).map
      (fun pt => pt.writers.slot 0) = some (some 1) ∧
    writers_inv demo_queued ∧ writers_small demo_queued ∧
    writers_inv ((upcall_recv demo_queued 1 1 7).getD demo_queued) ∧
    writers_inv demo_nine_senders ∧ writers_small demo_nine_senders ∧
    procs_inv demo_nine_senders ∧
    (upcall_send demo_nine_senders 2 1 200).stop = some Err.oob ∧
    (demo_port [1, 2, 3, 4, 5, 6, 7, 8]).writers.push demo_nine_senders.chan_heap 1 =
      Res.err Err.oob :=
  ⟨by decide, by decide,
   ((C7_writers_invariant_preserved demo_busy (by decide) (by decide)).1 2 1 200 _
     (Res.eq_ok_of_isOk _ (by rfl))).1.1,
   by decide, by decide, by decide,
   ((C7_writers_invariant_preserved demo_queued (by decide) (by decide)).2.1 1 1 7 _
     (Res.eq_ok_of_isOk _ (by rfl))).1,
   by decide, by decide, by decide, by rfl,
   (C7_writers_invariant_preserved demo_nine_senders (by decide) (by decide)).2.2 1 _ 1 _
     (by rfl) (by decide) (by rfl)⟩

/-! ## C9: the channel tables -/

theorem tables_inv_iff (s : rust_rt) :
    tables_inv s ↔ ∀ p r, s.procs.get p = some r → table_ok s r := by
  constructor
  · intro h p r hp
    exact h p (by have := Store.lt_of_get hp; omega) r hp
  · intro h p _ r hp
    exact h p r hp

theorem chan_frame_refl (s : rust_rt) : chan_frame s s := fun _ ch h => ⟨ch, h, rfl⟩

theorem chan_frame_trans {s t u : rust_rt} (h1 : chan_frame s t) (h2 : chan_frame t u) :
    chan_frame s u := by
  intro c ch hc
  obtain ⟨ch', hc', e'⟩ := h1 c ch hc
  obtain ⟨ch'', hc'', e''⟩ := h2 c ch' hc'
  exact ⟨ch'', hc'', e''.trans e'⟩

theorem same_tables_refl (s : rust_rt) : same_tables s s := fun _ => rfl

theorem same_tables_trans {s t u : rust_rt} (h1 : same_tables s t) (h2 : same_tables t u) :
    same_tables s u := fun x => (h2 x).trans (h1 x)

theorem same_tables_get {s t : rust_rt} (h : same_tables s t) {q : Ptr} {r' : rust_proc}
    (hq : t.procs.get q = some r') : ∃ r, s.procs.get q = some r ∧ r'.chans = r.chans := by
  have := h q
  rw [hq] at this
  cases hs : s.procs.get q with
  | none => simp [hs] at this
  | some r => exact ⟨r, rfl, by simpa [hs] using this⟩

theorem same_tables_get_fwd {s t : rust_rt} (h : same_tables s t) {q : Ptr} {r : rust_proc}
    (hq : s.procs.get q = some r) : ∃ r', t.procs.get q = some r' ∧ r'.chans = r.chans := by
  have := h q
  rw [hq] at this
  cases hs : t.procs.get q with
  | none => simp [hs] at this
  | some r' => exact ⟨r', rfl, by simpa [hs] using this⟩

theorem same_ports_refl (s : rust_rt) : same_ports s s := fun _ => rfl

theorem same_ports_trans {s t u : rust_rt} (h1 : same_ports s t) (h2 : same_ports t u) :
    same_ports s u := fun x => (h2 x).trans (h1 x)

theorem chan_frame_of_same_ports {s t : rust_rt} (h : same_ports s t) : chan_frame s t := by
  intro x cx hx
  have := h x
  rw [hx] at this
  cases ht : t.chan_heap.get x with
  | none => simp [ht] at this
  | some c' => exact ⟨c', rfl, by simpa [ht] using this⟩

theorem same_ports_put {s : rust_rt} {c : Ptr} {ch k : rust_chan}
    (hc : s.chan_heap.get c = some ch) (hp : k.port = ch.port) {t : rust_rt}
    (ht : t.chan_heap = s.chan_heap.put c k) : same_ports s t := by
  intro x
  rw [ht, Store.get_put _ hc]
  by_cases hxc : x = c
  · rw [if_pos hxc, hxc, hc]
    simp [hp]
  · rw [if_neg hxc]

theorem same_ports_of_eq {s t : rust_rt} (h : t.chan_heap = s.chan_heap) : same_ports s t := by
  intro x
  rw [h]

theorem same_tables_of_eq {s t : rust_rt} (h : t.procs = s.procs) : same_tables s t := by
  intro x
  rw [h]

theorem map_chans_of_core {a b : Option rust_proc}
    (h : a.map rust_proc.core = b.map rust_proc.core) :
    a.map (fun r => r.chans) = b.map (fun r => r.chans) := by
  cases a <;> cases b <;> simp at h ⊢
  exact core_chans h

theorem same_tables_moved {s t : rust_rt} {p : Ptr} {dst : proc_state_t}
    (h : proc_moved s t p dst) : same_tables s t := by
  intro q
  by_cases hqp : q = p
  · have := h.2.2
    rw [hqp]
    cases ht : t.procs.get p with
    | none =>
      cases hs : s.procs.get p with
      | none => rfl
      | some r => simp [ht, hs] at this
    | some r' =>
      cases hs : s.procs.get p with
      | none => simp [ht, hs] at this
      | some r =>
        have hc : r'.core = ({ r with state := dst } : rust_proc).core := by
          simpa [ht, hs] using this
        simp only [Option.map_some']
        exact congrArg some (core_chans (b := { r with state := dst }) hc)
  · exact map_chans_of_core (h.2.1 q hqp)

theorem pst_frames {s t : rust_rt} {p : Ptr} {a b : proc_state_t}
    (h : proc_state_transition s p a b = Res.ok t) :
    same_ports s t ∧ same_tables s t := by
  obtain ⟨_, _, _, _, hrest, hmv⟩ := pst_inv h
  exact ⟨same_ports_of_eq hrest.2.2.2.2.1, same_tables_moved hmv⟩

theorem attempt_frames {s t : rust_rt} {src dst : Ptr} {n : Nat}
    (h : attempt_transmission s src dst = Res.ok (t, n)) :
    same_ports s t ∧ same_tables s t := by
  rcases attempt_inv h with ⟨_, e⟩ | ⟨_, d, c, b1, hd, _, hc, _, hb, _, _, _, _, _, _, htr⟩
  · subst e
    exact ⟨same_ports_refl _, same_tables_refl _⟩
  · obtain ⟨hch, _, _, _, _, _, _, _, hoth, hdst, hblk⟩ := htr
    refine ⟨same_ports_put (k := { c with buf := b1, blocked := 0 }) hc rfl hch, ?_⟩
    intro q
    by_cases hqd : q = dst
    · obtain ⟨d', hd', _, hdc, _⟩ := hdst
      rw [hqd, hd', hd]
      simp [hdc]
    · by_cases hqb : q = c.blocked
      · rcases hb with hb0 | ⟨b, hbs, _⟩
        · rw [hqb, hb0, Store.get_zero, Store.get_zero]
        · obtain ⟨b', hb', _, hbc, _⟩ := hblk b hbs
          rw [hqb, hb', hbs]
          simp [hbc]
      · exact map_chans_of_core (hoth q hqd hqb)

theorem table_ok_frame {s t : rust_rt} {r r' : rust_proc} (hc : chan_frame s t)
    (he : r'.chans = r.chans) (h : table_ok s r) : table_ok t r' := by
  obtain ⟨h0, h1, h2⟩ := h
  refine ⟨by rw [he]; exact h0, ?_, ?_⟩
  · intro c hcm
    rw [he] at hcm
    have := h1 c hcm
    cases hs : s.chan_heap.get c with
    | none => simp [hs] at this
    | some ch =>
      obtain ⟨ch', hc', _⟩ := hc c ch hs
      simp [hc']
  · intro c1 hc1 c2 hc2 ch1 hch1 ch2 hch2 hp
    rw [he] at hc1 hc2
    have l1 := h1 c1 hc1
    have l2 := h1 c2 hc2
    cases hs1 : s.chan_heap.get c1 with
    | none => simp [hs1] at l1
    | some x1 =>
      cases hs2 : s.chan_heap.get c2 with
      | none => simp [hs2] at l2
      | some x2 =>
        obtain ⟨y1, hy1, e1⟩ := hc c1 x1 hs1
        obtain ⟨y2, hy2, e2⟩ := hc c2 x2 hs2
        have hch1' : t.chan_heap.get c1 = some ch1 := hch1
        have hch2' : t.chan_heap.get c2 = some ch2 := hch2
        rw [hy1] at hch1'
        rw [hy2] at hch2'
        cases hch1'
        cases hch2'
        exact h2 c1 hc1 c2 hc2 x1 hs1 x2 hs2 (by rw [← e1, ← e2]; exact hp)

theorem tables_inv_frame {s t : rust_rt} (hc : chan_frame s t) (ht : same_tables s t)
    (h : tables_inv s) : tables_inv t := by
  rw [tables_inv_iff] at h ⊢
  intro p r' hp
  obtain ⟨r, hr, he⟩ := same_tables_get ht hp
  exact table_ok_frame hc he (h p r hr)

theorem recv_frames {s t : rust_rt} {dst port : Ptr} {r : Nat}
    (h : upcall_recv s dst port r = Res.ok t) :
    same_ports s t ∧ same_tables s t ∧ t.chan_heap.length = s.chan_heap.length := by
  obtain ⟨d, pt, s1, hd, hds, hpt, _, hs1, hrest⟩ := recv_inv h
  obtain ⟨_, _, _, hinv1, hrest1, _⟩ := pst_inv hs1
  obtain ⟨f1, g1⟩ := pst_frames hs1
  have hl1 : s1.chan_heap.length = s.chan_heap.length := by rw [hrest1.2.2.2.2.1]
  rcases hrest with ⟨_, e⟩ | ⟨hfill, schan, sc, s2, res, hpk, hsc, hidx, hatt, hfin⟩
  · rw [e]; exact ⟨f1, g1, hl1⟩
  · obtain ⟨f2, g2⟩ := attempt_frames hatt
    obtain ⟨_, hl2, _, _⟩ := attempt_qview hatt
    rcases hfin with ⟨_, e⟩ | ⟨_, pt2, w, heap, w1, sc2, hpt2, hsw, htr, hsc2, e⟩
    · rw [e]
      exact ⟨same_ports_trans f1 f2, same_tables_trans g1 g2, hl2.trans hl1⟩
    · have f3 : same_ports s2 ({ s2 with chan_heap := heap } : rust_rt) := by
        rcases ptr_vec.swapdel_heap hsw with e1 | ⟨q, sb, i, hq, e1⟩
        · exact same_ports_of_eq e1
        · exact same_ports_put (k := { sb with idx := i }) hq rfl e1
      have f4 : same_ports ({ s2 with chan_heap := heap } : rust_rt) t := by
        rw [e]
        exact same_ports_put (s := ({ s2 with chan_heap := heap } : rust_rt))
          (k := { sc2 with queued := 0 }) hsc2 rfl rfl
      have g3 : same_tables s2 t := by
        rw [e]
        exact same_tables_of_eq rfl
      have hl3 : heap.length = s2.chan_heap.length := by
        rcases ptr_vec.swapdel_heap hsw with e1 | ⟨q, sb, i, hq, e1⟩
        · rw [e1]
        · rw [e1, Store.length_put]
      refine ⟨same_ports_trans f1 (same_ports_trans f2 (same_ports_trans f3 f4)),
        same_tables_trans g1 (same_tables_trans g2 g3), ?_⟩
      rw [e]
      show (heap.put schan _).length = _
      rw [Store.length_put, hl3, hl2, hl1]

theorem hash_find_none {s : rust_rt} {l : List Ptr} {port : Ptr}
    (h : hash_find s l port = none) :
    ∀ c, c ∈ l → ∀ ch, s.chan_heap.get c = some ch → ch.port ≠ port := by
  intro c hc ch hch hp
  unfold hash_find at h
  rw [List.find?_eq_none] at h
  have := h c hc
  simp [hch, hp] at this

theorem find_or_new_chan_frame {s s1 : rust_rt} {src port chan : Ptr} {sp sp1 : rust_proc}
    {c : rust_chan} (hloc : chan_located s s1 src port chan sp c sp1) : chan_frame s s1 := by
  obtain ⟨_, hc1, hcp, hsp1, _, _, _, hprocs, _, hch1, hph1, _, _, _, _, hcase⟩ := hloc
  rcases hcase with ⟨_, e, _⟩ | ⟨hnone, hcn, _, hchans, _, pt', _, _, hce⟩
  · rw [e]
    exact chan_frame_refl _
  · intro x ch hx
    have hne : x ≠ chan := by
      intro e
      rw [e, hcn, Store.get_of_length_lt s.chan_heap (by omega)] at hx
      cases hx
    exact ⟨ch, by rw [hch1 x hne]; exact hx, rfl⟩

/-- The lookup-or-create step keeps the table invariant. -/
theorem find_or_new_tables {s s1 : rust_rt} {src port chan : Ptr} {sp sp1 : rust_proc}
    {c : rust_chan} (hsp : s.procs.get src = some sp) (hT : tables_inv s)
    (hloc : chan_located s s1 src port chan sp c sp1) :
    tables_inv s1 ∧ chan_frame s s1 := by
  obtain ⟨hinv1, hc1, hcp, hsp1, _, _, _, hprocs, _, hch1, hph1, _, _, _, _, hcase⟩ := hloc
  rcases hcase with ⟨_, e, _⟩ | ⟨hnone, hcn, _, hchans, _, pt', _, _, hce⟩
  · rw [e]; exact ⟨hT, chan_frame_refl _⟩
  · rw [tables_inv_iff] at hT ⊢
    have hold : ∀ x ch, s.chan_heap.get x = some ch → x ≠ chan := by
      intro x ch hx e
      rw [e, hcn, Store.get_of_length_lt s.chan_heap (by omega)] at hx
      cases hx
    have hfr : chan_frame s s1 := by
      intro x ch hx
      exact ⟨ch, by rw [hch1 x (hold x ch hx)]; exact hx, rfl⟩
    refine ⟨?_, hfr⟩
    intro p r' hp
    by_cases hps : p = src
    · rw [hps, hsp1] at hp
      cases hp
      obtain ⟨h0, h1, h2⟩ := hT src sp hsp
      have hlive : ∀ x, x ∈ sp.chans → ∃ ch, s.chan_heap.get x = some ch := by
        intro x hx
        have := h1 x hx
        cases hs : s.chan_heap.get x with
        | none => simp [hs] at this
        | some ch => exact ⟨ch, rfl⟩
      have hnotin : chan ∉ sp.chans := by
        intro hm
        obtain ⟨ch, hch⟩ := hlive chan hm
        exact hold chan ch hch rfl
      refine ⟨?_, ?_, ?_⟩
      · rw [hchans]
        exact List.Nodup.append h0 (List.nodup_singleton _) (by simpa using hnotin)
      · intro x hx
        rw [hchans, List.mem_append, List.mem_singleton] at hx
        rcases hx with hx | hx
        · obtain ⟨ch, hch⟩ := hlive x hx
          rw [hch1 x (hold x ch hch), hch]
          rfl
        · rw [hx, hc1]
          rfl
      · intro c1 hm1 c2 hm2 ch1 hg1 ch2 hg2 hp12
        rw [hchans, List.mem_append, List.mem_singleton] at hm1 hm2
        have hg1' : s1.chan_heap.get c1 = some ch1 := hg1
        have hg2' : s1.chan_heap.get c2 = some ch2 := hg2
        rcases hm1 with hm1 | hm1 <;> rcases hm2 with hm2 | hm2
        · obtain ⟨x1, hx1⟩ := hlive c1 hm1
          obtain ⟨x2, hx2⟩ := hlive c2 hm2
          rw [hch1 c1 (hold c1 x1 hx1), hx1] at hg1'
          rw [hch1 c2 (hold c2 x2 hx2), hx2] at hg2'
          cases hg1'
          cases hg2'
          exact h2 c1 hm1 c2 hm2 ch1 hx1 ch2 hx2 hp12
        · obtain ⟨x1, hx1⟩ := hlive c1 hm1
          rw [hch1 c1 (hold c1 x1 hx1), hx1] at hg1'
          cases hg1'
          rw [hm2, hc1] at hg2'
          cases hg2'
          exact absurd (hp12.trans hcp) (hash_find_none hnone c1 hm1 ch1 hx1)
        · obtain ⟨x2, hx2⟩ := hlive c2 hm2
          rw [hch1 c2 (hold c2 x2 hx2), hx2] at hg2'
          cases hg2'
          rw [hm1, hc1] at hg1'
          cases hg1'
          exact absurd (hp12.symm.trans hcp) (hash_find_none hnone c2 hm2 ch2 hx2)
        · rw [hm1, hm2]
    · rw [hprocs p hps] at hp
      exact table_ok_frame hfr rfl (hT p r' hp)

/-- From the located channel on, a send creates and drops neither a channel
nor a table entry. -/
theorem send_located {s t : rust_rt} {src port : Ptr} {sptr : Nat}
    (h : upcall_send s src port sptr = Res.ok t) :
    (port = 0 ∧ t = s) ∨
    ∃ sp s1 chan c sp1, s.procs.get src = some sp ∧
      chan_located s s1 src port chan sp c sp1 ∧ port ≠ 0 ∧
      find_or_new_chan s src port = Res.ok (s1, chan) ∧
      same_ports s1 t ∧ same_tables s1 t ∧ t.chan_heap.length = s1.chan_heap.length := by
  rcases send_inv h with ⟨h0, e⟩ | ⟨hp0, _, sp, s1, chan, c, sp1, pt, hsp, hfn, hloc, hpt, _, hrest⟩
  · exact Or.inl ⟨h0, e⟩
  · right
    refine ⟨sp, s1, chan, c, sp1, hsp, hloc, hp0, hfn, ?_⟩
    obtain ⟨_, hc1, hcp, hsp1, _, _, hfind1, _, _, hch1, hph1, _, _, _, _, hcase⟩ := hloc
    rcases hrest with ⟨_, e⟩ | ⟨_, buf, s4, s5, n, c5, _, hs4, hs5, hc5, hfin⟩
    · rw [e]; exact ⟨same_ports_refl _, same_tables_refl _, rfl⟩
    · have f3 : same_ports s1 ({ s1 with
          chan_heap := s1.chan_heap.put chan { c with blocked := src, buf := buf } } : rust_rt) :=
        same_ports_put (k := { c with blocked := src, buf := buf }) hc1 rfl rfl
      have g3 : same_tables s1 ({ s1 with
          chan_heap := s1.chan_heap.put chan { c with blocked := src, buf := buf } } : rust_rt) :=
        same_tables_of_eq rfl
      obtain ⟨_, _, _, hinv4, hrest4, _⟩ := pst_inv hs4
      obtain ⟨f4, g4⟩ := pst_frames hs4
      obtain ⟨f5, g5⟩ := attempt_frames hs5
      obtain ⟨_, hl5, _, _⟩ := attempt_qview hs5
      have hl4 : s4.chan_heap.length = s1.chan_heap.length := by
        rw [hrest4.2.2.2.2.1]
        show (s1.chan_heap.put chan _).length = _
        rw [Store.length_put]
      have f15 := same_ports_trans f3 (same_ports_trans f4 f5)
      have g15 := same_tables_trans g3 (same_tables_trans g4 g5)
      rcases hfin with ⟨_, e⟩ | ⟨_, hq, pt5, w, heap1, hpt5, hpush, e⟩
      · rw [e]
        exact ⟨f15, g15, hl5.trans hl4⟩
      · have hc5q : (s5.chan_heap.put chan { c5 with queued := 1 }).get chan =
            some { c5 with queued := 1 } := Store.get_put_self _ hc5
        obtain ⟨i, hh⟩ := push_heap_chan hc5q hpush
        have f6 : same_ports s5 ({ s5 with
            chan_heap := s5.chan_heap.put chan { c5 with queued := 1 } } : rust_rt) :=
          same_ports_put (k := { c5 with queued := 1 }) hc5 rfl rfl
        have f7 : same_ports ({ s5 with
            chan_heap := s5.chan_heap.put chan { c5 with queued := 1 } } : rust_rt) t := by
          rw [e]
          exact same_ports_put (s := ({ s5 with
            chan_heap := s5.chan_heap.put chan { c5 with queued := 1 } } : rust_rt))
            (k := { c5 with queued := 1, idx := i }) hc5q rfl hh
        have g7 : same_tables s5 t := by
          rw [e]
          exact same_tables_of_eq rfl
        refine ⟨same_ports_trans f15 (same_ports_trans f6 f7), same_tables_trans g15 g7, ?_⟩
        rw [e]
        show heap1.length = _
        rw [hh, Store.length_put, Store.length_put, hl5, hl4]

theorem send_after_locate {s t : rust_rt} {src port : Ptr} {sptr : Nat}
    (h : upcall_send s src port sptr = Res.ok t) :
    (port = 0 ∧ t = s) ∨
    ∃ sp s1 chan c sp1, s.procs.get src = some sp ∧
      chan_located s s1 src port chan sp c sp1 ∧ port ≠ 0 ∧
      same_ports s1 t ∧ same_tables s1 t ∧ t.chan_heap.length = s1.chan_heap.length := by
  rcases send_located h with h0 | ⟨sp, s1, chan, c, sp1, hsp, hloc, hp0, _, key⟩
  · exact Or.inl h0
  · exact Or.inr ⟨sp, s1, chan, c, sp1, hsp, hloc, hp0, key⟩

theorem send_chan_frame {s t : rust_rt} {src port : Ptr} {sptr : Nat}
    (h : upcall_send s src port sptr = Res.ok t) : chan_frame s t := by
  rcases send_after_locate h with ⟨_, e⟩ | ⟨sp, s1, chan, c, sp1, _, hloc, _, f, _, _⟩
  · rw [e]
    exact chan_frame_refl _
  · exact chan_frame_trans (find_or_new_chan_frame hloc) (chan_frame_of_same_ports f)

/-- What a send does to the channel tables: the table invariant is kept,
channels keep their target, the sender's table holds the channel for the port
afterwards, and nothing is allocated when it held one before. -/
theorem send_tables {s t : rust_rt} {src port : Ptr} {sptr : Nat}
    (hT : tables_inv s) (h : upcall_send s src port sptr = Res.ok t) :
    tables_inv t ∧ chan_frame s t ∧
    (∀ sp chan, s.procs.get src = some sp → hash_find s sp.chans port = some chan →
      t.chan_heap.length = s.chan_heap.length ∧ same_ports s t ∧ same_tables s t) ∧
    (port ≠ 0 → ∃ sp' chan ch, t.procs.get src = some sp' ∧
      hash_find t sp'.chans port = some chan ∧ t.chan_heap.get chan = some ch ∧
      ch.port = port) := by
  rcases send_after_locate h with ⟨h0, e⟩ | ⟨sp, s1, chan, c, sp1, hsp, hloc, hp0, key⟩
  · rw [e]
    exact ⟨hT, chan_frame_refl _, fun _ _ _ _ => ⟨rfl, same_ports_refl _, same_tables_refl _⟩,
      fun hne => absurd h0 hne⟩
  · obtain ⟨hT1, hfr1⟩ := find_or_new_tables hsp hT hloc
    obtain ⟨_, hc1, hcp, hsp1, _, _, hfind1, _, _, hch1, hph1, _, _, _, _, hcase⟩ := hloc
    obtain ⟨f, g, hl⟩ := key
    refine ⟨tables_inv_frame (chan_frame_of_same_ports f) g hT1,
      chan_frame_trans hfr1 (chan_frame_of_same_ports f), ?_, ?_⟩
    · intro sp' chan' hsp' hfind
      rw [hsp] at hsp'
      cases hsp'
      rcases hcase with ⟨_, e, _⟩ | ⟨hnone, _⟩
      · rw [e] at f g hl
        exact ⟨hl, f, g⟩
      · rw [hnone] at hfind
        cases hfind
    · intro _
      obtain ⟨sp', hsp', hchans⟩ := same_tables_get_fwd g hsp1
      obtain ⟨ch, hch, hchp⟩ := chan_frame_of_same_ports f chan c hc1
      refine ⟨sp', chan, ch, hsp', ?_, hch, hchp.trans hcp⟩
      rw [hchans, hash_find_congr f]
      exact hfind1

/-! ## State changes made by the runtime operations -/

theorem same_live_refl (s : rust_rt) : same_live s s := fun _ => rfl

theorem same_live_trans {s t u : rust_rt} (h1 : same_live s t) (h2 : same_live t u) :
    same_live s u := fun q => (h2 q).trans (h1 q)

theorem same_live_of_eq {s t : rust_rt} (h : t.procs = s.procs) : same_live s t := by
  intro q
  rw [h]

theorem steps_refl (R : proc_state_t → proc_state_t → Prop) (s : rust_rt) : steps R s s := by
  intro q a b ha hb
  rw [ha] at hb
  cases hb
  exact Or.inl rfl

theorem steps_of_eq (R : proc_state_t → proc_state_t → Prop) {s t : rust_rt}
    (h : t.procs = s.procs) : steps R s t := by
  intro q a b ha hb
  rw [h, ha] at hb
  cases hb
  exact Or.inl rfl

/-- Composition of the state changes of two consecutive steps. -/
theorem steps_trans {R1 R2 R3 : proc_state_t → proc_state_t → Prop} {s m t : rust_rt}
    (h1 : steps R1 s m) (hl : same_live s m) (h2 : steps R2 m t)
    (hc : ∀ a x b, (a = x ∨ R1 a x) → (x = b ∨ R2 x b) → (a = b ∨ R3 a b)) :
    steps R3 s t := by
  intro q a b ha hb
  have := hl q
  rw [ha] at this
  cases hm : m.procs.get q with
  | none => simp [hm] at this
  | some x => exact hc _ _ _ (h1 q a x ha hm) (h2 q x b hm hb)

theorem steps_mono {R1 R2 : proc_state_t → proc_state_t → Prop} {s t : rust_rt}
    (h : steps R1 s t) (hc : ∀ a b, R1 a b → R2 a b) : steps R2 s t := by
  intro q a b ha hb
  rcases h q a b ha hb with e | r
  · exact Or.inl e
  · exact Or.inr (hc _ _ r)

theorem same_live_of_cores {s t : rust_rt}
    (h : ∀ q, (t.procs.get q).map rust_proc.core = (s.procs.get q).map rust_proc.core) :
    same_live s t := by
  intro q
  have := h q
  cases ht : t.procs.get q <;> cases hs : s.procs.get q <;> simp [ht, hs] at this ⊢

theorem same_live_moved {s t : rust_rt} {p : Ptr} {dst : proc_state_t}
    (h : proc_moved s t p dst) : same_live s t := by
  intro q
  by_cases hq : q = p
  · have := h.2.2
    rw [hq]
    cases ht : t.procs.get p <;> cases hs : s.procs.get p <;> simp [ht, hs] at this ⊢
  · have := h.2.1 q hq
    cases ht : t.procs.get q <;> cases hs : s.procs.get q <;> simp [ht, hs] at this ⊢

theorem steps_moved {s t : rust_rt} {p : Ptr} {r : rust_proc} {dst : proc_state_t}
    (hr : s.procs.get p = some r) (h : proc_moved s t p dst) :
    steps (fun x y => x = r.state ∧ y = dst) s t := by
  intro q a b ha hb
  by_cases hq : q = p
  · right
    rw [hq] at ha hb
    obtain ⟨r', hr', hs, _⟩ := proc_moved_self h hr
    rw [hr] at ha
    rw [hr'] at hb
    cases ha
    cases hb
    exact ⟨rfl, hs⟩
  · left
    obtain ⟨r', hr', hc⟩ := proc_moved_ne h hq ha
    rw [hr'] at hb
    cases hb
    exact (core_state hc).symm

/-- State changes of `proc_state_transition`: the proc goes from `a` to `b`. -/
theorem pst_steps {s t : rust_rt} {p : Ptr} {a b : proc_state_t}
    (h : proc_state_transition s p a b = Res.ok t) :
    same_live s t ∧ steps (fun x y => x = a ∧ y = b) s t := by
  obtain ⟨r, hr, hst, _, hmv⟩ := pst_frame h
  refine ⟨same_live_moved hmv, ?_⟩
  rw [← hst]
  exact steps_moved hr hmv

/-- State changes of `fail_proc`: the proc ends in failing, whatever its state
was; no other proc changes state. -/
theorem fail_proc_steps {s t : rust_rt} {p : Ptr} (h : fail_proc s p = Res.ok t) :
    same_live s t ∧
    (∀ q a b, s.procs.get q = some a → t.procs.get q = some b →
      (q = p ∧ b.state = .failing) ∨ (q ≠ p ∧ b.state = a.state)) := by
  unfold fail_proc at h
  rw [deref_bind_eq_ok] at h
  obtain ⟨r, hr, h⟩ := h
  simp only [I_bind_eq_ok] at h
  obtain ⟨_, h⟩ := h
  obtain ⟨_, _, _, _, hmv⟩ := pst_frame h
  refine ⟨same_live_moved hmv, ?_⟩
  intro q a b ha hb
  by_cases hq : q = p
  · left
    rw [hq] at hb
    obtain ⟨r', hr', hs, _⟩ := proc_moved_self hmv hr
    rw [hr'] at hb
    cases hb
    exact ⟨hq, hs⟩
  · right
    obtain ⟨r', hr', hc⟩ := proc_moved_ne hmv hq ha
    rw [hr'] at hb
    cases hb
    exact ⟨hq, core_state hc⟩

/-- State changes of `attempt_transmission`: a proc in blocked-reading or in
blocked-writing may end in running. -/
theorem attempt_steps {s t : rust_rt} {src dst : Ptr} {n : Nat}
    (h : attempt_transmission s src dst = Res.ok (t, n)) :
    same_live s t ∧
    steps (fun x y => (x = .blocked_reading ∨ x = .blocked_writing) ∧ y = .running) s t := by
  rcases attempt_inv h with ⟨_, e⟩ | ⟨_, d, c, b1, hd, hds, hc, _, hb, _, _, _, _, _, _, htr⟩
  · subst e
    exact ⟨same_live_refl _, steps_refl _ _⟩
  · obtain ⟨_, _, _, _, _, _, _, _, hoth, hdst, hblk⟩ := htr
    have key : ∀ q, (q = dst ∧ ∃ d', t.procs.get q = some d' ∧ d'.state = .running) ∨
        (q = c.blocked ∧ ∃ b b', s.procs.get q = some b ∧ b.state = .blocked_writing ∧
          t.procs.get q = some b' ∧ b'.state = .running) ∨
        (t.procs.get q).map rust_proc.core = (s.procs.get q).map rust_proc.core := by
      intro q
      by_cases hqd : q = dst
      · obtain ⟨d', hd', hs', _⟩ := hdst
        exact Or.inl ⟨hqd, d', by rw [hqd]; exact hd', hs'⟩
      · by_cases hqb : q = c.blocked
        · rcases hb with hb0 | ⟨b, hbs, hbst⟩
          · right; right
            rw [hqb, hb0, Store.get_zero, Store.get_zero]
          · obtain ⟨b', hb', hs', _⟩ := hblk b hbs
            exact Or.inr (Or.inl ⟨hqb, b, b', by rw [hqb]; exact hbs, hbst,
              by rw [hqb]; exact hb', hs'⟩)
        · exact Or.inr (Or.inr (hoth q hqd hqb))
    refine ⟨?_, ?_⟩
    · intro q
      rcases key q with ⟨hq, d', hd', _⟩ | ⟨_, b, b', hbs, _, hb', _⟩ | hcore
      · rw [hd', hq, hd]
        rfl
      · rw [hb', hbs]
        rfl
      · cases ht : t.procs.get q <;> cases hs : s.procs.get q <;> simp [ht, hs] at hcore ⊢
    · intro q a b ha hb'
      rcases key q with ⟨hq, d', hd', hs'⟩ | ⟨_, x, x', hxs, hxst, hx', hs'⟩ | hcore
      · right
        rw [hq, hd] at ha
        rw [hd'] at hb'
        cases ha
        cases hb'
        exact ⟨Or.inl hds, hs'⟩
      · right
        rw [hxs] at ha
        rw [hx'] at hb'
        cases ha
        cases hb'
        exact ⟨Or.inr hxst, hs'⟩
      · left
        rw [ha, hb'] at hcore
        simp only [Option.map_some', Option.some.injEq] at hcore
        exact (core_state hcore).symm

/-! ## Upcalls that leave proc states and channels alone -/

theorem steps_of_cores {s t : rust_rt}
    (h : ∀ q r, s.procs.get q = some r → ∃ r', t.procs.get q = some r' ∧ r'.core = r.core) :
    steps (fun _ _ => False) s t := by
  intro q a b ha hb
  obtain ⟨r', hr', hc⟩ := h q a ha
  rw [hr'] at hb
  cases hb
  exact Or.inl (core_state hc).symm

theorem chan_sub_refl (s : rust_rt) : chan_sub s s := fun _ _ h => h

theorem chan_sub_trans {s t u : rust_rt} (h1 : chan_sub s t) (h2 : chan_sub t u) :
    chan_sub s u := fun c ch h => h1 c ch (h2 c ch h)

theorem chan_sub_of_eq {s t : rust_rt} (h : t.chan_heap = s.chan_heap) : chan_sub s t := by
  intro c ch hc
  rw [← h]
  exact hc

theorem chan_sub_free {s t : rust_rt} {c : Ptr} (h : t.chan_heap = s.chan_heap.free c) :
    chan_sub s t := by
  intro x ch hx
  rw [h, Store.get_free] at hx
  by_cases hxc : x = c
  · rw [if_pos hxc] at hx
    cases hx
  · rw [if_neg hxc] at hx
    exact hx

theorem new_proc_frame {s t : rust_rt} {spawner p : Ptr} {a b c base : Nat}
    (h : upcall_new_proc s spawner a b c base = Res.ok (t, p)) :
    steps (fun _ _ => False) s t ∧ t.chan_heap = s.chan_heap := by
  unfold upcall_new_proc at h
  rw [deref_bind_eq_ok] at h
  obtain ⟨_, _, h⟩ := h
  rw [Res.bind_eq_ok] at h
  obtain ⟨⟨s1, p1⟩, hnew, h⟩ := h
  simp only at h
  rw [Res.bind_eq_ok] at h
  obtain ⟨s2, hadd, h⟩ := h
  simp only [Res.pure_eq, ok_eq_ok, Prod.mk.injEq] at h
  obtain ⟨e1, e2⟩ := h
  subst e1 e2
  obtain ⟨hp, rec_, _, hprocs, _, _, hch, _⟩ := proc_new_inv hnew
  obtain ⟨hrest, hcores⟩ := add_frame hadd
  have hga := Store.get_alloc s.procs rec_
  simp only [Store.alloc] at hga
  refine ⟨steps_of_cores ?_, hrest.2.2.2.2.1.trans hch⟩
  intro q r hq
  have hne : q ≠ s.procs.length + 1 := by
    intro e
    rw [e, Store.get_of_length_lt s.procs (by omega)] at hq
    cases hq
  have h1 : s1.procs.get q = some r := by rw [hprocs, hga, if_neg hne]; exact hq
  exact same_cores_get hcores h1

theorem delete_chans_sub (l : List Ptr) : ∀ (s t : rust_rt),
    delete_chans s l = Res.ok t → chan_sub s t := by
  induction l with
  | nil =>
    intro s t h
    simp only [delete_chans, Res.pure_eq, ok_eq_ok] at h
    subst h
    exact chan_sub_refl _
  | cons c cs ih =>
    intro s t h
    unfold delete_chans at h
    rw [Res.bind_eq_ok] at h
    obtain ⟨s1, hs1, h⟩ := h
    obtain ⟨_, _, _, a4, _⟩ := chan_delete_inv hs1
    exact chan_sub_trans (chan_sub_free a4) (ih _ _ h)

theorem proc_delete_sub {fuel : Nat} {s t : rust_rt} {p : Ptr}
    (h : rust_proc.delete fuel s p = Res.ok t) : chan_sub s t := by
  unfold rust_proc.delete at h
  rw [deref_bind_eq_ok] at h
  obtain ⟨r, _, h⟩ := h
  rw [Res.bind_eq_ok] at h
  obtain ⟨_, _, h⟩ := h
  simp only [I_bind_eq_ok] at h
  obtain ⟨_, h⟩ := h
  rw [Res.bind_eq_ok] at h
  obtain ⟨s1, hs1, h⟩ := h
  rw [Res.bind_eq_ok] at h
  obtain ⟨s2, hs2, h⟩ := h
  rw [Res.bind_eq_ok] at h
  obtain ⟨s3, hs3, h⟩ := h
  simp only [Res.pure_eq, ok_eq_ok] at h
  obtain ⟨_, a2, _, _⟩ := del_stk_same hs1
  have b := delete_chans_sub _ _ _ hs2
  have e := (free_inv hs3).1
  subst e
  subst h
  exact chan_sub_trans (chan_sub_of_eq a2) b

theorem del_proc_frame {fuel : Nat} {s t : rust_rt} {p : Ptr}
    (h : upcall_del_proc fuel s p = Res.ok t) :
    steps (fun _ _ => False) s t ∧ chan_sub s t ∧ t.procs.get p = none := by
  unfold upcall_del_proc at h
  rw [deref_bind_eq_ok] at h
  obtain ⟨r, hr, h⟩ := h
  rw [Res.bind_eq_ok] at h
  obtain ⟨s1, hs1, h⟩ := h
  rw [Res.bind_eq_ok] at h
  obtain ⟨s2, hs2, h⟩ := h
  obtain ⟨hl1, hst1⟩ := fail_proc_steps hs1
  have hch1 : s1.chan_heap = s.chan_heap := by
    unfold fail_proc at hs1
    rw [deref_bind_eq_ok] at hs1
    obtain ⟨_, _, hs1⟩ := hs1
    simp only [I_bind_eq_ok] at hs1
    obtain ⟨_, _, _, hrest, _⟩ := pst_frame hs1.2
    exact hrest.2.2.2.2.1
  obtain ⟨hrest2, hcores2⟩ := remove_frame hs2
  obtain ⟨u, hu, e, _, _⟩ := proc_delete_inv h
  have hsub := proc_delete_sub h
  have hgone : t.procs.get p = none := by
    rw [e]
    simp [Store.get_free]
  refine ⟨?_, ?_, hgone⟩
  · intro q a b ha hb
    by_cases hq : q = p
    · rw [hq, hgone] at hb
      cases hb
    · left
      have hb' : u.procs.get q = some b := by
        rw [e] at hb
        have hb2 : (u.procs.free p).get q = some b := hb
        rw [Store.get_free, if_neg hq] at hb2
        exact hb2
      rw [hu.1] at hb'
      obtain ⟨b1, hb1, hc1⟩ := same_cores_get_rev hcores2 hb'
      rcases hst1 q a b1 ha hb1 with ⟨hqp, _⟩ | ⟨_, hs⟩
      · exact absurd hqp hq
      · rw [← hs]
        exact core_state hc1
  · exact chan_sub_trans (chan_sub_of_eq (hrest2.2.2.2.2.1.trans hch1)) hsub

theorem malloc_frame {s t : rust_rt} {proc : Ptr} {addr a : Nat}
    (h : upcall_malloc s proc addr = Res.ok (t, a)) :
    t.procs = s.procs ∧ t.chan_heap = s.chan_heap := by
  unfold upcall_malloc at h
  rw [deref_bind_eq_ok] at h
  obtain ⟨_, _, h⟩ := h
  simp only [Res.pure_eq, ok_eq_ok, Prod.mk.injEq] at h
  rw [← h.1]
  exact ⟨rfl, rfl⟩

theorem free_frame {s t : rust_rt} {proc : Ptr} {ptr : Nat}
    (h : upcall_free s proc ptr = Res.ok t) :
    t.procs = s.procs ∧ t.chan_heap = s.chan_heap := by
  unfold upcall_free at h
  rw [deref_bind_eq_ok] at h
  obtain ⟨_, _, h⟩ := h
  simp only [I_bind_eq_ok] at h
  rw [(free_inv h.2).1]
  exact ⟨rfl, rfl⟩

theorem new_port_frame {s t : rust_rt} {proc port : Ptr} {u : Nat}
    (h : upcall_new_port s proc u = Res.ok (t, port)) :
    t.procs = s.procs ∧ t.chan_heap = s.chan_heap := by
  unfold upcall_new_port at h
  rw [deref_bind_eq_ok] at h
  obtain ⟨_, _, h⟩ := h
  simp only [rust_rt.malloc, Store.alloc] at h
  rw [Res.bind_eq_ok] at h
  obtain ⟨heap, _, h⟩ := h
  simp only [Res.pure_eq, ok_eq_ok, Prod.mk.injEq] at h
  rw [← h.1]
  exact ⟨rfl, rfl⟩

theorem new_str_frame {s t : rust_rt} {proc : Ptr} {sptr fill addr a : Nat}
    (h : upcall_new_str s proc sptr fill addr = Res.ok (t, a)) :
    t.procs = s.procs ∧ t.chan_heap = s.chan_heap := by
  unfold upcall_new_str at h
  rw [deref_bind_eq_ok] at h
  obtain ⟨_, _, h⟩ := h
  simp only [Res.pure_eq, ok_eq_ok, Prod.mk.injEq] at h
  rw [← h.1]
  exact ⟨rfl, rfl⟩

theorem delete_writers_frame (w : ptr_vec) (n : Nat) : ∀ (i : Nat) (s t : rust_rt),
    delete_writers w n i s = Res.ok t → t.procs = s.procs ∧ chan_sub s t := by
  induction n with
  | zero =>
    intro i s t h
    simp only [delete_writers, Res.pure_eq, ok_eq_ok] at h
    subst h
    exact ⟨rfl, chan_sub_refl _⟩
  | succ n ih =>
    intro i s t h
    unfold delete_writers at h
    rw [Res.bind_eq_ok] at h
    obtain ⟨c, _, h⟩ := h
    rw [Res.bind_eq_ok] at h
    obtain ⟨s1, hs1, h⟩ := h
    obtain ⟨a1, _, _, a4, _⟩ := chan_delete_inv hs1
    obtain ⟨b1, b2⟩ := ih _ _ _ h
    exact ⟨b1.trans a1.1, chan_sub_trans (chan_sub_free a4) b2⟩

theorem port_delete_frame {s t : rust_rt} {port : Ptr} (h : rust_port.delete s port = Res.ok t) :
    t.procs = s.procs ∧ chan_sub s t := by
  unfold rust_port.delete at h
  rw [deref_bind_eq_ok] at h
  obtain ⟨pt, _, h⟩ := h
  rw [Res.bind_eq_ok] at h
  obtain ⟨s1, hs1, h⟩ := h
  rw [Res.bind_eq_ok] at h
  obtain ⟨s2, hs2, h⟩ := h
  rw [Res.bind_eq_ok] at h
  obtain ⟨s3, hs3, h⟩ := h
  simp only [I_bind_eq_ok] at h
  obtain ⟨_, h⟩ := h
  rw [Res.bind_eq_ok] at h
  obtain ⟨s4, hs4, h⟩ := h
  rw [Res.bind_eq_ok] at h
  obtain ⟨s5, hs5, h⟩ := h
  simp only [Res.pure_eq, ok_eq_ok] at h
  obtain ⟨a1, a2⟩ := delete_writers_frame _ _ _ _ _ hs1
  have b : s2.procs = s1.procs ∧ s2.chan_heap = s1.chan_heap := by
    split at hs2
    · rw [deref_bind_eq_ok] at hs2
      obtain ⟨pv, _, hs2⟩ := hs2
      simp only [Res.pure_eq, ok_eq_ok] at hs2
      rw [← hs2]
      exact ⟨rfl, rfl⟩
    · split at hs2
      · simp only [Res.pure_eq, ok_eq_ok] at hs2
        rw [← hs2]
        exact ⟨rfl, rfl⟩
      · simp only [Res.pure_eq, ok_eq_ok] at hs2
        rw [← hs2]
        exact ⟨rfl, rfl⟩
  have c : s3.procs = s2.procs ∧ s3.chan_heap = s2.chan_heap := by
    split at hs3
    · rw [deref_bind_eq_ok] at hs3
      obtain ⟨nx, _, hs3⟩ := hs3
      simp only [Res.pure_eq, ok_eq_ok] at hs3
      rw [← hs3]
      exact ⟨rfl, rfl⟩
    · simp only [Res.pure_eq, ok_eq_ok] at hs3
      rw [← hs3]
      exact ⟨rfl, rfl⟩
  have e4 := (free_inv hs4).1
  have e5 := (free_inv hs5).1
  subst e4
  subst e5
  subst h
  refine ⟨?_, ?_⟩
  · show s3.procs = s.procs
    rw [c.1, b.1, a1]
  · exact chan_sub_trans a2 (chan_sub_of_eq (c.2.trans b.2))

theorem del_port_frame {s t : rust_rt} {proc port : Ptr}
    (h : upcall_del_port s proc port = Res.ok t) :
    t.procs = s.procs ∧ chan_sub s t := by
  unfold upcall_del_port at h
  rw [deref_bind_eq_ok] at h
  obtain ⟨_, _, h⟩ := h
  rw [deref_bind_eq_ok] at h
  obtain ⟨pt, _, h⟩ := h
  simp only [I_bind_eq_ok] at h
  obtain ⟨_, h⟩ := h
  split at h
  · exact port_delete_frame h
  · simp only [Res.pure_eq, ok_eq_ok] at h
    subst h
    exact ⟨rfl, chan_sub_refl _⟩

theorem new_stk_frame (s : rust_rt) (m b : Nat) :
    (new_stk s m b).1.procs = s.procs ∧ (new_stk s m b).1.chan_heap = s.chan_heap := by
  simp [new_stk, rust_rt.malloc, Store.alloc]

theorem grow_proc_frame {s t : rust_rt} {proc : Ptr} {n_call n_frame base : Nat}
    (h : upcall_grow_proc s proc n_call n_frame base = Res.ok t) :
    same_live s t ∧ steps (fun _ _ => False) s t ∧ t.chan_heap = s.chan_heap := by
  unfold upcall_grow_proc at h
  rw [deref_bind_eq_ok] at h
  obtain ⟨p, hp, h⟩ := h
  rw [deref_bind_eq_ok] at h
  obtain ⟨cur, _, h⟩ := h
  rw [Res.bind_eq_ok] at h
  obtain ⟨⟨s1, nstk⟩, hs1, h⟩ := h
  have a : s1.procs = s.procs ∧ s1.chan_heap = s.chan_heap := by
    split at hs1
    · rw [deref_bind_eq_ok] at hs1
      obtain ⟨nx, _, hs1⟩ := hs1
      split at hs1
      rename_i u n heq
      have hu := new_stk_frame s n_frame base
      rw [heq] at hu
      dsimp only at hs1
      split at hs1
      · rw [deref_bind_eq_ok] at hs1
        obtain ⟨ns, _, hs1⟩ := hs1
        rw [deref_bind_eq_ok] at hs1
        obtain ⟨nn, _, hs1⟩ := hs1
        simp only [Res.pure_eq, ok_eq_ok, Prod.mk.injEq] at hs1
        rw [← hs1.1]
        exact hu
      · simp only [Res.pure_eq, ok_eq_ok, Prod.mk.injEq] at hs1
        rw [← hs1.1]
        exact ⟨rfl, rfl⟩
    · simp only [Res.pure_eq, ok_eq_ok] at hs1
      have hu := new_stk_frame s n_frame base
      rw [hs1] at hu
      exact hu
  simp only [I_bind_eq_ok] at h
  obtain ⟨_, h⟩ := h
  rw [deref_bind_eq_ok] at h
  obtain ⟨cur1, _, h⟩ := h
  rw [deref_bind_eq_ok] at h
  obtain ⟨ns, _, h⟩ := h
  rw [deref_bind_eq_ok] at h
  obtain ⟨p1, hp1, h⟩ := h
  simp only [Res.pure_eq, ok_eq_ok] at h
  have hp1' : s.procs.get proc = some p1 := by
    rw [← a.1]
    exact hp1
  have hget : ∀ x, t.procs.get x =
      if x = proc then some { p1 with stk := nstk, rust_sp := wsub ns.limit n_call }
      else s.procs.get x := by
    intro x
    rw [← h]
    show (s1.procs.put proc _).get x = _
    rw [a.1]
    exact Store.get_put _ hp1' x
  refine ⟨?_, ?_, ?_⟩
  · intro q
    rw [hget]
    by_cases hq : q = proc
    · rw [if_pos hq, hq, hp1']
      rfl
    · rw [if_neg hq]
  · intro q x y hx hy
    left
    rw [hget] at hy
    by_cases hq : q = proc
    · rw [if_pos hq] at hy
      rw [hq, hp1'] at hx
      cases hx
      cases hy
      rfl
    · rw [if_neg hq, hx] at hy
      cases hy
      rfl
  · rw [← h]
    exact a.2

theorem steps_trans_right {R1 R2 R3 : proc_state_t → proc_state_t → Prop} {s m t : rust_rt}
    (h1 : steps R1 s m) (hl : same_live m t) (h2 : steps R2 m t)
    (hc : ∀ a x b, (a = x ∨ R1 a x) → (x = b ∨ R2 x b) → (a = b ∨ R3 a b)) :
    steps R3 s t := by
  intro q a b ha hb
  have := hl q
  rw [hb] at this
  cases hm : m.procs.get q with
  | none => simp [hm] at this
  | some x => exact hc _ _ _ (h1 q a x ha hm) (h2 q x b hm hb)

/-- State changes of `upcall_send`. -/
theorem send_steps {s t : rust_rt} {src port : Ptr} {sptr : Nat}
    (h : upcall_send s src port sptr = Res.ok t) :
    same_live s t ∧ steps (fun a b => upcall_transition a b = true) s t := by
  rcases send_inv h with ⟨_, e⟩ | ⟨_, _, sp, s1, chan, c, sp1, pt, hsp, _, hloc, _, _, hrest⟩
  · rw [e]
    exact ⟨same_live_refl _, steps_refl _ _⟩
  · obtain ⟨_, hc1, _, hsp1, hst1, _, _, hoth, _, _, _, _, _, _, _, _⟩ := hloc
    have hl1 : same_live s s1 := by
      intro q
      by_cases hq : q = src
      · rw [hq, hsp1, hsp]
        rfl
      · rw [hoth q hq]
    have hs1 : steps (fun _ _ => False) s s1 := by
      intro q a b ha hb
      left
      by_cases hq : q = src
      · rw [hq, hsp] at ha
        rw [hq, hsp1] at hb
        cases ha
        cases hb
        exact hst1.symm
      · rw [hoth q hq, ha] at hb
        cases hb
        rfl
    rcases hrest with ⟨_, e⟩ | ⟨_, buf, s4, s5, n, c5, _, hs4, hs5, _, hfin⟩
    · rw [e]
      exact ⟨hl1, steps_mono hs1 (fun _ _ hf => hf.elim)⟩
    · obtain ⟨hl4, hst4⟩ := pst_steps hs4
      obtain ⟨hl5, hst5⟩ := attempt_steps hs5
      have hl4' : same_live s1 s4 := hl4
      have hst4' : steps (fun x y => x = proc_state_t.calling_c ∧ y = .blocked_writing) s1 s4 :=
        hst4
      have h15 : steps (fun a b => upcall_transition a b = true) s1 s5 := by
        refine steps_trans hst4' hl4' hst5 ?_
        intro a x b h1 h2
        cases a <;> cases x <;> cases b <;> simp [upcall_transition] at h1 h2 ⊢
      have h05 : steps (fun a b => upcall_transition a b = true) s s5 := by
        refine steps_trans hs1 hl1 h15 ?_
        intro a x b h1 h2
        rcases h1 with e | hf
        · rw [e]
          exact h2
        · exact hf.elim
      have hl05 : same_live s s5 := same_live_trans hl1 (same_live_trans hl4' hl5)
      rcases hfin with ⟨_, e⟩ | ⟨_, _, pt5, w, heap1, _, _, e⟩
      · rw [e]
        exact ⟨hl05, h05⟩
      · rw [e]
        exact ⟨hl05, h05⟩

/-- State changes of `upcall_recv`. -/
theorem recv_steps {s t : rust_rt} {dst port : Ptr} {r : Nat}
    (h : upcall_recv s dst port r = Res.ok t) :
    same_live s t ∧ steps (fun a b => upcall_transition a b = true) s t := by
  obtain ⟨d, pt, s1, _, _, _, _, hs1, hrest⟩ := recv_inv h
  obtain ⟨hl1, hst1⟩ := pst_steps hs1
  have h01 : steps (fun a b => upcall_transition a b = true) s s1 := by
    refine steps_mono hst1 ?_
    rintro a b ⟨rfl, rfl⟩
    rfl
  rcases hrest with ⟨_, e⟩ | ⟨_, schan, sc, s2, res, _, _, _, hatt, hfin⟩
  · rw [e]
    exact ⟨hl1, h01⟩
  · obtain ⟨hl2, hst2⟩ := attempt_steps hatt
    have h02 : steps (fun a b => upcall_transition a b = true) s s2 := by
      refine steps_trans hst1 hl1 hst2 ?_
      intro a x b h1 h2
      cases a <;> cases x <;> cases b <;> simp [upcall_transition] at h1 h2 ⊢
    rcases hfin with ⟨_, e⟩ | ⟨_, pt2, w, heap, w1, sc2, _, _, _, _, e⟩
    · rw [e]
      exact ⟨same_live_trans hl1 hl2, h02⟩
    · rw [e]
      exact ⟨same_live_trans hl1 hl2, h02⟩

theorem kept_of_sub {s t : rust_rt} (h : chan_sub s t) :
    ∀ c ch ch', s.chan_heap.get c = some ch → t.chan_heap.get c = some ch' →
      ch'.port = ch.port := by
  intro c ch ch' hs ht
  have := h c ch' ht
  rw [hs] at this
  cases this
  rfl

theorem kept_of_frame {s t : rust_rt} (h : chan_frame s t) :
    ∀ c ch ch', s.chan_heap.get c = some ch → t.chan_heap.get c = some ch' →
      ch'.port = ch.port := by
  intro c ch ch' hs ht
  obtain ⟨x, hx, hp⟩ := h c ch hs
  rw [ht] at hx
  cases hx
  exact hp

/-- State changes of the upcall dispatch, and what it does to the target of a
channel. -/
theorem handle_upcall_steps {s t : rust_rt} {proc : Ptr} {env : Env}
    (h : handle_upcall s proc env = Res.ok t) :
    steps (fun a b => upcall_transition a b = true) s t ∧
    (∀ c ch ch', s.chan_heap.get c = some ch → t.chan_heap.get c = some ch' →
      ch'.port = ch.port) := by
  have quiet : ∀ {u : rust_rt}, steps (fun _ _ => False) s u →
      steps (fun a b => upcall_transition a b = true) s u :=
    fun hu => steps_mono hu (fun _ _ hf => hf.elim)
  unfold handle_upcall at h
  rw [deref_bind_eq_ok] at h
  obtain ⟨p, hp, h⟩ := h
  split at h
  · simp only [Res.pure_eq, ok_eq_ok] at h
    subst h
    exact ⟨steps_refl _ _, kept_of_sub (chan_sub_refl _)⟩
  · simp only [Res.pure_eq, ok_eq_ok] at h
    subst h
    exact ⟨steps_refl _ _, kept_of_sub (chan_sub_refl _)⟩
  · rw [Res.bind_eq_ok] at h
    obtain ⟨⟨s1, np⟩, h1, h⟩ := h
    simp only [Res.pure_eq, ok_eq_ok] at h
    subst h
    obtain ⟨a, b⟩ := new_proc_frame h1
    exact ⟨quiet a, kept_of_sub (chan_sub_of_eq b)⟩
  · obtain ⟨a, b, _⟩ := del_proc_frame h
    exact ⟨quiet a, kept_of_sub b⟩
  · unfold upcall_fail at h
    rw [deref_bind_eq_ok] at h
    obtain ⟨_, _, h⟩ := h
    cases h
  · rw [Res.bind_eq_ok] at h
    obtain ⟨⟨s1, a⟩, h1, h⟩ := h
    simp only [Res.pure_eq, ok_eq_ok] at h
    subst h
    obtain ⟨a, b⟩ := malloc_frame h1
    exact ⟨quiet (steps_of_eq _ a), kept_of_sub (chan_sub_of_eq b)⟩
  · obtain ⟨a, b⟩ := free_frame h
    exact ⟨quiet (steps_of_eq _ a), kept_of_sub (chan_sub_of_eq b)⟩
  · rw [Res.bind_eq_ok] at h
    obtain ⟨⟨s1, a⟩, h1, h⟩ := h
    simp only [Res.pure_eq, ok_eq_ok] at h
    subst h
    obtain ⟨a, b⟩ := new_port_frame h1
    exact ⟨quiet (steps_of_eq _ a), kept_of_sub (chan_sub_of_eq b)⟩
  · obtain ⟨a, b⟩ := del_port_frame h
    exact ⟨quiet (steps_of_eq _ a), kept_of_sub b⟩
  · exact ⟨(send_steps h).2, kept_of_frame (send_chan_frame h)⟩
  · exact ⟨(recv_steps h).2, kept_of_frame (chan_frame_of_same_ports (recv_frames h).1)⟩
  · rw [Res.bind_eq_ok] at h
    obtain ⟨⟨s1, a⟩, h1, h⟩ := h
    simp only [Res.pure_eq, ok_eq_ok] at h
    subst h
    obtain ⟨a, b⟩ := new_str_frame h1
    exact ⟨quiet (steps_of_eq _ a), kept_of_sub (chan_sub_of_eq b)⟩
  · obtain ⟨_, a, b⟩ := grow_proc_frame h
    exact ⟨quiet a, kept_of_sub (chan_sub_of_eq b)⟩
  · simp only [Res.pure_eq, ok_eq_ok] at h
    subst h
    exact ⟨steps_refl _ _, kept_of_sub (chan_sub_refl _)⟩
  · simp only [Res.pure_eq, ok_eq_ok] at h
    subst h
    exact ⟨steps_refl _ _, kept_of_sub (chan_sub_refl _)⟩
  · simp only [Res.pure_eq, ok_eq_ok] at h
    subst h
    exact ⟨steps_refl _ _, kept_of_sub (chan_sub_refl _)⟩

/-! ## C9: one channel per proc and port -/

/-- C9: the table invariant `tables_inv` (the channel table of a proc holds no
channel twice and no two channels with the same target port) is preserved by
`upcall_send` and `upcall_recv`.  After a send to a non-null port the sender's
table holds the channel for that port; a send that finds a channel for the port
in the table allocates no channel and leaves the table as it is, so a second
send reuses the channel of the first.  No upcall changes the target port of a
channel. -/
theorem C9_one_channel_per_port (s : rust_rt) (hT : tables_inv s) :
    (∀ src port sptr t, upcall_send s src port sptr = Res.ok t →
      tables_inv t ∧
      (port ≠ 0 → ∃ sp' chan ch, t.procs.get src = some sp' ∧
        hash_find t sp'.chans port = some chan ∧ t.chan_heap.get chan = some ch ∧
        ch.port = port) ∧
      (∀ sp chan, s.procs.get src = some sp → hash_find s sp.chans port = some chan →
        t.chan_heap.length = s.chan_heap.length ∧
        ∃ sp', t.procs.get src = some sp' ∧ sp'.chans = sp.chans ∧
          hash_find t sp'.chans port = some chan)) ∧
    (∀ dst port r t, upcall_recv s dst port r = Res.ok t → tables_inv t) ∧
    (∀ proc env t, handle_upcall s proc env = Res.ok t →
      ∀ c ch ch', s.chan_heap.get c = some ch → t.chan_heap.get c = some ch' →
        ch'.port = ch.port) := by
  refine ⟨?_, ?_, ?_⟩
  · intro src port sptr t h
    obtain ⟨h1, _, h3, h4⟩ := send_tables hT h
    refine ⟨h1, h4, ?_⟩
    intro sp chan hsp hfind
    obtain ⟨hl, f, g⟩ := h3 sp chan hsp hfind
    obtain ⟨sp', hsp', hchans⟩ := same_tables_get_fwd g hsp
    refine ⟨hl, sp', hsp', hchans, ?_⟩
    rw [hchans, hash_find_congr f]
    exact hfind
  · intro dst port r t h
    obtain ⟨f, g, _⟩ := recv_frames h
    exact tables_inv_frame (chan_frame_of_same_ports f) g hT
  · intro proc env t h
    exact (handle_upcall_steps h).2

/-- Witness of C9 on the example runtimes: the first send of proc 2 to port 1
creates channel 1; when proc 2 sends to port 1 again, the send returns, the
channel heap still holds one channel and the table of proc 2 is still `[1]`. -/
theorem C9_one_channel_per_port_witness :
    demo_ready.chan_heap.length = 0 ∧ demo_again.chan_heap.length = 1 ∧
    tables_inv demo_again ∧
    tables_inv ((upcall_send demo_again 2 1 200).getD demo_again) ∧
    ((upcall_send demo_again 2 1 200).getD demo_again).chan_heap.length =
      demo_again.chan_heap.length ∧
    (((upcall_send demo_again 2 1 200).getD demo_again).procs.get 2).map
      (fun r => r.chans) = some [1] :=
  ⟨by decide, by decide, by decide,
   ((C9_one_channel_per_port demo_again (by decide)).1 2 1 200 _
     (Res.eq_ok_of_isOk _ (by rfl))).1,
   (((C9_one_channel_per_port demo_again (by decide)).1 2 1 200 _
     (Res.eq_ok_of_isOk _ (by rfl))).2.2
       ((demo_again.procs.get 2).getD (demo_proc 0 .running 0 [] [])) 1
       (by decide) (by decide)).1,
   by decide⟩

/-! ## C10: the state machine -/

theorem upcall_transition_valid {a b : proc_state_t} (h : upcall_transition a b = true) :
    valid_transition a b = true := by
  cases a <;> cases b <;> simp [upcall_transition] at h <;> rfl

theorem steps_weaken {R1 R2 : proc_state_t → proc_state_t → Prop} {s t : rust_rt}
    (h : steps R1 s t) (hc : ∀ a b, R1 a b → a = b ∨ R2 a b) : steps R2 s t := by
  intro q a b ha hb
  rcases h q a b ha hb with e | r
  · exact Or.inl e
  · exact hc _ _ r

theorem put_state_steps {s : rust_rt} {proc : Ptr} {p : rust_proc} (st : proc_state_t)
    (hp : s.procs.get proc = some p) :
    same_live s ({ s with procs := s.procs.put proc { p with state := st } } : rust_rt) ∧
    steps (fun x y => x = p.state ∧ y = st) s
      ({ s with procs := s.procs.put proc { p with state := st } } : rust_rt) := by
  have hget : ∀ x, (s.procs.put proc { p with state := st }).get x =
      if x = proc then some { p with state := st } else s.procs.get x :=
    fun x => Store.get_put _ hp x
  refine ⟨?_, ?_⟩
  · intro q
    show ((s.procs.put proc _).get q).isSome = _
    rw [hget]
    by_cases hq : q = proc
    · rw [if_pos hq, hq, hp]
      rfl
    · rw [if_neg hq]
  · intro q a b ha hb
    have hb' : (s.procs.put proc { p with state := st }).get q = some b := hb
    rw [hget] at hb'
    by_cases hq : q = proc
    · right
      rw [if_pos hq] at hb'
      rw [hq, hp] at ha
      cases ha
      cases hb'
      exact ⟨rfl, rfl⟩
    · left
      rw [if_neg hq, ha] at hb'
      cases hb'
      rfl

/-- State changes of the main loop's handling of a proc that has returned from
its activation. -/
theorem main_loop_handle_steps {s t : rust_rt} {proc : Ptr} {env : Env}
    (h : main_loop_handle s proc env = Res.ok t) :
    steps (fun a b => upcall_transition a b = true) s t := by
  unfold main_loop_handle at h
  rw [deref_bind_eq_ok] at h
  obtain ⟨p, hp, h⟩ := h
  rw [deref_bind_eq_ok] at h
  obtain ⟨seg, _, h⟩ := h
  simp only [I_bind_eq_ok] at h
  obtain ⟨_, _, h⟩ := h
  split at h
  · simp only [Res.pure_eq, ok_eq_ok] at h
    subst h
    exact steps_refl _ _
  · simp only [Res.pure_eq, ok_eq_ok] at h
    subst h
    exact steps_refl _ _
  · rw [Res.bind_eq_ok] at h
    obtain ⟨s1, hs1, h⟩ := h
    rw [deref_bind_eq_ok] at h
    obtain ⟨p1, hp1, h⟩ := h
    have h1 := (handle_upcall_steps hs1).1
    split at h
    · simp only [Res.pure_eq, ok_eq_ok] at h
      subst h
      obtain ⟨hl, hst⟩ := put_state_steps .running hp1
      refine steps_trans_right h1 hl hst ?_
      intro a x b e1 e2
      rename_i hc
      rw [hc] at e2
      cases a <;> cases x <;> cases b <;> simp [upcall_transition] at e1 e2 ⊢
    · simp only [Res.pure_eq, ok_eq_ok] at h
      subst h
      exact h1
  · rename_i hst
    have hp1 : (s.procs.put proc { p with state := .running }).get proc =
        some { p with state := .running } := Store.get_put_self _ hp
    obtain ⟨_, _, _, _, hmv⟩ := pst_frame h
    intro q a b ha hb
    left
    by_cases hq : q = proc
    · obtain ⟨r', hr', hs', _⟩ := proc_moved_self hmv hp1
      rw [hq, hp] at ha
      rw [hq, hr'] at hb
      cases ha
      cases hb
      rw [hst, hs']
    · have ha' : (s.procs.put proc { p with state := .running }).get q = some a := by
        rw [Store.get_put _ hp, if_neg hq]
        exact ha
      obtain ⟨r', hr', hc⟩ := proc_moved_ne hmv hq ha'
      rw [hr'] at hb
      cases hb
      exact (core_state hc).symm
  · cases h
  · cases h

/-- The scheduler picks a proc of the runnable vector. -/
theorem sched_runnable {s : rust_rt} {rnd : Nat} {proc : Ptr} {p : rust_proc}
    (hinv : procs_inv s) (h : s.sched rnd = Res.ok proc) (hp : s.procs.get proc = some p) :
    get_state_vec p.state = .running_procs := by
  obtain ⟨_, _, hslot⟩ := (procs_inv_ex_iff s 0).1 hinv
  unfold rust_rt.sched at h
  simp only [I_bind_eq_ok] at h
  obtain ⟨_, h⟩ := h
  split at h
  · rename_i hf
    have hlt : rnd % s.running_procs.fill < s.running_procs.fill := Nat.mod_lt _ hf
    have hsl : (s.vec .running_procs).slot (rnd % s.running_procs.fill) = some proc := by
      show s.running_procs.slot _ = _
      simp only [ptr_vec.slot]
      rw [if_pos hlt]
      exact peek_eq_ok.1 h
    obtain ⟨_, r, hr, _, hv⟩ := hslot _ _ _ hsl
    rw [hp] at hr
    cases hr
    exact hv
  · simp only [Res.pure_eq, ok_eq_ok] at h
    rw [← h, Store.get_zero] at hp
    cases hp

/-! ### The assignments to `proc->state`, one by one -/

theorem same_states_refl (s : rust_rt) : same_states s s := by
  intro q a b ha hb
  rw [ha] at hb
  cases hb
  rfl

theorem same_states_of_procs {s t : rust_rt} (h : t.procs = s.procs) : same_states s t := by
  intro q a b ha hb
  rw [h, ha] at hb
  cases hb
  rfl

theorem same_states_of_steps {s t : rust_rt} (h : steps (fun _ _ => False) s t) :
    same_states s t := by
  intro q a b ha hb
  rcases h q a b ha hb with e | f
  · exact e
  · exact f.elim

/-- An assignment of the state `st` to the live proc `proc`. -/
theorem put_state_one_write {s : rust_rt} {proc : Ptr} {p : rust_proc} (st : proc_state_t)
    (hp : s.procs.get proc = some p) :
    one_write s ({ s with procs := s.procs.put proc { p with state := st } } : rust_rt)
      proc p.state st := by
  have hget : ∀ x, (s.procs.put proc { p with state := st }).get x =
      if x = proc then some { p with state := st } else s.procs.get x :=
    fun x => Store.get_put _ hp x
  refine ⟨⟨p, hp, rfl⟩, ⟨{ p with state := st }, by simp [hget], rfl⟩, ?_⟩
  intro q hq x y hx hy
  have hy' : (s.procs.put proc { p with state := st }).get q = some y := hy
  rw [hget, if_neg hq, hx] at hy'
  cases hy'
  rfl

/-- The one assignment of `proc_state_transition` (line 1046): the proc, found
in state `a`, is put in state `b`. -/
theorem pst_one_write {s t : rust_rt} {p : Ptr} {a b : proc_state_t}
    (h : proc_state_transition s p a b = Res.ok t) : one_write s t p a b := by
  obtain ⟨r, hr, hst, _, hmv⟩ := pst_frame h
  obtain ⟨r', hr', hs', _⟩ := proc_moved_self hmv hr
  refine ⟨⟨r, hr, hst⟩, ⟨r', hr', hs'⟩, ?_⟩
  intro q hq x y hx hy
  obtain ⟨y', hy', hc⟩ := proc_moved_ne hmv hq hx
  rw [hy'] at hy
  cases hy
  exact (core_state hc).symm

/-- The calls of `proc_state_transition` a transmission makes. -/
theorem attempt_writes {s t : rust_rt} {src dst : Ptr} {n : Nat}
    (h : attempt_transmission s src dst = Res.ok (t, n)) :
    (n = 0 ∧ t = s) ∨
    (n = 1 ∧ ∃ c u v, s.chan_heap.get src = some c ∧ same_states s u ∧
      ((c.blocked = 0 ∧ v = u) ∨
       (c.blocked ≠ 0 ∧ ∃ w, proc_state_transition u c.blocked .blocked_writing .running =
          Res.ok w ∧ same_states w v)) ∧
      proc_state_transition v dst .blocked_reading .running = Res.ok t) := by
  unfold attempt_transmission at h
  simp only [I_bind_eq_ok] at h
  obtain ⟨hsrc, hdst, h⟩ := h
  rw [deref_bind_eq_ok] at h
  obtain ⟨d, hd, h⟩ := h
  by_cases hst : d.state ≠ .blocked_reading
  · rw [if_pos hst] at h
    simp only [Res.pure_eq, ok_eq_ok, Prod.mk.injEq] at h
    exact Or.inl ⟨h.2.symm, h.1.symm⟩
  rw [if_neg hst] at h
  rw [deref_bind_eq_ok] at h
  obtain ⟨c, hc, h⟩ := h
  rw [Res.bind_eq_ok] at h
  obtain ⟨u0, hchk, h⟩ := h
  by_cases h0 : c.buf.unread = 0
  · rw [if_pos h0] at h
    simp only [Res.pure_eq, ok_eq_ok, Prod.mk.injEq] at h
    exact Or.inl ⟨h.2.symm, h.1.symm⟩
  rw [if_neg h0] at h
  rw [Res.bind_eq_ok] at h
  obtain ⟨⟨s1, b1⟩, hsh, h⟩ := h
  simp only at h
  rw [Res.bind_eq_ok] at h
  obtain ⟨s3, hs3, h⟩ := h
  rw [Res.bind_eq_ok] at h
  obtain ⟨s4, hs4, h⟩ := h
  simp only [Res.pure_eq, ok_eq_ok, Prod.mk.injEq] at h
  obtain ⟨e1, e2⟩ := h
  subst e1
  obtain ⟨es1, _⟩ := shift_inv hsh
  subst es1
  right
  by_cases hb0 : c.blocked = 0
  · rw [if_neg (by simpa using hb0)] at hs3
    simp only [Res.pure_eq, ok_eq_ok] at hs3
    subst hs3
    refine ⟨e2.symm, c, _, _, hc, ?_, Or.inl ⟨hb0, rfl⟩, hs4⟩
    exact same_states_of_procs rfl
  · rw [if_pos hb0] at hs3
    rw [Res.bind_eq_ok] at hs3
    obtain ⟨t1, ht1, hs3⟩ := hs3
    rw [deref_bind_eq_ok] at hs3
    obtain ⟨c1, hc1, hs3⟩ := hs3
    simp only [Res.pure_eq, ok_eq_ok] at hs3
    subst hs3
    refine ⟨e2.symm, c, _, _, hc, ?_, Or.inr ⟨hb0, t1, ht1, ?_⟩, hs4⟩
    · exact same_states_of_procs rfl
    · exact same_states_of_procs rfl

/-- The lookup-or-create step of a send changes no state. -/
theorem same_states_located {s s1 : rust_rt} {src port chan : Ptr} {sp sp1 : rust_proc}
    {c : rust_chan} (hsp : s.procs.get src = some sp)
    (hloc : chan_located s s1 src port chan sp c sp1) : same_states s s1 := by
  obtain ⟨_, _, _, hsp1, hst1, _, _, hoth, _⟩ := hloc
  intro q a b ha hb
  by_cases hq : q = src
  · rw [hq, hsp] at ha
    rw [hq, hsp1] at hb
    cases ha
    cases hb
    exact hst1.symm
  · rw [hoth q hq, ha] at hb
    cases hb
    rfl

/-- The calls of `proc_state_transition` a send makes: the sender goes from
calling-host to blocked-writing, then the transmission is attempted. -/
theorem send_writes {s t : rust_rt} {src port : Ptr} {sptr : Nat}
    (h : upcall_send s src port sptr = Res.ok t) :
    same_states s t ∨
    ∃ u v w chan dstp n, same_states s u ∧
      proc_state_transition u src .calling_c .blocked_writing = Res.ok v ∧
      attempt_transmission v chan dstp = Res.ok (w, n) ∧ same_states w t := by
  rcases send_inv h with ⟨_, e⟩ | ⟨_, _, sp, s1, chan, c, sp1, pt, hsp, _, hloc, _, _, hrest⟩
  · rw [e]
    exact Or.inl (same_states_refl s)
  · have h1 := same_states_located hsp hloc
    rcases hrest with ⟨_, e⟩ | ⟨_, buf, s4, s5, n, c5, _, hs4, hs5, _, hfin⟩
    · rw [e]
      exact Or.inl h1
    · right
      refine ⟨_, s4, s5, chan, pt.proc, n, ?_, hs4, hs5, ?_⟩
      · intro q a b ha hb
        exact h1 q a b ha hb
      · rcases hfin with ⟨_, e⟩ | ⟨_, _, pt5, w, heap1, _, _, e⟩
        · rw [e]
          exact same_states_refl _
        · rw [e]
          exact same_states_of_procs rfl

/-- The calls of `proc_state_transition` a receive makes: the receiver goes
from calling-host to blocked-reading, then the transmission is attempted. -/
theorem recv_writes {s t : rust_rt} {dst port : Ptr} {r : Nat}
    (h : upcall_recv s dst port r = Res.ok t) :
    ∃ u, proc_state_transition s dst .calling_c .blocked_reading = Res.ok u ∧
      (t = u ∨ ∃ schan w n, attempt_transmission u schan dst = Res.ok (w, n) ∧
        same_states w t) := by
  obtain ⟨d, pt, s1, _, _, _, _, hs1, hrest⟩ := recv_inv h
  refine ⟨s1, hs1, ?_⟩
  rcases hrest with ⟨_, e⟩ | ⟨_, schan, sc, s2, res, _, _, _, hatt, hfin⟩
  · exact Or.inl e
  · right
    refine ⟨schan, s2, res, hatt, ?_⟩
    rcases hfin with ⟨_, e⟩ | ⟨_, pt2, w, heap, w1, sc2, _, _, _, _, e⟩
    · rw [e]
      exact same_states_refl _
    · rw [e]
      exact same_states_of_procs rfl

/-- The call of `proc_state_transition` that `fail_proc` makes: the source
state it passes is the state the proc is in. -/
theorem fail_proc_writes {s t : rust_rt} {p : Ptr} (h : fail_proc s p = Res.ok t) :
    ∃ r, s.procs.get p = some r ∧ proc_state_transition s p r.state .failing = Res.ok t := by
  unfold fail_proc at h
  rw [deref_bind_eq_ok] at h
  obtain ⟨r, hr, h⟩ := h
  simp only [I_bind_eq_ok] at h
  exact ⟨r, hr, h.2⟩

/-- The deletion of a proc calls `fail_proc` and makes no other assignment. -/
theorem del_proc_writes {fuel : Nat} {s t : rust_rt} {p : Ptr}
    (h : upcall_del_proc fuel s p = Res.ok t) :
    ∃ u, fail_proc s p = Res.ok u ∧ same_states u t := by
  unfold upcall_del_proc at h
  rw [deref_bind_eq_ok] at h
  obtain ⟨r, hr, h⟩ := h
  rw [Res.bind_eq_ok] at h
  obtain ⟨s1, hs1, h⟩ := h
  rw [Res.bind_eq_ok] at h
  obtain ⟨s2, hs2, h⟩ := h
  refine ⟨s1, hs1, ?_⟩
  obtain ⟨_, hcores⟩ := remove_frame hs2
  obtain ⟨u, hu, e, _, _⟩ := proc_delete_inv h
  subst e
  intro q a b ha hb
  have hb' : (u.procs.free p).get q = some b := hb
  rw [Store.get_free] at hb'
  by_cases hq : q = p
  · rw [if_pos hq] at hb'
    cases hb'
  · rw [if_neg hq, hu.1] at hb'
    have := hcores.2 q
    rw [hb', ha] at this
    have e2 : b.core = a.core := by simpa using this
    exact (core_state e2).symm

/-- The upcall dispatch makes no assignment of its own: it changes no state, or
it is a send, a receive or the deletion of a proc. -/
theorem handle_upcall_writes {s t : rust_rt} {proc : Ptr} {env : Env}
    (h : handle_upcall s proc env = Res.ok t) :
    same_states s t ∨ (∃ port sptr, upcall_send s proc port sptr = Res.ok t) ∨
    (∃ port r, upcall_recv s proc port r = Res.ok t) ∨
    (∃ fuel q, upcall_del_proc fuel s q = Res.ok t) := by
  unfold handle_upcall at h
  rw [deref_bind_eq_ok] at h
  obtain ⟨p, hp, h⟩ := h
  split at h
  · simp only [Res.pure_eq, ok_eq_ok] at h
    subst h
    exact Or.inl (same_states_refl _)
  · simp only [Res.pure_eq, ok_eq_ok] at h
    subst h
    exact Or.inl (same_states_refl _)
  · rw [Res.bind_eq_ok] at h
    obtain ⟨⟨s1, np⟩, h1, h⟩ := h
    simp only [Res.pure_eq, ok_eq_ok] at h
    subst h
    obtain ⟨a, _⟩ := new_proc_frame h1
    exact Or.inl (fun q x y hx hy => same_states_of_steps a q x y hx hy)
  · exact Or.inr (Or.inr (Or.inr ⟨_, _, h⟩))
  · unfold upcall_fail at h
    rw [deref_bind_eq_ok] at h
    obtain ⟨_, _, h⟩ := h
    cases h
  · rw [Res.bind_eq_ok] at h
    obtain ⟨⟨s1, a⟩, h1, h⟩ := h
    simp only [Res.pure_eq, ok_eq_ok] at h
    subst h
    obtain ⟨a, _⟩ := malloc_frame h1
    exact Or.inl (fun q x y hx hy => same_states_of_procs a q x y hx hy)
  · obtain ⟨a, _⟩ := free_frame h
    exact Or.inl (same_states_of_procs a)
  · rw [Res.bind_eq_ok] at h
    obtain ⟨⟨s1, a⟩, h1, h⟩ := h
    simp only [Res.pure_eq, ok_eq_ok] at h
    subst h
    obtain ⟨a, _⟩ := new_port_frame h1
    exact Or.inl (fun q x y hx hy => same_states_of_procs a q x y hx hy)
  · obtain ⟨a, _⟩ := del_port_frame h
    exact Or.inl (same_states_of_procs a)
  · exact Or.inr (Or.inl ⟨_, _, h⟩)
  · exact Or.inr (Or.inr (Or.inl ⟨_, _, h⟩))
  · rw [Res.bind_eq_ok] at h
    obtain ⟨⟨s1, a⟩, h1, h⟩ := h
    simp only [Res.pure_eq, ok_eq_ok] at h
    subst h
    obtain ⟨a, _⟩ := new_str_frame h1
    exact Or.inl (fun q x y hx hy => same_states_of_procs a q x y hx hy)
  · obtain ⟨_, a, _⟩ := grow_proc_frame h
    exact Or.inl (same_states_of_steps a)
  · simp only [Res.pure_eq, ok_eq_ok] at h
    subst h
    exact Or.inl (same_states_refl _)
  · simp only [Res.pure_eq, ok_eq_ok] at h
    subst h
    exact Or.inl (same_states_refl _)
  · simp only [Res.pure_eq, ok_eq_ok] at h
    subst h
    exact Or.inl (same_states_refl _)

/-- The assignment of line 1706: the proc about to be activated is put in
running, whatever state it is in. -/
theorem main_loop_activate_writes {s t : rust_rt} {proc : Ptr}
    (h : main_loop_activate s proc = Res.ok t) :
    ∃ p, s.procs.get proc = some p ∧ one_write s t proc p.state .running := by
  unfold main_loop_activate at h
  rw [deref_bind_eq_ok] at h
  obtain ⟨p, hp, h⟩ := h
  simp only [Res.pure_eq, ok_eq_ok] at h
  subst h
  exact ⟨p, hp, put_state_one_write .running hp⟩

/-- The assignments of the `switch` of the main loop: none for a proc in
running or failing; after the dispatch of an upcall, calling-host to running
(line 1734); for a proc in blocked-exited, the assignment of running (line
1741) followed by the transition from running to blocked-exited. -/
theorem main_loop_handle_writes {s t : rust_rt} {proc : Ptr} {env : Env}
    (h : main_loop_handle s proc env = Res.ok t) :
    ∃ p, s.procs.get proc = some p ∧
      (((p.state = .running ∨ p.state = .failing) ∧ t = s) ∨
       (p.state = .calling_c ∧ ∃ u, handle_upcall s proc env = Res.ok u ∧
          (t = u ∨ one_write u t proc .calling_c .running)) ∨
       (p.state = .blocked_exited ∧
          one_write s ({ s with procs := s.procs.put proc { p with state := .running } } : rust_rt)
            proc .blocked_exited .running ∧
          proc_state_transition
            ({ s with procs := s.procs.put proc { p with state := .running } } : rust_rt)
            proc .running .blocked_exited = Res.ok t)) := by
  unfold main_loop_handle at h
  rw [deref_bind_eq_ok] at h
  obtain ⟨p, hp, h⟩ := h
  rw [deref_bind_eq_ok] at h
  obtain ⟨seg, _, h⟩ := h
  simp only [I_bind_eq_ok] at h
  obtain ⟨_, _, h⟩ := h
  refine ⟨p, hp, ?_⟩
  split at h
  · rename_i hst
    simp only [Res.pure_eq, ok_eq_ok] at h
    exact Or.inl ⟨Or.inl hst, h.symm⟩
  · rename_i hst
    simp only [Res.pure_eq, ok_eq_ok] at h
    exact Or.inl ⟨Or.inr hst, h.symm⟩
  · rename_i hst
    rw [Res.bind_eq_ok] at h
    obtain ⟨s1, hs1, h⟩ := h
    rw [deref_bind_eq_ok] at h
    obtain ⟨p1, hp1, h⟩ := h
    refine Or.inr (Or.inl ⟨hst, s1, hs1, ?_⟩)
    split at h
    · rename_i hc
      simp only [Res.pure_eq, ok_eq_ok] at h
      subst h
      right
      have := put_state_one_write .running hp1
      rw [hc] at this
      exact this
    · simp only [Res.pure_eq, ok_eq_ok] at h
      exact Or.inl h.symm
  · rename_i hst
    refine Or.inr (Or.inr ⟨hst, ?_, h⟩)
    have := put_state_one_write .running hp
    rw [hst] at this
    exact this
  · cases h
  · cases h

/-- C10, amended: the assignments to a proc's state made by the runtime, one by
one.  `proc_state_transition` makes one assignment, from the source state it
checks to the destination state.  Its calls by `attempt_transmission`
(blocked-writing to running for the blocked sender, blocked-reading to running
for the receiver), by `upcall_send` (calling-host to blocked-writing), by
`upcall_recv` (calling-host to blocked-reading) and by the main loop (running
to blocked-exited), and the main loop's assignment after an upcall
(calling-host to running), are transitions of the table `valid_transition`;
the upcall dispatch makes no assignment of its own.  Three assignments are not
bound by the table: `fail_proc`, also called by `upcall_del_proc`, takes the
proc from whatever state it is in to failing; the main loop's assignment before
an activation takes the scheduled proc, which is in running, calling-host or
failing, to running; the main loop's assignment for a proc that returned in
blocked-exited takes it from blocked-exited to running, before the transition
from running to blocked-exited. -/
theorem C10_state_changes_follow_table (s : rust_rt) :
    (∀ p a b t, proc_state_transition s p a b = Res.ok t → one_write s t p a b) ∧
    (∀ src dst t n, attempt_transmission s src dst = Res.ok (t, n) →
      (n = 0 ∧ t = s) ∨
      (n = 1 ∧ ∃ c u v, s.chan_heap.get src = some c ∧ same_states s u ∧
        ((c.blocked = 0 ∧ v = u) ∨
         (c.blocked ≠ 0 ∧ ∃ w, proc_state_transition u c.blocked .blocked_writing .running =
            Res.ok w ∧ same_states w v)) ∧
        proc_state_transition v dst .blocked_reading .running = Res.ok t)) ∧
    (∀ src port sptr t, upcall_send s src port sptr = Res.ok t →
      same_states s t ∨
      ∃ u v w chan dstp n, same_states s u ∧
        proc_state_transition u src .calling_c .blocked_writing = Res.ok v ∧
        attempt_transmission v chan dstp = Res.ok (w, n) ∧ same_states w t) ∧
    (∀ dst port r t, upcall_recv s dst port r = Res.ok t →
      ∃ u, proc_state_transition s dst .calling_c .blocked_reading = Res.ok u ∧
        (t = u ∨ ∃ schan w n, attempt_transmission u schan dst = Res.ok (w, n) ∧
          same_states w t)) ∧
    (∀ p t, fail_proc s p = Res.ok t →
      ∃ r, s.procs.get p = some r ∧ proc_state_transition s p r.state .failing = Res.ok t) ∧
    (∀ fuel p t, upcall_del_proc fuel s p = Res.ok t →
      ∃ u, fail_proc s p = Res.ok u ∧ same_states u t) ∧
    (∀ proc env t, handle_upcall s proc env = Res.ok t →
      same_states s t ∨ (∃ port sptr, upcall_send s proc port sptr = Res.ok t) ∨
      (∃ port r, upcall_recv s proc port r = Res.ok t) ∨
      (∃ fuel q, upcall_del_proc fuel s q = Res.ok t)) ∧
    (∀ rnd proc t, procs_inv s → s.sched rnd = Res.ok proc →
      main_loop_activate s proc = Res.ok t →
      ∃ p, s.procs.get proc = some p ∧ one_write s t proc p.state .running ∧
        (p.state = .running ∨ p.state = .calling_c ∨ p.state = .failing)) ∧
    (∀ proc env t, main_loop_handle s proc env = Res.ok t →
      ∃ p, s.procs.get proc = some p ∧
        (((p.state = .running ∨ p.state = .failing) ∧ t = s) ∨
         (p.state = .calling_c ∧ ∃ u, handle_upcall s proc env = Res.ok u ∧
            (t = u ∨ one_write u t proc .calling_c .running)) ∨
         (p.state = .blocked_exited ∧
            one_write s
              ({ s with procs := s.procs.put proc { p with state := .running } } : rust_rt)
              proc .blocked_exited .running ∧
            proc_state_transition
              ({ s with procs := s.procs.put proc { p with state := .running } } : rust_rt)
              proc .running .blocked_exited = Res.ok t))) ∧
    (valid_transition .blocked_writing .running = true ∧
      valid_transition .blocked_reading .running = true ∧
      valid_transition .calling_c .blocked_writing = true ∧
      valid_transition .calling_c .blocked_reading = true ∧
      valid_transition .running .blocked_exited = true ∧
      valid_transition .calling_c .running = true ∧
      valid_transition .blocked_exited .running = false ∧
      valid_transition .failing .running = false ∧
      valid_transition .running .running = false ∧
      ∀ a, valid_transition a .failing = true ↔ a = .running) := by
  refine ⟨?_, ?_, ?_, ?_, ?_, ?_, ?_, ?_, ?_, ?_⟩
  · intro p a b t h
    exact pst_one_write h
  · intro src dst t n h
    exact attempt_writes h
  · intro src port sptr t h
    exact send_writes h
  · intro dst port r t h
    exact recv_writes h
  · intro p t h
    exact fail_proc_writes h
  · intro fuel p t h
    exact del_proc_writes h
  · intro proc env t h
    exact handle_upcall_writes h
  · intro rnd proc t hinv hs h
    obtain ⟨p, hp, hw⟩ := main_loop_activate_writes h
    refine ⟨p, hp, hw, ?_⟩
    have hr := sched_runnable hinv hs hp
    revert hr
    cases p.state <;> simp [get_state_vec]
  · intro proc env t h
    exact main_loop_handle_writes h
  · refine ⟨rfl, rfl, rfl, rfl, rfl, rfl, rfl, rfl, rfl, ?_⟩
    intro a
    cases a <;> simp [valid_transition]

/-- Witness of C10 on the example runtimes.  The transition of proc 2 of
`demo_ready` from calling-host to blocked-writing is one assignment.  The send
of proc 2 in `demo_ready` is made of that transition and of an attempted
transmission.  The main loop's handling of proc 1 of `demo_exited`, which
returned in blocked-exited, assigns running and then makes the transition from
running to blocked-exited. -/
theorem C10_state_changes_follow_table_witness :
    one_write demo_ready
      ((proc_state_transition demo_ready 2 .calling_c .blocked_writing).getD demo_ready)
      2 .calling_c .blocked_writing ∧
    (same_states demo_ready ((upcall_send demo_ready 2 1 200).getD demo_ready) ∨
     ∃ u v w chan dstp n, same_states demo_ready u ∧
       proc_state_transition u 2 .calling_c .blocked_writing = Res.ok v ∧
       attempt_transmission v chan dstp = Res.ok (w, n) ∧
       same_states w ((upcall_send demo_ready 2 1 200).getD demo_ready)) ∧
    (∃ p, demo_exited.procs.get 1 = some p ∧
      (((p.state = .running ∨ p.state = .failing) ∧
          (main_loop_handle demo_exited 1 ⟨0, 0, 0⟩).getD demo_exited = demo_exited) ∨
       (p.state = .calling_c ∧ ∃ u, handle_upcall demo_exited 1 ⟨0, 0, 0⟩ = Res.ok u ∧
          ((main_loop_handle demo_exited 1 ⟨0, 0, 0⟩).getD demo_exited = u ∨
           one_write u ((main_loop_handle demo_exited 1 ⟨0, 0, 0⟩).getD demo_exited) 1
             .calling_c .running)) ∨
       (p.state = .blocked_exited ∧
          one_write demo_exited
            ({ demo_exited with
                procs := demo_exited.procs.put 1 { p with state := .running } } : rust_rt)
            1 .blocked_exited .running ∧
          proc_state_transition
            ({ demo_exited with
                procs := demo_exited.procs.put 1 { p with state := .running } } : rust_rt)
            1 .running .blocked_exited =
            Res.ok ((main_loop_handle demo_exited 1 ⟨0, 0, 0⟩).getD demo_exited)))) :=
  ⟨(C10_state_changes_follow_table demo_ready).1 2 .calling_c .blocked_writing _
      (Res.eq_ok_of_isOk _ (by rfl)),
   (C10_state_changes_follow_table demo_ready).2.2.1 2 1 200 _ (Res.eq_ok_of_isOk _ (by rfl)),
   (C10_state_changes_follow_table demo_exited).2.2.2.2.2.2.2.2.1 1 ⟨0, 0, 0⟩ _
      (Res.eq_ok_of_isOk _ (by rfl))⟩

/-- Counterexample to C10 as stated: three assignments to a proc's state that
are not transitions of the table.  (1) `fail_proc` on proc 1 of `demo_ready`,
which is in blocked-reading, returns and leaves the proc in failing.  (2) Proc
1 of `demo_exited` returned from its activation in blocked-exited: the main
loop assigns running to it (line 1741) and then makes the transition from
running to blocked-exited, which returns; the pair blocked-exited, running is
not in the table.  (3) Proc 1 of `demo_failed` returned from its activation in
failing and stays in the runnable vector: the scheduler picks it and the main
loop assigns running to it (line 1706); the pair failing, running is not in the
table. -/
theorem C10_state_change_counterexample :
    (state_of demo_ready 1 = some .blocked_reading ∧
      (fail_proc demo_ready 1).isOk = true ∧
      state_of ((fail_proc demo_ready 1).getD demo_ready) 1 = some .failing ∧
      valid_transition .blocked_reading .failing = false) ∧
    (state_of demo_exited 1 = some .blocked_exited ∧
      main_loop_handle demo_exited 1 ⟨0, 0, 0⟩ =
        proc_state_transition
          ({ demo_exited with
              procs := demo_exited.procs.put 1
                { demo_proc 1 .blocked_exited 0 [] [0, 0] with state := .running } } : rust_rt)
          1 .running .blocked_exited ∧
      state_of
        ({ demo_exited with
            procs := demo_exited.procs.put 1
              { demo_proc 1 .blocked_exited 0 [] [0, 0] with state := .running } } : rust_rt)
        1 = some .running ∧
      (main_loop_handle demo_exited 1 ⟨0, 0, 0⟩).isOk = true ∧
      valid_transition .blocked_exited .running = false) ∧
    (procs_inv demo_failed ∧ main_loop_handle demo_failed 1 ⟨0, 0, 0⟩ = Res.ok demo_failed ∧
      demo_failed.sched 0 = Res.ok 1 ∧ state_of demo_failed 1 = some .failing ∧
      (main_loop_activate demo_failed 1).isOk = true ∧
      state_of ((main_loop_activate demo_failed 1).getD demo_failed) 1 = some .running ∧
      valid_transition .failing .running = false) :=
  ⟨⟨by decide, by rfl, by decide, by rfl⟩,
   ⟨by decide, by rfl, by decide, by rfl, by rfl⟩,
   ⟨by decide, by rfl, by rfl, by decide, by rfl, by decide, by rfl⟩⟩

/-! ## C4: a completed transmission -/

/-- Counterexample to C5 as stated: in `demo_stale` the destination is in
blocked-reading and the buffer of channel 1 holds zero units, yet
`attempt_transmission` stops with the fatal of line 1342, because the channel
names a blocked sender that is not in blocked-writing. -/
theorem C5_empty_buffer_fatal_counterexample :
    (demo_stale.chan_heap.get 1).map (fun c => c.buf.unread) = some 0 ∧
    (demo_stale.procs.get 1).map (fun r => r.state) = some .blocked_reading ∧
    (attempt_transmission demo_stale 1 1).stop = some (Err.fatal 1342) :=
  ⟨by decide, by decide, by rfl⟩

/-- C5, amended: for a non-null channel and a live destination proc,
`attempt_transmission` returns 0 (incomplete) with the runtime exactly as it was
whenever the destination is not in blocked-reading, and likewise whenever the
channel's buffer holds zero units and the channel's blocked sender, if any, is
in blocked-writing.  No fatal is raised in these cases. -/
theorem C5_incomplete_changes_nothing (s : rust_rt) (src dst : Ptr) (d : rust_proc)
    (hsrc : src ≠ 0) (hd : s.procs.get dst = some d) :
    (d.state ≠ .blocked_reading → attempt_transmission s src dst = Res.ok (s, 0)) ∧
    (∀ c, s.chan_heap.get src = some c → c.buf.unread = 0 →
      (c.blocked = 0 ∨ ∃ b, s.procs.get c.blocked = some b ∧ b.state = .blocked_writing) →
      attempt_transmission s src dst = Res.ok (s, 0)) :=
  ⟨fun hst => attempt_not_reading hsrc hd hst,
   fun _ hc h0 hbl => attempt_empty hd hc hbl h0⟩

/-- Witness of C5: in `demo_busy` the destination proc 1 is running; in
`demo_drained` it is in blocked-reading and channel 1 is empty.  Both
transmissions are incomplete and return the runtime they were given. -/
theorem C5_incomplete_changes_nothing_witness :
    attempt_transmission demo_busy 1 1 = Res.ok (demo_busy, 0) ∧
    attempt_transmission demo_drained 1 1 = Res.ok (demo_drained, 0) :=
  ⟨(C5_incomplete_changes_nothing demo_busy 1 1 (demo_proc 1 .running 0 [] [0, 0])
      (by decide) (by decide)).1 (by decide),
   (C5_incomplete_changes_nothing demo_drained 1 1 (demo_proc 1 .blocked_reading 0 [] [300, 1])
      (by decide) (by decide)).2 (demo_chan 0 0 0 0 []) (by decide) (by decide) (Or.inl rfl)⟩

/-! ## C2: a send on an empty channel -/

/-- Counterexample to C2 as stated: sends by proc 2, which is in calling-host,
to port 1, which has an owner, on a channel that is new or has an empty buffer;
each send stops, or leaves the channel queued.  (1) The source address is null:
fatal of line 1392.  (2) The owner waits in blocked-reading with a null
destination address: fatal of line 588.  (3) The port has unit size 0 and the
channel is new: fatal of line 515.  (4) The channel names proc 1 as its blocked
sender: fatal of line 1399.  (5) The sender is not at position `idx` of the
runnable vector: fatal of line 1028.  (6) The storage of the empty buffer has no
room for a unit at offset `next`: the copy leaves the storage.  (7) The empty
channel is flagged as queued: the send delivers and the channel stays queued.
(8) The writers vector of the port has no storage.  (9) Eight procs are blocked
and (10) eight procs are runnable: the store of the sender, or of the owner,
lies outside the storage the push reallocates.  (11) Eight channels are queued
at the port: the same for the store of the ninth.  (12) The runnable vector has
a capacity of 32 slots: the removal of the sender halves it, `trim` shrinks the
storage to 16 bytes and the sender is stored outside it. -/
theorem C2_send_stops_counterexample :
    (upcall_send demo_ready 2 1 0).stop = some (Err.fatal 1392) ∧
    (upcall_send
      (demo_rt [2] [1]
        [demo_proc 1 .blocked_reading 0 [] [0, 1], demo_proc 2 .calling_c 0 [] [1, 200]] [] [])
      2 1 200).stop = some (Err.fatal 588) ∧
    (upcall_send
      { demo_ready with port_heap := [some { demo_port [] with unit_sz := 0 }] }
      2 1 200).stop = some (Err.fatal 515) ∧
    (upcall_send
      (demo_rt [2] [1]
        [demo_proc 1 .blocked_reading 0 [] [300, 1], demo_proc 2 .calling_c 0 [1] [1, 200]] []
        [demo_chan 0 0 1 0 []]) 2 1 200).stop = some (Err.fatal 1399) ∧
    (upcall_send
      (demo_rt [2] [1]
        [demo_proc 1 .blocked_reading 0 [] [300, 1], demo_proc 2 .calling_c 1 [] [1, 200]] [] [])
      2 1 200).stop = some (Err.fatal 1028) ∧
    (upcall_send
      { demo_drained with
        procs := [some (demo_proc 1 .blocked_reading 0 [] [300, 1]),
                  some (demo_proc 2 .calling_c 0 [1] [1, 200])],
        chan_heap := [some { port := 1, queued := 0, idx := 0, blocked := 0,
                             buf := { alloc := 32, unit_sz := 4, next := 30, unread := 0,
                                      data := List.replicate 32 0 } }] }
      2 1 200).stop = some Err.oob ∧
    ((upcall_send
        (demo_rt [2] [1]
          [demo_proc 1 .blocked_reading 0 [] [300, 1], demo_proc 2 .calling_c 0 [1] [1, 200]]
          [1] [demo_chan 1 0 0 0 []]) 2 1 200).isOk = true ∧
     (((upcall_send
        (demo_rt [2] [1]
          [demo_proc 1 .blocked_reading 0 [] [300, 1], demo_proc 2 .calling_c 0 [1] [1, 200]]
          [1] [demo_chan 1 0 0 0 []]) 2 1 200).getD demo_ready).chan_heap.get 1).map
        (fun c => c.queued) = some 1) ∧
    (upcall_send
      { demo_busy with port_heap := [some { demo_port [] with writers := ⟨8, 0, []⟩ }] }
      2 1 200).stop = some Err.oob ∧
    (upcall_send (demo_blocked_full .calling_c) 1 1 200).stop = some Err.oob ∧
    (upcall_send demo_run_full 2 1 200).stop = some Err.oob ∧
    (upcall_send
      (demo_rt [1, 2] []
        [demo_proc 1 .running 0 [] [0, 0], demo_proc 2 .calling_c 1 [] [1, 200]]
        [1, 2, 3, 4, 5, 6, 7, 8]
        [demo_chan 1 0 0 4 [1, 0, 0, 0], demo_chan 1 1 0 4 [1, 0, 0, 0],
         demo_chan 1 2 0 4 [1, 0, 0, 0], demo_chan 1 3 0 4 [1, 0, 0, 0],
         demo_chan 1 4 0 4 [1, 0, 0, 0], demo_chan 1 5 0 4 [1, 0, 0, 0],
         demo_chan 1 6 0 4 [1, 0, 0, 0], demo_chan 1 7 0 4 [1, 0, 0, 0]])
      2 1 200).stop = some Err.oob ∧
    (upcall_send
      { demo_ready with
        running_procs := ⟨32, 6, [3, 4, 5, 6, 7, 2] ++ List.replicate 26 0⟩,
        procs := [some (demo_proc 1 .blocked_reading 0 [] [300, 1]),
                  some (demo_proc 2 .calling_c 5 [] [1, 200]),
                  some (demo_proc 2 .running 0 [] [0, 0]),
                  some (demo_proc 2 .running 1 [] [0, 0]),
                  some (demo_proc 2 .running 2 [] [0, 0]),
                  some (demo_proc 2 .running 3 [] [0, 0]),
                  some (demo_proc 2 .running 4 [] [0, 0])] }
      2 1 200).stop = some Err.oob :=
  ⟨by rfl, by rfl, by rfl, by rfl, by rfl, by rfl, ⟨by rfl, by decide⟩, by rfl, by rfl, by rfl,
   by rfl, by rfl⟩

/-- C2, amended: in a runtime that satisfies the state-vector invariant, whose
two proc vectors are at a capacity `trim` does not halve and whose blocked
vector has a free slot, let a proc in calling-host send the unit at the
non-null address `sptr` to a live port with a live owner, on a channel that is
new (the port's unit size being non-zero) or has a well-formed empty buffer, is
not queued and names no other blocked sender.  If the owner is in
blocked-reading with a non-null destination address and the runnable vector has
a free slot, the send returns with sender and owner in running, the unit
stands at the address in the owner's first upcall argument, and the channel has
an empty buffer, no blocked sender and is not queued.  If the owner is in any
other state and the writers vector of the port is well-formed with a free slot,
the send returns with the sender in blocked-writing. -/
theorem C2_send_on_empty_channel (s : rust_rt) (src port : Ptr) (sptr : Nat)
    (sp o : rust_proc) (pt : rust_port)
    (hinv : procs_inv s) (hsm : procs_small s) (hbr : s.blocked_procs.room)
    (hsp : s.procs.get src = some sp) (hst : sp.state = .calling_c)
    (hpt : s.port_heap.get port = some pt) (ho : s.procs.get pt.proc = some o)
    (hsptr : sptr ≠ 0)
    (hnew : hash_find s sp.chans port = none → pt.unit_sz ≠ 0)
    (hold : ∀ chan c, hash_find s sp.chans port = some chan → s.chan_heap.get chan = some c →
      c.buf.room ∧ (c.blocked = 0 ∨ c.blocked = src) ∧ c.queued = 0) :
    (o.state = .blocked_reading → o.arg 0 ≠ 0 → s.running_procs.room →
      ∃ t sp' o' chan ch, upcall_send s src port sptr = Res.ok t ∧
        t.procs.get src = some sp' ∧ sp'.state = .running ∧
        t.procs.get pt.proc = some o' ∧ o'.state = .running ∧
        hash_find t sp'.chans port = some chan ∧ t.chan_heap.get chan = some ch ∧
        mem_read t.mem (o.arg 0) ch.buf.unit_sz = mem_read s.mem sptr ch.buf.unit_sz ∧
        ch.buf.unread = 0 ∧ ch.blocked = 0 ∧ ch.queued = 0) ∧
    (o.state ≠ .blocked_reading → pt.writers.wf → pt.writers.room →
      ∃ t sp', upcall_send s src port sptr = Res.ok t ∧
        t.procs.get src = some sp' ∧ sp'.state = .blocked_writing) := by
  have hold' : ∀ chan c, hash_find s sp.chans port = some chan →
      s.chan_heap.get chan = some c → c.buf.room ∧ (c.blocked = 0 ∨ c.blocked = src) :=
    fun chan c h1 h2 => ⟨(hold chan c h1 h2).1, (hold chan c h1 h2).2.1⟩
  refine ⟨?_, ?_⟩
  · intro hos harg hrr
    obtain ⟨t, s1, chan, c, b1, ht, _, _, hc1, _, _, hcase, hch, hb1u, hb1s, _, _, hmem,
      ⟨sp', hsp', hsps, _, hfind⟩, ⟨o', ho', hos', _⟩, _⟩ :=
      send_delivered hinv hsp hst hpt ho hsptr hnew hold' hos harg hsm hbr hrr
    have hq : c.queued = 0 := by
      rcases hcase with ⟨hf, hg⟩ | ⟨_, hq, _⟩
      · exact (hold chan c hf hg).2.2
      · exact hq
    refine ⟨t, sp', o', chan, { c with blocked := 0, buf := b1 }, ht, hsp', hsps, ho', hos',
      hfind, ?_, ?_, hb1u, rfl, hq⟩
    · rw [hch]
      exact Store.get_put_self _ hc1
    · show mem_read t.mem (o.arg 0) b1.unit_sz = mem_read s.mem sptr b1.unit_sz
      rw [hb1s, hmem]
      have hlen := mem_read_length s.mem sptr c.buf.unit_sz
      have := mem_read_write s.mem (o.arg 0) (mem_read s.mem sptr c.buf.unit_sz)
      rw [hlen] at this
      exact this
  · intro hos hw hwr
    obtain ⟨t, s1, chan, c, w, ht, _, _, _, _, _, _, _, _, _, _, _, _, _,
      ⟨sp', hsp', hsps, _, _⟩, _⟩ :=
      send_blocked hinv hsp hst hpt ho hsptr hnew hold'
        (fun chan c h1 h2 => (hold chan c h1 h2).2.2) hw hos hsm hbr hwr
    exact ⟨t, sp', ht, hsp', hsps⟩

/-- Witness of C2 on the example runtimes.  In `demo_ready` the owner waits in
blocked-reading: the send returns, sender and owner are in running and the
bytes `44 33 22 11` stand at address 300.  In `demo_busy` the owner is
running: the send returns with the sender in blocked-writing. -/
theorem C2_send_on_empty_channel_witness :
    (∃ t sp' o' chan ch, upcall_send demo_ready 2 1 200 = Res.ok t ∧
        t.procs.get 2 = some sp' ∧ sp'.state = .running ∧
        t.procs.get 1 = some o' ∧ o'.state = .running ∧
        hash_find t sp'.chans 1 = some chan ∧ t.chan_heap.get chan = some ch ∧
        mem_read t.mem 300 ch.buf.unit_sz = mem_read demo_ready.mem 200 ch.buf.unit_sz ∧
        ch.buf.unread = 0 ∧ ch.blocked = 0 ∧ ch.queued = 0) ∧
    mem_read ((upcall_send demo_ready 2 1 200).getD demo_ready).mem 300 4 =
      [0x44, 0x33, 0x22, 0x11] ∧
    (∃ t sp', upcall_send demo_busy 2 1 200 = Res.ok t ∧
        t.procs.get 2 = some sp' ∧ sp'.state = .blocked_writing) :=
  ⟨(C2_send_on_empty_channel demo_ready 2 1 200
      (demo_proc 2 .calling_c 0 [] [1, 200]) (demo_proc 1 .blocked_reading 0 [] [300, 1])
      (demo_port []) (by decide) (by decide) (by decide) (by decide) (by decide) (by decide)
      (by decide) (by decide)
      (fun _ => by decide) (fun chan c h => by simp [hash_find, demo_proc] at h)).1
      (by decide) (by decide) (by decide),
   by decide,
   (C2_send_on_empty_channel demo_busy 2 1 200
      (demo_proc 2 .calling_c 1 [] [1, 200]) (demo_proc 1 .running 0 [] [0, 0])
      (demo_port []) (by decide) (by decide) (by decide) (by decide) (by decide) (by decide)
      (by decide) (by decide)
      (fun _ => by decide) (fun chan c h => by simp [hash_find, demo_proc] at h)).2
      (by decide) (by decide) (by decide)⟩

/-! ## C8: the blocked-sender pointer -/

/-- C8, the code at the failing input: in `demo_queued` proc 2 waits in
blocked-writing and channel 1 names it as its blocked sender.  `fail_proc` on
proc 2 returns with proc 2 in failing and channel 1 still naming proc 2; a
receive by proc 1 on that runtime stops at the assertion of line 1342, which
requires a blocked sender to be in blocked-writing. -/
theorem C8_fail_proc_keeps_blocked_sender :
    (demo_queued.procs.get 2).map (fun r => r.state) = some .blocked_writing ∧
    (demo_queued.chan_heap.get 1).map (fun c => c.blocked) = some 2 ∧
    (fail_proc demo_queued 2).isOk = true ∧
    (((fail_proc demo_queued 2).getD demo_queued).procs.get 2).map (fun r => r.state) =
      some .failing ∧
    (((fail_proc demo_queued 2).getD demo_queued).chan_heap.get 1).map (fun c => c.blocked) =
      some 2 ∧
    (upcall_recv ((fail_proc demo_queued 2).getD demo_queued) 1 1 0).stop =
      some (Err.fatal 1342) :=
  ⟨by decide, by decide, by rfl, by decide, by decide, by rfl⟩

/-! ## C3: a receive -/

theorem slot_some_of_lt {v : ptr_vec} (hv : v.wf) {j : Nat} (h : j < v.fill) :
    ∃ q, v.slot j = some q := by
  obtain ⟨h1, h2, _⟩ := hv
  have hlt : j < v.data.length := by omega
  refine ⟨v.data[j], ?_⟩
  simp only [ptr_vec.slot]
  rw [if_pos h]
  exact List.getElem?_eq_getElem hlt

/-- Counterexample to C3 as stated.  In `demo_idle` port 1 has no writers: the
receive of proc 1 returns, and the record of proc 2, another proc, is not what
it was: its vector index went from 1 to 0, because the swap-delete that takes
proc 1 out of the runnable vector moved proc 2 into its slot.  The other
receives are issued by proc 1, in calling-host, on its port 1 with channel 1
queued and holding one unit, its sender proc 2 in blocked-writing (or, in the
seventh, with no writers); they stop, or lose a queued channel.  (1) The
destination address is null: fatal of line 588.  (2) The unread unit does not
lie inside the storage of the buffer.  (3) The receiver is not at position
`idx` of the runnable vector: fatal of line 1028.  (4) The queued channel
records another index than its slot in the writers vector: fatal of line 1447.
(5) Eight procs are runnable: the store of the receiver, moved back after the
sender, lies outside the storage the push reallocates.  (6) The writers vector
has a capacity of 32 slots and six channels are queued: the receive returns,
`trim` has shrunk the storage to 16 bytes, and slot 4 of the vector is outside
it.  (7) Eight procs are blocked and the port has no writers: the store of the
receiver lies outside the storage the push reallocates.  (8) The runnable
vector has a capacity of 32 slots and holds six procs: the removal of the
receiver halves it, `trim` shrinks the storage to 16 bytes, and the sender is
stored outside it. -/
theorem C3_receive_counterexample :
    ((demo_idle.port_heap.get 1).map (fun pt => pt.writers.fill) = some 0 ∧
     (upcall_recv demo_idle 1 1 0).isOk = true ∧
     demo_idle.procs.get 2 = some (demo_proc 2 .running 1 [] [0, 0]) ∧
     ((upcall_recv demo_idle 1 1 0).getD demo_idle).procs.get 2 =
       some (demo_proc 2 .running 0 [] [0, 0]) ∧
     ((upcall_recv demo_idle 1 1 0).getD demo_idle).procs.get 2 ≠ demo_idle.procs.get 2) ∧
    (upcall_recv
      (demo_rt [1] [2]
        [demo_proc 1 .calling_c 0 [] [0, 1], demo_proc 2 .blocked_writing 0 [1] [1, 200]] [1]
        [demo_chan 1 0 2 4 [0x44, 0x33, 0x22, 0x11]]) 1 1 7).stop = some (Err.fatal 588) ∧
    (upcall_recv
      { demo_queued with
        chan_heap := [some { port := 1, queued := 1, idx := 0, blocked := 2,
                             buf := { alloc := 32, unit_sz := 4, next := 30, unread := 4,
                                      data := List.replicate 32 0 } }] } 1 1 7).stop =
      some Err.oob ∧
    (upcall_recv
      (demo_rt [1] [2]
        [demo_proc 1 .calling_c 1 [] [300, 1], demo_proc 2 .blocked_writing 0 [1] [1, 200]] [1]
        [demo_chan 1 0 2 4 [0x44, 0x33, 0x22, 0x11]]) 1 1 7).stop = some (Err.fatal 1028) ∧
    (upcall_recv
      (demo_rt [1] [2]
        [demo_proc 1 .calling_c 0 [] [300, 1], demo_proc 2 .blocked_writing 0 [1] [1, 200]] [1]
        [demo_chan 1 3 2 4 [0x44, 0x33, 0x22, 0x11]]) 1 1 7).stop = some (Err.fatal 1447) ∧
    (upcall_recv
      (demo_rt [1, 3, 4, 5, 6, 7, 8, 9] [2]
        [demo_proc 1 .calling_c 0 [] [300, 1], demo_proc 2 .blocked_writing 0 [1] [1, 200],
         demo_proc 2 .running 1 [] [0, 0], demo_proc 2 .running 2 [] [0, 0],
         demo_proc 2 .running 3 [] [0, 0], demo_proc 2 .running 4 [] [0, 0],
         demo_proc 2 .running 5 [] [0, 0], demo_proc 2 .running 6 [] [0, 0],
         demo_proc 2 .running 7 [] [0, 0]] [1]
        [demo_chan 1 0 2 4 [0x44, 0x33, 0x22, 0x11]]) 1 1 7).stop = some Err.oob ∧
    ((upcall_recv
        { demo_queued with
          port_heap := [some { demo_port [] with
            writers := ⟨32, 6, [1, 2, 3, 4, 5, 6] ++ List.replicate 26 0⟩ }],
          chan_heap := [some (demo_chan 1 0 2 4 [0x44, 0x33, 0x22, 0x11]),
                        some (demo_chan 1 1 0 4 [1, 0, 0, 0]),
                        some (demo_chan 1 2 0 4 [1, 0, 0, 0]),
                        some (demo_chan 1 3 0 4 [1, 0, 0, 0]),
                        some (demo_chan 1 4 0 4 [1, 0, 0, 0]),
                        some (demo_chan 1 5 0 4 [1, 0, 0, 0])] } 1 1 0).isOk = true ∧
     (((upcall_recv
        { demo_queued with
          port_heap := [some { demo_port [] with
            writers := ⟨32, 6, [1, 2, 3, 4, 5, 6] ++ List.replicate 26 0⟩ }],
          chan_heap := [some (demo_chan 1 0 2 4 [0x44, 0x33, 0x22, 0x11]),
                        some (demo_chan 1 1 0 4 [1, 0, 0, 0]),
                        some (demo_chan 1 2 0 4 [1, 0, 0, 0]),
                        some (demo_chan 1 3 0 4 [1, 0, 0, 0]),
                        some (demo_chan 1 4 0 4 [1, 0, 0, 0]),
                        some (demo_chan 1 5 0 4 [1, 0, 0, 0])] } 1 1 0).getD
          demo_queued).port_heap.get 1).map
        (fun pt => (pt.writers.fill, pt.writers.data, pt.writers.slot 4)) =
       some (5, [6, 2, 3, 4], none)) ∧
    (upcall_recv (demo_blocked_full .calling_c) 1 1 0).stop = some Err.oob ∧
    (upcall_recv
      { demo_queued with
        running_procs := ⟨32, 6, [3, 4, 5, 6, 7, 1] ++ List.replicate 26 0⟩,
        procs := [some (demo_proc 1 .calling_c 5 [] [300, 1]),
                  some (demo_proc 2 .blocked_writing 0 [1] [1, 200]),
                  some (demo_proc 2 .running 0 [] [0, 0]),
                  some (demo_proc 2 .running 1 [] [0, 0]),
                  some (demo_proc 2 .running 2 [] [0, 0]),
                  some (demo_proc 2 .running 3 [] [0, 0]),
                  some (demo_proc 2 .running 4 [] [0, 0])] } 1 1 7).stop = some Err.oob :=
  ⟨⟨by decide, by rfl, by decide, by decide, by decide⟩, by rfl, by rfl, by rfl, by rfl, by rfl,
   ⟨by rfl, by decide⟩, by rfl, by rfl⟩

/-- C3, amended: let the owner of a live port receive on it while in
calling-host, in a runtime that satisfies the state-vector and the writers
invariant, whose vectors are at a capacity `trim` does not halve and whose
blocked vector has a free slot.  If the writers vector is not empty, every
queued channel having a well-formed buffer with at least one unit and a blocked
sender, if any, in blocked-writing, the destination address is non-null and the
runnable vector has a free slot, then for every value `r` of the random pick
the receive returns with the receiver in running, the oldest unit of the picked
channel at the destination and nothing else written, the channel's `unread`
smaller by one unit, its queued flag cleared and the channel swap-deleted from
the writers vector.  If the writers vector is empty, the receive returns with
the receiver in blocked-reading; no channel and no port changes, memory is as
it was, and every other proc is as it was apart from its vector index. -/
theorem C3_receive (s : rust_rt) (dst port : Ptr) (d : rust_proc) (pt : rust_port)
    (hinv : procs_inv s) (hW : writers_inv s) (hsm : procs_small s) (hWs : writers_small s)
    (hbr : s.blocked_procs.room) (hd : s.procs.get dst = some d)
    (hst : d.state = .calling_c) (hpt : s.port_heap.get port = some pt)
    (hown : pt.proc = dst) :
    (0 < pt.writers.fill → d.arg 0 ≠ 0 → s.running_procs.room →
      (∀ j chan c, pt.writers.slot j = some chan → s.chan_heap.get chan = some c →
        c.buf.wf ∧ c.buf.unit_sz ≤ c.buf.unread ∧
        (c.blocked = 0 ∨ ∃ b, s.procs.get c.blocked = some b ∧ b.state = .blocked_writing)) →
      ∀ r, ∃ t schan c c' pt' d',
        pt.writers.slot (r % pt.writers.fill) = some schan ∧
        s.chan_heap.get schan = some c ∧
        upcall_recv s dst port r = Res.ok t ∧
        t.procs.get dst = some d' ∧ d'.state = .running ∧
        t.mem = mem_write s.mem (d.arg 0) c.buf.oldest ∧
        mem_read t.mem (d.arg 0) c.buf.unit_sz = c.buf.oldest ∧
        t.chan_heap.get schan = some c' ∧
        c'.buf.unread = c.buf.unread - c.buf.unit_sz ∧ c'.queued = 0 ∧
        t.port_heap.get port = some pt' ∧ pt'.writers.fill = pt.writers.fill - 1 ∧
        (∀ j, pt'.writers.slot j = swapdel_slots pt.writers (r % pt.writers.fill) j) ∧
        (∀ j, pt'.writers.slot j ≠ some schan)) ∧
    (pt.writers.fill = 0 →
      ∀ r, ∃ t d', upcall_recv s dst port r = Res.ok t ∧
        t.procs.get dst = some d' ∧ d'.state = .blocked_reading ∧
        t.chan_heap = s.chan_heap ∧ t.port_heap = s.port_heap ∧ t.mem = s.mem ∧
        ∀ q, q ≠ dst →
          (t.procs.get q).map rust_proc.core = (s.procs.get q).map rust_proc.core) := by
  obtain ⟨ha, hb⟩ := (writers_inv_iff s).1 hW
  obtain ⟨hwf, hsl⟩ := ha port pt hpt
  refine ⟨?_, ?_⟩
  · intro hpos hdp hrr hq r
    have hlt : r % pt.writers.fill < pt.writers.fill := Nat.mod_lt _ hpos
    obtain ⟨schan, hpick⟩ := slot_some_of_lt hwf hlt
    obtain ⟨c, hc, _, hidx, _⟩ := hsl _ _ hpick
    obtain ⟨hbw, hbu, hbl⟩ := hq _ schan c hpick hc
    have hlast : ∀ q, pt.writers.slot (pt.writers.fill - 1) = some q →
        ∃ cq, s.chan_heap.get q = some cq := by
      intro q hq'
      obtain ⟨cq, hcq, _⟩ := hsl _ _ hq'
      exact ⟨cq, hcq⟩
    have hrr' : s.running_procs.fill + (if c.blocked = 0 then 0 else 1) ≤
        s.running_procs.alloc := by
      have : s.running_procs.fill < s.running_procs.alloc := hrr
      split <;> omega
    obtain ⟨t, b1, w, ht, _, _, hb1u, _, hmem, hcs, _, _, _, hph, _, hwfill, hwslot, _, _, _, _,
      _, _, ⟨d', hd', hds', _⟩, _⟩ :=
      recv_ready r hinv hd hst hpt hown hwf hpos hpick hc hidx hbw hbu hdp hbl hlast hsm hbr
        hrr' (writers_small_get hWs hpt)
    have hWt := (recv_writers_inv hW hWs ht).1
    have hpt' : t.port_heap.get port = some { pt with writers := w } := by
      rw [hph]
      exact Store.get_put_self _ hpt
    refine ⟨t, schan, c, { c with buf := b1, blocked := 0, queued := 0 },
      { pt with writers := w }, d', hpick, hc, ht, hd', hds', hmem, ?_, hcs, hb1u, rfl, hpt',
      hwfill, hwslot, ?_⟩
    · have hlen : c.buf.oldest.length = c.buf.unit_sz := by
        obtain ⟨h1, h2, h3, h4⟩ := hbw
        simp only [circ_buf.oldest, List.length_take, List.length_drop]
        omega
      rw [hmem, ← hlen]
      exact mem_read_write _ _ _
    · intro j hj
      obtain ⟨ch, hch, _, _, hqn⟩ := (((writers_inv_iff t).1 hWt).1 port _ hpt').2 j schan hj
      rw [hcs] at hch
      cases hch
      exact hqn rfl
  · intro h0 r
    obtain ⟨t, ht, _, hrest, hmv⟩ := recv_empty r hinv hd hst hpt hown h0 hsm hbr
    obtain ⟨d', hd', hds', _⟩ := proc_moved_self hmv hd
    exact ⟨t, d', ht, hd', hds', hrest.2.2.2.2.1, hrest.2.2.2.1, hrest.2.2.2.2.2.2, hmv.2.1⟩

/-- Witness of C3 on the example runtimes: in `demo_queued` channel 1 is queued
at port 1 and the receive of proc 1 takes its unit, whatever the random pick;
in `demo_idle` port 1 has no writers and the receive leaves proc 1 in
blocked-reading. -/
theorem C3_receive_witness :
    (∃ t schan c c' pt' d',
        (demo_port [1]).writers.slot (7 % (demo_port [1]).writers.fill) = some schan ∧
        demo_queued.chan_heap.get schan = some c ∧
        upcall_recv demo_queued 1 1 7 = Res.ok t ∧
        t.procs.get 1 = some d' ∧ d'.state = .running ∧
        t.mem = mem_write demo_queued.mem 300 c.buf.oldest ∧
        mem_read t.mem 300 c.buf.unit_sz = c.buf.oldest ∧
        t.chan_heap.get schan = some c' ∧
        c'.buf.unread = c.buf.unread - c.buf.unit_sz ∧ c'.queued = 0 ∧
        t.port_heap.get 1 = some pt' ∧
        pt'.writers.fill = (demo_port [1]).writers.fill - 1 ∧
        (∀ j, pt'.writers.slot j =
          swapdel_slots (demo_port [1]).writers (7 % (demo_port [1]).writers.fill) j) ∧
        (∀ j, pt'.writers.slot j ≠ some schan)) ∧
    mem_read ((upcall_recv demo_queued 1 1 7).getD demo_queued).mem 300 4 =
      [0x44, 0x33, 0x22, 0x11] ∧
    (∃ t d', upcall_recv demo_idle 1 1 7 = Res.ok t ∧
        t.procs.get 1 = some d' ∧ d'.state = .blocked_reading ∧
        t.chan_heap = demo_idle.chan_heap ∧ t.port_heap = demo_idle.port_heap ∧
        t.mem = demo_idle.mem ∧
        ∀ q, q ≠ 1 →
          (t.procs.get q).map rust_proc.core = (demo_idle.procs.get q).map rust_proc.core) :=
  ⟨(C3_receive demo_queued 1 1 (demo_proc 1 .calling_c 0 [] [300, 1]) (demo_port [1])
      (by decide) (by decide) (by decide) (by decide) (by decide) (by decide) (by decide)
      (by decide) (by decide)).1
      (by decide) (by decide) (by decide)
      (fun j chan c h1 h2 => by
        have hj : j = 0 := by
          have := (ptr_vec.slot_eq_some.1 h1).1
          simp [demo_port, demo_vec] at this
          exact this
        subst hj
        have hchan : chan = 1 := by
          simp [ptr_vec.slot, demo_port, demo_vec] at h1
          exact h1.symm
        subst hchan
        have hc : c = demo_chan 1 0 2 4 [0x44, 0x33, 0x22, 0x11] := by
          have : demo_queued.chan_heap.get 1 = some (demo_chan 1 0 2 4 [0x44, 0x33, 0x22, 0x11]) :=
            by decide
          rw [this] at h2
          exact (Option.some.inj h2).symm
        subst hc
        exact ⟨by decide, by decide,
          Or.inr ⟨demo_proc 2 .blocked_writing 0 [1] [1, 200], by decide, by decide⟩⟩) 7,
   by decide,
   (C3_receive demo_idle 1 1 (demo_proc 1 .calling_c 0 [] [300, 1]) (demo_port [])
      (by decide) (by decide) (by decide) (by decide) (by decide) (by decide) (by decide)
      (by decide) (by decide)).2
      (by decide) 7⟩

/-! ## Buffers of at most one unit -/

theorem shape_next {b : circ_buf} (hs : b.shape) : b.next + b.unit_sz ≤ b.alloc := by
  obtain ⟨k1, _, k3, _⟩ := hs
  rcases k3 with ⟨e1, e2⟩ | ⟨e1, e2, e3⟩
  · simp only [INIT_CIRC_BUF_UNITS] at e1
    omega
  · obtain ⟨k, hk⟩ := Nat.dvd_of_mod_eq_zero e2
    rw [hk, e1] at e3 ⊢
    have hk4 : k < 4 := by
      by_contra hc
      have : 4 ≤ k := by omega
      have := Nat.mul_le_mul_left b.unit_sz this
      rw [Nat.mul_comm b.unit_sz 4] at this
      omega
    have : k + 1 ≤ 4 := by omega
    have h2 := Nat.mul_le_mul_left b.unit_sz this
    rw [Nat.mul_add, Nat.mul_one, Nat.mul_comm b.unit_sz 4] at h2
    exact h2

theorem shape_room {b : circ_buf} (hs : b.shape) (h0 : b.unread = 0) : b.room :=
  ⟨hs.1, hs.2.1, shape_next hs, h0⟩

theorem shape_wf {b : circ_buf} (hs : b.shape) : b.wf := by
  have hn := shape_next hs
  obtain ⟨k1, k2, _, k4⟩ := hs
  refine ⟨k1, k2, ?_, ?_⟩
  · rcases k4 with e | e <;> rw [e]
    · exact dvd_zero _
  · rcases k4 with e | e <;> rw [e]
    · omega
    · exact hn

/-- Storing a unit in an empty buffer of the shape keeps the shape. -/
theorem shape_pushed {b : circ_buf} {unit : List Nat} (hs : b.shape) (h0 : b.unread = 0)
    (hl : unit.length = b.unit_sz) :
    (b.pushed unit).shape ∧ (b.pushed unit).unread = b.unit_sz ∧
      (b.pushed unit).oldest = unit := by
  have hr := shape_room hs h0
  have hwf := wf_after_push hr hl
  refine ⟨⟨hs.1, hwf.2.1, hs.2.2.1, Or.inr rfl⟩, rfl, oldest_after_push hr hl⟩

/-- Taking the unit out of a buffer of the shape leaves an empty buffer of the
shape, whether the storage is halved or not. -/
theorem shift_shape {s s1 : rust_rt} {b b1 : circ_buf} {dst : Nat}
    (h : b.shift s dst = Res.ok (s1, b1)) (hs : b.shape) :
    b1.shape ∧ b1.unread = 0 := by
  have hn := shape_next hs
  obtain ⟨k1, k2, k3, k4⟩ := hs
  unfold circ_buf.shift at h
  simp only [I_bind_eq_ok] at h
  obtain ⟨h1, h2, h3, _, h⟩ := h
  have hun : b.unread = b.unit_sz := by omega
  split at h
  · simp only [I_bind_eq_ok] at h
    obtain ⟨_, h⟩ := h
    split at h
    · rename_i hc
      simp only [INIT_CIRC_BUF_UNITS] at hc k3
      have hA : b.alloc = 8 * b.unit_sz ∧ b.next = 0 := by
        rcases k3 with e | ⟨e1, _, _⟩
        · exact e
        · omega
      rw [Res.bind_eq_ok] at h
      obtain ⟨d', hd', h⟩ := h
      rw [show ∀ t : rust_rt, t.malloc.free = Res.ok t from malloc_free] at h
      simp only [Res.ok_bind, Res.pure_eq, ok_eq_ok, Prod.mk.injEq] at h
      obtain ⟨e1, e2⟩ := h
      subst e1 e2
      obtain ⟨d2, hd2, hl2⟩ := transfer_ok
        (b := { b with unread := b.unread - b.unit_sz,
                       next := if b.next + b.unit_sz = b.alloc then 0 else b.next + b.unit_sz })
        (n := b.alloc / 2) k1 k2
        (by show b.unit_sz ∣ b.unread - b.unit_sz
            rw [hun, Nat.sub_self]; exact dvd_zero _)
        (by
          show (if b.next + b.unit_sz = b.alloc then 0 else b.next + b.unit_sz) +
            (b.unread - b.unit_sz) ≤ b.alloc
          split <;> omega)
        (by show b.unread - b.unit_sz ≤ b.alloc / 2; omega)
      rw [hd2] at hd'
      simp only [ok_eq_ok] at hd'
      subst hd'
      have hne : ¬ (b.next + b.unit_sz = b.alloc) := by omega
      have hhalf : b.alloc >>> 1 = 4 * b.unit_sz := by
        rw [Nat.shiftRight_eq_div_pow]; omega
      have hhalf2 : b.alloc / 2 = 4 * b.unit_sz := by omega
      refine ⟨⟨k1, ?_, Or.inr ⟨?_, ?_, ?_⟩, Or.inl ?_⟩, ?_⟩
      · show d2.length = b.alloc >>> 1
        rw [hl2, hhalf, hhalf2]
      · exact hhalf
      · show (if b.next + b.unit_sz = b.alloc then 0 else b.next + b.unit_sz) % b.unit_sz = 0
        rw [if_neg hne, hA.2]; simp
      · show (if b.next + b.unit_sz = b.alloc then 0 else b.next + b.unit_sz) < b.alloc >>> 1
        rw [if_neg hne, hhalf]; omega
      · show b.unread - b.unit_sz = 0
        omega
      · show b.unread - b.unit_sz = 0
        omega
    · rename_i hc
      simp only [INIT_CIRC_BUF_UNITS] at hc k3
      simp only [Res.pure_eq, ok_eq_ok, Prod.mk.injEq] at h
      obtain ⟨e1, e2⟩ := h
      subst e1 e2
      have hc' : b.alloc < 8 * b.unit_sz := by
        by_contra hge
        apply hc
        refine ⟨by omega, ?_⟩
        show b.unread - b.unit_sz ≤ b.alloc / 4
        omega
      have hB : b.alloc = 4 * b.unit_sz ∧ b.next % b.unit_sz = 0 ∧ b.next < b.alloc := by
        rcases k3 with ⟨e1, _⟩ | e
        · omega
        · exact e
      refine ⟨⟨k1, k2, Or.inr ⟨hB.1, ?_, ?_⟩, Or.inl ?_⟩, ?_⟩
      · show (if b.next + b.unit_sz = b.alloc then 0 else b.next + b.unit_sz) % b.unit_sz = 0
        split
        · simp
        · rw [Nat.add_mod_right]; exact hB.2.1
      · show (if b.next + b.unit_sz = b.alloc then 0 else b.next + b.unit_sz) < b.alloc
        split <;> omega
      · show b.unread - b.unit_sz = 0
        omega
      · show b.unread - b.unit_sz = 0
        omega
  · cases h

/-! ## The channel invariant of traces -/

theorem chan_inv_iff (s : rust_rt) :
    chan_inv s ↔
      (∀ x c, s.chan_heap.get x = some c →
        c.buf.shape ∧ (c.buf.unread ≠ 0 → in_blocked_writing s c.blocked)) ∧
      (∀ x y c1 c2, s.chan_heap.get x = some c1 → s.chan_heap.get y = some c2 →
        c1.buf.unread ≠ 0 → c2.buf.unread ≠ 0 → c1.blocked = c2.blocked → x = y) := by
  constructor
  · rintro ⟨h1, h2⟩
    refine ⟨fun x c hx => h1 x (by have := Store.lt_of_get hx; omega) c hx, ?_⟩
    intro x y c1 c2 hx hy
    exact h2 x (by have := Store.lt_of_get hx; omega) y (by have := Store.lt_of_get hy; omega)
      c1 hx c2 hy
  · rintro ⟨h1, h2⟩
    exact ⟨fun x _ c hx => h1 x c hx, fun x _ y _ c1 hx c2 hy => h2 x y c1 c2 hx hy⟩

theorem state_of_get {s : rust_rt} {q : Ptr} {r : rust_proc} (h : s.procs.get q = some r) :
    state_of s q = some r.state := by
  simp [state_of, h]

theorem state_of_zero (s : rust_rt) : state_of s 0 = none := by
  simp [state_of]

theorem state_of_core {s t : rust_rt} {q : Ptr}
    (h : (t.procs.get q).map rust_proc.core = (s.procs.get q).map rust_proc.core) :
    state_of t q = state_of s q := by
  unfold state_of
  cases h1 : t.procs.get q <;> cases h2 : s.procs.get q <;> simp [h1, h2] at h ⊢
  exact core_state h

theorem state_of_moved_ne {s t : rust_rt} {p q : Ptr} {dst : proc_state_t}
    (h : proc_moved s t p dst) (hq : q ≠ p) : state_of t q = state_of s q :=
  state_of_core (h.2.1 q hq)

theorem state_of_moved_self {s t : rust_rt} {p : Ptr} {dst : proc_state_t} {r : rust_proc}
    (h : proc_moved s t p dst) (hr : s.procs.get p = some r) : state_of t p = some dst := by
  obtain ⟨r', hr', hst, _⟩ := proc_moved_self h hr
  rw [state_of_get hr', hst]

theorem bview_get {s t : rust_rt} {x : Ptr} {c' : rust_chan}
    (h : (t.chan_heap.get x).map rust_chan.bview = (s.chan_heap.get x).map rust_chan.bview)
    (hx : t.chan_heap.get x = some c') :
    ∃ c, s.chan_heap.get x = some c ∧ c.buf = c'.buf ∧ c.blocked = c'.blocked := by
  rw [hx] at h
  cases hs : s.chan_heap.get x with
  | none => simp [hs] at h
  | some c =>
    refine ⟨c, rfl, ?_⟩
    simp only [hs, Option.map_some', Option.some.injEq, rust_chan.bview, Prod.mk.injEq] at h
    exact ⟨h.1.symm, h.2.symm⟩

/-- The channel invariant after a step that works on one channel `k`: the
other channels keep buffer and blocked sender, their blocked senders stay in
blocked-writing, and `k` ends with a buffer of the shape whose blocked sender,
if it holds a unit, has just entered blocked-writing. -/
theorem chan_inv_of {s t : rust_rt} (k : Ptr) (hinv : chan_inv s)
    (H1 : ∀ x, x ≠ k →
      (t.chan_heap.get x).map rust_chan.bview = (s.chan_heap.get x).map rust_chan.bview)
    (H2 : ∀ x c, x ≠ k → s.chan_heap.get x = some c → c.buf.unread ≠ 0 →
      in_blocked_writing t c.blocked)
    (Hk : ∀ c', t.chan_heap.get k = some c' → c'.buf.shape ∧
      (c'.buf.unread ≠ 0 →
        in_blocked_writing t c'.blocked ∧ ¬ in_blocked_writing s c'.blocked)) :
    chan_inv t := by
  rw [chan_inv_iff] at hinv ⊢
  obtain ⟨h1, h2⟩ := hinv
  refine ⟨?_, ?_⟩
  · intro x c' hx
    by_cases hxk : x = k
    · subst hxk
      obtain ⟨a, b⟩ := Hk c' hx
      exact ⟨a, fun hu => (b hu).1⟩
    · obtain ⟨c, hc, e1, e2⟩ := bview_get (H1 x hxk) hx
      obtain ⟨a, _⟩ := h1 x c hc
      refine ⟨e1 ▸ a, ?_⟩
      intro hu
      rw [← e2]
      exact H2 x c hxk hc (by rw [e1]; exact hu)
  · intro x y c1 c2 hx hy hu1 hu2 hb
    by_cases hxk : x = k
    · by_cases hyk : y = k
      · rw [hxk, hyk]
      · exfalso
        subst hxk
        obtain ⟨c, hc, e1, e2⟩ := bview_get (H1 y hyk) hy
        have := (h1 y c hc).2 (by rw [e1]; exact hu2)
        rw [e2, ← hb] at this
        exact ((Hk c1 hx).2 hu1).2 this
    · obtain ⟨c, hc, e1, e2⟩ := bview_get (H1 x hxk) hx
      by_cases hyk : y = k
      · exfalso
        subst hyk
        have := (h1 x c hc).2 (by rw [e1]; exact hu1)
        rw [e2, hb] at this
        exact ((Hk c2 hy).2 hu2).2 this
      · obtain ⟨d, hd, f1, f2⟩ := bview_get (H1 y hyk) hy
        exact h2 x y c d hc hd (by rw [e1]; exact hu1) (by rw [f1]; exact hu2)
          (by rw [e2, f2]; exact hb)

/-- The channel invariant survives steps that keep buffer and blocked sender
of every channel and the state of every proc. -/
theorem chan_inv_congr {s t : rust_rt}
    (H1 : ∀ x, (t.chan_heap.get x).map rust_chan.bview =
      (s.chan_heap.get x).map rust_chan.bview)
    (H2 : ∀ q, state_of t q = state_of s q) (hinv : chan_inv s) : chan_inv t := by
  have hinv' := (chan_inv_iff s).1 hinv
  refine chan_inv_of 0 hinv (fun x _ => H1 x) ?_ ?_
  · intro x c _ hc hu
    have := (hinv'.1 x c hc).2 hu
    unfold in_blocked_writing at this ⊢
    rw [H2]; exact this
  · intro c' hc'
    rw [Store.get_zero] at hc'
    cases hc'

theorem pending_get {s : rust_rt} {x : Ptr} {c : rust_chan} (h : s.chan_heap.get x = some c) :
    pending s x = c.units := by
  simp [pending, h]

theorem pending_none {s : rust_rt} {x : Ptr} (h : s.chan_heap.get x = none) :
    pending s x = [] := by
  simp [pending, h]

theorem pending_congr {s t : rust_rt} {x : Ptr}
    (h : (t.chan_heap.get x).map rust_chan.bview = (s.chan_heap.get x).map rust_chan.bview) :
    pending t x = pending s x := by
  cases ht : t.chan_heap.get x with
  | none =>
    cases hs : s.chan_heap.get x with
    | none => rw [pending_none ht, pending_none hs]
    | some c => simp [ht, hs] at h
  | some c' =>
    obtain ⟨c, hc, e1, _⟩ := bview_get h ht
    rw [pending_get ht, pending_get hc]
    simp [rust_chan.units, e1]

theorem units_empty {c : rust_chan} (h : c.buf.unread = 0) : c.units = [] := by
  simp [rust_chan.units, h]

theorem units_one {c : rust_chan} (h : c.buf.unread ≠ 0) : c.units = [c.buf.oldest] := by
  simp [rust_chan.units, h]

theorem Log.of_nil (x : Ptr) : Log.of [] x = [] := rfl

theorem Log.of_append (a b : Log) (x : Ptr) : Log.of (a ++ b) x = Log.of a x ++ Log.of b x := by
  simp [Log.of]

theorem Log.of_one_self (k : Ptr) (u : List Nat) : Log.of [(k, u)] k = [u] := by
  simp [Log.of]

theorem Log.of_one_ne {k x : Ptr} (u : List Nat) (h : x ≠ k) : Log.of [(k, u)] x = [] := by
  simp [Log.of, Ne.symm h]

/-! ## Transmission, lookup and push in a trace -/

theorem oldest_length {b : circ_buf} (hs : b.shape) : b.oldest.length = b.unit_sz := by
  have hn := shape_next hs
  obtain ⟨_, k2, _, _⟩ := hs
  simp only [circ_buf.oldest, List.length_take, List.length_drop]
  omega

/-- A completed transmission in a runtime that satisfies the channel
invariant: the channel's one unit is at the destination address, the channel
is empty afterwards and the invariant holds again. -/
theorem attempt_fifo {s t : rust_rt} {k dst : Ptr} {n : Nat} (hinv : chan_inv s)
    (h : attempt_transmission s k dst = Res.ok (t, n)) :
    (n = 0 ∧ t = s) ∨
    (n = 1 ∧ ∃ d c c', s.procs.get dst = some d ∧ d.state = .blocked_reading ∧
      s.chan_heap.get k = some c ∧ c.buf.unread ≠ 0 ∧
      t.chan_heap.get k = some c' ∧ c'.buf.unread = 0 ∧ c'.buf.unit_sz = c.buf.unit_sz ∧
      (∀ x, x ≠ k → t.chan_heap.get x = s.chan_heap.get x) ∧
      chan_inv t ∧
      mem_read t.mem (d.arg 0) c.buf.unit_sz = c.buf.oldest ∧
      state_of t dst = some .running) := by
  rcases attempt_inv_shift h with h0 | ⟨h1, d, c, b1, hd, hst, hc, hu, _, i2, _, _, _, _, _,
    htr, hsh⟩
  · exact Or.inl h0
  · right
    have hinv' := (chan_inv_iff s).1 hinv
    obtain ⟨hshape, hbw⟩ := hinv'.1 k c hc
    obtain ⟨hshape1, hu1⟩ := shift_shape hsh hshape
    obtain ⟨hch, _, _, _, _, _, hmem, _, hoth, ⟨d', hd', hds', _⟩, _⟩ := htr
    have hget : ∀ x, t.chan_heap.get x =
        if x = k then some { c with buf := b1, blocked := 0 } else s.chan_heap.get x := by
      intro x
      rw [hch, Store.get_put _ hc]
    have hk : t.chan_heap.get k = some { c with buf := b1, blocked := 0 } := by
      rw [hget, if_pos rfl]
    have hne : ∀ x, x ≠ k → t.chan_heap.get x = s.chan_heap.get x := by
      intro x hx
      rw [hget, if_neg hx]
    refine ⟨h1, d, c, _, hd, hst, hc, hu, hk, hu1, i2, hne, ?_, ?_, ?_⟩
    · refine chan_inv_of k hinv (fun x hx => by rw [hne x hx]) ?_ ?_
      · intro x c2 hx hc2 hu2
        have hb2 := (hinv'.1 x c2 hc2).2 hu2
        have hnd : c2.blocked ≠ dst := by
          intro e
          rw [e] at hb2
          unfold in_blocked_writing at hb2
          rw [state_of_get hd, hst] at hb2
          cases hb2
        have hnb : c2.blocked ≠ c.blocked := by
          intro e
          exact hx (hinv'.2 x k c2 c hc2 hc hu2 hu e)
        unfold in_blocked_writing at hb2 ⊢
        rw [state_of_core (hoth c2.blocked hnd hnb)]
        exact hb2
      · intro c' hc'
        rw [hk] at hc'
        cases hc'
        exact ⟨hshape1, fun hne0 => absurd hu1 hne0⟩
    · rw [hmem, ← oldest_length hshape]
      exact mem_read_write _ _ _
    · rw [state_of_get hd', hds']

/-- The lookup-or-create step of a send keeps the channel invariant, the
buffered units and the proc states. -/
theorem located_fifo {s s1 : rust_rt} {src port chan : Ptr} {sp sp1 : rust_proc}
    {c : rust_chan} (hsp : s.procs.get src = some sp)
    (hloc : chan_located s s1 src port chan sp c sp1) (hinv : chan_inv s) :
    chan_inv s1 ∧ (∀ x, pending s1 x = pending s x) ∧ (∀ q, state_of s1 q = state_of s q) := by
  obtain ⟨_, hc1, hcp, hsp1, hst1, _, _, hprocs, _, hch1, _, _, _, _, _, hcase⟩ := hloc
  have hstate : ∀ q, state_of s1 q = state_of s q := by
    intro q
    by_cases hq : q = src
    · rw [hq, state_of_get hsp1, state_of_get hsp, hst1]
    · unfold state_of
      rw [hprocs q hq]
  rcases hcase with ⟨_, e, _⟩ | ⟨_, hcn, _, _, _, pt, _, hu, hce⟩
  · rw [e]
    exact ⟨hinv, fun _ => rfl, fun _ => rfl⟩
  · have hnone : s.chan_heap.get chan = none := by
      rw [hcn]
      exact Store.get_of_length_lt _ (by omega)
    refine ⟨?_, ?_, hstate⟩
    · refine chan_inv_of chan hinv (fun x hx => by rw [hch1 x hx]) ?_ ?_
      · intro x c2 hx hc2 hu2
        have := (((chan_inv_iff s).1 hinv).1 x c2 hc2).2 hu2
        unfold in_blocked_writing at this ⊢
        rw [hstate]
        exact this
      · intro c' hc'
        rw [hc1] at hc'
        cases hc'
        rw [hce]
        exact ⟨⟨Nat.pos_of_ne_zero hu, by simp [fresh_chan], Or.inl ⟨rfl, rfl⟩, Or.inl rfl⟩,
          fun hne0 => absurd rfl hne0⟩
    · intro x
      by_cases hx : x = chan
      · rw [hx, pending_none hnone, pending_get hc1, hce]
        rfl
      · exact pending_congr (by rw [hch1 x hx])

/-- The first half of a send in a runtime that satisfies the channel
invariant: the channel was empty, it now holds the unit read at `sptr`, and the
invariant holds with the sender in blocked-writing. -/
theorem push_fifo {s1 s4 : rust_rt} {src chan : Ptr} {sptr : Nat} {c : rust_chan}
    {buf : circ_buf} (hinv : chan_inv s1) (hc : s1.chan_heap.get chan = some c)
    (hblk : c.blocked = src ∨ c.blocked = 0)
    (hpush : c.buf.push s1 sptr = Res.ok (s1, buf))
    (hpst : proc_state_transition
        { s1 with chan_heap := s1.chan_heap.put chan { c with blocked := src, buf := buf } }
        src .calling_c .blocked_writing = Res.ok s4) :
    chan_inv s4 ∧ c.buf.unread = 0 ∧
    s4.chan_heap.get chan = some { c with blocked := src, buf := buf } ∧
    buf.unread ≠ 0 ∧ buf.unit_sz = c.buf.unit_sz ∧
    buf.oldest = mem_read s1.mem sptr c.buf.unit_sz ∧
    (∀ x, x ≠ chan → s4.chan_heap.get x = s1.chan_heap.get x) ∧
    s4.mem = s1.mem ∧ proc_moved s1 s4 src .blocked_writing ∧
    state_of s1 src = some .calling_c := by
  obtain ⟨r, hr, hrs, hrest, hmv⟩ := pst_frame hpst
  have hr1 : s1.procs.get src = some r := hr
  have hmv1 : proc_moved s1 s4 src .blocked_writing := hmv
  have hsrc : state_of s1 src = some .calling_c := by rw [state_of_get hr1, hrs]
  have hinv' := (chan_inv_iff s1).1 hinv
  obtain ⟨hshape, hbw⟩ := hinv'.1 chan c hc
  have h0 : c.buf.unread = 0 := by
    by_contra hne0
    have := hbw hne0
    unfold in_blocked_writing at this
    rcases hblk with e | e
    · rw [e, hsrc] at this
      cases this
    · rw [e, state_of_zero] at this
      cases this
  obtain ⟨_, _, _, hsptr⟩ := push_inv hpush
  have hn := shape_next hshape
  have hfw := push_empty_ok (s := s1) hshape.1 hshape.2.1 hn h0 hsptr
  rw [hfw] at hpush
  simp only [ok_eq_ok, Prod.mk.injEq, true_and] at hpush
  have hbuf : buf = c.buf.pushed (mem_read s1.mem sptr c.buf.unit_sz) := hpush.symm
  obtain ⟨p1, p2, p3⟩ := @shape_pushed _ (mem_read s1.mem sptr c.buf.unit_sz) hshape h0
    (mem_read_length _ _ _)
  rw [← hbuf] at p1 p2 p3
  have hch4 : s4.chan_heap = s1.chan_heap.put chan { c with blocked := src, buf := buf } :=
    hrest.2.2.2.2.1
  have hget : ∀ x, s4.chan_heap.get x =
      if x = chan then some { c with blocked := src, buf := buf } else s1.chan_heap.get x := by
    intro x
    rw [hch4, Store.get_put _ hc]
  have hk : s4.chan_heap.get chan = some { c with blocked := src, buf := buf } := by
    rw [hget, if_pos rfl]
  have hne : ∀ x, x ≠ chan → s4.chan_heap.get x = s1.chan_heap.get x := by
    intro x hx
    rw [hget, if_neg hx]
  have hu : buf.unread ≠ 0 := by
    rw [p2]
    exact Nat.pos_iff_ne_zero.1 hshape.1
  have hbu : buf.unit_sz = c.buf.unit_sz := by rw [hbuf]; rfl
  refine ⟨?_, h0, hk, hu, hbu, p3, hne, hrest.2.2.2.2.2.2, hmv1, hsrc⟩
  refine chan_inv_of chan hinv (fun x hx => by rw [hne x hx]) ?_ ?_
  · intro x c2 hx hc2 hu2
    have hb2 := (hinv'.1 x c2 hc2).2 hu2
    have hns : c2.blocked ≠ src := by
      intro e
      rw [e] at hb2
      unfold in_blocked_writing at hb2
      rw [hsrc] at hb2
      cases hb2
    unfold in_blocked_writing at hb2 ⊢
    rw [state_of_moved_ne hmv1 hns]
    exact hb2
  · intro c' hc'
    rw [hk] at hc'
    cases hc'
    refine ⟨p1, fun _ => ⟨?_, ?_⟩⟩
    · show state_of s4 src = some .blocked_writing
      exact state_of_moved_self hmv1 hr1
    · show ¬ (state_of s1 src = some .blocked_writing)
      rw [hsrc]
      intro e
      cases e

theorem send_chan_eq {s s1 t : rust_rt} {src port chan : Ptr} {sp sp1 : rust_proc}
    {c ct : rust_chan} (hloc : chan_located s s1 src port chan sp c sp1)
    (f : same_ports s1 t) (g : same_tables s1 t) (hct : t.chan_heap.get chan = some ct) :
    send_chan t src port = some (chan, ct) := by
  obtain ⟨_, _, _, hsp1, _, _, hfind1, _⟩ := hloc
  obtain ⟨sp', hsp', hchans⟩ := same_tables_get_fwd g hsp1
  unfold send_chan
  rw [hsp']
  simp only
  rw [hchans, hash_find_congr f, hfind1]
  simp only
  rw [hct]

theorem woken_obs_nil {s t : rust_rt} {src port : Ptr} {pt : rust_port}
    (hpt : s.port_heap.get port = some pt)
    (h : ∀ o o', s.procs.get pt.proc = some o → t.procs.get pt.proc = some o' →
      ¬ (o.state = .blocked_reading ∧ o'.state = .running)) :
    woken_obs s t src port = [] := by
  unfold woken_obs
  rw [hpt]
  simp only
  cases h1 : s.procs.get pt.proc with
  | none => rfl
  | some o =>
    cases h2 : t.procs.get pt.proc with
    | none => rfl
    | some o' =>
      simp only
      rw [if_neg (h o o' h1 h2)]

theorem woken_obs_one {s t : rust_rt} {src port chan : Ptr} {pt : rust_port}
    {o o' : rust_proc} {ct : rust_chan}
    (hpt : s.port_heap.get port = some pt) (h1 : s.procs.get pt.proc = some o)
    (h2 : t.procs.get pt.proc = some o') (h3 : o.state = .blocked_reading)
    (h4 : o'.state = .running) (h5 : send_chan t src port = some (chan, ct)) :
    woken_obs s t src port = [(chan, mem_read t.mem (o.arg 0) ct.buf.unit_sz)] := by
  unfold woken_obs
  rw [hpt]
  simp only
  rw [h1, h2]
  simp only
  rw [if_pos ⟨h3, h4⟩, h5]

theorem sent_obs_one {s t : rust_rt} {src port chan : Ptr} {sptr : Nat} {pt : rust_port}
    {ct : rust_chan} (hpt : s.port_heap.get port = some pt) (h1 : pt.proc ≠ 0)
    (h5 : send_chan t src port = some (chan, ct)) :
    sent_obs s t src port sptr = [(chan, mem_read s.mem sptr ct.buf.unit_sz)] := by
  unfold sent_obs
  rw [hpt]
  simp only
  rw [if_neg h1, h5]

theorem state_of_some {s : rust_rt} {q : Ptr} {st : proc_state_t}
    (h : state_of s q = some st) : ∃ r, s.procs.get q = some r ∧ r.state = st := by
  unfold state_of at h
  cases hq : s.procs.get q with
  | none => simp [hq] at h
  | some r => exact ⟨r, rfl, by simpa [hq] using h⟩

/-! ## A send in a trace -/

/-- A send keeps the channel invariant, and on every channel the units
buffered before plus the unit sent are the unit delivered plus the units
buffered after. -/
theorem send_fifo {s t : rust_rt} {src port : Ptr} {sptr : Nat} (hinv : chan_inv s)
    (h : upcall_send s src port sptr = Res.ok t) :
    chan_inv t ∧ ∀ x, pending s x ++ Log.of (sent_obs s t src port sptr) x =
      Log.of (woken_obs s t src port) x ++ pending t x := by
  rcases send_inv h with ⟨h0, e⟩ |
    ⟨hp0, hsptr, sp, s1, chan, c, sp1, pt, hsp, hfn, hloc, hpt, hblk, hrest⟩
  · subst e
    subst h0
    refine ⟨hinv, ?_⟩
    intro x
    simp [sent_obs, woken_obs, Log.of]
  · obtain ⟨hinv1, hpend1, hstate1⟩ := located_fifo hsp hloc hinv
    have hloc' := hloc
    obtain ⟨_, hc1, _, hsp1, hst1, hargs1, _, hprocs, _, hch1, hph1, hmem1, _, _, _, _⟩ := hloc'
    rcases hrest with ⟨hpz, e⟩ | ⟨hpnz, buf, s4, s5, n, c5, hpush, hs4, hs5, hc5, hfin⟩
    · subst e
      refine ⟨hinv1, ?_⟩
      intro x
      have hw : woken_obs s t src port = [] := by
        apply woken_obs_nil hpt
        intro o o' ho
        rw [hpz, Store.get_zero] at ho
        cases ho
      have hsn : sent_obs s t src port sptr = [] := by
        simp [sent_obs, hpt, hpz]
      rw [hw, hsn, hpend1]
      simp [Log.of]
    · -- the channel, the tables and the ports after the send
      have hframes : same_ports s1 t ∧ same_tables s1 t := by
        rcases send_located h with ⟨h0, _⟩ | ⟨_, s1', chan', _, _, _, _, _, hfn', f, g, _⟩
        · exact absurd h0 hp0
        · rw [hfn] at hfn'
          simp only [ok_eq_ok, Prod.mk.injEq] at hfn'
          obtain ⟨e1, e2⟩ := hfn'
          subst e1
          exact ⟨f, g⟩
      obtain ⟨f, g⟩ := hframes
      obtain ⟨hinv4, hc0, hc4, hbu, hbsz, hbold, hne4, hmem4, hmv4, hsrc1⟩ :=
        push_fifo hinv1 hc1 hblk hpush hs4
      -- the last step: the channel is queued or not
      have hlast : (∀ x, (t.chan_heap.get x).map rust_chan.bview =
          (s5.chan_heap.get x).map rust_chan.bview) ∧ t.procs = s5.procs ∧ t.mem = s5.mem := by
        rcases hfin with ⟨_, e⟩ | ⟨_, _, pt5, w, heap1, _, hpw, e⟩
        · rw [e]
          exact ⟨fun _ => rfl, rfl, rfl⟩
        · have hc5q : (s5.chan_heap.put chan { c5 with queued := 1 }).get chan =
              some { c5 with queued := 1 } := Store.get_put_self _ hc5
          obtain ⟨i, hh⟩ := push_heap_chan hc5q hpw
          rw [e]
          refine ⟨?_, rfl, rfl⟩
          intro x
          show (heap1.get x).map rust_chan.bview = _
          rw [hh, Store.get_put _ hc5q, Store.get_put _ hc5]
          by_cases hx : x = chan
          · rw [if_pos hx, hx, hc5]
            rfl
          · rw [if_neg hx, if_neg hx]
      obtain ⟨hbv, hprocs5, hmem5⟩ := hlast
      have hstate5 : ∀ q, state_of t q = state_of s5 q := by
        intro q
        unfold state_of
        rw [hprocs5]
      obtain ⟨ct, hct, ect1, ect2⟩ : ∃ ct, t.chan_heap.get chan = some ct ∧
          ct.buf = c5.buf ∧ ct.blocked = c5.blocked := by
        have := hbv chan
        rw [hc5] at this
        cases htc : t.chan_heap.get chan with
        | none => simp [htc] at this
        | some ct =>
          refine ⟨ct, rfl, ?_⟩
          simp only [htc, Option.map_some', Option.some.injEq, rust_chan.bview,
            Prod.mk.injEq] at this
          exact this
      have hsc := send_chan_eq hloc f g hct
      have hsent := @sent_obs_one _ _ _ _ _ sptr _ _ hpt hpnz hsc
      have hps1 : pending s chan = [] := by
        rw [← hpend1, pending_get hc1]
        exact units_empty hc0
      have hsrc4 : state_of s4 src = some .blocked_writing :=
        state_of_moved_self hmv4 hsp1
      rcases attempt_fifo hinv4 hs5 with ⟨_, e⟩ |
        ⟨_, d, c4, c', hd, hds, hc4', hu4, hk5, hu5, hsz5, hne5, hinv5, hrd, hrun5⟩
      · -- the owner of the port is not reading: the unit stays in the channel
        rw [e] at hc5 hbv hstate5
        have hinvt : chan_inv t := chan_inv_congr hbv hstate5 hinv4
        refine ⟨hinvt, ?_⟩
        rw [hc4] at hc5
        cases hc5
        have ect : ct.buf = buf := ect1
        have hw : woken_obs s t src port = [] := by
          apply woken_obs_nil hpt
          intro o o' ho ho' hcon
          have h1 : state_of s pt.proc = some .blocked_reading := by
            rw [state_of_get ho, hcon.1]
          have h2 : state_of t pt.proc = some .running := by
            rw [state_of_get ho', hcon.2]
          rw [hstate5] at h2
          by_cases hps : pt.proc = src
          · rw [hps, ← hstate1, hsrc1] at h1
            cases h1
          · rw [state_of_moved_ne hmv4 hps, hstate1, h1] at h2
            cases h2
        intro x
        rw [hw, hsent]
        by_cases hx : x = chan
        · rw [hx, hps1, Log.of_one_self, Log.of_nil, pending_get hct,
            units_one (by rw [ect]; exact hbu), ect, hbold, hmem1, hbsz]
        · rw [Log.of_one_ne _ hx, pending_congr (hbv x), Log.of_nil, List.append_nil,
            List.nil_append, ← hpend1]
          exact (pending_congr (by rw [hne4 x hx])).symm
      · -- the owner of the port was reading: the unit is delivered
        have hinvt : chan_inv t := chan_inv_congr hbv hstate5 hinv5
        refine ⟨hinvt, ?_⟩
        rw [hc4] at hc4'
        cases hc4'
        rw [hk5] at hc5
        cases hc5
        have hps : pt.proc ≠ src := by
          intro e
          have := state_of_get hd
          rw [e, hsrc4, hds] at this
          cases this
        have hd1 : (s4.procs.get pt.proc).map rust_proc.core =
            (s1.procs.get pt.proc).map rust_proc.core := hmv4.2.1 pt.proc hps
        rw [hd, hprocs pt.proc hps] at hd1
        obtain ⟨o, ho, hcore⟩ : ∃ o, s.procs.get pt.proc = some o ∧ d.core = o.core := by
          cases hso : s.procs.get pt.proc with
          | none => simp [hso] at hd1
          | some o => exact ⟨o, rfl, by simpa [hso] using hd1⟩
        have hos : o.state = .blocked_reading := by
          rw [← core_state hcore]
          exact hds
        have harg : o.arg 0 = d.arg 0 := by
          unfold rust_proc.arg
          rw [core_args hcore]
        have hrun : state_of t pt.proc = some .running := by
          rw [hstate5]
          exact hrun5
        obtain ⟨o', ho', hos'⟩ := state_of_some hrun
        have hw := @woken_obs_one _ _ src _ _ _ _ _ _ hpt ho ho' hos hos' hsc
        have ect : ct.buf = c5.buf := ect1
        intro x
        rw [hw, hsent]
        by_cases hx : x = chan
        · rw [hx, hps1, Log.of_one_self, Log.of_one_self, pending_get hct,
            units_empty (by rw [ect]; exact hu5), ect, hsz5, harg, hmem5]
          have hrd' : mem_read s5.mem (d.arg 0) buf.unit_sz = buf.oldest := hrd
          show [] ++ [mem_read s.mem sptr buf.unit_sz] =
            [mem_read s5.mem (d.arg 0) buf.unit_sz] ++ []
          rw [hrd', hbold, hmem1, hbsz]
          rfl
        · rw [Log.of_one_ne _ hx, Log.of_one_ne _ hx, pending_congr (hbv x), List.append_nil,
            List.nil_append, ← hpend1]
          have e5 : pending s5 x = pending s4 x := pending_congr (by rw [hne5 x hx])
          have e4 : pending s4 x = pending s1 x := pending_congr (by rw [hne4 x hx])
          rw [e5, e4]

/-! ## A receive in a trace -/

theorem bview_put {H : Store rust_chan} {p : Ptr} {a b : rust_chan} (ha : H.get p = some a)
    (hb : b.bview = a.bview) (x : Ptr) :
    ((H.put p b).get x).map rust_chan.bview = (H.get x).map rust_chan.bview := by
  rw [Store.get_put _ ha]
  by_cases hx : x = p
  · rw [if_pos hx, hx, ha]
    simp [hb]
  · rw [if_neg hx]

/-- A proc that is not in blocked-writing changes state, the channels stay as
they are: the channel invariant is kept. -/
theorem moved_chan_inv {s t : rust_rt} {p : Ptr} {dst : proc_state_t}
    (hmv : proc_moved s t p dst) (hch : t.chan_heap = s.chan_heap)
    (hp : ¬ in_blocked_writing s p) (hinv : chan_inv s) : chan_inv t := by
  have hinv' := (chan_inv_iff s).1 hinv
  refine chan_inv_of 0 hinv (fun x _ => by rw [hch]) ?_ ?_
  · intro x c _ hc hu
    have hb := (hinv'.1 x c hc).2 hu
    have hne : c.blocked ≠ p := by
      intro e
      rw [e] at hb
      exact hp hb
    unfold in_blocked_writing at hb ⊢
    rw [state_of_moved_ne hmv hne]
    exact hb
  · intro c' hc'
    rw [Store.get_zero] at hc'
    cases hc'

theorem recv_obs_nil {s t : rust_rt} {dst port : Ptr} {r : Nat}
    (h : ∀ pt d', s.port_heap.get port = some pt → t.procs.get dst = some d' →
      ¬ (0 < pt.writers.fill ∧ d'.state = .running)) :
    recv_obs s t dst port r = [] := by
  unfold recv_obs
  cases h1 : s.port_heap.get port with
  | none => rfl
  | some pt =>
    cases h2 : s.procs.get dst with
    | none => rfl
    | some d =>
      cases h3 : t.procs.get dst with
      | none => rfl
      | some d' =>
        simp only
        rw [if_neg (h pt d' h1 h3)]

theorem recv_obs_one {s t : rust_rt} {dst port schan : Ptr} {r : Nat} {pt : rust_port}
    {d d' : rust_proc} {c : rust_chan}
    (h1 : s.port_heap.get port = some pt) (h2 : s.procs.get dst = some d)
    (h3 : t.procs.get dst = some d') (h4 : 0 < pt.writers.fill) (h5 : d'.state = .running)
    (h6 : pt.writers.data[r % pt.writers.fill]? = some schan)
    (h7 : s.chan_heap.get schan = some c) :
    recv_obs s t dst port r = [(schan, mem_read t.mem (d.arg 0) c.buf.unit_sz)] := by
  unfold recv_obs
  rw [h1, h2, h3]
  simp only
  rw [if_pos ⟨h4, h5⟩, h6]
  simp only
  rw [h7]

/-- A receive keeps the channel invariant, and on every channel the units
buffered before are the unit delivered plus the units buffered after. -/
theorem recv_fifo {s t : rust_rt} {dst port : Ptr} {r : Nat} (hinv : chan_inv s)
    (h : upcall_recv s dst port r = Res.ok t) :
    chan_inv t ∧ ∀ x, pending s x = Log.of (recv_obs s t dst port r) x ++ pending t x := by
  obtain ⟨d, pt, s1, hd, hds, hpt, hown, hs1, hrest⟩ := recv_inv h
  obtain ⟨_, _, _, hrest1, hmv1⟩ := pst_frame hs1
  have hch1 : s1.chan_heap = s.chan_heap := hrest1.2.2.2.2.1
  have hmem1 : s1.mem = s.mem := hrest1.2.2.2.2.2.2
  have hnbw : ¬ in_blocked_writing s dst := by
    unfold in_blocked_writing
    rw [state_of_get hd, hds]
    intro e
    cases e
  have hinv1 : chan_inv s1 := moved_chan_inv hmv1 hch1 hnbw hinv
  have hst1 : state_of s1 dst = some .blocked_reading := state_of_moved_self hmv1 hd
  have hpend1 : ∀ x, pending s1 x = pending s x := fun x => pending_congr (by rw [hch1])
  -- nothing is delivered when the receiver stays in blocked-reading
  have hquiet : t = s1 →
      chan_inv t ∧ ∀ x, pending s x = Log.of (recv_obs s t dst port r) x ++ pending t x := by
    intro e
    rw [e]
    refine ⟨hinv1, ?_⟩
    intro x
    rw [recv_obs_nil, Log.of_nil, List.nil_append, hpend1]
    intro pt' d' _ hd' hcon
    have := state_of_get hd'
    rw [hst1, hcon.2] at this
    cases this
  rcases hrest with ⟨_, e⟩ | ⟨hfill, schan, sc, s2, res, hpk, hsc, hidx, hatt, hfin⟩
  · exact hquiet e
  · rcases attempt_fifo hinv1 hatt with ⟨hn, e2⟩ |
      ⟨hn, d1, c, c', hd1, hds1, hc, hu, hk2, hu2, hsz2, hne2, hinv2, hrd, hrun2⟩
    · rcases hfin with ⟨_, e⟩ | ⟨hres, _⟩
      · exact hquiet (e.trans e2)
      · exact absurd hn hres
    · rcases hfin with ⟨hres, _⟩ | ⟨_, pt2, w, heap, w1, sc2, hpt2, hsw, htr, hsc2, e⟩
      · rw [hn] at hres
        cases hres
      · have hbv : ∀ x, (t.chan_heap.get x).map rust_chan.bview =
            (s2.chan_heap.get x).map rust_chan.bview := by
          intro x
          rw [e]
          show ((heap.put schan { sc2 with queued := 0 }).get x).map rust_chan.bview = _
          rw [bview_put (b := { sc2 with queued := 0 }) hsc2 rfl]
          rcases ptr_vec.swapdel_heap hsw with e1 | ⟨q, sb, i, hq, e1⟩
          · rw [e1]
          · rw [e1]
            exact bview_put (b := HasIdx.set_idx sb i) hq rfl x
        have hstate : ∀ q, state_of t q = state_of s2 q := by
          intro q
          rw [e]
          rfl
        have hmem : t.mem = s2.mem := by rw [e]
        have hinvt : chan_inv t := chan_inv_congr hbv hstate hinv2
        refine ⟨hinvt, ?_⟩
        have hrun : state_of t dst = some .running := by
          rw [hstate]
          exact hrun2
        obtain ⟨d', hd', hds'⟩ := state_of_some hrun
        have hcs : s.chan_heap.get schan = some c := by
          rw [← hch1]
          exact hc
        have hobs := recv_obs_one (r := r) hpt hd hd' hfill hds' hpk hcs
        obtain ⟨d1', hd1', _, _, hargs⟩ := proc_moved_self hmv1 hd
        rw [hd1] at hd1'
        cases hd1'
        have harg : d.arg 0 = d1.arg 0 := by
          unfold rust_proc.arg
          rw [hargs]
        intro x
        rw [hobs]
        by_cases hx : x = schan
        · obtain ⟨ct, hct, ect, _⟩ : ∃ ct, t.chan_heap.get schan = some ct ∧
              ct.buf = c'.buf ∧ ct.blocked = c'.blocked := by
            have := hbv schan
            rw [hk2] at this
            cases htc : t.chan_heap.get schan with
            | none => simp [htc] at this
            | some ct =>
              refine ⟨ct, rfl, ?_⟩
              simp only [htc, Option.map_some', Option.some.injEq, rust_chan.bview,
                Prod.mk.injEq] at this
              exact this
          rw [hx, Log.of_one_self, pending_get hcs, units_one hu, pending_get hct,
            units_empty (by rw [ect]; exact hu2), hmem, harg, hrd]
          rfl
        · rw [Log.of_one_ne _ hx, List.nil_append, pending_congr (hbv x), ← hpend1]
          exact (pending_congr (by rw [hne2 x hx])).symm

/-! ## Traces -/

/-- A proc that is not in blocked-writing changes, the channels stay as they
are: the channel invariant and the buffered units are kept. -/
theorem quiet_fifo {s t : rust_rt} {p : Ptr} (hch : t.chan_heap = s.chan_heap)
    (hst : ∀ q, q ≠ p → state_of t q = state_of s q) (hp : ¬ in_blocked_writing s p)
    (hinv : chan_inv s) : chan_inv t ∧ ∀ x, pending t x = pending s x := by
  have hinv' := (chan_inv_iff s).1 hinv
  refine ⟨chan_inv_of 0 hinv (fun x _ => by rw [hch]) ?_ ?_, fun x => pending_congr (by rw [hch])⟩
  · intro x c _ hc hu
    have hb := (hinv'.1 x c hc).2 hu
    have hne : c.blocked ≠ p := by
      intro e
      rw [e] at hb
      exact hp hb
    unfold in_blocked_writing at hb ⊢
    rw [hst _ hne]
    exact hb
  · intro c' hc'
    rw [Store.get_zero] at hc'
    cases hc'

theorem state_of_put_ne {s : rust_rt} {p q : Ptr} (r : rust_proc) (procs : Store rust_proc)
    (hp : procs = s.procs.put p r) (hq : q ≠ p) {t : rust_rt} (ht : t.procs = procs) :
    state_of t q = state_of s q := by
  unfold state_of
  rw [ht, hp, Store.get_put_ne _ hq]

theorem guest_fifo {s t : rust_rt} {p : Ptr} {code : Nat} {args : List Nat} {mem : Nat → Nat}
    (hinv : chan_inv s) (h : enter_upcall s p code args = Res.ok t) :
    chan_inv ({ t with mem := mem } : rust_rt) ∧
      ∀ x, pending ({ t with mem := mem } : rust_rt) x = pending s x := by
  unfold enter_upcall at h
  rw [deref_bind_eq_ok] at h
  obtain ⟨r, hr, h⟩ := h
  split at h
  · rename_i hrun
    simp only [Res.pure_eq, ok_eq_ok] at h
    subst h
    refine quiet_fifo (p := p) rfl ?_ ?_ hinv
    · intro q hq
      exact state_of_put_ne _ _ rfl hq rfl
    · unfold in_blocked_writing
      rw [state_of_get hr, hrun]
      intro e
      cases e
  · cases h

theorem resume_fifo {s t : rust_rt} {p : Ptr} (hinv : chan_inv s)
    (h : restore_running s p = Res.ok t) :
    chan_inv t ∧ ∀ x, pending t x = pending s x := by
  unfold restore_running at h
  rw [deref_bind_eq_ok] at h
  obtain ⟨r, hr, h⟩ := h
  split at h
  · rename_i hcall
    simp only [Res.pure_eq, ok_eq_ok] at h
    subst h
    refine quiet_fifo (p := p) rfl ?_ ?_ hinv
    · intro q hq
      exact state_of_put_ne _ _ rfl hq rfl
    · unfold in_blocked_writing
      rw [state_of_get hr, hcall]
      intro e
      cases e
  · simp only [Res.pure_eq, ok_eq_ok] at h
    subst h
    exact ⟨hinv, fun _ => rfl⟩

/-- One step of a trace keeps the channel invariant; on every channel the
units buffered before plus the units sent are the units delivered plus the
units buffered after. -/
theorem step_fifo {s t : rust_rt} {e : Event} {a b : Log} (hinv : chan_inv s)
    (h : step s e = Res.ok (t, a, b)) :
    chan_inv t ∧ ∀ x, pending s x ++ Log.of a x = Log.of b x ++ pending t x := by
  cases e with
  | send src port sptr =>
    simp only [step] at h
    rw [Res.bind_eq_ok] at h
    obtain ⟨t', ht', h⟩ := h
    simp only [Res.pure_eq, ok_eq_ok, Prod.mk.injEq] at h
    obtain ⟨e1, e2, e3⟩ := h
    subst e1 e2 e3
    exact send_fifo hinv ht'
  | recv dst port r =>
    simp only [step] at h
    rw [Res.bind_eq_ok] at h
    obtain ⟨t', ht', h⟩ := h
    simp only [Res.pure_eq, ok_eq_ok, Prod.mk.injEq] at h
    obtain ⟨e1, e2, e3⟩ := h
    subst e1 e2 e3
    obtain ⟨h1, h2⟩ := recv_fifo hinv ht'
    refine ⟨h1, fun x => ?_⟩
    rw [Log.of_nil, List.append_nil]
    exact h2 x
  | guest p code args mem =>
    simp only [step] at h
    rw [Res.bind_eq_ok] at h
    obtain ⟨t', ht', h⟩ := h
    simp only [Res.pure_eq, ok_eq_ok, Prod.mk.injEq] at h
    obtain ⟨e1, e2, e3⟩ := h
    subst e1 e2 e3
    obtain ⟨h1, h2⟩ := @guest_fifo _ _ _ _ _ mem hinv ht'
    refine ⟨h1, fun x => ?_⟩
    rw [Log.of_nil, List.append_nil, List.nil_append, h2]
  | resume p =>
    simp only [step] at h
    rw [Res.bind_eq_ok] at h
    obtain ⟨t', ht', h⟩ := h
    simp only [Res.pure_eq, ok_eq_ok, Prod.mk.injEq] at h
    obtain ⟨e1, e2, e3⟩ := h
    subst e1 e2 e3
    obtain ⟨h1, h2⟩ := resume_fifo hinv ht'
    refine ⟨h1, fun x => ?_⟩
    rw [Log.of_nil, List.append_nil, List.nil_append, h2]

theorem run_fifo (evs : List Event) : ∀ (s t : rust_rt) (a b : Log), chan_inv s →
    run s evs = Res.ok (t, a, b) →
    chan_inv t ∧ ∀ x, pending s x ++ Log.of a x = Log.of b x ++ pending t x := by
  induction evs with
  | nil =>
    intro s t a b hinv h
    simp only [run, Res.pure_eq, ok_eq_ok, Prod.mk.injEq] at h
    obtain ⟨e1, e2, e3⟩ := h
    subst e1 e2 e3
    exact ⟨hinv, fun x => by rw [Log.of_nil, List.append_nil, List.nil_append]⟩
  | cons e es ih =>
    intro s t a b hinv h
    simp only [run] at h
    rw [Res.bind_eq_ok] at h
    obtain ⟨⟨t1, a1, b1⟩, hstep, h⟩ := h
    simp only at h
    rw [Res.bind_eq_ok] at h
    obtain ⟨⟨u, xs, ys⟩, hrun, h⟩ := h
    simp only [Res.pure_eq, ok_eq_ok, Prod.mk.injEq] at h
    obtain ⟨e1, e2, e3⟩ := h
    subst e1 e2 e3
    obtain ⟨hinv1, h1⟩ := step_fifo hinv hstep
    obtain ⟨hinv2, h2⟩ := ih t1 u xs ys hinv1 hrun
    refine ⟨hinv2, fun x => ?_⟩
    rw [Log.of_append, Log.of_append, ← List.append_assoc, h1 x, List.append_assoc, h2 x,
      List.append_assoc]

/-! ## C1: units of a channel are received in the order they were sent -/

/-- C1: over every trace of send and receive upcalls (interleaved in any way,
with the guest steps that put a proc into calling-host between them) that
starts in a runtime satisfying the channel invariant `chan_inv` and returns,
the invariant holds at the end and, for every channel, the units buffered at
the start followed by the units sent on it are the units the port's owner
received from it followed by the units still buffered at the end.  For a
channel that starts empty, the units received are therefore a prefix of the
units sent, in the order they were sent, and what has not been received yet is
the at most one unit still in the channel's buffer: no unit is lost,
duplicated or reordered.  A sent unit is the unit at the source address on the
sender's channel for the port (`sent_obs`), a received unit is what stands at
the receiver's destination address when a send or a receive has put the
receiver back to running (`woken_obs`, `recv_obs`). -/
theorem C1_channel_fifo (s : rust_rt) (evs : List Event) (t : rust_rt) (sent got : Log)
    (hinv : chan_inv s) (hrun : run s evs = Res.ok (t, sent, got)) :
    chan_inv t ∧
    (∀ chan, pending s chan ++ Log.of sent chan = Log.of got chan ++ pending t chan) ∧
    (∀ chan, pending s chan = [] →
      Log.of sent chan = Log.of got chan ++ pending t chan ∧
      Log.of got chan <+: Log.of sent chan ∧ (pending t chan).length ≤ 1) := by
  obtain ⟨h1, h2⟩ := run_fifo evs s t sent got hinv hrun
  refine ⟨h1, h2, ?_⟩
  intro chan h0
  have h3 := h2 chan
  rw [h0, List.nil_append] at h3
  refine ⟨h3, ⟨pending t chan, h3.symm⟩, ?_⟩
  unfold pending
  cases t.chan_heap.get chan with
  | none => simp
  | some c =>
    simp only [rust_chan.units]
    split <;> simp

/-- The trace `demo_trace` from `demo_busy` returns: proc 2 has sent the words
at addresses 200, 201 and 202 to port 1, in that order, and proc 1 has
received these three units in that order, the last one during the send; the
channel is empty at the end. -/
theorem C1_channel_fifo_witness :
    chan_inv demo_busy ∧ run demo_busy demo_trace = Res.ok demo_final ∧
    demo_final.2.1 =
      [(1, [0x44, 0x33, 0x22, 0x11]), (1, [0x33, 0x22, 0x11, 0]), (1, [0x22, 0x11, 0, 0])] ∧
    demo_final.2.2 = demo_final.2.1 ∧ pending demo_final.1 1 = [] ∧
    (chan_inv demo_final.1 ∧
     (∀ chan, pending demo_busy chan ++ Log.of demo_final.2.1 chan =
        Log.of demo_final.2.2 chan ++ pending demo_final.1 chan) ∧
     (∀ chan, pending demo_busy chan = [] →
        Log.of demo_final.2.1 chan = Log.of demo_final.2.2 chan ++ pending demo_final.1 chan ∧
        Log.of demo_final.2.2 chan <+: Log.of demo_final.2.1 chan ∧
        (pending demo_final.1 chan).length ≤ 1)) :=
  ⟨by decide, Res.eq_ok_of_isOk (demo_busy, [], []) (by rfl), by decide, by decide, by decide,
   C1_channel_fifo demo_busy demo_trace demo_final.1 demo_final.2.1 demo_final.2.2
     (by decide) (Res.eq_ok_of_isOk (demo_busy, [], []) (by rfl))⟩

/-! ## `circ_buf`: capacity on push -/

/-- A push that returns leaves the capacity as it was or, on a full buffer of
capacity at most `MAX_CIRC_BUF_SIZE`, doubles it. -/
theorem push_alloc {s s1 : rust_rt} {b b1 : circ_buf} {src : Nat}
    (h : b.push s src = Res.ok (s1, b1)) :
    b1.alloc = b.alloc ∨
      (b.unread = b.alloc ∧ b.alloc ≤ MAX_CIRC_BUF_SIZE ∧ b1.alloc = 2 * b.alloc) := by
  unfold circ_buf.push at h
  simp only [I_bind_eq_ok] at h
  obtain ⟨_, _, h⟩ := h
  rw [Res.bind_eq_ok] at h
  obtain ⟨⟨s2, b2⟩, hg, h⟩ := h
  have hg' : b2.alloc = b.alloc ∨
      (b.unread = b.alloc ∧ b.alloc ≤ MAX_CIRC_BUF_SIZE ∧ b2.alloc = 2 * b.alloc) := by
    split at hg
    · rename_i hfull
      simp only [I_bind_eq_ok] at hg
      obtain ⟨hmax, hg⟩ := hg
      rw [Res.bind_eq_ok] at hg
      obtain ⟨d', _, hg⟩ := hg
      rw [show ∀ t : rust_rt, t.malloc.free = Res.ok t from malloc_free] at hg
      simp only [Res.ok_bind, Res.pure_eq, ok_eq_ok, Prod.mk.injEq] at hg
      obtain ⟨e1, e2⟩ := hg
      subst e1 e2
      right
      refine ⟨hfull, hmax, ?_⟩
      show b.alloc <<< 1 = 2 * b.alloc
      rw [Nat.shiftLeft_eq]
      omega
    · simp only [Res.pure_eq, ok_eq_ok, Prod.mk.injEq] at hg
      obtain ⟨e1, e2⟩ := hg
      subst e1 e2
      exact Or.inl rfl
  simp only [I_bind_eq_ok] at h
  obtain ⟨_, _, h⟩ := h
  rw [Res.bind_eq_ok] at h
  obtain ⟨d, _, h⟩ := h
  simp only [Res.pure_eq, ok_eq_ok, Prod.mk.injEq] at h
  obtain ⟨e4, e5⟩ := h
  subst e4 e5
  exact hg'

/-- A push that has to grow a buffer whose capacity is above the maximum
stops at the assertion of line 560. -/
theorem push_fatal_above_max {s : rust_rt} {b : circ_buf} {src : Nat} (hs : src ≠ 0)
    (hf : b.unread = b.alloc) (hm : MAX_CIRC_BUF_SIZE < b.alloc) :
    b.push s src = Res.err (Err.fatal 560) := by
  have hn : ¬ b.alloc ≤ MAX_CIRC_BUF_SIZE := not_le.mpr hm
  simp [circ_buf.push, hs, hf, hn]

/-- A push into a buffer that is read from offset 0 and has room for the unit
stores the unit behind the unread bytes. -/
theorem push_room {s : rust_rt} {b : circ_buf} {src : Nat} (hu : 0 < b.unit_sz)
    (hl : b.data.length = b.alloc) (hn : b.next = 0) (hr : b.unread + b.unit_sz ≤ b.alloc)
    (hs : src ≠ 0) :
    b.push s src = Res.ok (s,
      { b with data := b.data.take b.unread ++ mem_read s.mem src b.unit_sz ++
                 b.data.drop (b.unread + b.unit_sz),
               unread := b.unread + b.unit_sz }) := by
  have hne : ¬ (b.unread = b.alloc) := by omega
  have hlt : b.unread < b.alloc := by omega
  have hle : b.unread ≤ b.alloc := by omega
  have hmr : (mem_read s.mem src b.unit_sz).length = b.unit_sz := by simp [mem_read]
  have hcp := memcpy_blk_ok (d := b.data) (e := mem_read s.mem src b.unit_sz) (a := b.unread)
    (b := 0) (n := b.unit_sz) (by omega) (by omega)
  have ht : (mem_read s.mem src b.unit_sz).take b.unit_sz = mem_read s.mem src b.unit_sz :=
    List.take_of_length_le (by omega)
  rw [List.drop_zero, ht] at hcp
  simp [circ_buf.push, hs, hne, hlt, hle, hr, hn, Nat.mod_eq_of_lt hlt, hcp]

/-- Pushes into a buffer that is read from offset 0 and has room for all the
units keep the capacity. -/
theorem push_all_room (s : rust_rt) (l : List Nat) : ∀ b : circ_buf, 0 < b.unit_sz →
    b.data.length = b.alloc → b.next = 0 → b.unread + l.length * b.unit_sz ≤ b.alloc →
    (∀ a, a ∈ l → a ≠ 0) →
    ∃ b1, circ_buf.push_all s b l = Res.ok (s, b1) ∧ b1.alloc = b.alloc ∧
      b1.unit_sz = b.unit_sz ∧ b1.next = 0 ∧ b1.unread = b.unread + l.length * b.unit_sz ∧
      b1.data.length = b.alloc := by
  induction l with
  | nil =>
    intro b _ hl hn _ _
    exact ⟨b, rfl, rfl, rfl, hn, by simp, hl⟩
  | cons a l ih =>
    intro b hu hl hn hr hnz
    simp only [List.length_cons, Nat.succ_mul] at hr
    have hr1 : b.unread + b.unit_sz ≤ b.alloc := by omega
    have hp := push_room (s := s) hu hl hn hr1 (hnz a (List.mem_cons_self a l))
    have hcl : (b.data.take b.unread ++ mem_read s.mem a b.unit_sz ++
        b.data.drop (b.unread + b.unit_sz)).length = b.data.length := by
      simp only [List.length_append, List.length_take, List.length_drop, mem_read_length]
      omega
    obtain ⟨b1, h1, h2, h3, h4, h5, h6⟩ := ih
      { b with data := b.data.take b.unread ++ mem_read s.mem a b.unit_sz ++
                 b.data.drop (b.unread + b.unit_sz),
               unread := b.unread + b.unit_sz }
      hu (hcl.trans hl) hn (by show b.unread + b.unit_sz + l.length * b.unit_sz ≤ b.alloc; omega)
      (fun x hx => hnz x (List.mem_cons_of_mem a hx))
    refine ⟨b1, ?_, h2, h3, h4, ?_, h6⟩
    · simp only [circ_buf.push_all, hp, Res.ok_bind]
      exact h1
    · rw [h5]
      show b.unread + b.unit_sz + l.length * b.unit_sz = b.unread + (l.length + 1) * b.unit_sz
      rw [Nat.succ_mul]
      omega

/-- A push into a full buffer that is read from offset 0 and whose capacity is
at most the maximum doubles the capacity. -/
theorem push_full_grows {s : rust_rt} {b : circ_buf} {src : Nat} (hu : 0 < b.unit_sz)
    (hl : b.data.length = b.alloc) (hn : b.next = 0) (hf : b.unread = b.alloc)
    (hd : b.unit_sz ∣ b.alloc) (ha : 0 < b.alloc) (hm : b.alloc ≤ MAX_CIRC_BUF_SIZE)
    (hs : src ≠ 0) :
    ∃ b1, b.push s src = Res.ok (s, b1) ∧ b1.alloc = 2 * b.alloc ∧
      b1.unread = b.alloc + b.unit_sz := by
  have hsh : b.alloc <<< 1 = 2 * b.alloc := by rw [Nat.shiftLeft_eq]; omega
  have hule : b.unit_sz ≤ b.alloc := Nat.le_of_dvd ha hd
  obtain ⟨d', hd', hl'⟩ := transfer_ok (b := b) (n := b.alloc <<< 1) hu hl (hf ▸ hd)
    (by omega) (by omega)
  have hmr : (mem_read s.mem src b.unit_sz).length = b.unit_sz := by simp [mem_read]
  have hmod : (b.next + b.unread) % (b.alloc <<< 1) = b.alloc := by
    rw [hn, hf, Nat.zero_add, hsh]
    exact Nat.mod_eq_of_lt (by omega)
  have hcp := memcpy_blk_ok (d := d') (e := mem_read s.mem src b.unit_sz) (a := b.alloc)
    (b := 0) (n := b.unit_sz) (by omega) (by omega)
  refine ⟨{ b with alloc := b.alloc <<< 1,
                   data := d'.take b.alloc ++ ((mem_read s.mem src b.unit_sz).drop 0).take
                     b.unit_sz ++ d'.drop (b.alloc + b.unit_sz),
                   unread := b.unread + b.unit_sz }, ?_, hsh, by rw [hf]⟩
  have h572 : b.unread < b.alloc <<< 1 := by omega
  have h573 : b.unread + b.unit_sz ≤ b.alloc <<< 1 := by omega
  have h556 : b.unread ≤ b.alloc := by omega
  simp only [circ_buf.push, I_bind, hs, ne_eq, not_false_eq_true, if_true, h556, hf, hm, hd',
    Res.ok_bind, Res.pure_eq]
  rw [show ∀ t : rust_rt, t.malloc.free = Res.ok t from malloc_free]
  simp only [Res.ok_bind]
  rw [hf] at h572 h573 hmod
  simp only [h572, h573, if_true, hmod, hcp, Res.ok_bind, le_refl]

/-! ## C11: push N, shift N -/

/-- C11: from a freshly constructed `circ_buf` of unit size 1, two pushes (the
bytes 1 and 2) followed by two shifts do not return the pushed units: the
first shift returns the unit 1 and halves the storage from 8 to 4 bytes, the
transfer placing the remaining unit 2 at offset 0 while `next` stays 1, so the
second shift returns the byte at offset 1, which is 0, and the unit 2 is
lost.  The buffer ends with `unread = 0`. -/
theorem C11_second_shift_returns_wrong_unit :
    push_then_shift demo_bytes 1 [1, 2] 300 2 =
      Res.ok (⟨4, 1, 2, 0, [2, 0, 0, 0]⟩, [[1], [0]]) ∧
    mem_read demo_bytes.mem 1 1 = [1] ∧ mem_read demo_bytes.mem 2 1 = [2] := by
  decide

/-! ## C12: growth of a full buffer -/

/-- C12: the buffer `demo_full` is full (`unread = alloc = 8`) with read offset
`next = 1`; it is reached from a fresh buffer by eight pushes, a shift and a
push.  A further push does not double the capacity with the unread units
compacted at offset 0: the transfer reads `data[next + i % alloc]`, that is
offsets 1 to 8 of the 8 bytes of storage, one byte past the end. -/
theorem C12_grow_with_offset_reads_past_storage :
    demo_full.isOk = true ∧
    (demo_full.getD (demo_bytes, ⟨0, 0, 0, 0, []⟩)).2 =
      ⟨8, 1, 1, 8, [9, 2, 3, 4, 5, 6, 7, 8]⟩ ∧
    (demo_full.bind fun x => x.2.push x.1 10).stop = some Err.oob := by
  decide

/-! ## C13: shrinking on shift -/

/-- C13: nine pushes into a fresh `circ_buf` of unit size 1 (the bytes 1 to 9)
grow the storage to 16 bytes.  The first four shifts return 1, 2, 3, 4; the
fifth returns 5 and halves the storage to 8 bytes (capacity above the initial
one, `unread = 4 = 16 / 4`), placing the units 6, 7, 8, 9 at offset 0 while
`next` stays 5; the sixth shift then returns the byte at offset 5, which is 0
and not the unit 6.  A buffer at its initial capacity is shrunk as well: after
one push and one shift the storage has 4 bytes. -/
theorem C13_shift_after_shrink_returns_wrong_unit :
    push_then_shift demo_bytes 1 [1, 2, 3, 4, 5, 6, 7, 8, 9] 300 4 =
      Res.ok (⟨16, 1, 4, 5, [1, 2, 3, 4, 5, 6, 7, 8, 9, 0, 0, 0, 0, 0, 0, 0]⟩,
        [[1], [2], [3], [4]]) ∧
    push_then_shift demo_bytes 1 [1, 2, 3, 4, 5, 6, 7, 8, 9] 300 5 =
      Res.ok (⟨8, 1, 5, 4, [6, 7, 8, 9, 0, 0, 0, 0]⟩, [[1], [2], [3], [4], [5]]) ∧
    push_then_shift demo_bytes 1 [1, 2, 3, 4, 5, 6, 7, 8, 9] 300 6 =
      Res.ok (⟨8, 1, 6, 3, [6, 7, 8, 9, 0, 0, 0, 0]⟩, [[1], [2], [3], [4], [5], [0]]) ∧
    push_then_shift demo_bytes 1 [1] 300 1 = Res.ok (⟨4, 1, 1, 0, [0, 0, 0, 0]⟩, [[1]]) := by
  decide

/-! ## C14: the maximum capacity -/

/-- A freshly constructed `circ_buf` of unit size `2 ^ 21` has capacity
`MAX_CIRC_BUF_SIZE`; after eight pushes it is full, and the ninth push returns
normally with capacity `2 * MAX_CIRC_BUF_SIZE`. -/
theorem push_reaches_twice_max :
    ∃ s1 b0 b1 b2, circ_buf.new demo_bytes (2 ^ 21) = Res.ok (s1, b0) ∧
      b0.alloc = MAX_CIRC_BUF_SIZE ∧
      circ_buf.push_all s1 b0 [1, 2, 3, 4, 5, 6, 7, 8] = Res.ok (s1, b1) ∧
      b1.push s1 9 = Res.ok (s1, b2) ∧ b2.alloc = 2 * MAX_CIRC_BUF_SIZE ∧
      MAX_CIRC_BUF_SIZE < b2.alloc := by
  have hnew : circ_buf.new demo_bytes (2 ^ 21) = Res.ok (demo_bytes.malloc,
      ⟨INIT_CIRC_BUF_UNITS * 2 ^ 21, 2 ^ 21, 0, 0,
        List.replicate (INIT_CIRC_BUF_UNITS * 2 ^ 21) 0⟩) := by
    simp only [circ_buf.new, I_bind, ne_eq, Res.pure_eq]
    rw [if_pos (by decide)]
  have hmax : INIT_CIRC_BUF_UNITS * 2 ^ 21 = MAX_CIRC_BUF_SIZE := by decide
  obtain ⟨b1, h1, h2, h3, h4, h5, h6⟩ := push_all_room demo_bytes.malloc
    [1, 2, 3, 4, 5, 6, 7, 8]
    ⟨INIT_CIRC_BUF_UNITS * 2 ^ 21, 2 ^ 21, 0, 0, List.replicate (INIT_CIRC_BUF_UNITS * 2 ^ 21) 0⟩
    (by decide) (List.length_replicate _ _) rfl (by decide) (by decide)
  have h2' : b1.alloc = INIT_CIRC_BUF_UNITS * 2 ^ 21 := h2
  have h3' : b1.unit_sz = 2 ^ 21 := h3
  have h5' : b1.unread = INIT_CIRC_BUF_UNITS * 2 ^ 21 := by
    rw [h5]
    decide
  have h6' : b1.data.length = INIT_CIRC_BUF_UNITS * 2 ^ 21 := h6
  obtain ⟨b2, g1, g2, _⟩ := @push_full_grows demo_bytes.malloc b1 9
    (by rw [h3']; decide) (by rw [h6', h2']) h4 (by rw [h5', h2'])
    (by rw [h3', h2']; exact ⟨INIT_CIRC_BUF_UNITS, by decide⟩) (by rw [h2']; decide)
    (by rw [h2', hmax]) (by decide)
  refine ⟨_, _, b1, b2, hnew, hmax, h1, g1, ?_, ?_⟩
  · rw [g2, h2', hmax]
  · rw [g2, h2', hmax]
    decide

/-- C14: where the code agrees with the claim and where it departs from it.  A
freshly constructed `circ_buf` has capacity 8 times the unit size.  A push that
has to grow a buffer (`unread = alloc`) whose capacity is above
`MAX_CIRC_BUF_SIZE` stops at the assertion of line 560, as the claim says.
But the assertion is evaluated on the capacity before the doubling: a push into
a full buffer, read from offset 0, whose capacity is at most the maximum returns
with the capacity doubled, which is above the maximum as soon as the old
capacity is above half of it.  Such a buffer is reached from a fresh one: with
unit size `2 ^ 21` the initial capacity is `MAX_CIRC_BUF_SIZE`, eight pushes
fill the buffer, and the ninth returns with capacity
`2 * MAX_CIRC_BUF_SIZE`. -/
theorem C14_push_grows_beyond_max (s : rust_rt) (b : circ_buf) (src : Nat) (hs : src ≠ 0)
    (hf : b.unread = b.alloc) :
    (∀ u, u ≠ 0 → ∃ s1 b0, circ_buf.new s u = Res.ok (s1, b0) ∧ b0.alloc = 8 * u) ∧
    (MAX_CIRC_BUF_SIZE < b.alloc → b.push s src = Res.err (Err.fatal 560)) ∧
    (0 < b.unit_sz → b.data.length = b.alloc → b.next = 0 → b.unit_sz ∣ b.alloc →
      0 < b.alloc → b.alloc ≤ MAX_CIRC_BUF_SIZE →
      ∃ b1, b.push s src = Res.ok (s, b1) ∧ b1.alloc = 2 * b.alloc ∧
        (MAX_CIRC_BUF_SIZE < 2 * b.alloc → MAX_CIRC_BUF_SIZE < b1.alloc)) ∧
    (∃ s1 b0 b1 b2, circ_buf.new demo_bytes (2 ^ 21) = Res.ok (s1, b0) ∧
      b0.alloc = MAX_CIRC_BUF_SIZE ∧
      circ_buf.push_all s1 b0 [1, 2, 3, 4, 5, 6, 7, 8] = Res.ok (s1, b1) ∧
      b1.push s1 9 = Res.ok (s1, b2) ∧ b2.alloc = 2 * MAX_CIRC_BUF_SIZE ∧
      MAX_CIRC_BUF_SIZE < b2.alloc) := by
  refine ⟨?_, fun hm => push_fatal_above_max hs hf hm, ?_, push_reaches_twice_max⟩
  · intro u hu
    refine ⟨s.malloc, ⟨INIT_CIRC_BUF_UNITS * u, u, 0, 0,
      List.replicate (INIT_CIRC_BUF_UNITS * u) 0⟩, ?_, rfl⟩
    simp only [circ_buf.new, I_bind, Res.pure_eq]
    rw [if_pos hu]
  · intro hu hl hn hd ha hm
    obtain ⟨b1, h1, h2, _⟩ := @push_full_grows s b src hu hl hn hf hd ha hm hs
    exact ⟨b1, h1, h2, fun h => by rw [h2]; exact h⟩

/-- The parts of `C14_push_grows_beyond_max` on examples: a fresh buffer of unit
size 1 has capacity 8; a push into a full buffer of capacity `2 ^ 25` stops at
line 560; a push into a full buffer of capacity `MAX_CIRC_BUF_SIZE` and unit
size `2 ^ 21` returns with a capacity above the maximum. -/
theorem C14_push_grows_beyond_max_witness :
    (∃ s1 b0, circ_buf.new demo_bytes 1 = Res.ok (s1, b0) ∧ b0.alloc = 8 * 1) ∧
    circ_buf.push demo_bytes ⟨2 ^ 25, 1, 0, 2 ^ 25, List.replicate (2 ^ 25) 0⟩ 1 =
      Res.err (Err.fatal 560) ∧
    (∃ b1, circ_buf.push demo_bytes ⟨2 ^ 24, 2 ^ 21, 0, 2 ^ 24, List.replicate (2 ^ 24) 0⟩ 9 =
        Res.ok (demo_bytes, b1) ∧ b1.alloc = 2 * 2 ^ 24 ∧
      (MAX_CIRC_BUF_SIZE < 2 * 2 ^ 24 → MAX_CIRC_BUF_SIZE < b1.alloc)) ∧
    MAX_CIRC_BUF_SIZE < 2 * 2 ^ 24 :=
  ⟨(C14_push_grows_beyond_max demo_bytes ⟨8, 1, 0, 8, List.replicate 8 0⟩ 1 (by decide)
      (by decide)).1 1 (by decide),
   (C14_push_grows_beyond_max demo_bytes ⟨2 ^ 25, 1, 0, 2 ^ 25, List.replicate (2 ^ 25) 0⟩ 1
      (by decide) (by decide)).2.1 (by decide),
   (C14_push_grows_beyond_max demo_bytes ⟨2 ^ 24, 2 ^ 21, 0, 2 ^ 24, List.replicate (2 ^ 24) 0⟩
      9 (by decide) (by decide)).2.2.1 (by decide) (List.length_replicate _ _) rfl
      ⟨8, by decide⟩ (by decide) (by decide),
   by decide⟩

/-! ## C15: `ptr_vec` push and swapdel -/

theorem ptr_vec.stores_iff {v : ptr_vec} {p : Ptr} : v.stores p ↔ ∃ j, v.slot j = some p := by
  constructor
  · rintro ⟨j, _, h⟩
    exact ⟨j, h⟩
  · rintro ⟨j, h⟩
    exact ⟨j, (ptr_vec.slot_eq_some.1 h).1, h⟩

theorem ptr_vec.idx_ok_get {α : Type} [HasIdx α] {v : ptr_vec} {H : Store α}
    (hok : v.idx_ok H) {j : Nat} {q : Ptr} (h : v.slot j = some q) :
    ∃ x, H.get q = some x ∧ HasIdx.idx x = j :=
  hok j (ptr_vec.slot_eq_some.1 h).1 q h

theorem ptr_vec.slot_of_wf {v : ptr_vec} (hv : v.wf) {j : Nat} (hj : j < v.fill) :
    ∃ q, v.slot j = some q := by
  obtain ⟨h1, h2, _⟩ := hv
  have hlt : j < v.data.length := by omega
  exact ⟨v.data[j], by simp [ptr_vec.slot, hj, hlt]⟩

/-- Pushing a live element that is not stored yet keeps the index invariant. -/
theorem ptr_vec.push_idx_ok {α : Type} [HasIdx α]
    (hlaw : ∀ (x : α) (i : Nat), HasIdx.idx (HasIdx.set_idx x i) = i)
    {v : ptr_vec} {H : Store α} {p : Ptr} {x : α} (hv : v.wf) (hroom : v.fill < v.alloc)
    (hok : v.idx_ok H) (hp : H.get p = some x) (hnew : ¬ v.stores p) :
    ∃ v', v.push H p = Res.ok (v', H.put p (HasIdx.set_idx x v.fill)) ∧ v'.wf ∧
      v'.fill = v.fill + 1 ∧ v'.slot v.fill = some p ∧
      (∀ j, j < v.fill → v'.slot j = v.slot j) ∧
      v'.idx_ok (H.put p (HasIdx.set_idx x v.fill)) := by
  obtain ⟨v', h1, h2, h3, h4⟩ := ptr_vec.push_ok hv hroom hp
  refine ⟨v', h1, h2, h3, by rw [h4, if_pos rfl], ?_, ?_⟩
  · intro j hj
    rw [h4, if_neg (by omega)]
  · intro j hj q hq
    have hq' : v'.slot j = some q := hq
    rw [h4] at hq'
    by_cases hjf : j = v.fill
    · rw [if_pos hjf] at hq'
      cases hq'
      refine ⟨HasIdx.set_idx x v.fill, Store.get_put_self _ hp, ?_⟩
      rw [hlaw, hjf]
    · rw [if_neg hjf] at hq'
      obtain ⟨y, hy, hyi⟩ := ptr_vec.idx_ok_get hok hq'
      have hne : q ≠ p := by
        intro e
        apply hnew
        rw [ptr_vec.stores_iff]
        exact ⟨j, e ▸ hq'⟩
      exact ⟨y, by rw [Store.get_put_ne _ hne]; exact hy, hyi⟩

/-- Swap-deleting an element stored at its index: the effect on slots, heap
and index invariant. -/
theorem ptr_vec.swapdel_idx_ok {α : Type} [HasIdx α]
    (hlaw : ∀ (x : α) (i : Nat), HasIdx.idx (HasIdx.set_idx x i) = i)
    {v : ptr_vec} {H : Store α} {item : Ptr} {it : α} (hv : v.wf) (hok : v.idx_ok H)
    (hp : H.get item = some it) (hst : v.slot (HasIdx.idx it) = some item) :
    ∃ v' H', v.swapdel H item = Res.ok (v', H') ∧ v'.wf ∧ v'.fill + 1 = v.fill ∧
      ¬ v'.stores item ∧
      (∀ q, q ≠ item → (v'.stores q ↔ v.stores q)) ∧
      (∀ j, j < v'.fill → j ≠ HasIdx.idx it → v'.slot j = v.slot j) ∧
      (∀ q, v.slot (v.fill - 1) = some q → q ≠ item →
        v'.slot (HasIdx.idx it) = some q ∧
        (H'.get q).map HasIdx.idx = some (HasIdx.idx it)) ∧
      (∀ q, v.slot (v.fill - 1) ≠ some q → H'.get q = H.get q) ∧
      v'.idx_ok H' := by
  have hi : HasIdx.idx it < v.fill := (ptr_vec.slot_eq_some.1 hst).1
  -- the only slot that holds `item` is the slot `idx`
  have honly : ∀ j, v.slot j = some item → j = HasIdx.idx it := by
    intro j hj
    obtain ⟨y, hy, hyi⟩ := ptr_vec.idx_ok_get hok hj
    rw [hp] at hy
    cases hy
    exact hyi.symm
  by_cases h1 : v.fill = 1
  · obtain ⟨v', e, hwf, hf, hs⟩ := ptr_vec.swapdel_one hv hp hi h1
    refine ⟨v', H, e, hwf, by omega, ?_, ?_, ?_, ?_, fun _ _ => rfl, ?_⟩
    · rw [ptr_vec.stores_iff]
      rintro ⟨j, hj⟩
      rw [hs] at hj
      cases hj
    · intro q hq
      rw [ptr_vec.stores_iff, ptr_vec.stores_iff]
      constructor
      · rintro ⟨j, hj⟩
        rw [hs] at hj
        cases hj
      · rintro ⟨j, hj⟩
        exfalso
        have hj0 : j = 0 := by have := (ptr_vec.slot_eq_some.1 hj).1; omega
        have hi0 : HasIdx.idx it = 0 := by omega
        rw [hj0, ← hi0, hst] at hj
        cases hj
        exact hq rfl
    · intro j hj
      omega
    · intro q hq hne
      exfalso
      have hi0 : HasIdx.idx it = 0 := by omega
      rw [h1, Nat.sub_self, ← hi0, hst] at hq
      cases hq
      exact hne rfl
    · intro j hj
      omega
  · have hgt : 1 < v.fill := by omega
    obtain ⟨q, hq⟩ := ptr_vec.slot_of_wf hv (j := v.fill - 1) (by omega)
    obtain ⟨sb, hsb, hsbi⟩ := ptr_vec.idx_ok_get hok hq
    obtain ⟨v', e, hwf, hf, hs⟩ := ptr_vec.swapdel_many hv hp hi hgt hq hsb
    -- the only slot that holds `q` is the last one
    have hlast : ∀ j, v.slot j = some q → j = v.fill - 1 := by
      intro j hj
      obtain ⟨y, hy, hyi⟩ := ptr_vec.idx_ok_get hok hj
      rw [hsb] at hy
      cases hy
      rw [← hyi, hsbi]
    have hslot : ∀ j, v'.slot j =
        if j < v.fill - 1 then (if j = HasIdx.idx it then some q else v.slot j) else none := by
      intro j
      rw [hs, swapdel_slots, hq]
    refine ⟨v', _, e, hwf, by omega, ?_, ?_, ?_, ?_, ?_, ?_⟩
    · rw [ptr_vec.stores_iff]
      rintro ⟨j, hj⟩
      rw [hslot] at hj
      by_cases hlt : j < v.fill - 1
      · rw [if_pos hlt] at hj
        by_cases hji : j = HasIdx.idx it
        · rw [if_pos hji] at hj
          cases hj
          have := hlast _ hst
          omega
        · rw [if_neg hji] at hj
          exact hji (honly j hj)
      · rw [if_neg hlt] at hj
        cases hj
    · intro r hr
      rw [ptr_vec.stores_iff, ptr_vec.stores_iff]
      constructor
      · rintro ⟨j, hj⟩
        rw [hslot] at hj
        by_cases hlt : j < v.fill - 1
        · rw [if_pos hlt] at hj
          by_cases hji : j = HasIdx.idx it
          · rw [if_pos hji] at hj
            cases hj
            exact ⟨_, hq⟩
          · rw [if_neg hji] at hj
            exact ⟨j, hj⟩
        · rw [if_neg hlt] at hj
          cases hj
      · rintro ⟨j, hj⟩
        have hjf := (ptr_vec.slot_eq_some.1 hj).1
        have hji : j ≠ HasIdx.idx it := by
          intro e'
          rw [e', hst] at hj
          cases hj
          exact hr rfl
        by_cases hlt : j < v.fill - 1
        · exact ⟨j, by rw [hslot, if_pos hlt, if_neg hji]; exact hj⟩
        · have hjl : j = v.fill - 1 := by omega
          rw [hjl, hq] at hj
          cases hj
          exact ⟨HasIdx.idx it, by rw [hslot, if_pos (by omega), if_pos rfl]⟩
    · intro j hj hji
      rw [hslot, if_pos (by omega), if_neg hji]
    · intro q' hq' hne
      rw [hq] at hq'
      cases hq'
      have hilt : HasIdx.idx it < v.fill - 1 := by
        by_contra hge
        have hie : HasIdx.idx it = v.fill - 1 := by omega
        rw [hie, hq] at hst
        cases hst
        exact hne rfl
      refine ⟨by rw [hslot, if_pos hilt, if_pos rfl], ?_⟩
      rw [Store.get_put_self _ hsb]
      simp [hlaw]
    · intro q' hq'
      rw [hq] at hq'
      have hne : q' ≠ q := fun e' => hq' (by rw [e'])
      exact Store.get_put_ne _ hne
    · intro j hj r hr
      have hr' : v'.slot j = some r := hr
      rw [hslot] at hr'
      have hlt : j < v.fill - 1 := by omega
      rw [if_pos hlt] at hr'
      by_cases hji : j = HasIdx.idx it
      · rw [if_pos hji] at hr'
        cases hr'
        refine ⟨HasIdx.set_idx sb (HasIdx.idx it), Store.get_put_self _ hsb, ?_⟩
        rw [hlaw, hji]
      · rw [if_neg hji] at hr'
        obtain ⟨y, hy, hyi⟩ := ptr_vec.idx_ok_get hok hr'
        have hne : r ≠ q := by
          intro e'
          rw [e'] at hr'
          have := hlast j hr'
          omega
        exact ⟨y, by rw [Store.get_put_ne _ hne]; exact hy, hyi⟩

/-- C15, as stated, fails for an element that is already stored: the vector
that holds channel 1 at position 0 satisfies the index invariant; pushing
channel 1 again stores it at position 1 as well and sets its `idx` to 1, so
that the element stored at position 0 no longer has its position as `idx`.
It also fails for a full vector: the vector of the channels 1 to 8 over
`demo_row` satisfies the index invariant, and the push of channel 9 stops at
the store to `data[8]`, which lies outside the 16 bytes the push reallocates;
nothing is stored and the length is not raised. -/
theorem C15_push_stored_element_counterexample :
    ((demo_vec [1]).wf ∧ (demo_vec [1]).idx_ok demo_chans ∧
     ∃ v' H', (demo_vec [1]).push demo_chans 1 = Res.ok (v', H') ∧
       v'.slot 0 = some 1 ∧ v'.slot 1 = some 1 ∧ (H'.get 1).map HasIdx.idx = some 1 ∧
       ¬ v'.idx_ok H') ∧
    ((demo_vec [1, 2, 3, 4, 5, 6, 7, 8]).wf ∧
     (demo_vec [1, 2, 3, 4, 5, 6, 7, 8]).idx_ok demo_row ∧
     (demo_vec [1, 2, 3, 4, 5, 6, 7, 8]).fill = (demo_vec [1, 2, 3, 4, 5, 6, 7, 8]).alloc ∧
     (demo_row.get 9).isSome = true ∧ ¬ (demo_vec [1, 2, 3, 4, 5, 6, 7, 8]).stores 9 ∧
     (demo_vec [1, 2, 3, 4, 5, 6, 7, 8]).push demo_row 9 = Res.err Err.oob) :=
  ⟨⟨by decide, by decide, _, _,
    Res.eq_ok_of_isOk (demo_vec [], demo_chans) (by rfl), by decide, by decide, by decide,
    by decide⟩,
   ⟨by decide, by decide, by decide, by decide, by decide, by rfl⟩⟩

/-- C15, amended: for a well-formed `ptr_vec` over elements whose `idx` field
reads back what was stored in it, in which every stored element has its
position as `idx`: `push(p)` of a live element onto a vector that is not full
stores `p` at position `fill`, sets its `idx` to that position, raises the
length by 1 and leaves the other slots and elements alone, and it preserves the
index invariant when `p` was not stored already; the push of a live element
onto a full vector stops at the store outside the reallocated storage;
`swapdel(item)` of an item stored at `data[item.idx]` lowers the length by 1,
leaves exactly the other elements stored, the former last element (when it is
not `item`) now sitting in the slot of `item` with its `idx` updated, the other
slots and elements unchanged, and preserves the index invariant; a push after
the swapdel restores the original length. -/
theorem C15_ptr_vec_push_swapdel {α : Type} [HasIdx α]
    (hlaw : ∀ (x : α) (i : Nat), HasIdx.idx (HasIdx.set_idx x i) = i)
    (v : ptr_vec) (H : Store α) (hv : v.wf) (hok : v.idx_ok H) :
    (∀ p x, H.get p = some x → v.fill < v.alloc →
      ∃ v' H', v.push H p = Res.ok (v', H') ∧ v'.fill = v.fill + 1 ∧
        v'.slot v.fill = some p ∧ (∀ j, j < v.fill → v'.slot j = v.slot j) ∧
        (H'.get p).map HasIdx.idx = some v.fill ∧ (∀ q, q ≠ p → H'.get q = H.get q) ∧
        v'.wf ∧ (¬ v.stores p → v'.idx_ok H')) ∧
    (∀ p x, H.get p = some x → v.fill = v.alloc → v.push H p = Res.err Err.oob) ∧
    (∀ item it, H.get item = some it → v.slot (HasIdx.idx it) = some item →
      ∃ v' H', v.swapdel H item = Res.ok (v', H') ∧ v'.fill + 1 = v.fill ∧
        ¬ v'.stores item ∧ (∀ q, q ≠ item → (v'.stores q ↔ v.stores q)) ∧
        (∀ j, j < v'.fill → j ≠ HasIdx.idx it → v'.slot j = v.slot j) ∧
        (∀ q, v.slot (v.fill - 1) = some q → q ≠ item →
          v'.slot (HasIdx.idx it) = some q ∧
          (H'.get q).map HasIdx.idx = some (HasIdx.idx it)) ∧
        (∀ q, v.slot (v.fill - 1) ≠ some q → H'.get q = H.get q) ∧
        v'.wf ∧ v'.idx_ok H' ∧
        (∀ p x, H'.get p = some x →
          ∃ v'' H'', v'.push H' p = Res.ok (v'', H'') ∧ v''.fill = v.fill)) := by
  refine ⟨?_, ?_, ?_⟩
  · intro p x hp hroom
    obtain ⟨v', h1, h2, h3, h4⟩ := ptr_vec.push_ok hv hroom hp
    refine ⟨v', _, h1, h3, by rw [h4, if_pos rfl], ?_, ?_, ?_, h2, ?_⟩
    · intro j hj
      rw [h4, if_neg (by omega)]
    · rw [Store.get_put_self _ hp]
      simp [hlaw]
    · intro q hq
      exact Store.get_put_ne _ hq
    · intro hnew
      obtain ⟨w, g1, _, _, _, _, g6⟩ := ptr_vec.push_idx_ok hlaw hv hroom hok hp hnew
      rw [h1] at g1
      simp only [ok_eq_ok, Prod.mk.injEq] at g1
      rw [g1.1]
      exact g6
  · intro p x hp hfull
    exact ptr_vec.push_full_oob hfull hv.2.2 hp
  · intro item it hp hst
    obtain ⟨v', H', e, hwf, hf, a1, a2, a3, a4, a5, a6⟩ :=
      ptr_vec.swapdel_idx_ok hlaw hv hok hp hst
    refine ⟨v', H', e, hf, a1, a2, a3, a4, a5, hwf, a6, ?_⟩
    intro p x hp'
    have ha := (ptr_vec.swapdel_alloc e).1
    have hroom : v'.fill < v'.alloc := by
      have := hv.1
      omega
    obtain ⟨v'', h1, _, h3, _⟩ := ptr_vec.push_ok hwf hroom hp'
    exact ⟨v'', _, h1, by omega⟩

/-- The vector of the channels 1, 2, 3 over `demo_chans`: channel 4 is pushed
to position 3, and channel 1 is swap-deleted, after which channel 3 sits at
position 0 and the vector holds the channels 3, 2.  The push of channel 9 onto
the full vector of the channels 1 to 8 over `demo_row` stops. -/
theorem C15_ptr_vec_push_swapdel_witness :
    (demo_vec [1, 2, 3]).wf ∧ (demo_vec [1, 2, 3]).idx_ok demo_chans ∧
    (∃ v' H', (demo_vec [1, 2, 3]).push demo_chans 4 = Res.ok (v', H') ∧ v'.fill = 3 + 1 ∧
        v'.slot 3 = some 4 ∧ (∀ j, j < 3 → v'.slot j = (demo_vec [1, 2, 3]).slot j) ∧
        (H'.get 4).map HasIdx.idx = some 3 ∧ (∀ q, q ≠ 4 → H'.get q = demo_chans.get q) ∧
        v'.wf ∧ (¬ (demo_vec [1, 2, 3]).stores 4 → v'.idx_ok H')) ∧
    (((demo_vec [1, 2, 3]).swapdel demo_chans 1).getD (demo_vec [], demo_chans)).1.slot 0 =
      some 3 ∧
    (((demo_vec [1, 2, 3]).swapdel demo_chans 1).getD (demo_vec [], demo_chans)).1.fill = 2 ∧
    (∃ v' H', (demo_vec [1, 2, 3]).swapdel demo_chans 1 = Res.ok (v', H') ∧
        v'.fill + 1 = 3 ∧ ¬ v'.stores 1 ∧ v'.idx_ok H') ∧
    (demo_vec [1, 2, 3, 4, 5, 6, 7, 8]).push demo_row 9 = Res.err Err.oob :=
  ⟨by decide, by decide,
   (C15_ptr_vec_push_swapdel (fun _ _ => rfl) (demo_vec [1, 2, 3]) demo_chans (by decide)
      (by decide)).1 4 (demo_chan 0 0 0 0 []) (by decide) (by decide),
   by decide, by decide,
   by
    obtain ⟨v', H', e, h1, h2, _, _, _, _, _, h3, _⟩ :=
      (C15_ptr_vec_push_swapdel (fun _ _ => rfl) (demo_vec [1, 2, 3]) demo_chans (by decide)
        (by decide)).2.2 1 (demo_chan 1 0 0 0 []) (by decide) (by decide)
    exact ⟨v', H', e, h1, h2, h3⟩,
   (C15_ptr_vec_push_swapdel (fun _ _ => rfl) (demo_vec [1, 2, 3, 4, 5, 6, 7, 8]) demo_row
      (by decide) (by decide)).2.1 9 (demo_chan 0 8 0 0 []) (by decide) (by decide)⟩

/-! ## C16: the scheduler -/

/-- C16, as stated, fails: in the runtime `demo_none`, whose two proc vectors
are empty, the scheduler stops at the assertion `n_live_procs() > 0` of line
1224 instead of returning no proc; and in the ill-formed runtime `demo_twice`,
which holds proc 1 in both vectors, it returns proc 1, a proc held in the
blocked vector. -/
theorem C16_sched_fatal_without_procs_counterexample :
    demo_none.running_procs.fill = 0 ∧ demo_none.blocked_procs.fill = 0 ∧
    (∀ r, demo_none.sched r = Res.err (Err.fatal 1224)) ∧
    demo_twice.sched 0 = Res.ok 1 ∧ demo_twice.blocked_procs.stores 1 :=
  ⟨rfl, rfl, fun _ => rfl, by decide, by decide⟩

/-- C16, amended: in a runtime whose runnable vector is well-formed, the
scheduler stops at the assertion of line 1224 when both proc vectors are
empty; when at least one proc is live it raises no fatal: it returns no proc
(the null pointer) when the runnable vector is empty and otherwise the element
of the runnable vector at index `r % fill`, `r` being the random value.  When
the state-vector invariant holds, it returns no proc exactly when the runnable
vector is empty, and a proc it returns is live, in a state of the runnable
vector and not held in the blocked vector. -/
theorem C16_sched (s : rust_rt) (r : Nat) (hwf : s.running_procs.wf) :
    (s.running_procs.fill = 0 → s.blocked_procs.fill = 0 →
      s.sched r = Res.err (Err.fatal 1224)) ∧
    (s.running_procs.fill = 0 → 0 < s.blocked_procs.fill → s.sched r = Res.ok 0) ∧
    (0 < s.running_procs.fill →
      ∃ p, s.running_procs.slot (r % s.running_procs.fill) = some p ∧ s.sched r = Res.ok p) ∧
    (procs_inv s → ∀ p, s.sched r = Res.ok p →
      (p = 0 ↔ s.running_procs.fill = 0) ∧
      (p ≠ 0 → ∃ rec, s.procs.get p = some rec ∧
        get_state_vec rec.state = .running_procs ∧ ¬ s.blocked_procs.stores p)) := by
  have hc : 0 < s.running_procs.fill →
      ∃ p, s.running_procs.slot (r % s.running_procs.fill) = some p ∧
        s.sched r = Res.ok p := by
    intro hf
    have hlt : r % s.running_procs.fill < s.running_procs.fill := Nat.mod_lt _ hf
    obtain ⟨p, hp⟩ := slot_some_of_lt hwf hlt
    refine ⟨p, hp, ?_⟩
    have hn : 0 < s.n_live_procs := by
      unfold rust_rt.n_live_procs
      omega
    have hpk := (ptr_vec.slot_eq_some.1 hp).2
    simp [rust_rt.sched, hn, hf, peek, hpk]
  refine ⟨?_, ?_, hc, ?_⟩
  · intro h1 h2
    simp [rust_rt.sched, rust_rt.n_live_procs, h1, h2]
  · intro h1 h2
    have hn : 0 < s.n_live_procs := by
      unfold rust_rt.n_live_procs
      omega
    simp [rust_rt.sched, hn, h1]
  · intro hinv p hs
    obtain ⟨_, _, hslots⟩ := (procs_inv_ex_iff s 0).1 hinv
    by_cases hf : 0 < s.running_procs.fill
    · obtain ⟨q, hq, hsq⟩ := hc hf
      rw [hs] at hsq
      cases hsq
      obtain ⟨hne, rec, hrec, hidx, hsv⟩ := hslots .running_procs _ _ hq
      refine ⟨⟨fun e => absurd e hne, fun e => by omega⟩, fun _ => ⟨rec, hrec, hsv, ?_⟩⟩
      rw [ptr_vec.stores_iff]
      rintro ⟨j, hj⟩
      obtain ⟨_, rec', hrec', _, hsv'⟩ := hslots .blocked_procs _ _ hj
      rw [hrec] at hrec'
      cases hrec'
      rw [hsv] at hsv'
      cases hsv'
    · have h0 : s.running_procs.fill = 0 := by omega
      unfold rust_rt.sched at hs
      simp only [I_bind_eq_ok] at hs
      obtain ⟨_, hs⟩ := hs
      rw [if_neg hf] at hs
      simp only [Res.pure_eq, ok_eq_ok] at hs
      exact ⟨⟨fun _ => h0, fun _ => hs.symm⟩, fun hne => absurd hs.symm hne⟩

/-- The scheduler on examples: it stops in `demo_none`; in `demo_blocked`,
where only the blocked vector holds a proc, it returns no proc; in `demo_busy`
the random value 3 selects index `3 % 2 = 1` of the runnable vector, proc 2,
which is not held in the blocked vector. -/
theorem C16_sched_witness :
    demo_none.sched 7 = Res.err (Err.fatal 1224) ∧ demo_blocked.sched 7 = Res.ok 0 ∧
    (∃ p, demo_busy.running_procs.slot (3 % demo_busy.running_procs.fill) = some p ∧
      demo_busy.sched 3 = Res.ok p) ∧
    ((2 = 0 ↔ demo_busy.running_procs.fill = 0) ∧
      (2 ≠ 0 → ∃ rec, demo_busy.procs.get 2 = some rec ∧
        get_state_vec rec.state = .running_procs ∧ ¬ demo_busy.blocked_procs.stores 2)) :=
  ⟨(C16_sched demo_none 7 (by decide)).1 rfl rfl,
   (C16_sched demo_blocked 7 (by decide)).2.1 rfl (by decide),
   (C16_sched demo_busy 3 (by decide)).2.2.1 (by decide),
   (C16_sched demo_busy 3 (by decide)).2.2.2 (by decide) 2 (by decide)⟩

/-! ## C17: one step of the main loop -/

/-- C17: one main-loop step after the activation of the live proc `proc`
(record `p`, stack segment `seg`) has returned.  The two assertions on the
stack pointer come first: outside `[seg.data, seg.limit)` the step stops at
line 1722 or 1723.  Otherwise the step handles the proc's state: in running or
failing nothing changes; in calling-host the upcall is dispatched (a stop of
the dispatcher is a stop of the step) and the state of the proc becomes
running unless the dispatcher changed it; in blocked-exited (the proc still
sitting in the runnable vector, where the state-vector invariant placed it as
a running proc, and the two proc vectors being at a capacity `trim` does not
halve) the proc ends in blocked-exited, held in the blocked vector and not in
the runnable vector, and the state-vector invariant holds for all procs,
provided the blocked vector has a free slot; when the blocked vector is full,
the step stops at the store of the proc outside the storage the push
reallocates; in blocked-reading or blocked-writing the step stops with the
fatal of line 1749. -/
theorem C17_main_loop_step (s : rust_rt) (proc : Ptr) (env : Env) (p : rust_proc)
    (seg : stk_seg) (hp : s.procs.get proc = some p) (hseg : s.stks.get p.stk = some seg) :
    (p.rust_sp < seg.data → main_loop_handle s proc env = Res.err (Err.fatal 1722)) ∧
    (seg.data ≤ p.rust_sp → seg.limit ≤ p.rust_sp →
      main_loop_handle s proc env = Res.err (Err.fatal 1723)) ∧
    (seg.data ≤ p.rust_sp → p.rust_sp < seg.limit →
      ((p.state = .running ∨ p.state = .failing) → main_loop_handle s proc env = Res.ok s) ∧
      (p.state = .calling_c →
        (∀ e, handle_upcall s proc env = Res.err e →
          main_loop_handle s proc env = Res.err e) ∧
        (∀ s1 p1, handle_upcall s proc env = Res.ok s1 → s1.procs.get proc = some p1 →
          ∃ t, main_loop_handle s proc env = Res.ok t ∧
            (p1.state = .calling_c →
              t = { s1 with procs := s1.procs.put proc { p1 with state := .running } }) ∧
            (p1.state ≠ .calling_c → t = s1) ∧
            state_of t proc = some (if p1.state = .calling_c then .running else p1.state))) ∧
      (p.state = .blocked_exited →
        procs_inv { s with procs := s.procs.put proc { p with state := .running } } →
        procs_small s →
        (s.blocked_procs.room →
          ∃ t, main_loop_handle s proc env = Res.ok t ∧
            state_of t proc = some .blocked_exited ∧ t.blocked_procs.stores proc ∧
            ¬ t.running_procs.stores proc ∧ procs_inv t) ∧
        (s.blocked_procs.fill = s.blocked_procs.alloc →
          main_loop_handle s proc env = Res.err Err.oob)) ∧
      ((p.state = .blocked_reading ∨ p.state = .blocked_writing) →
        main_loop_handle s proc env = Res.err (Err.fatal 1749))) := by
  refine ⟨?_, ?_, ?_⟩
  · intro h
    have : ¬ p.rust_sp ≥ seg.data := by omega
    simp [main_loop_handle, Store.deref_of_get hp, Store.deref_of_get hseg, this]
  · intro h1 h2
    have : ¬ p.rust_sp < seg.limit := by omega
    simp [main_loop_handle, Store.deref_of_get hp, Store.deref_of_get hseg, h1, this]
  · intro h1 h2
    have hge : p.rust_sp ≥ seg.data := h1
    refine ⟨?_, ?_, ?_, ?_⟩
    · rintro (hst | hst) <;>
        simp [main_loop_handle, Store.deref_of_get hp, Store.deref_of_get hseg, hge, h2, hst]
    · intro hst
      refine ⟨?_, ?_⟩
      · intro e he
        simp [main_loop_handle, Store.deref_of_get hp, Store.deref_of_get hseg, hge, h2, hst, he]
      · intro s1 p1 hs1 hp1
        by_cases hc : p1.state = .calling_c
        · refine ⟨{ s1 with procs := s1.procs.put proc { p1 with state := .running } }, ?_,
            fun _ => rfl, fun hn => absurd hc hn, ?_⟩
          · simp [main_loop_handle, Store.deref_of_get hp, Store.deref_of_get hseg, hge, h2,
              hst, hs1, Store.deref_of_get hp1, hc]
          · rw [if_pos hc]
            unfold state_of
            show ((s1.procs.put proc { p1 with state := .running }).get proc).map _ = _
            rw [Store.get_put_self _ hp1]
            rfl
        · refine ⟨s1, ?_, fun h => absurd h hc, fun _ => rfl, ?_⟩
          · simp [main_loop_handle, Store.deref_of_get hp, Store.deref_of_get hseg, hge, h2,
              hst, hs1, Store.deref_of_get hp1, hc]
          · rw [if_neg hc, state_of_get hp1]
    · intro hst hinv hsm
      have hp1 : ({ s with procs := s.procs.put proc { p with state := .running } } :
          rust_rt).procs.get proc = some { p with state := .running } :=
        Store.get_put_self _ hp
      have hsm1 := procs_small_congr (t := _) rfl rfl hsm
      refine ⟨?_, ?_⟩
      swap
      · intro hfull
        have hoob := pst_full_oob (a := .running) .blocked_exited hinv hsm1 hp1 rfl
          (fun h => vec_sel.noConfusion h) hfull
        simp [main_loop_handle, Store.deref_of_get hp, Store.deref_of_get hseg, hge, h2, hst,
          hoob]
      intro hroom
      obtain ⟨t, ht, hinvt, _, hmv, _⟩ :=
        pst_spec .blocked_exited hinv hsm1 hp1 rfl (fun _ => hroom)
      obtain ⟨r', hr', hs', _⟩ := proc_moved_self hmv hp1
      obtain ⟨_, hlive, hslots⟩ := (procs_inv_ex_iff t 0).1 hinvt
      have hne : proc ≠ 0 := Store.ne_zero_of_get hp
      have hsl := hlive proc r' hr' hne
      rw [hs'] at hsl
      refine ⟨t, ?_, by rw [state_of_get hr', hs'], ?_, ?_, hinvt⟩
      · simp [main_loop_handle, Store.deref_of_get hp, Store.deref_of_get hseg, hge, h2, hst,
          ht]
      · rw [ptr_vec.stores_iff]
        exact ⟨r'.idx, hsl⟩
      · rw [ptr_vec.stores_iff]
        rintro ⟨j, hj⟩
        obtain ⟨_, r2, hr2, _, hsv⟩ := hslots .running_procs j proc hj
        rw [hr'] at hr2
        cases hr2
        rw [hs'] at hsv
        cases hsv
    · rintro (hst | hst) <;>
        simp [main_loop_handle, Store.deref_of_get hp, Store.deref_of_get hseg, hge, h2, hst]

/-- The main-loop step on examples: proc 1 of `demo_busy` is running and
nothing changes; proc 1 of `demo_idle` is in calling-host (upcall code 0), and
the step puts it to running; proc 1 of `demo_exited` ends in blocked-exited in
the blocked vector; proc 1 of `demo_blocked` is in blocked-reading and the
step stops at line 1749.  In `demo_blocked_full` eight exited procs fill the
blocked vector: the step for proc 1, which has exited as the ninth, stops at
the store outside the storage of the blocked vector. -/
theorem C17_main_loop_step_witness :
    main_loop_handle (demo_blocked_full .blocked_exited) 1 ⟨0, 0, 0⟩ = Res.err Err.oob ∧
    main_loop_handle demo_busy 1 ⟨0, 0, 0⟩ = Res.ok demo_busy ∧
    (∃ t, main_loop_handle demo_idle 1 ⟨0, 0, 0⟩ = Res.ok t ∧
      state_of t 1 = some .running) ∧
    (∃ t, main_loop_handle demo_exited 1 ⟨0, 0, 0⟩ = Res.ok t ∧
      state_of t 1 = some .blocked_exited ∧ t.blocked_procs.stores 1 ∧
      ¬ t.running_procs.stores 1 ∧ procs_inv t) ∧
    main_loop_handle demo_blocked 1 ⟨0, 0, 0⟩ = Res.err (Err.fatal 1749) :=
  ⟨(((C17_main_loop_step (demo_blocked_full .blocked_exited) 1 ⟨0, 0, 0⟩
      (demo_proc 1 .blocked_exited 0 [] [300, 1])
      ⟨0, 0, 0, 0, 0, 0x1300, 0x1000⟩ (by decide) (by decide)).2.2 (by decide)
      (by decide)).2.2.1 rfl (by decide) (by decide)).2 (by decide),
   ((C17_main_loop_step demo_busy 1 ⟨0, 0, 0⟩ (demo_proc 1 .running 0 [] [0, 0])
      ⟨0, 0, 0, 0, 0, 0x1300, 0x1000⟩ (by decide) (by decide)).2.2 (by decide)
      (by decide)).1 (Or.inl rfl),
   by
    obtain ⟨t, h1, _, _, h4⟩ :=
      (((C17_main_loop_step demo_idle 1 ⟨0, 0, 0⟩ (demo_proc 1 .calling_c 0 [] [300, 1])
        ⟨0, 0, 0, 0, 0, 0x1300, 0x1000⟩ (by decide) (by decide)).2.2 (by decide)
        (by decide)).2.1 rfl).2 demo_idle (demo_proc 1 .calling_c 0 [] [300, 1]) (by rfl)
        (by decide)
    exact ⟨t, h1, h4⟩,
   (((C17_main_loop_step demo_exited 1 ⟨0, 0, 0⟩ (demo_proc 1 .blocked_exited 0 [] [0, 0])
      ⟨0, 0, 0, 0, 0, 0x1300, 0x1000⟩ (by decide) (by decide)).2.2 (by decide)
      (by decide)).2.2.1 rfl (by decide) (by decide)).1 (by decide),
   ((C17_main_loop_step demo_blocked 1 ⟨0, 0, 0⟩ (demo_proc 1 .blocked_reading 0 [] [300, 1])
      ⟨0, 0, 0, 0, 0, 0x1300, 0x1000⟩ (by decide) (by decide)).2.2 (by decide)
      (by decide)).2.2.2 (Or.inl rfl)⟩

/-! ## C19: the allocation counter -/

theorem alloc_apply_count {s t : rust_rt} {op : AllocOp} (h : op.apply s = Res.ok t) :
    t.live_allocs + (if op.frees then 1 else 0) =
      s.live_allocs + (if op.allocates then 1 else 0) := by
  cases op with
  | malloc =>
    simp only [AllocOp.apply, Res.pure_eq, ok_eq_ok] at h
    subst h
    rfl
  | calloc =>
    simp only [AllocOp.apply, Res.pure_eq, ok_eq_ok] at h
    subst h
    rfl
  | realloc p =>
    simp only [AllocOp.apply, Res.pure_eq, ok_eq_ok] at h
    subst h
    by_cases hp : p = 0 <;> simp [rust_rt.realloc, AllocOp.frees, AllocOp.allocates, hp]
  | free p =>
    simp only [AllocOp.apply, rust_rt.free_blk, rust_rt.free, I_bind_eq_ok, Res.pure_eq,
      ok_eq_ok] at h
    obtain ⟨_, hpos, e⟩ := h
    subst e
    simp only [AllocOp.frees, AllocOp.allocates, if_true]
    show s.live_allocs - 1 + 1 = s.live_allocs + 0
    omega

theorem alloc_run_count (ops : List AllocOp) : ∀ (s t : rust_rt), alloc_run s ops = Res.ok t →
    t.live_allocs + frees_made ops = s.live_allocs + allocs_made ops := by
  induction ops with
  | nil =>
    intro s t h
    simp only [alloc_run, Res.pure_eq, ok_eq_ok] at h
    subst h
    rfl
  | cons op ops ih =>
    intro s t h
    simp only [alloc_run] at h
    rw [Res.bind_eq_ok] at h
    obtain ⟨s1, h1, h2⟩ := h
    have e1 := alloc_apply_count h1
    have e2 := ih s1 t h2
    simp only [frees_made, allocs_made, List.countP_cons] at e2 ⊢
    omega

/-- C19: `rust_rt::malloc` and `rust_rt::calloc` raise `live_allocs` by exactly
1; `rust_rt::free` of a non-null block lowers it by exactly 1 when it is
positive and stops at the assertion of line 1191 when it is 0; `rust_rt::realloc`
raises it by 1 when given the null pointer and leaves it alone otherwise.  After
any sequence of allocator calls that returns, `live_allocs` is what it was plus
the number of allocations made minus the number of frees performed.  A
`circ_buf` push or shift that returns (growing or shrinking the storage or
not) leaves `live_allocs` as it was, and so do the allocator calls of `ptr_vec`
push and trim. -/
theorem C19_live_allocs (s : rust_rt) :
    s.malloc.live_allocs = s.live_allocs + 1 ∧ s.calloc.live_allocs = s.live_allocs + 1 ∧
    (∀ p, p ≠ 0 → 0 < s.live_allocs →
      ∃ t, s.free_blk p = Res.ok t ∧ t.live_allocs + 1 = s.live_allocs) ∧
    (∀ p, p ≠ 0 → s.live_allocs = 0 → s.free_blk p = Res.err (Err.fatal 1191)) ∧
    (∀ p, (s.realloc p).live_allocs = if p = 0 then s.live_allocs + 1 else s.live_allocs) ∧
    (∀ ops t, alloc_run s ops = Res.ok t →
      t.live_allocs + frees_made ops = s.live_allocs + allocs_made ops) ∧
    (∀ (b : circ_buf) src s1 b1, b.push s src = Res.ok (s1, b1) →
      s1.live_allocs = s.live_allocs) ∧
    (∀ (b : circ_buf) dst s1 b1, b.shift s dst = Res.ok (s1, b1) →
      s1.live_allocs = s.live_allocs) ∧
    (∀ (v : ptr_vec) data t, v.push_allocs s data = Res.ok t →
      t.live_allocs = s.live_allocs) ∧
    (∀ (v : ptr_vec) data sz t, v.trim_allocs s data sz = Res.ok t →
      t.live_allocs = s.live_allocs) := by
  refine ⟨rfl, rfl, ?_, ?_, ?_, fun ops t h => alloc_run_count ops s t h, ?_, ?_, ?_, ?_⟩
  · intro p hp hpos
    refine ⟨{ s with live_allocs := s.live_allocs - 1 }, ?_, ?_⟩
    · simp [rust_rt.free_blk, rust_rt.free, hp, hpos]
    · show s.live_allocs - 1 + 1 = s.live_allocs
      omega
  · intro p hp h0
    simp [rust_rt.free_blk, rust_rt.free, hp, h0]
  · intro p
    by_cases hp : p = 0 <;> simp [rust_rt.realloc, hp]
  · intro b src s1 b1 h
    rw [(push_inv h).1]
  · intro b dst s1 b1 h
    rw [(shift_inv h).1]
  · intro v data t h
    unfold ptr_vec.push_allocs at h
    simp only [I_bind_eq_ok, Res.pure_eq, ok_eq_ok] at h
    obtain ⟨hd, _, e⟩ := h
    rw [← e]
    split
    · simp [rust_rt.realloc, hd]
    · rfl
  · intro v data sz t h
    unfold ptr_vec.trim_allocs at h
    simp only [I_bind_eq_ok] at h
    obtain ⟨hd, h⟩ := h
    split at h
    · simp only [I_bind_eq_ok, Res.pure_eq, ok_eq_ok] at h
      rw [← h.2]
      simp [rust_rt.realloc, hd]
    · simp only [Res.pure_eq, ok_eq_ok] at h
      rw [h]

/-- The allocation counter on examples, from `demo_busy` with 16 live
allocations: a free leaves 15; with the counter at 0 a free stops at line
1191; a sequence of six calls (three allocations, two frees) ends with 17; the
push that grows the storage of `demo_full`, the shift that shrinks a buffer,
and a push and a trim of a full `ptr_vec` leave the counter as it was. -/
theorem C19_live_allocs_witness :
    (∃ t, demo_busy.free_blk 5 = Res.ok t ∧ t.live_allocs + 1 = 16) ∧
    ({ demo_busy with live_allocs := 0 } : rust_rt).free_blk 5 = Res.err (Err.fatal 1191) ∧
    ((alloc_run demo_busy [.malloc, .free 5, .realloc 0, .realloc 7, .calloc, .free 9]).getD
        demo_busy).live_allocs + 2 = 16 + 3 ∧
    ((circ_buf.push demo_bytes ⟨8, 1, 0, 8, [1, 2, 3, 4, 5, 6, 7, 8]⟩ 9).getD
        (demo_busy, ⟨0, 0, 0, 0, []⟩)).1.live_allocs = 16 ∧
    ((circ_buf.shift demo_bytes ⟨8, 1, 0, 1, [1, 0, 0, 0, 0, 0, 0, 0]⟩ 300).getD
        (demo_busy, ⟨0, 0, 0, 0, []⟩)).1.live_allocs = 16 ∧
    ((ptr_vec.push_allocs demo_busy ⟨8, 8, [1, 2, 3, 4, 5, 6, 7, 8]⟩ 0x4000).getD
        demo_none).live_allocs = 16 ∧
    ((ptr_vec.trim_allocs demo_busy ⟨16, 1, [1]⟩ 0x4000 1).getD demo_none).live_allocs = 16 :=
  ⟨(C19_live_allocs demo_busy).2.2.1 5 (by decide) (by decide),
   (C19_live_allocs { demo_busy with live_allocs := 0 }).2.2.2.1 5 (by decide) rfl,
   (C19_live_allocs demo_busy).2.2.2.2.2.1
     [.malloc, .free 5, .realloc 0, .realloc 7, .calloc, .free 9] _
     (Res.eq_ok_of_isOk demo_busy (by rfl)),
   (C19_live_allocs demo_bytes).2.2.2.2.2.2.1 ⟨8, 1, 0, 8, [1, 2, 3, 4, 5, 6, 7, 8]⟩ 9 _ _
     (Res.eq_ok_of_isOk (demo_busy, ⟨0, 0, 0, 0, []⟩) (by rfl)),
   (C19_live_allocs demo_bytes).2.2.2.2.2.2.2.1 ⟨8, 1, 0, 1, [1, 0, 0, 0, 0, 0, 0, 0]⟩ 300 _ _
     (Res.eq_ok_of_isOk (demo_busy, ⟨0, 0, 0, 0, []⟩) (by rfl)),
   (C19_live_allocs demo_busy).2.2.2.2.2.2.2.2.1 ⟨8, 8, [1, 2, 3, 4, 5, 6, 7, 8]⟩ 0x4000 _
     (Res.eq_ok_of_isOk demo_none (by rfl)),
   (C19_live_allocs demo_busy).2.2.2.2.2.2.2.2.2 ⟨16, 1, [1]⟩ 0x4000 1 _
     (Res.eq_ok_of_isOk demo_none (by rfl))⟩

/-! ## C20: growing the stack -/

/-- C20: in `demo_chain` the current segment of proc 1 has a next segment,
segment 2, with `0x300` usable bytes.  `upcall_grow_proc` for a frame of
`0x1000` bytes (so `K = 0x1000`) measures that segment as `limit` of segment 2
minus the start of the data of the current segment, `0x2300 - 0x1000 = 0x1300`,
finds it big enough and reuses it: nothing is allocated, and the proc continues
on a segment with `0x300 < K` usable bytes.  For a frame of `0x1400` bytes the
same measure is too small and a segment with `0x1400` usable bytes is
allocated and linked between the segments 1 and 2. -/
theorem C20_grow_reuses_too_small_segment :
    (∃ t p, upcall_grow_proc demo_chain 1 16 0x1000 0x5000 = Res.ok t ∧
      t.live_allocs = demo_chain.live_allocs ∧ t.stks.length = 2 ∧
      t.procs.get 1 = some p ∧ p.stk = 2 ∧
      t.stks.get 2 = some ⟨1, 0, 0, 0, 0, 0x2300, 0x2000⟩ ∧
      0x2300 - 0x2000 < max min_stk_bytes 0x1000) ∧
    (∃ t p, upcall_grow_proc demo_chain 1 16 0x1400 0x5000 = Res.ok t ∧
      t.live_allocs = demo_chain.live_allocs + 1 ∧ t.procs.get 1 = some p ∧ p.stk = 3 ∧
      t.stks = [some ⟨0, 3, 0, 0, 0, 0x1300, 0x1000⟩, some ⟨3, 0, 0, 0, 0, 0x2300, 0x2000⟩,
        some ⟨1, 2, 0, 0, 0, 0x5000 + 0x1400, 0x5000⟩]) :=
  ⟨⟨_, _, Res.eq_ok_of_isOk demo_chain (by rfl), by decide, by decide, by rfl, by decide,
      by decide, by decide⟩,
   ⟨_, _, Res.eq_ok_of_isOk demo_chain (by rfl), by decide, by rfl, by decide, by decide⟩⟩

/-! ## C18: the end of the main loop -/

theorem del_all_procs_empty (fuel : Nat) (sel : vec_sel) (n : Nat) : ∀ (s t : rust_rt),
    del_all_procs fuel sel n s = Res.ok t → (t.vec sel).fill = 0 := by
  induction n with
  | zero =>
    intro s t h
    unfold del_all_procs at h
    split at h
    · rename_i h0
      simp only [Res.pure_eq, ok_eq_ok] at h
      rw [← h]
      exact h0
    · cases h
  | succ n ih =>
    intro s t h
    unfold del_all_procs at h
    split at h
    · rename_i h0
      simp only [Res.pure_eq, ok_eq_ok] at h
      rw [← h]
      exact h0
    · simp only at h
      rw [Res.bind_eq_ok] at h
      obtain ⟨proc, _, h⟩ := h
      rw [Res.bind_eq_ok] at h
      obtain ⟨s2, _, h⟩ := h
      exact ih s2 t h

theorem ptr_vec_delete_inv {s t : rust_rt} {sel : vec_sel} (h : ptr_vec_delete s sel = Res.ok t) :
    (s.vec sel).fill = 0 ∧ t = { s with live_allocs := s.live_allocs - 1 } := by
  unfold ptr_vec_delete at h
  simp only [I_bind_eq_ok] at h
  exact ⟨h.1, (free_inv h.2).1⟩

/-- C18: the end of `rust_main_loop`.  The loop of `del_all_procs` returns
only with its proc vector empty, and when the teardown of the runtime (the
destructor of the runtime, then those of its two proc vectors) returns, both
proc vectors are empty; the function then stops with the fatal of line 1759
(`leaked memory in rust main loop`) if and only if `live_allocs` is not 0, and
returns normally if and only if `live_allocs` is 0.  A fatal raised during the
teardown ends the function before the check. -/
theorem C18_teardown_leak_check (fuel : Nat) (s : rust_rt) :
    (∀ sel n t, del_all_procs fuel sel n s = Res.ok t → (t.vec sel).fill = 0) ∧
    (∀ t, s.destroy fuel = Res.ok t →
      t.running_procs.fill = 0 ∧ t.blocked_procs.fill = 0 ∧
      (main_loop_end fuel s = Res.err (Err.fatal 1759) ↔ t.live_allocs ≠ 0) ∧
      (main_loop_end fuel s = Res.ok t ↔ t.live_allocs = 0)) ∧
    (∀ e, s.destroy fuel = Res.err e → main_loop_end fuel s = Res.err e) := by
  refine ⟨fun sel n t h => del_all_procs_empty fuel sel n s t h, ?_, ?_⟩
  · intro t ht
    have hfill : t.running_procs.fill = 0 ∧ t.blocked_procs.fill = 0 := by
      unfold rust_rt.destroy at ht
      rw [Res.bind_eq_ok] at ht
      obtain ⟨s1, _, ht⟩ := ht
      rw [Res.bind_eq_ok] at ht
      obtain ⟨s2, _, ht⟩ := ht
      rw [Res.bind_eq_ok] at ht
      obtain ⟨s3, _, ht⟩ := ht
      rw [Res.bind_eq_ok] at ht
      obtain ⟨s4, h4, ht⟩ := ht
      obtain ⟨a1, a2⟩ := ptr_vec_delete_inv h4
      obtain ⟨b1, b2⟩ := ptr_vec_delete_inv ht
      rw [b2, a2]
      rw [a2] at b1
      exact ⟨b1, a1⟩
    refine ⟨hfill.1, hfill.2, ?_, ?_⟩
    · by_cases h0 : t.live_allocs = 0
      · simp [main_loop_end, ht, h0]
      · simp [main_loop_end, ht, h0]
    · by_cases h0 : t.live_allocs = 0
      · simp [main_loop_end, ht, h0]
      · simp [main_loop_end, ht, h0]
  · intro e he
    simp [main_loop_end, he]

/-- The end of the main loop on examples.  From `demo_blocked` with 16 live
allocations the teardown deletes proc 1, its stack segment, port 1 and the two
vectors, leaving 10: the function stops with the leak fatal; started with 6
live allocations it returns normally.  A whole run of `rust_main_loop` in which
the root proc calls `upcall_malloc` once and exits ends in the leak fatal; a
run in which it exits at once, or frees the block before it exits, returns
normally. -/
theorem C18_teardown_leak_check_witness :
    ((demo_blocked.destroy 16).getD demo_busy).live_allocs = 10 ∧
    (main_loop_end 16 demo_blocked = Res.err (Err.fatal 1759) ↔
      ((demo_blocked.destroy 16).getD demo_busy).live_allocs ≠ 0) ∧
    main_loop_end 16 demo_blocked = Res.err (Err.fatal 1759) ∧
    ((({ demo_blocked with live_allocs := 6 } : rust_rt).destroy 16).getD
        demo_busy).running_procs.fill = 0 ∧
    (main_loop_end 16 { demo_blocked with live_allocs := 6 }).isOk = true ∧
    rust_main_loop ⟨0, 0x9000, 16⟩ demo_mem 0x100 0x200 0x1000
        [⟨.calling_c, 5, [300, 64]⟩, ⟨.blocked_exited, 0, []⟩] = Res.err (Err.fatal 1759) ∧
    (rust_main_loop ⟨0, 0x9000, 16⟩ demo_mem 0x100 0x200 0x1000
        [⟨.blocked_exited, 0, []⟩]).isOk = true ∧
    (rust_main_loop ⟨0, 0x9000, 16⟩ demo_mem 0x100 0x200 0x1000
        [⟨.calling_c, 5, [300, 64]⟩, ⟨.calling_c, 6, [0x9000]⟩,
         ⟨.blocked_exited, 0, []⟩]).isOk = true :=
  ⟨by decide,
   ((C18_teardown_leak_check 16 demo_blocked).2.1 _
      (Res.eq_ok_of_isOk demo_busy (by rfl))).2.2.1,
   by rfl,
   ((C18_teardown_leak_check 16 { demo_blocked with live_allocs := 6 }).2.1 _
      (Res.eq_ok_of_isOk demo_busy (by rfl))).1,
   by rfl, by rfl, by rfl, by rfl⟩

/-! ## C28: the null port -/

/-- C28, as stated, fails for `upcall_recv`: proc 1 of `demo_idle`, in
calling-host, receives on the null port, and the call stops at the assertion
`I(rt, port)` of line 1433 instead of returning. -/
theorem C28_recv_null_port_fatal_counterexample :
    upcall_recv demo_idle 1 0 7 = Res.err (Err.fatal 1433) := by
  rfl

/-- C28, amended: for a live proc `p`, `upcall_send` on the null port returns
without a fatal and leaves the whole runtime state as it was (the state of the
proc, both proc vectors, every channel and port), whatever the source address
is; `upcall_recv` on the null port stops at the assertion `I(rt, port)` of
line 1433, whatever the random value is. -/
theorem C28_null_port (s : rust_rt) (p : Ptr) (rec : rust_proc) (a r : Nat)
    (hp : s.procs.get p = some rec) :
    upcall_send s p 0 a = Res.ok s ∧ upcall_recv s p 0 r = Res.err (Err.fatal 1433) := by
  constructor
  · simp [upcall_send, Store.deref_of_get hp]
  · simp [upcall_recv, Store.deref_of_get hp, I]

/-- The null port on an example: proc 2 of `demo_busy` sends from address 200
to the null port and nothing changes; its receive on the null port stops. -/
theorem C28_null_port_witness :
    upcall_send demo_busy 2 0 200 = Res.ok demo_busy ∧
    upcall_recv demo_busy 2 0 3 = Res.err (Err.fatal 1433) :=
  C28_null_port demo_busy 2 (demo_proc 2 .calling_c 1 [] [1, 200]) 200 3 (by decide)

/-! ## C29: the next power of two -/

/-- One statement `tmp |= tmp >> m` doubles the window of bits collected. -/
theorem smear_step (x t m : Nat)
    (h : ∀ i, t.testBit i = (List.range m).any fun j => x.testBit (i + j)) (i : Nat) :
    (t ||| (t >>> m)).testBit i = (List.range (m + m)).any fun j => x.testBit (i + j) := by
  rw [Nat.testBit_lor, Nat.testBit_shiftRight, h, h, List.range_add, List.any_append,
    List.any_map]
  congr 1
  congr 1
  funext j
  show x.testBit (m + i + j) = x.testBit (i + (m + j))
  congr 1
  omega

/-- A number below `2 ^ m` whose bits are collected over windows of `m` places
becomes `2 ^ k - 1`, `k` being its number of binary digits. -/
theorem smear_window (x m : Nat) (hx : x < 2 ^ m) (t : Nat)
    (h : ∀ i, t.testBit i = (List.range m).any fun j => x.testBit (i + j)) :
    t = 2 ^ x.size - 1 := by
  apply Nat.eq_of_testBit_eq
  intro i
  rw [h, Nat.testBit_two_pow_sub_one]
  have hsz : x.size ≤ m := Nat.size_le.2 hx
  by_cases hi : i < x.size
  · rw [decide_eq_true hi, List.any_eq_true]
    have hx0 : x ≠ 0 := by
      intro e
      rw [e, Nat.size_zero] at hi
      omega
    refine ⟨x.size - 1 - i, List.mem_range.2 (by omega), ?_⟩
    have e : i + (x.size - 1 - i) = x.size - 1 := by omega
    rw [e]
    by_contra hb
    have hb' : x.testBit (x.size - 1) = false := by simpa using hb
    have hlt : x < 2 ^ (x.size - 1) := by
      apply Nat.lt_of_testBit (x.size - 1) hb' (Nat.testBit_two_pow_self)
      intro j hj
      rw [Nat.testBit_two_pow]
      have hne : ¬ (x.size - 1 = j) := by omega
      simp only [hne, decide_False]
      apply Nat.testBit_eq_false_of_lt
      calc x < 2 ^ x.size := Nat.lt_size_self x
        _ ≤ 2 ^ j := Nat.pow_le_pow_right (by decide) (by omega)
    have := Nat.size_le.2 hlt
    omega
  · rw [decide_eq_false hi]
    apply Bool.eq_false_iff.2
    intro hany
    rw [List.any_eq_true] at hany
    obtain ⟨j, _, hj⟩ := hany
    have : x.testBit (i + j) = false := by
      apply Nat.testBit_eq_false_of_lt
      calc x < 2 ^ x.size := Nat.lt_size_self x
        _ ≤ 2 ^ (i + j) := Nat.pow_le_pow_right (by decide) (by omega)
    rw [this] at hj
    cases hj

theorem bit_window_one (x : Nat) :
    ∀ i, x.testBit i = (List.range 1).any fun j => x.testBit (i + j) := by
  intro i
  show _ = (List.range (0 + 1)).any _
  rw [List.range_succ]
  simp

theorem WORD_MOD_eq : WORD_MOD = 4294967296 := by decide

theorem wsub_eq (a b : Nat) : wsub a b = (a + 4294967296 - b % 4294967296) % 4294967296 := by
  unfold wsub
  rw [WORD_MOD_eq]

theorem next_power_of_two_eq (n : Nat) (h1 : 1 ≤ n) (h2 : n ≤ 4294967296) :
    next_power_of_two n = 2 ^ (n - 1).size % 4294967296 := by
  have hx : n - 1 < 2 ^ 32 := by omega
  have h1' := smear_step (n - 1) _ 1 (bit_window_one (n - 1))
  have h2' := smear_step (n - 1) _ 2 h1'
  have h3' := smear_step (n - 1) _ 4 h2'
  have h4' := smear_step (n - 1) _ 8 h3'
  have h5' := smear_step (n - 1) _ 16 h4'
  have key := smear_window (n - 1) 32 hx _ h5'
  have hpos : 0 < 2 ^ (n - 1).size := Nat.pos_pow_of_pos _ (by decide)
  have hw : wsub n 1 = n - 1 := by
    rw [wsub_eq]
    omega
  unfold next_power_of_two
  rw [hw, WORD_MOD_eq]
  dsimp only
  rw [key]
  have e : 2 ^ (n - 1).size - 1 + 1 = 2 ^ (n - 1).size := by omega
  rw [e]

theorem next_power_of_two_64_eq (n : Nat) (h1 : 1 ≤ n) (h2 : n ≤ 18446744073709551616) :
    next_power_of_two_64 n = 2 ^ (n - 1).size % 18446744073709551616 := by
  have hx : n - 1 < 2 ^ 64 := by omega
  have h1' := smear_step (n - 1) _ 1 (bit_window_one (n - 1))
  have h2' := smear_step (n - 1) _ 2 h1'
  have h3' := smear_step (n - 1) _ 4 h2'
  have h4' := smear_step (n - 1) _ 8 h3'
  have h5' := smear_step (n - 1) _ 16 h4'
  have h6' := smear_step (n - 1) _ 32 h5'
  have key := smear_window (n - 1) 64 hx _ h6'
  have hpos : 0 < 2 ^ (n - 1).size := Nat.pos_pow_of_pos _ (by decide)
  have hw : (n + 18446744073709551616 - 1) % 18446744073709551616 = n - 1 := by omega
  unfold next_power_of_two_64
  rw [hw]
  dsimp only
  rw [key]
  have e : 2 ^ (n - 1).size - 1 + 1 = 2 ^ (n - 1).size := by omega
  rw [e]

/-- The power `2 ^ size (n - 1)` is the least power of two that is at least
`n`, and it is below `2 * n`. -/
theorem least_power (n : Nat) (h1 : 1 ≤ n) :
    n ≤ 2 ^ (n - 1).size ∧ (∀ j, n ≤ 2 ^ j → 2 ^ (n - 1).size ≤ 2 ^ j) ∧
    (∀ k, n = 2 ^ k → 2 ^ (n - 1).size = n) ∧ 2 ^ (n - 1).size < 2 * n := by
  have hlt : n - 1 < 2 ^ (n - 1).size := Nat.lt_size_self _
  have hmin : ∀ j, n ≤ 2 ^ j → 2 ^ (n - 1).size ≤ 2 ^ j := by
    intro j hj
    apply Nat.pow_le_pow_right (by decide)
    exact Nat.size_le.2 (by omega)
  refine ⟨by omega, hmin, ?_, ?_⟩
  · intro k hk
    have := hmin k (by omega)
    omega
  · by_cases h0 : (n - 1).size = 0
    · rw [h0]
      omega
    · have hge : 2 ^ ((n - 1).size - 1) ≤ n - 1 := by
        by_contra hc
        have := Nat.size_le.2 (show n - 1 < 2 ^ ((n - 1).size - 1) by omega)
        omega
      have e : 2 ^ (n - 1).size = 2 * 2 ^ ((n - 1).size - 1) := by
        rw [← Nat.pow_succ']
        congr 1
        omega
      omega


/-- C29, as stated, fails: `2 ^ 31 + 1` is representable in a `size_t` of 32
bits, and `next_power_of_two` returns 0 for it, which is no power of two and is
below the argument; so does the 64-bit build for `2 ^ 63 + 1`, and so do both
for the largest value of `size_t`. -/
theorem C29_above_half_range_counterexample :
    next_power_of_two (2 ^ 31 + 1) = 0 ∧ next_power_of_two (2 ^ 32 - 1) = 0 ∧
    next_power_of_two_64 (2 ^ 63 + 1) = 0 ∧ next_power_of_two_64 (2 ^ 64 - 1) = 0 := by
  decide

/-- C29, amended: for `1 ≤ n ≤ 2 ^ (w - 1)`, `w` being the width of `size_t`
(32 in `next_power_of_two`, 64 in the build `next_power_of_two_64`), the result
is a power of two, is at least `n`, is the smallest such value, equals `n` when
`n` is a power of two and is below `2 * n`; for `2 ^ (w - 1) < n < 2 ^ w` the
result is 0, no power of two being representable. -/
theorem C29_next_power_of_two (n : Nat) (h1 : 1 ≤ n) :
    (n ≤ 2 ^ 31 →
      (∃ k, next_power_of_two n = 2 ^ k) ∧ n ≤ next_power_of_two n ∧
      (∀ j, n ≤ 2 ^ j → next_power_of_two n ≤ 2 ^ j) ∧
      (∀ k, n = 2 ^ k → next_power_of_two n = n) ∧ next_power_of_two n < 2 * n) ∧
    (2 ^ 31 < n → n < 2 ^ 32 → next_power_of_two n = 0) ∧
    (n ≤ 2 ^ 63 →
      (∃ k, next_power_of_two_64 n = 2 ^ k) ∧ n ≤ next_power_of_two_64 n ∧
      (∀ j, n ≤ 2 ^ j → next_power_of_two_64 n ≤ 2 ^ j) ∧
      (∀ k, n = 2 ^ k → next_power_of_two_64 n = n) ∧ next_power_of_two_64 n < 2 * n) ∧
    (2 ^ 63 < n → n < 2 ^ 64 → next_power_of_two_64 n = 0) := by
  obtain ⟨a, b, c, d⟩ := least_power n h1
  refine ⟨?_, ?_, ?_, ?_⟩
  · intro h2
    have hlt : 2 ^ (n - 1).size < 4294967296 := by
      have := b 31 h2
      omega
    have e : next_power_of_two n = 2 ^ (n - 1).size := by
      rw [next_power_of_two_eq n h1 (by omega)]
      exact Nat.mod_eq_of_lt hlt
    rw [e]
    exact ⟨⟨_, rfl⟩, a, b, c, d⟩
  · intro h2 h3
    have hs : (n - 1).size = 32 := by
      have hle : (n - 1).size ≤ 32 := Nat.size_le.2 (by omega)
      have hge : ¬ (n - 1).size ≤ 31 := by
        rw [Nat.size_le]
        omega
      omega
    rw [next_power_of_two_eq n h1 (by omega), hs]
    decide
  · intro h2
    have hlt : 2 ^ (n - 1).size < 18446744073709551616 := by
      have := b 63 h2
      omega
    have e : next_power_of_two_64 n = 2 ^ (n - 1).size := by
      rw [next_power_of_two_64_eq n h1 (by omega)]
      exact Nat.mod_eq_of_lt hlt
    rw [e]
    exact ⟨⟨_, rfl⟩, a, b, c, d⟩
  · intro h2 h3
    have hs : (n - 1).size = 64 := by
      have hle : (n - 1).size ≤ 64 := Nat.size_le.2 (by omega)
      have hge : ¬ (n - 1).size ≤ 63 := by
        rw [Nat.size_le]
        omega
      omega
    rw [next_power_of_two_64_eq n h1 (by omega), hs]
    decide

/-- The next power of two on examples: 5 gives 8, the power of two 64 gives
itself, `2 ^ 31` gives itself, and `2 ^ 31 + 5` gives 0. -/
theorem C29_next_power_of_two_witness :
    ((∃ k, next_power_of_two 5 = 2 ^ k) ∧ 5 ≤ next_power_of_two 5 ∧
      (∀ j, 5 ≤ 2 ^ j → next_power_of_two 5 ≤ 2 ^ j) ∧
      (∀ k, 5 = 2 ^ k → next_power_of_two 5 = 5) ∧ next_power_of_two 5 < 2 * 5) ∧
    next_power_of_two 5 = 8 ∧ next_power_of_two 64 = 64 ∧
    next_power_of_two (2 ^ 31) = 2 ^ 31 ∧
    next_power_of_two (2 ^ 31 + 5) = 0 ∧ next_power_of_two_64 (2 ^ 63 + 5) = 0 :=
  ⟨(C29_next_power_of_two 5 (by decide)).1 (by decide), by decide, by decide, by decide,
   (C29_next_power_of_two (2 ^ 31 + 5) (by decide)).2.1 (by decide) (by decide),
   (C29_next_power_of_two (2 ^ 63 + 5) (by decide)).2.2.2 (by decide) (by decide)⟩

/-! ## C30: the log mask -/

theorem strstr_iff (c key : List Char) : strstr c key = true ↔ key <:+: c := by
  induction c with
  | nil =>
    unfold strstr
    rw [List.infix_nil, List.isEmpty_iff]
  | cons x xs ih =>
    unfold strstr
    rw [Bool.or_eq_true, ih, List.infix_cons_iff, List.isPrefixOf_iff_prefix]

/-- A block without a comma that occurs in `a ++ ',' :: b` occurs in `a` or in
`b`. -/
theorem infix_comma (n a b : List Char) (hn : ',' ∉ n) :
    n <:+: a ++ ',' :: b ↔ n <:+: a ∨ n <:+: b := by
  constructor
  · rintro ⟨s, t, hst⟩
    rw [List.append_assoc, List.append_eq_append_iff] at hst
    rcases hst with ⟨a1, ha, h2⟩ | ⟨c1, hs, h2⟩
    · rw [List.append_eq_append_iff] at h2
      rcases h2 with ⟨x, hx, _⟩ | ⟨y, hy, h3⟩
      · left
        exact ⟨s, x, by rw [ha, hx, List.append_assoc]⟩
      · cases y with
        | nil =>
          left
          rw [List.append_nil] at hy
          exact ⟨s, [], by rw [ha, hy, List.append_nil]⟩
        | cons z y1 =>
          exfalso
          rw [List.cons_append, List.cons_eq_cons] at h3
          apply hn
          rw [hy, ← h3.1]
          simp
    · cases c1 with
      | nil =>
        rw [List.nil_append] at h2
        cases n with
        | nil => exact Or.inl List.nil_infix
        | cons z n1 =>
          exfalso
          rw [List.cons_append, List.cons_eq_cons] at h2
          apply hn
          rw [← h2.1]
          simp
      | cons z c2 =>
        right
        rw [List.cons_append, List.cons_eq_cons] at h2
        exact ⟨c2, t, by rw [List.append_assoc]; exact h2.2.symm⟩
  · rintro (h | h)
    · exact h.trans (List.prefix_append _ _).isInfix
    · exact h.trans ((List.suffix_cons _ _).trans (List.suffix_append _ _)).isInfix

theorem strstr_comma (n a b : List Char) (hn : ',' ∉ n) :
    strstr (a ++ ',' :: b) n = (strstr a n || strstr b n) := by
  rw [Bool.eq_iff_iff, Bool.or_eq_true, strstr_iff, strstr_iff, strstr_iff]
  exact infix_comma n a b hn

/-- A block without a comma occurs in a list of keywords exactly when it
occurs in one of the keywords. -/
theorem strstr_keyword_list (n : List Char) (hn : ',' ∉ n) (h0 : n ≠ []) :
    ∀ ks : List Keyword, strstr (keyword_list ks) n = ks.any fun k => strstr k.text n
  | [] => by
    cases n with
    | nil => exact absurd rfl h0
    | cons x xs => rfl
  | [k] => by
    simp [keyword_list]
  | k :: k1 :: ks => by
    have ih := strstr_keyword_list n hn h0 (k1 :: ks)
    show strstr (k.text ++ ',' :: keyword_list (k1 :: ks)) n = _
    rw [strstr_comma n _ _ hn, ih]
    rfl

theorem get_logbits_flags (c : List Char) :
    get_logbits (some c) =
      flags_mask (strstr c "err".toList) (strstr c "mem".toList) (strstr c "comm".toList)
        (strstr c "proc".toList) (strstr c "up".toList) (strstr c "rt".toList)
        (strstr c "ulog".toList) (strstr c "trace".toList) (strstr c "all".toList) := by
  unfold get_logbits flags_mask
  simp only [Bool.cond_eq_ite]

theorem flags_mask_or (k : Keyword) : ∀ e m c p u r g t a : Bool,
    flags_mask (strstr k.text "err".toList || e) (strstr k.text "mem".toList || m)
      (strstr k.text "comm".toList || c) (strstr k.text "proc".toList || p)
      (strstr k.text "up".toList || u) (strstr k.text "rt".toList || r)
      (strstr k.text "ulog".toList || g) (strstr k.text "trace".toList || t)
      (strstr k.text "all".toList || a) =
    get_logbits (some k.text) ||| flags_mask e m c p u r g t a := by
  cases k <;> decide

/-- The mask of a list of keywords is the union of the masks of its keywords
taken alone. -/
theorem get_logbits_keyword_list (ks : List Keyword) :
    get_logbits (some (keyword_list ks)) = union_of_single ks := by
  rw [get_logbits_flags, strstr_keyword_list _ (by decide) (by decide),
    strstr_keyword_list _ (by decide) (by decide),
    strstr_keyword_list _ (by decide) (by decide),
    strstr_keyword_list _ (by decide) (by decide),
    strstr_keyword_list _ (by decide) (by decide),
    strstr_keyword_list _ (by decide) (by decide),
    strstr_keyword_list _ (by decide) (by decide),
    strstr_keyword_list _ (by decide) (by decide),
    strstr_keyword_list _ (by decide) (by decide)]
  induction ks with
  | nil => rfl
  | cons k ks ih =>
    simp only [List.any_cons]
    rw [flags_mask_or, ih]
    rfl

theorem get_logbits_all (c : List Char) (h : strstr c "all".toList = true) :
    get_logbits (some c) = LOG_ALL := by
  rw [get_logbits_flags, h]
  rfl

theorem union_of_single_spec (ks : List Keyword)
    (h : ∀ k ∈ ks, k ≠ .upcall ∧ k ≠ .runtime ∧ k ≠ .user_log) :
    union_of_single ks = spec_logbits ks := by
  induction ks with
  | nil => rfl
  | cons k ks ih =>
    have hk := h k (List.mem_cons_self _ _)
    have e : get_logbits (some k.text) = k.bit := by
      cases k
      · decide
      · decide
      · decide
      · decide
      · exact absurd rfl hk.1
      · exact absurd rfl hk.2.1
      · exact absurd rfl hk.2.2
      · decide
      · decide
    show get_logbits (some k.text) ||| union_of_single ks = k.bit ||| spec_logbits ks
    rw [e, ih (fun k1 h1 => h k1 (List.mem_cons_of_mem _ h1))]

/-- C30, as stated, fails: the value `runtime` yields the empty mask, not
`LOG_RT`; the value `user-log` yields the empty mask, not `LOG_ULOG`; the value
`upcall` yields every bit, not `LOG_UPCALL` alone; and the list
`errors,runtime` yields `LOG_ERR` alone.  The source tests for the blocks `rt`
and `ulog`, which these keywords do not contain, and `upcall` contains the
block `all`. -/
theorem C30_keyword_mismatch_counterexample :
    get_logbits (some "runtime".toList) = 0 ∧ get_logbits (some "user-log".toList) = 0 ∧
    get_logbits (some "upcall".toList) = 0xffffffff ∧
    get_logbits (some "errors,runtime".toList) = LOG_ERR ∧
    spec_logbits [.runtime] = LOG_RT ∧ spec_logbits [.user_log] = LOG_ULOG ∧
    spec_logbits [.upcall] = LOG_UPCALL ∧ spec_logbits [.errors, .runtime] = LOG_ERR ||| LOG_RT := by
  decide

/-- C30, amended: `get_logbits` returns `LOG_ULOG | LOG_ERR` when `RUST_LOG` is
unset.  When it is set to a comma-separated list of keywords, the mask is the
union of the masks the keywords yield alone: `LOG_ERR` for `errors`, `LOG_MEM`
for `memory`, `LOG_COMM` for `communication`, `LOG_PROC` for `proc`, `LOG_TRACE`
for `trace`, nothing for `runtime` and for `user-log`, every bit for `upcall`
and for `all`.  So a list of the keywords errors, memory, communication, proc,
trace and all yields exactly the union of the named categories, and a list that
names `all` or `upcall` yields every bit. -/
theorem C30_get_logbits (ks : List Keyword) :
    get_logbits none = LOG_ULOG ||| LOG_ERR ∧
    get_logbits (some (keyword_list ks)) = union_of_single ks ∧
    (get_logbits (some Keyword.errors.text) = LOG_ERR ∧
      get_logbits (some Keyword.memory.text) = LOG_MEM ∧
      get_logbits (some Keyword.communication.text) = LOG_COMM ∧
      get_logbits (some Keyword.proc.text) = LOG_PROC ∧
      get_logbits (some Keyword.trace.text) = LOG_TRACE ∧
      get_logbits (some Keyword.runtime.text) = 0 ∧
      get_logbits (some Keyword.user_log.text) = 0 ∧
      get_logbits (some Keyword.upcall.text) = LOG_ALL ∧
      get_logbits (some Keyword.all.text) = LOG_ALL) ∧
    ((∀ k ∈ ks, k ≠ .upcall ∧ k ≠ .runtime ∧ k ≠ .user_log) →
      get_logbits (some (keyword_list ks)) = spec_logbits ks) ∧
    (Keyword.all ∈ ks ∨ Keyword.upcall ∈ ks →
      get_logbits (some (keyword_list ks)) = LOG_ALL) := by
  refine ⟨rfl, get_logbits_keyword_list ks, by decide, ?_, ?_⟩
  · intro h
    rw [get_logbits_keyword_list, union_of_single_spec ks h]
  · intro h
    apply get_logbits_all
    rw [strstr_keyword_list _ (by decide) (by decide), List.any_eq_true]
    rcases h with h | h
    · exact ⟨_, h, by decide⟩
    · exact ⟨_, h, by decide⟩

/-- The log mask on examples: the list `errors,memory,communication,proc,trace`
yields the five bits named; the list `proc,all,errors` yields every bit. -/
theorem C30_get_logbits_witness :
    get_logbits (some "errors,memory,communication,proc,trace".toList) =
      LOG_ERR ||| LOG_MEM ||| LOG_COMM ||| LOG_PROC ||| LOG_TRACE ∧
    get_logbits (some (keyword_list [.errors, .memory, .communication, .proc, .trace])) =
      spec_logbits [.errors, .memory, .communication, .proc, .trace] ∧
    get_logbits (some (keyword_list [.proc, .all, .errors])) = LOG_ALL :=
  ⟨by decide,
   (C30_get_logbits [.errors, .memory, .communication, .proc, .trace]).2.2.2.1 (by decide),
   (C30_get_logbits [.proc, .all, .errors]).2.2.2.2 (by decide)⟩

/-! ## C25: a new port -/

theorem port_chain_cons_iff {H : Store rust_port} {p : Ptr} {ps : List Ptr} {prev cur : Ptr} :
    port_chain H (p :: ps) prev cur ↔
      cur = p ∧ ∃ r, H.get p = some r ∧ r.prev = prev ∧ port_chain H ps p r.next := by
  rw [port_chain]
  cases h : H.get p with
  | none => simp
  | some r => simp

theorem port_chain_nil_iff {H : Store rust_port} {prev cur : Ptr} :
    port_chain H [] prev cur ↔ cur = 0 := by
  unfold port_chain
  rfl

/-- The chain of a list of ports depends on the records of these ports only. -/
theorem port_chain_congr {H K : Store rust_port} : ∀ (l : List Ptr) (prev cur : Ptr),
    (∀ x ∈ l, K.get x = H.get x) → port_chain H l prev cur → port_chain K l prev cur
  | [], _, _, _, h => by
    rw [port_chain_nil_iff] at h ⊢
    exact h
  | p :: ps, prev, cur, hx, h => by
    rw [port_chain_cons_iff] at h ⊢
    obtain ⟨h1, r, h2, h3, h4⟩ := h
    refine ⟨h1, r, ?_, h3, ?_⟩
    · rw [hx p (List.mem_cons_self _ _)]
      exact h2
    · exact port_chain_congr ps p r.next (fun x hm => hx x (List.mem_cons_of_mem _ hm)) h4

/-- The ports of a chain are live. -/
theorem port_chain_live {H : Store rust_port} : ∀ (l : List Ptr) (prev cur : Ptr),
    port_chain H l prev cur → ∀ x ∈ l, ∃ r, H.get x = some r
  | [], _, _, _, x, hx => by cases hx
  | p :: ps, prev, cur, h, x, hx => by
    rw [port_chain_cons_iff] at h
    obtain ⟨_, r, h2, _, h4⟩ := h
    rcases List.mem_cons.1 hx with e | e
    · exact ⟨r, by rw [e]; exact h2⟩
    · exact port_chain_live ps p r.next h4 x e

/-- The head of a chain is the first port of the list, the null pointer for an
empty list. -/
theorem port_chain_head {H : Store rust_port} {l : List Ptr} {prev cur : Ptr}
    (h : port_chain H l prev cur) : cur = l.headD 0 := by
  cases l with
  | nil => exact port_chain_nil_iff.1 h
  | cons p ps => exact (port_chain_cons_iff.1 h).1

/-- What `upcall_new_port` returns for a live proc and a well-formed port list. -/
theorem new_port_ok {s : rust_rt} {proc : Ptr} {rec : rust_proc} (u : Nat) {l : List Ptr}
    (hp : s.procs.get proc = some rec) (hl : ports_are s l) :
    ∃ heap : Store rust_port, upcall_new_port s proc u =
      Res.ok ({ s with live_allocs := s.live_allocs + 1 + 1,
                       port_heap := heap ++ [some
                         { live_refcnt := 1, weak_refcnt := 0, proc := proc, next := s.ports,
                           prev := 0, unit_sz := u, writers := ptr_vec.init }],
                       ports := s.port_heap.length + 1 }, s.port_heap.length + 1) ∧
      heap.length = s.port_heap.length ∧
      (∀ x, x ≠ s.ports → heap.get x = s.port_heap.get x) ∧
      (∀ h, s.port_heap.get s.ports = some h →
        heap.get s.ports = some { h with prev := s.port_heap.length + 1 }) := by
  by_cases h0 : s.ports = 0
  · refine ⟨s.port_heap, ?_, rfl, fun _ _ => rfl, ?_⟩
    · simp [upcall_new_port, Store.deref_of_get hp, rust_rt.malloc, h0, Store.alloc]
    · intro h hh
      rw [h0, Store.get_zero] at hh
      cases hh
  · have hmem : s.ports ∈ l := by
      have := port_chain_head hl.1
      cases l with
      | nil => exact absurd this h0
      | cons p ps =>
        rw [this]
        exact List.mem_cons_self _ _
    obtain ⟨h, hh⟩ := port_chain_live l 0 s.ports hl.1 s.ports hmem
    refine ⟨s.port_heap.put s.ports { h with prev := s.port_heap.length + 1 }, ?_, ?_, ?_, ?_⟩
    · simp [upcall_new_port, Store.deref_of_get hp, rust_rt.malloc, h0, Store.alloc,
        Store.deref_of_get hh, Store.length_put]
    · exact Store.length_put _ _ _
    · intro x hx
      exact Store.get_put_ne _ hx
    · intro h1 hh1
      rw [hh] at hh1
      cases hh1
      exact Store.get_put_self _ hh

/-- C25: for a live proc and a well-formed port list `l`, `upcall_new_port`
returns a port that was not allocated before, whose owner is the proc, whose
unit size is `u`, whose weak refcount is 0, whose live refcount is 1 and whose
writers vector is empty.  The port is the new head of the runtime port list, its
`next` is the previous head and its `prev` is null; the previous head, if there
is one, is changed in its `prev` only, which names the new port; every other
port is unchanged, so the port list is `port :: l`.  The procs and channels are
unchanged, and two allocations are added (the port and the storage of its
writers vector). -/
theorem C25_new_port (s : rust_rt) (proc : Ptr) (rec : rust_proc) (u : Nat) (l : List Ptr)
    (hp : s.procs.get proc = some rec) (hl : ports_are s l) :
    ∃ t port pt, upcall_new_port s proc u = Res.ok (t, port) ∧
      s.port_heap.get port = none ∧ t.port_heap.get port = some pt ∧
      pt.proc = proc ∧ pt.unit_sz = u ∧ pt.weak_refcnt = 0 ∧ pt.live_refcnt = 1 ∧
      pt.writers.fill = 0 ∧
      t.ports = port ∧ pt.next = s.ports ∧ pt.prev = 0 ∧
      (∀ h, s.port_heap.get s.ports = some h →
        t.port_heap.get s.ports = some { h with prev := port }) ∧
      (∀ x, x ≠ port → x ≠ s.ports → t.port_heap.get x = s.port_heap.get x) ∧
      ports_are t (port :: l) ∧
      t.procs = s.procs ∧ t.chan_heap = s.chan_heap ∧ t.mem = s.mem ∧
      t.running_procs = s.running_procs ∧ t.blocked_procs = s.blocked_procs ∧
      t.live_allocs = s.live_allocs + 2 := by
  obtain ⟨heap, hok, hlen, hfar, hhead⟩ := new_port_ok u hp hl
  have hget : ∀ x, (heap ++ [some
      ({ live_refcnt := 1, weak_refcnt := 0, proc := proc, next := s.ports,
         prev := 0, unit_sz := u, writers := ptr_vec.init } : rust_port)]).get x =
      if x = s.port_heap.length + 1 then some
        { live_refcnt := 1, weak_refcnt := 0, proc := proc, next := s.ports,
          prev := 0, unit_sz := u, writers := ptr_vec.init } else heap.get x := by
    intro x
    rw [← hlen]
    exact Store.get_alloc heap _ x
  have hfresh : s.port_heap.get (s.port_heap.length + 1) = none :=
    Store.get_of_length_lt _ (by omega)
  have hlive : ∀ x ∈ l, x ≠ s.port_heap.length + 1 := by
    intro x hx e
    obtain ⟨r, hr⟩ := port_chain_live l 0 s.ports hl.1 x hx
    rw [e, hfresh] at hr
    cases hr
  refine ⟨_, _, (⟨1, 0, proc, s.ports, 0, u, ptr_vec.init⟩ : rust_port),
    hok, hfresh, ?_, rfl, rfl, rfl, rfl, rfl, rfl, rfl, rfl, ?_, ?_, ?_, rfl, rfl,
    rfl, rfl, rfl, rfl⟩
  · show (heap ++ _).get _ = _
    rw [hget, if_pos rfl]
  · intro h hh
    show (heap ++ _).get _ = _
    rw [hget, if_neg, hhead h hh]
    intro e
    rw [e, hfresh] at hh
    cases hh
  · intro x h1 h2
    show (heap ++ _).get _ = _
    rw [hget, if_neg h1, hfar x h2]
  · refine ⟨?_, List.nodup_cons.2 ⟨fun hm => hlive _ hm rfl, hl.2⟩⟩
    show port_chain (heap ++ _) _ 0 (s.port_heap.length + 1)
    rw [port_chain_cons_iff]
    refine ⟨rfl, _, by rw [hget, if_pos rfl], rfl, ?_⟩
    show port_chain (heap ++ _) l (s.port_heap.length + 1) s.ports
    have hc := hl.1
    cases l with
    | nil =>
      rw [port_chain_nil_iff] at hc ⊢
      exact hc
    | cons q qs =>
      rw [port_chain_cons_iff] at hc ⊢
      obtain ⟨e, r, hr, _, htail⟩ := hc
      have hq : q ≠ s.port_heap.length + 1 := hlive q (List.mem_cons_self _ _)
      refine ⟨e, { r with prev := s.port_heap.length + 1 }, ?_, rfl, ?_⟩
      · rw [hget, if_neg hq, ← e]
        exact hhead r (by rw [e]; exact hr)
      · apply port_chain_congr qs q r.next _ htail
        intro x hx
        have hxq : x ≠ q := by
          intro e1
          rw [e1] at hx
          exact (List.nodup_cons.1 hl.2).1 hx
        rw [hget, if_neg (hlive x (List.mem_cons_of_mem _ hx)), hfar x (by rw [e]; exact hxq)]

/-- A new port on examples: in `demo_ports`, whose port list is `[3, 2, 1]`,
proc 2 gets port 4 with unit size 8, the list becomes `[4, 3, 2, 1]` and the
former head, port 3, names port 4 as its predecessor; in the runtime
`demo_none`, without procs and with port 1 alone, no port is made. -/
theorem C25_new_port_witness :
    (∃ t port pt, upcall_new_port demo_ports 2 8 = Res.ok (t, port) ∧
      demo_ports.port_heap.get port = none ∧ t.port_heap.get port = some pt ∧
      pt.proc = 2 ∧ pt.unit_sz = 8 ∧ pt.weak_refcnt = 0 ∧ pt.live_refcnt = 1 ∧
      pt.writers.fill = 0 ∧
      t.ports = port ∧ pt.next = demo_ports.ports ∧ pt.prev = 0 ∧
      (∀ h, demo_ports.port_heap.get demo_ports.ports = some h →
        t.port_heap.get demo_ports.ports = some { h with prev := port }) ∧
      (∀ x, x ≠ port → x ≠ demo_ports.ports →
        t.port_heap.get x = demo_ports.port_heap.get x) ∧
      ports_are t (port :: [3, 2, 1]) ∧
      t.procs = demo_ports.procs ∧ t.chan_heap = demo_ports.chan_heap ∧
      t.mem = demo_ports.mem ∧
      t.running_procs = demo_ports.running_procs ∧
      t.blocked_procs = demo_ports.blocked_procs ∧
      t.live_allocs = demo_ports.live_allocs + 2) ∧
    ((upcall_new_port demo_ports 2 8).getD (demo_busy, 0)).2 = 4 ∧
    ports_are ((upcall_new_port demo_ports 2 8).getD (demo_busy, 0)).1 [4, 3, 2, 1] ∧
    (upcall_new_port demo_none 1 8).stop = some Err.bad_ptr :=
  ⟨C25_new_port demo_ports 2 (demo_proc 2 .calling_c 1 [] [1, 200]) 8 [3, 2, 1] (by decide)
    (by decide), by decide, by decide, by decide⟩

/-! ## C26 and C27: the destruction of a port -/

/-- The neighbours a port of a chain names: its `next` is null or another port
of the chain, its `prev` is the predecessor of the chain when the port is the
head and another port of the chain otherwise. -/
theorem port_chain_neighbours {H : Store rust_port} {port : Ptr} {pt : rust_port}
    (hpt : H.get port = some pt) : ∀ (l : List Ptr) (prev cur : Ptr),
    port_chain H l prev cur → (prev :: l).Nodup → port ∈ l →
      (pt.next = 0 ∨ (pt.next ∈ l ∧ pt.next ≠ port)) ∧
      ((cur = port ∧ pt.prev = prev) ∨ (cur ≠ port ∧ pt.prev ∈ l ∧ pt.prev ≠ port)) ∧
      (pt.next ≠ 0 → pt.prev ≠ pt.next)
  | [], _, _, _, _, hm => by cases hm
  | p :: ps, prev, cur, h, hnd, hm => by
    rw [port_chain_cons_iff] at h
    obtain ⟨hcur, r, hr, hrp, htail⟩ := h
    have hnd1 : (p :: ps).Nodup := (List.nodup_cons.1 hnd).2
    have hprev : prev ∉ p :: ps := (List.nodup_cons.1 hnd).1
    by_cases hp : port = p
    · subst hp
      rw [hpt] at hr
      cases hr
      have hnx := port_chain_head htail
      have hnext : pt.next = 0 ∨ (pt.next ∈ port :: ps ∧ pt.next ≠ port) := by
        cases ps with
        | nil => exact Or.inl hnx
        | cons q qs =>
          right
          have e : pt.next = q := hnx
          rw [e]
          refine ⟨List.mem_cons_of_mem _ (List.mem_cons_self _ _), ?_⟩
          intro e1
          exact (List.nodup_cons.1 hnd1).1 (by rw [← e1]; exact List.mem_cons_self _ _)
      refine ⟨hnext, Or.inl ⟨hcur, hrp⟩, ?_⟩
      intro hn0 e
      rcases hnext with h0 | ⟨h1, _⟩
      · exact hn0 h0
      · rw [hrp] at e
        rw [← e] at h1
        exact hprev h1
    · have hmem : port ∈ ps := by
        rcases List.mem_cons.1 hm with e | e
        · exact absurd e hp
        · exact e
      obtain ⟨a, b, c⟩ := port_chain_neighbours hpt ps p r.next htail hnd1 hmem
      refine ⟨?_, Or.inr ⟨?_, ?_⟩, c⟩
      · rcases a with a | ⟨a1, a2⟩
        · exact Or.inl a
        · exact Or.inr ⟨List.mem_cons_of_mem _ a1, a2⟩
      · rw [hcur]
        exact fun e => hp e.symm
      · rcases b with ⟨_, b2⟩ | ⟨_, b2, b3⟩
        · rw [b2]
          exact ⟨List.mem_cons_self _ _, fun e => hp e.symm⟩
        · exact ⟨List.mem_cons_of_mem _ b2, b3⟩

/-- Unlinking a port from a chain: when the predecessor of the port takes over
its `next`, its successor takes over its `prev` and the other ports are left
alone, the remaining ports form a chain in their order. -/
theorem port_chain_unlink {H K : Store rust_port} {port : Ptr} {pt : rust_port}
    (hpt : H.get port = some pt)
    (hfar : ∀ x, x ≠ port → x ≠ pt.prev → x ≠ pt.next → K.get x = H.get x)
    (hprev : ∀ a, pt.prev ≠ 0 → H.get pt.prev = some a →
      K.get pt.prev = some { a with next := pt.next })
    (hnext : ∀ b, pt.next ≠ 0 → H.get pt.next = some b →
      K.get pt.next = some { b with prev := pt.prev }) :
    ∀ (l : List Ptr) (prev cur : Ptr),
      port_chain H l prev cur → (prev :: l).Nodup → port ∈ l →
      port_chain K (l.erase port) prev (if cur = port then pt.next else cur)
  | [], _, _, _, _, hm => by cases hm
  | p :: ps, prev, cur, h, hnd, hm => by
    have h' := h
    rw [port_chain_cons_iff] at h
    obtain ⟨hcur, r, hr, hrp, htail⟩ := h
    have hnd1 : (p :: ps).Nodup := (List.nodup_cons.1 hnd).2
    have hprev0 : prev ∉ p :: ps := (List.nodup_cons.1 hnd).1
    have hpps : p ∉ ps := (List.nodup_cons.1 hnd1).1
    by_cases hp : p = port
    · subst hp
      rw [hpt] at hr
      cases hr
      rw [List.erase_cons_head, if_pos hcur]
      cases ps with
      | nil =>
        rw [port_chain_nil_iff] at htail ⊢
        exact htail
      | cons q qs =>
        rw [port_chain_cons_iff] at htail ⊢
        obtain ⟨e, rq, hrq, _, hqs⟩ := htail
        have hq0 : pt.next ≠ 0 := by
          rw [e]
          exact Store.ne_zero_of_get hrq
        refine ⟨e, { rq with prev := pt.prev }, ?_, hrp, ?_⟩
        · have := hnext rq hq0 (by rw [e]; exact hrq)
          rw [e] at this
          exact this
        · apply port_chain_congr qs q rq.next _ hqs
          intro x hx
          apply hfar
          · intro e1
            rw [e1] at hx
            exact hpps (List.mem_cons_of_mem _ hx)
          · intro e1
            rw [hrp] at e1
            rw [e1] at hx
            exact hprev0 (List.mem_cons_of_mem _ (List.mem_cons_of_mem _ hx))
          · intro e1
            rw [e] at e1
            rw [e1] at hx
            exact (List.nodup_cons.1 (List.nodup_cons.1 hnd1).2).1 hx
    · have hmem : port ∈ ps := by
        rcases List.mem_cons.1 hm with e | e
        · exact absurd e.symm hp
        · exact e
      have hcp : ¬ cur = port := by
        rw [hcur]
        exact hp
      have he : (p :: ps).erase port = p :: ps.erase port := by
        rw [List.erase_cons_tail]
        simpa using hp
      rw [he, if_neg hcp, port_chain_cons_iff]
      have ih := port_chain_unlink hpt hfar hprev hnext ps p r.next htail hnd1 hmem
      obtain ⟨a, b, _⟩ := port_chain_neighbours hpt ps p r.next htail hnd1 hmem
      have hp0 : p ≠ 0 := Store.ne_zero_of_get hr
      by_cases hrn : r.next = port
      · rw [if_pos hrn] at ih
        have hpp : pt.prev = p := by
          rcases b with ⟨_, b2⟩ | ⟨b1, _⟩
          · exact b2
          · exact absurd hrn b1
        refine ⟨hcur, { r with next := pt.next }, ?_, hrp, ih⟩
        have := hprev r (by rw [hpp]; exact hp0) (by rw [hpp]; exact hr)
        rw [hpp] at this
        exact this
      · rw [if_neg hrn] at ih
        refine ⟨hcur, r, ?_, hrp, ih⟩
        rw [hfar p hp ?_ ?_]
        · exact hr
        · intro e
          rcases b with ⟨b1, _⟩ | ⟨_, b2, _⟩
          · exact hrn b1
          · rw [← e] at b2
            exact hpps b2
        · intro e
          rcases a with a | ⟨a1, _⟩
          · rw [← e] at a
            exact hp0 a
          · rw [← e] at a1
            exact hpps a1

theorem delete_writers_zero (w : ptr_vec) (i : Nat) (s : rust_rt) :
    delete_writers w 0 i s = Res.ok s := rfl

/-- What `delete port` returns for a port of a well-formed port list whose
writers vector is empty. -/
theorem port_delete_ok {s : rust_rt} {port : Ptr} {pt : rust_port} {l : List Ptr}
    (hpt : s.port_heap.get port = some pt) (hw : pt.writers.fill = 0)
    (hl : ports_are s l) (hm : port ∈ l) (ha : 2 ≤ s.live_allocs) :
    ∃ K : Store rust_port, rust_port.delete s port =
      Res.ok { s with live_allocs := s.live_allocs - 1 - 1, port_heap := K.free port,
                      ports := if port = s.ports then pt.next else s.ports } ∧
      (∀ x, x ≠ pt.prev → x ≠ pt.next → K.get x = s.port_heap.get x) ∧
      (∀ a, pt.prev ≠ 0 → s.port_heap.get pt.prev = some a →
        K.get pt.prev = some { a with next := pt.next }) ∧
      (∀ b, pt.next ≠ 0 → s.port_heap.get pt.next = some b →
        K.get pt.next = some { b with prev := pt.prev }) := by
  have hnd : (0 :: l).Nodup := by
    refine List.nodup_cons.2 ⟨?_, hl.2⟩
    intro h0
    obtain ⟨r, hr⟩ := port_chain_live l 0 s.ports hl.1 0 h0
    rw [Store.get_zero] at hr
    cases hr
  obtain ⟨a, b, c⟩ := port_chain_neighbours hpt l 0 s.ports hl.1 hnd hm
  have hp1 : 0 < s.live_allocs := by omega
  have hp2 : 0 < s.live_allocs - 1 := by omega
  unfold rust_port.delete
  rw [Store.deref_of_get hpt, Res.ok_bind, hw, delete_writers_zero, Res.ok_bind]
  rcases b with ⟨b1, b2⟩ | ⟨b1, b2, b3⟩
  · -- the port is the head of the list
    rcases a with a0 | ⟨a1, a2⟩
    · refine ⟨s.port_heap, ?_, fun _ _ _ => rfl, ?_, ?_⟩
      · simp [b2, a0, b1, rust_rt.free, I, hp1, hp2]
      · intro x hx
        exact absurd b2 hx
      · intro x hx
        exact absurd a0 hx
    · obtain ⟨nx, hnx⟩ := port_chain_live l 0 s.ports hl.1 _ a1
      have hn0 : pt.next ≠ 0 := Store.ne_zero_of_get hnx
      refine ⟨s.port_heap.put pt.next { nx with prev := pt.prev }, ?_, ?_, ?_, ?_⟩
      · simp [b2, b1, hn0, rust_rt.free, I, hp1, hp2, Store.deref_of_get hnx]
      · intro x _ hx
        exact Store.get_put_ne _ hx
      · intro x hx
        exact absurd b2 hx
      · intro x _ hx
        rw [hnx] at hx
        cases hx
        exact Store.get_put_self _ hnx
  · -- the port has a predecessor
    obtain ⟨pv, hpv⟩ := port_chain_live l 0 s.ports hl.1 _ b2
    have hv0 : pt.prev ≠ 0 := Store.ne_zero_of_get hpv
    have hne : ¬ port = s.ports := fun e => b1 e.symm
    rcases a with a0 | ⟨a1, a2⟩
    · refine ⟨s.port_heap.put pt.prev { pv with next := pt.next }, ?_, ?_, ?_, ?_⟩
      · simp [hv0, a0, hne, rust_rt.free, I, hp1, hp2, Store.deref_of_get hpv]
      · intro x hx _
        exact Store.get_put_ne _ hx
      · intro x _ hx
        rw [hpv] at hx
        cases hx
        exact Store.get_put_self _ hpv
      · intro x hx
        exact absurd a0 hx
    · obtain ⟨nx, hnx⟩ := port_chain_live l 0 s.ports hl.1 _ a1
      have hn0 : pt.next ≠ 0 := Store.ne_zero_of_get hnx
      have hpn : pt.next ≠ pt.prev := fun e => c hn0 e.symm
      have hnx1 : (s.port_heap.put pt.prev { pv with next := pt.next }).get pt.next = some nx := by
        rw [Store.get_put_ne _ hpn]
        exact hnx
      refine ⟨(s.port_heap.put pt.prev { pv with next := pt.next }).put pt.next
        { nx with prev := pt.prev }, ?_, ?_, ?_, ?_⟩
      · simp [hv0, hn0, hne, rust_rt.free, I, hp1, hp2, Store.deref_of_get hpv,
          Store.deref_of_get hnx1]
      · intro x hx1 hx2
        rw [Store.get_put_ne _ hx2, Store.get_put_ne _ hx1]
      · intro x _ hx
        rw [hpv] at hx
        cases hx
        rw [Store.get_put_ne _ (fun e => hpn e.symm)]
        exact Store.get_put_self _ hpv
      · intro x _ hx
        rw [hnx] at hx
        cases hx
        exact Store.get_put_self _ hnx1

/-- The destruction of a port whose writers vector is not empty never returns:
the destructor of the vector asserts `fill == 0` (line 449) after the loop over
the writers, which does not take them out of the vector. -/
theorem port_delete_writers_stop {s : rust_rt} {port : Ptr} {pt : rust_port}
    (hpt : s.port_heap.get port = some pt) (hw : 0 < pt.writers.fill) (t : rust_rt) :
    rust_port.delete s port ≠ Res.ok t := by
  intro h
  unfold rust_port.delete at h
  rw [Store.deref_of_get hpt, Res.ok_bind] at h
  rw [Res.bind_eq_ok] at h
  obtain ⟨s1, _, h⟩ := h
  rw [Res.bind_eq_ok] at h
  obtain ⟨s2, _, h⟩ := h
  rw [Res.bind_eq_ok] at h
  obtain ⟨s3, _, h⟩ := h
  simp only [I_bind_eq_ok] at h
  omega

/-- The destruction of a port stops at the assertion `unread == 0` of the
destructor of `circ_buf` (line 528) when the first channel of its writers vector
holds data. -/
theorem port_delete_buffered_fatal {s : rust_rt} {port c : Ptr} {pt cp : rust_port}
    {ch : rust_chan} {o : rust_proc}
    (hpt : s.port_heap.get port = some pt) (hw : 0 < pt.writers.fill)
    (hc : pt.writers.data[0]? = some c) (hch : s.chan_heap.get c = some ch)
    (hcp : s.port_heap.get ch.port = some cp) (ho : s.procs.get cp.proc = some o)
    (hu : ch.buf.unread ≠ 0) :
    rust_port.delete s port = Res.err (Err.fatal 528) := by
  unfold rust_port.delete
  rw [Store.deref_of_get hpt, Res.ok_bind]
  obtain ⟨n, hn⟩ : ∃ n, pt.writers.fill = n + 1 := ⟨pt.writers.fill - 1, by omega⟩
  rw [hn]
  unfold delete_writers
  simp [peek, hc, rust_chan.delete, Store.deref_of_get hch, Store.deref_of_get hcp,
    Store.deref_of_get ho, I, hu]

/-- C26: `upcall_del_port` on a live port `port`, called by a live proc.  When
both refcounts are non-zero the call stops at the assertion of line 1296.  When
exactly one of them is zero it returns and nothing is changed.  When both are
zero the port is destroyed, provided its writers vector is empty: for a
well-formed port list `l` that holds the port, the call returns, the port is
freed, the port list is `l` without the port (in the same order, with `prev`
and `next` agreeing), every other port keeps all its fields but these links,
procs and channels are unchanged and two allocations are released.  When both
refcounts are zero and the writers vector is not empty the call does not
return: the port is not destroyed. -/
theorem C26_del_port (s : rust_rt) (proc port : Ptr) (rec : rust_proc) (pt : rust_port)
    (l : List Ptr) (hp : s.procs.get proc = some rec) (hpt : s.port_heap.get port = some pt) :
    (pt.live_refcnt ≠ 0 → pt.weak_refcnt ≠ 0 →
      upcall_del_port s proc port = Res.err (Err.fatal 1296)) ∧
    ((pt.live_refcnt = 0 ∧ pt.weak_refcnt ≠ 0) ∨ (pt.live_refcnt ≠ 0 ∧ pt.weak_refcnt = 0) →
      upcall_del_port s proc port = Res.ok s) ∧
    (pt.live_refcnt = 0 → pt.weak_refcnt = 0 → pt.writers.fill = 0 → ports_are s l →
      port ∈ l → 2 ≤ s.live_allocs →
      ∃ t, upcall_del_port s proc port = Res.ok t ∧ t.port_heap.get port = none ∧
        ports_are t (l.erase port) ∧
        (∀ x r, x ≠ port → s.port_heap.get x = some r →
          ∃ r1, t.port_heap.get x = some r1 ∧ r1.unlinked = r.unlinked) ∧
        t.procs = s.procs ∧ t.chan_heap = s.chan_heap ∧
        t.live_allocs + 2 = s.live_allocs) ∧
    (pt.live_refcnt = 0 → pt.weak_refcnt = 0 → 0 < pt.writers.fill →
      ∀ t, upcall_del_port s proc port ≠ Res.ok t) := by
  refine ⟨?_, ?_, ?_, ?_⟩
  · intro h1 h2
    simp [upcall_del_port, Store.deref_of_get hp, Store.deref_of_get hpt, I, h1, h2]
  · rintro (⟨h1, h2⟩ | ⟨h1, h2⟩) <;>
      simp [upcall_del_port, Store.deref_of_get hp, Store.deref_of_get hpt, I, h1, h2]
  · intro h1 h2 hw hl hm ha
    obtain ⟨K, hok, hfar, hprev, hnext⟩ := port_delete_ok hpt hw hl hm ha
    have hnd : (0 :: l).Nodup := by
      refine List.nodup_cons.2 ⟨?_, hl.2⟩
      intro h0
      obtain ⟨r, hr⟩ := port_chain_live l 0 s.ports hl.1 0 h0
      rw [Store.get_zero] at hr
      cases hr
    obtain ⟨a, b, c⟩ := port_chain_neighbours hpt l 0 s.ports hl.1 hnd hm
    have hvp : pt.prev ≠ 0 → pt.prev ≠ port := by
      intro h0
      rcases b with ⟨_, b2⟩ | ⟨_, _, b3⟩
      · exact absurd b2 h0
      · exact b3
    have hnp : pt.next ≠ 0 → pt.next ≠ port := by
      intro h0
      rcases a with a0 | ⟨_, a2⟩
      · exact absurd a0 h0
      · exact a2
    have hdel : upcall_del_port s proc port = rust_port.delete s port := by
      simp [upcall_del_port, Store.deref_of_get hp, Store.deref_of_get hpt, I, h1, h2]
    rw [hdel, hok]
    refine ⟨_, rfl, ?_, ⟨?_, (hl.2).erase port⟩, ?_, rfl, rfl, ?_⟩
    · show (K.free port).get port = none
      rw [Store.get_free, if_pos rfl]
    · show port_chain (K.free port) (l.erase port) 0
        (if port = s.ports then pt.next else s.ports)
      have := port_chain_unlink (K := K.free port) hpt ?_ ?_ ?_ l 0 s.ports hl.1 hnd hm
      · by_cases e : port = s.ports
        · rw [if_pos e.symm] at this
          rw [if_pos e]
          exact this
        · rw [if_neg (fun e1 => e e1.symm)] at this
          rw [if_neg e]
          exact this
      · intro x h3 h4 h5
        rw [Store.get_free, if_neg h3, hfar x h4 h5]
      · intro x h3 h4
        rw [Store.get_free, if_neg (hvp h3), hprev x h3 h4]
      · intro x h3 h4
        rw [Store.get_free, if_neg (hnp h3), hnext x h3 h4]
    · intro x r hx hr
      show ∃ r1, (K.free port).get x = some r1 ∧ r1.unlinked = r.unlinked
      rw [Store.get_free, if_neg hx]
      by_cases e1 : x = pt.prev
      · have h0 : pt.prev ≠ 0 := by
          rw [← e1]
          exact Store.ne_zero_of_get hr
        rw [e1] at hr ⊢
        exact ⟨_, hprev r h0 hr, rfl⟩
      · by_cases e2 : x = pt.next
        · have h0 : pt.next ≠ 0 := by
            rw [← e2]
            exact Store.ne_zero_of_get hr
          rw [e2] at hr ⊢
          exact ⟨_, hnext r h0 hr, rfl⟩
        · exact ⟨r, by rw [hfar x e1 e2]; exact hr, rfl⟩
    · show s.live_allocs - 1 - 1 + 2 = s.live_allocs
      omega
  · intro h1 h2 hw t
    have hdel : upcall_del_port s proc port = rust_port.delete s port := by
      simp [upcall_del_port, Store.deref_of_get hp, Store.deref_of_get hpt, I, h1, h2]
    rw [hdel]
    exact port_delete_writers_stop hpt hw t

/-- The destruction of a port on examples.  In `demo_ports`, whose port list is
`[3, 2, 1]`, the deletion of the middle port 2 leaves the list `[3, 1]`, that of
the head leaves `[2, 1]` and that of the tail leaves `[3, 2]`; port 1 of
`demo_busy`, which has one live reference, is not destroyed; port 1 of
`demo_two_queued`, to which no reference is left, has two channels with data in
its writers vector: its deletion does not return, it stops at line 528. -/
theorem C26_del_port_witness :
    (∃ t, upcall_del_port demo_ports 1 2 = Res.ok t ∧ t.port_heap.get 2 = none ∧
      ports_are t ([3, 2, 1].erase 2) ∧
      (∀ x r, x ≠ 2 → demo_ports.port_heap.get x = some r →
        ∃ r1, t.port_heap.get x = some r1 ∧ r1.unlinked = r.unlinked) ∧
      t.procs = demo_ports.procs ∧ t.chan_heap = demo_ports.chan_heap ∧
      t.live_allocs + 2 = demo_ports.live_allocs) ∧
    ports_are ((upcall_del_port demo_ports 1 2).getD demo_none) [3, 1] ∧
    ports_are ((upcall_del_port demo_ports 1 3).getD demo_none) [2, 1] ∧
    ports_are ((upcall_del_port demo_ports 1 1).getD demo_none) [3, 2] ∧
    upcall_del_port demo_busy 1 1 = Res.ok demo_busy ∧
    (∀ t, upcall_del_port demo_two_queued 1 1 ≠ Res.ok t) ∧
    upcall_del_port demo_two_queued 1 1 = Res.err (Err.fatal 528) :=
  ⟨(C26_del_port demo_ports 1 2 (demo_proc 1 .running 0 [] [0, 0]) (demo_link 3 1) [3, 2, 1]
      (by decide) (by decide)).2.2.1 rfl rfl rfl (by decide) (by decide) (by decide),
   by decide, by decide, by decide,
   (C26_del_port demo_busy 1 1 (demo_proc 1 .running 0 [] [0, 0]) (demo_port []) [1]
      (by decide) (by decide)).2.1 (Or.inr ⟨by decide, rfl⟩),
   (C26_del_port demo_two_queued 1 1 (demo_proc 1 .calling_c 0 [] [1, 0])
      { demo_port [1, 2] with live_refcnt := 0 } [1] (by decide) (by decide)).2.2.2 rfl rfl
      (by decide),
   by rfl⟩

/-- C27: the destruction of a port whose writers vector is not empty never
returns, so it neither destroys the channels and unlinks the port nor restores
`live_allocs`.  When the first channel of the vector holds data (and its port
and the owner of that port are live), the destruction stops in the destructor
of the buffer of that channel, at the assertion `unread == 0` of line 528. -/
theorem C27_port_delete_with_writers (s : rust_rt) (port : Ptr) (pt : rust_port)
    (hpt : s.port_heap.get port = some pt) (hw : 0 < pt.writers.fill) :
    (∀ t, rust_port.delete s port ≠ Res.ok t) ∧
    (∀ c ch cp o, pt.writers.data[0]? = some c → s.chan_heap.get c = some ch →
      s.port_heap.get ch.port = some cp → s.procs.get cp.proc = some o →
      ch.buf.unread ≠ 0 → rust_port.delete s port = Res.err (Err.fatal 528)) :=
  ⟨port_delete_writers_stop hpt hw,
   fun _ _ _ _ hc hch hcp ho hu => port_delete_buffered_fatal hpt hw hc hch hcp ho hu⟩

/-- The destruction of port 1 of `demo_two_queued`, whose writers vector
holds the channels 1 and 2 with one unit of 4 bytes each: it stops at line 528,
also when it is reached from `upcall_del_port`. -/
theorem C27_port_delete_with_writers_witness :
    (∀ t, rust_port.delete demo_two_queued 1 ≠ Res.ok t) ∧
    rust_port.delete demo_two_queued 1 = Res.err (Err.fatal 528) ∧
    upcall_del_port demo_two_queued 1 1 = Res.err (Err.fatal 528) ∧
    writers_inv demo_two_queued ∧ procs_inv demo_two_queued ∧ chan_inv demo_two_queued :=
  ⟨(C27_port_delete_with_writers demo_two_queued 1 { demo_port [1, 2] with live_refcnt := 0 }
      (by decide) (by decide)).1,
   (C27_port_delete_with_writers demo_two_queued 1 { demo_port [1, 2] with live_refcnt := 0 }
      (by decide) (by decide)).2 1 (demo_chan 1 0 2 4 [0x44, 0x33, 0x22, 0x11])
      { demo_port [1, 2] with live_refcnt := 0 } (demo_proc 1 .calling_c 0 [] [1, 0])
      (by decide) (by decide) (by decide) (by decide) (by decide),
   by rfl, by decide, by decide, by decide⟩

/-! ## Words in flat memory -/

theorem WORD_eq : WORD = 4 := rfl

theorem wsub_sub {a b : Nat} (h1 : b ≤ a) (h2 : a < 4294967296) : wsub a b = a - b := by
  rw [wsub_eq]
  omega

theorem mem_write_in {mem : Nat → Nat} {a x : Nat} {bs : List Nat} (h1 : a ≤ x)
    (h2 : x < a + bs.length) : mem_write mem a bs x = bs.getD (x - a) 0 := by
  unfold mem_write
  rw [if_pos ⟨h1, h2⟩]

theorem mem_write_out {mem : Nat → Nat} {a x : Nat} {bs : List Nat}
    (h : x < a ∨ a + bs.length ≤ x) : mem_write mem a bs x = mem x := by
  unfold mem_write
  rw [if_neg]
  omega

theorem mem_read_congr {m1 m2 : Nat → Nat} {a n : Nat}
    (h : ∀ k, k < n → m1 (a + k) = m2 (a + k)) : mem_read m1 a n = mem_read m2 a n := by
  unfold mem_read
  apply List.map_congr_left
  intro k hk
  exact h k (List.mem_range.1 hk)

theorem mem_read_getD (mem : Nat → Nat) (a n k : Nat) (h : k < n) :
    (mem_read mem a n).getD k 0 = mem (a + k) := by
  unfold mem_read
  rw [List.getD_eq_getElem _ _ (by simpa using h)]
  simp

/-- The bytes a block copy stores are the bytes read. -/
theorem mem_copy_in (mem : Nat → Nat) (dst src n k : Nat) (h : k < n) :
    mem_write mem dst (mem_read mem src n) (dst + k) = mem (src + k) := by
  rw [mem_write_in (by omega) (by rw [mem_read_length]; omega)]
  have e : dst + k - dst = k := by omega
  rw [e, mem_read_getD _ _ _ _ h]

theorem mem_copy_out (mem : Nat → Nat) (dst src n x : Nat) (h : x < dst ∨ dst + n ≤ x) :
    mem_write mem dst (mem_read mem src n) x = mem x := by
  apply mem_write_out
  rw [mem_read_length]
  exact h

theorem word_bytes_length (v : Nat) : (word_bytes v).length = 4 := by
  simp [word_bytes, WORD_eq]

theorem write_word_out {mem : Nat → Nat} {a x : Nat} (v : Nat) (h : x < a ∨ a + 4 ≤ x) :
    write_word mem a v x = mem x := by
  unfold write_word
  apply mem_write_out
  rw [word_bytes_length]
  exact h

theorem read_word_congr {m1 m2 : Nat → Nat} {a : Nat}
    (h : ∀ k, k < 4 → m1 (a + k) = m2 (a + k)) : read_word m1 a = read_word m2 a := by
  unfold read_word
  congr 1
  apply List.map_congr_left
  intro k hk
  rw [h k (by rw [WORD_eq] at hk; exact List.mem_range.1 hk)]

theorem read_write_word_ne {mem : Nat → Nat} {a b : Nat} (v : Nat) (h : a + 4 ≤ b ∨ b + 4 ≤ a) :
    read_word (write_word mem a v) b = read_word mem b := by
  apply read_word_congr
  intro k hk
  apply write_word_out
  omega

theorem range_four : List.range 4 = [0, 1, 2, 3] := rfl

theorem read_write_word_same (mem : Nat → Nat) (a : Nat) {v : Nat} (h : v < 4294967296) :
    read_word (write_word mem a v) a = v := by
  have h0 : write_word mem a v (a + 0) = v % 256 := by
    unfold write_word
    rw [mem_write_in (by omega) (by rw [word_bytes_length]; omega)]
    simp [word_bytes, WORD_eq, range_four]
  have h1 : write_word mem a v (a + 1) = v / 256 % 256 := by
    unfold write_word
    rw [mem_write_in (by omega) (by rw [word_bytes_length]; omega)]
    simp [word_bytes, WORD_eq, range_four]
  have h2 : write_word mem a v (a + 2) = v / 65536 % 256 := by
    unfold write_word
    rw [mem_write_in (by omega) (by rw [word_bytes_length]; omega)]
    simp [word_bytes, WORD_eq, range_four]
  have h3 : write_word mem a v (a + 3) = v / 16777216 % 256 := by
    unfold write_word
    rw [mem_write_in (by omega) (by rw [word_bytes_length]; omega)]
    simp [word_bytes, WORD_eq, range_four]
  unfold read_word
  rw [WORD_eq, range_four]
  simp only [List.map_cons, List.map_nil, List.sum_cons, List.sum_nil]
  rw [h0, h1, h2, h3]
  norm_num
  omega

/-! ## C21: the transplant of the call region -/

/-- What a call of `upcall_grow_proc` that returns has done. -/
theorem grow_proc_inv {s t : rust_rt} {proc : Ptr} {n_call n_frame base : Nat}
    (h : upcall_grow_proc s proc n_call n_frame base = Res.ok t) :
    ∃ p cur nstk ns, s.procs.get proc = some p ∧ s.stks.get p.stk = some cur ∧
      t.stks.get nstk = some ns ∧
      t.procs.get proc = some { p with stk := nstk, rust_sp := wsub ns.limit n_call } ∧
      t.mem = mem_write s.mem (wsub ns.limit n_call) (mem_read s.mem p.rust_sp n_call) ∧
      ((cur.next ≠ 0 ∧ nstk = cur.next ∧ t.live_allocs = s.live_allocs ∧
          ∃ nx, s.stks.get cur.next = some nx ∧ ¬ wsub nx.limit cur.data < n_frame ∧
            ns.limit = nx.limit ∧ ns.data = nx.data) ∨
       (s.stks.get nstk = none ∧ t.live_allocs = s.live_allocs + 1 ∧ ns.data = base ∧
          ns.limit = base + (if n_frame < min_stk_bytes then min_stk_bytes else n_frame) ∧
          (cur.next = 0 ∨
            ∃ nx, s.stks.get cur.next = some nx ∧ wsub nx.limit cur.data < n_frame))) := by
  unfold upcall_grow_proc at h
  rw [deref_bind_eq_ok] at h
  obtain ⟨p, hp, h⟩ := h
  rw [deref_bind_eq_ok] at h
  obtain ⟨cur, hcur, h⟩ := h
  rw [Res.bind_eq_ok] at h
  obtain ⟨⟨s1, nstk⟩, hs1, h⟩ := h
  simp only [I_bind_eq_ok] at h
  obtain ⟨_, h⟩ := h
  rw [deref_bind_eq_ok] at h
  obtain ⟨cur1, hcur1, h⟩ := h
  rw [deref_bind_eq_ok] at h
  obtain ⟨ns, hns, h⟩ := h
  rw [deref_bind_eq_ok] at h
  obtain ⟨p1, hp1, h⟩ := h
  simp only [Res.pure_eq, ok_eq_ok] at h
  have hfresh : s.stks.get (s.stks.length + 1) = none := Store.get_of_length_lt _ (by omega)
  have hpl : p.stk ≠ s.stks.length + 1 := by
    intro e
    rw [e, hfresh] at hcur
    cases hcur
  -- the segment chosen
  have hb : s1.procs = s.procs ∧ s1.mem = s.mem ∧ ∃ n1, s1.stks.get nstk = some n1 ∧
      ((cur.next ≠ 0 ∧ nstk = cur.next ∧ s1.live_allocs = s.live_allocs ∧
          ∃ nx, s.stks.get cur.next = some nx ∧ ¬ wsub nx.limit cur.data < n_frame ∧
            n1.limit = nx.limit ∧ n1.data = nx.data) ∨
       (nstk ≠ p.stk ∧ s.stks.get nstk = none ∧ s1.live_allocs = s.live_allocs + 1 ∧
          n1.data = base ∧
          n1.limit = base + (if n_frame < min_stk_bytes then min_stk_bytes else n_frame) ∧
          (cur.next = 0 ∨
            ∃ nx, s.stks.get cur.next = some nx ∧ wsub nx.limit cur.data < n_frame))) := by
    split at hs1
    · rename_i hn0
      rw [deref_bind_eq_ok] at hs1
      obtain ⟨nx, hnx, hs1⟩ := hs1
      have hnl : cur.next ≠ s.stks.length + 1 := by
        intro e
        rw [e, hfresh] at hnx
        cases hnx
      dsimp only at hs1
      split at hs1
      · rename_i hsz
        simp only [new_stk, rust_rt.malloc, Store.alloc] at hs1
        rw [deref_bind_eq_ok] at hs1
        obtain ⟨n0, hn0', hs1⟩ := hs1
        rw [deref_bind_eq_ok] at hs1
        obtain ⟨nn, hnn, hs1⟩ := hs1
        simp only [Res.pure_eq, ok_eq_ok, Prod.mk.injEq] at hs1
        obtain ⟨e1, e2⟩ := hs1
        subst e1 e2
        have hn0'' : (Store.alloc s.stks
            { prev := 0, next := 0, valgrind_id := 0, prev_fp := 0, prev_sp := 0,
              limit := base + (if n_frame < min_stk_bytes then min_stk_bytes else n_frame),
              data := base }).1.get (s.stks.length + 1) = some n0 := hn0'
        rw [Store.get_alloc, if_pos rfl] at hn0''
        cases hn0''
        refine ⟨rfl, rfl, (⟨0, cur.next, 0, 0, 0,
          base + (if n_frame < min_stk_bytes then min_stk_bytes else n_frame), base⟩ : stk_seg),
          ?_, Or.inr ⟨fun e => hpl e.symm, hfresh, rfl, ?_, ?_, Or.inr ⟨nx, hnx, hsz⟩⟩⟩
        · show (Store.put _ cur.next _).get (s.stks.length + 1) = _
          rw [Store.get_put_ne _ (fun e => hnl e.symm)]
          exact Store.get_put_self _ hn0'
        · rfl
        · rfl
      · rename_i hsz
        simp only [Res.pure_eq, ok_eq_ok, Prod.mk.injEq] at hs1
        obtain ⟨e1, e2⟩ := hs1
        subst e1 e2
        exact ⟨rfl, rfl, nx, hnx, Or.inl ⟨hn0, rfl, rfl, nx, hnx, hsz, rfl, rfl⟩⟩
    · rename_i hn0
      simp only [new_stk, rust_rt.malloc, Store.alloc, Res.pure_eq, ok_eq_ok,
        Prod.mk.injEq] at hs1
      obtain ⟨e1, e2⟩ := hs1
      subst e1 e2
      refine ⟨rfl, rfl, (⟨0, 0, 0, 0, 0,
        base + (if n_frame < min_stk_bytes then min_stk_bytes else n_frame), base⟩ : stk_seg),
        ?_, Or.inr ⟨fun e => hpl e.symm, hfresh, rfl, rfl, rfl, Or.inl (by simpa using hn0)⟩⟩
      exact (Store.get_alloc s.stks _ (s.stks.length + 1)).trans (if_pos rfl)
  obtain ⟨hprocs, hmem, n1, hn1, hchoice⟩ := hb
  -- the record of the chosen segment once the current segment names it
  have hns1 : ns.limit = n1.limit ∧ ns.data = n1.data := by
    have hns' : (s1.stks.put p.stk { cur1 with next := nstk }).get nstk = some ns := hns
    rw [Store.get_put _ hcur1] at hns'
    by_cases e : nstk = p.stk
    · rw [if_pos e] at hns'
      cases hns'
      rw [e, hcur1] at hn1
      cases hn1
      exact ⟨rfl, rfl⟩
    · rw [if_neg e, hn1] at hns'
      cases hns'
      exact ⟨rfl, rfl⟩
  have hp1' : p1 = p := by
    have : s1.procs.get proc = some p1 := hp1
    rw [hprocs, hp] at this
    cases this
    rfl
  subst hp1'
  refine ⟨p1, cur, nstk, { ns with prev := p1.stk }, hp, hcur, ?_, ?_, ?_, ?_⟩
  · rw [← h]
    exact Store.get_put_self _ hns
  · rw [← h]
    exact Store.get_put_self _ hp1
  · rw [← h]
    show mem_write s1.mem _ (mem_read s1.mem _ _) = _
    rw [hmem]
  · rcases hchoice with ⟨a, b, c, nx, d, e, f, g⟩ | ⟨_, a, b, c, d, e⟩
    · refine Or.inl ⟨a, b, ?_, nx, d, e, hns1.1.trans f, hns1.2.trans g⟩
      rw [← h]
      exact c
    · refine Or.inr ⟨a, ?_, hns1.2.trans c, hns1.1.trans d, e⟩
      rw [← h]
      exact b

theorem Store.get_put_some {α : Type} {st : Store α} {p q : Ptr} {a b c : α}
    (hp : st.get p = some b) (hq : st.get q = some c) : ∃ d, (st.put p a).get q = some d := by
  rw [Store.get_put a hp]
  by_cases e : q = p
  · exact ⟨a, by rw [if_pos e]⟩
  · exact ⟨c, by rw [if_neg e]; exact hq⟩

/-- A call of `upcall_grow_proc` for a live proc whose current segment, and the
next one if there is one, are live returns. -/
theorem grow_proc_returns {s : rust_rt} {proc : Ptr} {p : rust_proc} {cur : stk_seg}
    (n_call n_frame base : Nat)
    (hp : s.procs.get proc = some p) (hcur : s.stks.get p.stk = some cur)
    (hnx : cur.next ≠ 0 → ∃ nx, s.stks.get cur.next = some nx) :
    ∃ t, upcall_grow_proc s proc n_call n_frame base = Res.ok t := by
  have hfresh : s.stks.get (s.stks.length + 1) = none := Store.get_of_length_lt _ (by omega)
  have hpl : p.stk ≠ s.stks.length + 1 := by
    intro e
    rw [e, hfresh] at hcur
    cases hcur
  -- the tail of the function, from the chosen segment on
  have tail : ∀ (s1 : rust_rt) (nstk : Ptr) (c1 n1 : stk_seg), nstk ≠ 0 → s1.procs = s.procs →
      s1.stks.get p.stk = some c1 → s1.stks.get nstk = some n1 →
      ∃ t, (do
        I 800 (nstk ≠ 0)
        let cur1 ← s1.stks.deref p.stk
        let s2 : rust_rt := { s1 with stks := s1.stks.put p.stk { cur1 with next := nstk } }
        let ns ← s2.stks.deref nstk
        let s3 : rust_rt := { s2 with stks := s2.stks.put nstk { ns with prev := p.stk } }
        let target := wsub ns.limit n_call
        let mem1 := mem_write s3.mem target (mem_read s3.mem p.rust_sp n_call)
        let p1 ← s3.procs.deref proc
        pure { s3 with mem := mem1,
                       procs := s3.procs.put proc { p1 with stk := nstk, rust_sp := target } } :
        Res rust_rt) = Res.ok t := by
    intro s1 nstk c1 n1 h0 hprocs hc1 hn1
    obtain ⟨d, hd⟩ := Store.get_put_some (a := { c1 with next := nstk }) hc1 hn1
    have hp' : s1.procs.get proc = some p := by rw [hprocs]; exact hp
    simp only [I_ok h0, Res.ok_bind, Store.deref_of_get hc1, Store.deref_of_get hd,
      Store.deref_of_get hp', Res.pure_eq]
    exact ⟨_, rfl⟩
  unfold upcall_grow_proc
  rw [Store.deref_of_get hp, Res.ok_bind, Store.deref_of_get hcur, Res.ok_bind]
  by_cases h0 : cur.next = 0
  · rw [if_neg (by simpa using h0)]
    simp only [Res.pure_eq, Res.ok_bind]
    apply tail _ _ cur ⟨0, 0, 0, 0, 0,
      base + (if n_frame < min_stk_bytes then min_stk_bytes else n_frame), base⟩
    · exact Nat.succ_ne_zero _
    · rfl
    · show (Store.alloc s.stks _).1.get p.stk = _
      rw [Store.get_alloc, if_neg hpl]
      exact hcur
    · exact (Store.get_alloc s.stks _ (s.stks.length + 1)).trans (if_pos rfl)
  · obtain ⟨nx, hnx⟩ := hnx h0
    have hnl : cur.next ≠ s.stks.length + 1 := by
      intro e
      rw [e, hfresh] at hnx
      cases hnx
    rw [if_pos h0, Store.deref_of_get hnx, Res.ok_bind]
    by_cases hsz : wsub nx.limit cur.data < n_frame
    · have g0 : (s.stks ++ [some (⟨0, 0, 0, 0, 0,
          base + (if n_frame < min_stk_bytes then min_stk_bytes else n_frame), base⟩ :
          stk_seg)]).get (s.stks.length + 1) = some ⟨0, 0, 0, 0, 0,
          base + (if n_frame < min_stk_bytes then min_stk_bytes else n_frame), base⟩ :=
        (Store.get_alloc s.stks _ (s.stks.length + 1)).trans (if_pos rfl)
      have g1 : (Store.put (s.stks ++ [some (⟨0, 0, 0, 0, 0,
          base + (if n_frame < min_stk_bytes then min_stk_bytes else n_frame), base⟩ :
          stk_seg)]) (s.stks.length + 1) ⟨0, cur.next, 0, 0, 0,
          base + (if n_frame < min_stk_bytes then min_stk_bytes else n_frame), base⟩).get
          cur.next = some nx := by
        rw [Store.get_put_ne _ hnl]
        exact ((Store.get_alloc s.stks _ cur.next).trans (if_neg hnl)).trans hnx
      have g2 : (Store.put (s.stks ++ [some (⟨0, 0, 0, 0, 0,
          base + (if n_frame < min_stk_bytes then min_stk_bytes else n_frame), base⟩ :
          stk_seg)]) (s.stks.length + 1) ⟨0, cur.next, 0, 0, 0,
          base + (if n_frame < min_stk_bytes then min_stk_bytes else n_frame), base⟩).get
          p.stk = some cur := by
        rw [Store.get_put_ne _ hpl]
        exact ((Store.get_alloc s.stks _ p.stk).trans (if_neg hpl)).trans hcur
      have g3 : (Store.put (s.stks ++ [some (⟨0, 0, 0, 0, 0,
          base + (if n_frame < min_stk_bytes then min_stk_bytes else n_frame), base⟩ :
          stk_seg)]) (s.stks.length + 1) ⟨0, cur.next, 0, 0, 0,
          base + (if n_frame < min_stk_bytes then min_stk_bytes else n_frame), base⟩).get
          (s.stks.length + 1) = some ⟨0, cur.next, 0, 0, 0,
          base + (if n_frame < min_stk_bytes then min_stk_bytes else n_frame), base⟩ :=
        Store.get_put_self _ g0
      obtain ⟨c1, hc1⟩ := Store.get_put_some (a := { nx with prev := s.stks.length + 1 }) g1 g2
      obtain ⟨n1, hn1⟩ := Store.get_put_some (a := { nx with prev := s.stks.length + 1 }) g1 g3
      simp only [if_pos hsz, new_stk, rust_rt.malloc, Store.alloc, Store.deref_of_get g0,
        Res.ok_bind, Store.deref_of_get g1, Res.pure_eq]
      exact tail
        { s with live_allocs := s.live_allocs + 1,
                 stks := Store.put (Store.put (s.stks ++ [some (⟨0, 0, 0, 0, 0,
                   base + (if n_frame < min_stk_bytes then min_stk_bytes else n_frame), base⟩ :
                   stk_seg)]) (s.stks.length + 1) ⟨0, cur.next, 0, 0, 0,
                   base + (if n_frame < min_stk_bytes then min_stk_bytes else n_frame), base⟩)
                   cur.next { nx with prev := s.stks.length + 1 } }
        (s.stks.length + 1) c1 n1 (Nat.succ_ne_zero _) rfl hc1 hn1
    · simp only [if_neg hsz, Res.pure_eq, Res.ok_bind]
      apply tail _ _ cur nx
      · exact h0
      · rfl
      · exact hcur
      · exact hnx

/-- C21: `upcall_grow_proc` for a live proc whose current segment, and its next
segment if it has one, are live returns; afterwards `proc.stk` is the segment
chosen (the next segment, reused, or a segment not allocated before),
`proc.rust_sp` is the limit of that segment minus `n_call_bytes`, and the
`n_call_bytes` bytes from the new `rust_sp` on are the bytes that started at the
old `rust_sp`.  Memory changes in these `n_call_bytes` bytes only, wherever they
lie.  When they lie inside the chosen segment (`n_call_bytes` is at most its
size) and that segment does not overlap the old one, the bytes of the old
segment are unchanged. -/
theorem C21_grow_proc_transplant (s : rust_rt) (proc : Ptr) (p : rust_proc) (cur : stk_seg)
    (n_call n_frame base : Nat)
    (hp : s.procs.get proc = some p) (hcur : s.stks.get p.stk = some cur)
    (hnx : cur.next ≠ 0 → ∃ nx, s.stks.get cur.next = some nx) :
    ∃ t nstk ns, upcall_grow_proc s proc n_call n_frame base = Res.ok t ∧
      t.stks.get nstk = some ns ∧
      ((cur.next ≠ 0 ∧ nstk = cur.next) ∨ s.stks.get nstk = none) ∧
      t.procs.get proc = some { p with stk := nstk, rust_sp := wsub ns.limit n_call } ∧
      mem_read t.mem (wsub ns.limit n_call) n_call = mem_read s.mem p.rust_sp n_call ∧
      (∀ k, k < n_call → t.mem (wsub ns.limit n_call + k) = s.mem (p.rust_sp + k)) ∧
      (∀ x, x < wsub ns.limit n_call ∨ wsub ns.limit n_call + n_call ≤ x →
        t.mem x = s.mem x) ∧
      (ns.data + n_call ≤ ns.limit → ns.limit < 4294967296 →
        cur.limit ≤ ns.data ∨ ns.limit ≤ cur.data →
        ∀ x, cur.data ≤ x → x < cur.limit → t.mem x = s.mem x) := by
  obtain ⟨t, ht⟩ := grow_proc_returns n_call n_frame base hp hcur hnx
  obtain ⟨p1, cur1, nstk, ns, hp1, hcur1, hns, hrec, hmem, hchoice⟩ := grow_proc_inv ht
  rw [hp] at hp1
  cases hp1
  rw [hcur] at hcur1
  cases hcur1
  have hin : ∀ k, k < n_call → t.mem (wsub ns.limit n_call + k) = s.mem (p.rust_sp + k) := by
    intro k hk
    rw [hmem]
    exact mem_copy_in _ _ _ _ _ hk
  have hout : ∀ x, x < wsub ns.limit n_call ∨ wsub ns.limit n_call + n_call ≤ x →
      t.mem x = s.mem x := by
    intro x hx
    rw [hmem]
    exact mem_copy_out _ _ _ _ _ hx
  refine ⟨t, nstk, ns, ht, hns, ?_, hrec, ?_, hin, hout, ?_⟩
  · rcases hchoice with ⟨a, b, _⟩ | ⟨a, _⟩
    · exact Or.inl ⟨a, b⟩
    · exact Or.inr a
  · unfold mem_read
    apply List.map_congr_left
    intro k hk
    exact hin k (List.mem_range.1 hk)
  · intro h1 h2 h3 x hx1 hx2
    apply hout
    rw [wsub_sub (by omega) h2]
    omega

set_option maxRecDepth 100000 in
/-- The transplant on examples.  In `demo_chain` a frame of `0x1400` bytes gets
a new segment and the 16 bytes of the call are copied to its top.  In
`demo_tall`, for a frame of `0x500` bytes and a call of `0x400` bytes, the next
segment, of `0x300` bytes, is reused: the copy starts at `0x2320 - 0x400 =
0x1F20`, below that segment and inside the old one, whose byte at `0x1F20`
changes from 32 to 16, the byte at the old `rust_sp`. -/
theorem C21_grow_proc_transplant_witness :
    (∃ t nstk ns, upcall_grow_proc demo_tall 1 0x400 0x500 0x5000 = Res.ok t ∧
      t.stks.get nstk = some ns ∧
      (((⟨0, 2, 0, 0, 0, 0x2000, 0x1000⟩ : stk_seg).next ≠ 0 ∧
          nstk = (⟨0, 2, 0, 0, 0, 0x2000, 0x1000⟩ : stk_seg).next) ∨
        demo_tall.stks.get nstk = none) ∧
      t.procs.get 1 = some { ({ demo_proc 1 .calling_c 0 [] [0x400, 0x500] with
        rust_sp := 0x1810 } : rust_proc) with stk := nstk, rust_sp := wsub ns.limit 0x400 } ∧
      mem_read t.mem (wsub ns.limit 0x400) 0x400 = mem_read demo_tall.mem
        ({ demo_proc 1 .calling_c 0 [] [0x400, 0x500] with rust_sp := 0x1810 } :
          rust_proc).rust_sp 0x400 ∧
      (∀ k, k < 0x400 → t.mem (wsub ns.limit 0x400 + k) = demo_tall.mem
        (({ demo_proc 1 .calling_c 0 [] [0x400, 0x500] with rust_sp := 0x1810 } :
          rust_proc).rust_sp + k)) ∧
      (∀ x, x < wsub ns.limit 0x400 ∨ wsub ns.limit 0x400 + 0x400 ≤ x →
        t.mem x = demo_tall.mem x) ∧
      (ns.data + 0x400 ≤ ns.limit → ns.limit < 4294967296 →
        (⟨0, 2, 0, 0, 0, 0x2000, 0x1000⟩ : stk_seg).limit ≤ ns.data ∨
          ns.limit ≤ (⟨0, 2, 0, 0, 0, 0x2000, 0x1000⟩ : stk_seg).data →
        ∀ x, (⟨0, 2, 0, 0, 0, 0x2000, 0x1000⟩ : stk_seg).data ≤ x →
          x < (⟨0, 2, 0, 0, 0, 0x2000, 0x1000⟩ : stk_seg).limit → t.mem x = demo_tall.mem x)) ∧
    ((upcall_grow_proc demo_tall 1 0x400 0x500 0x5000).getD demo_none).live_allocs =
      demo_tall.live_allocs ∧
    ((upcall_grow_proc demo_tall 1 0x400 0x500 0x5000).getD demo_none).procs.get 1 =
      some { demo_proc 2 .calling_c 0 [] [0x400, 0x500] with rust_sp := 0x1F20 } ∧
    ((upcall_grow_proc demo_tall 1 0x400 0x500 0x5000).getD demo_none).mem 0x1F20 = 16 ∧
    demo_tall.mem 0x1F20 = 32 ∧ demo_tall.mem 0x1810 = 16 ∧
    ((upcall_grow_proc demo_chain 1 16 0x1400 0x5000).getD demo_none).procs.get 1 =
      some { demo_proc 3 .calling_c 0 [] [16, 0x1000] with rust_sp := 0x5000 + 0x1400 - 16 } :=
  ⟨C21_grow_proc_transplant demo_tall 1
      { demo_proc 1 .calling_c 0 [] [0x400, 0x500] with rust_sp := 0x1810 }
      ⟨0, 2, 0, 0, 0, 0x2000, 0x1000⟩ 0x400 0x500 0x5000 (by decide) (by decide)
      (fun _ => ⟨⟨1, 0, 0, 0, 0, 0x2320, 0x2020⟩, by decide⟩),
   by decide, by decide, by decide, by decide, by decide, by decide⟩

theorem store_zero_saves_eq (m : (Nat → Nat) × Nat) :
    store_zero_saves m = store_list m [0, 0, 0, 0] := Eq.trans rfl rfl

theorem store_spawnee_saves_eq (m : (Nat → Nat) × Nat) (fb : Nat) :
    store_spawnee_saves m fb = store_list m [fb, 0, 0, 0] := Eq.trans rfl rfl

theorem store_list_cons (m : (Nat → Nat) × Nat) (v : Nat) (vs : List Nat) :
    store_list m (v :: vs) = store_list (store_dec m v) vs := rfl

theorem store_list_nil (m : (Nat → Nat) × Nat) : store_list m [] = m := rfl

theorem store_list_append (m : (Nat → Nat) × Nat) (vs ws : List Nat) :
    store_list m (vs ++ ws) = store_list (store_list m vs) ws := by
  unfold store_list
  rw [List.foldl_append]

/-- Words stored downwards from `a`: the pointer ends `4 * length` below, the
word `i` of the list lies at `a - 4 * i`, and memory changes nowhere else. -/
theorem store_list_spec : ∀ (vs : List Nat) (mem : Nat → Nat) (a : Nat),
    4 * vs.length ≤ a → a < 4294967296 →
    (store_list (mem, a) vs).2 = a - 4 * vs.length ∧
    (∀ i v, vs[i]? = some v → v < 4294967296 →
      read_word (store_list (mem, a) vs).1 (a - 4 * i) = v) ∧
    (∀ x, x + 4 * vs.length < a + 4 ∨ a + 4 ≤ x → (store_list (mem, a) vs).1 x = mem x)
  | [], mem, a, _, _ => by
    refine ⟨rfl, ?_, fun _ _ => rfl⟩
    intro i v h
    simp at h
  | v :: vs, mem, a, h1, h2 => by
    have hl : (v :: vs).length = vs.length + 1 := rfl
    rw [hl] at h1 ⊢
    have hd : store_dec (mem, a) v = (write_word mem a v, a - 4) := by
      unfold store_dec
      rw [WORD_eq, wsub_sub (by omega) h2]
    rw [store_list_cons, hd]
    obtain ⟨i1, i2, i3⟩ := store_list_spec vs (write_word mem a v) (a - 4) (by omega) (by omega)
    refine ⟨by rw [i1]; omega, ?_, ?_⟩
    · intro i w hi hw
      cases i with
      | zero =>
        simp only [List.getElem?_cons_zero, Option.some.injEq] at hi
        subst hi
        have e : read_word (store_list (write_word mem a v, a - 4) vs).1 (a - 4 * 0) =
            read_word (write_word mem a v) (a - 4 * 0) := by
          apply read_word_congr
          intro k hk
          apply i3
          omega
        rw [e]
        exact read_write_word_same mem a hw
      | succ i =>
        simp only [List.getElem?_cons_succ] at hi
        have := i2 i w hi hw
        have e : a - 4 * (i + 1) = a - 4 - 4 * i := by omega
        rw [e]
        exact this
    · intro x hx
      rw [i3 x (by omega)]
      apply write_word_out
      omega

theorem new_stk_zero (s : rust_rt) (base : Nat) :
    new_stk s 0 base =
      ({ s with live_allocs := s.live_allocs + 1,
                stks := s.stks ++ [some ⟨0, 0, 0, 0, 0, base + min_stk_bytes, base⟩] },
        s.stks.length + 1) := rfl

theorem store_list_snoc (m : (Nat → Nat) × Nat) (vs : List Nat) (v : Nat) :
    store_dec (store_list m vs) v = store_list m (vs ++ [v]) := by
  rw [store_list_append]
  rfl

theorem store_dec_eq_list (m : (Nat → Nat) × Nat) (v : Nat) :
    store_dec m v = store_list m [v] := Eq.trans rfl rfl

/-- Inversion of a root construction that returns: `callsz` is 0 and the two
frames are the sixteen words stored downwards from the aligned top. -/
theorem proc_new_root {s t : rust_rt} {p : Ptr} {g f c base : Nat}
    (h : rust_proc.new s 0 g f c base = Res.ok (t, p)) :
    c = 0 ∧ p = s.procs.length + 1 ∧
      t.stks = s.stks ++ [some ⟨0, 0, 0, 0, 0, base + min_stk_bytes, base⟩] ∧
      t.live_allocs = s.live_allocs + 2 ∧
      ∃ rec_ : rust_proc, t.procs = s.procs ++ [some rec_] ∧
        rec_.stk = s.stks.length + 1 ∧ rec_.state = .running ∧ rec_.fn = f ∧
        t.mem = (store_list (s.mem, wsub (base + min_stk_bytes) WORD -
              wsub (base + min_stk_bytes) WORD % 16)
            [s.procs.length + 1, 0, 0, 0, 0, 0, 0, 0, s.procs.length + 1, 0, g, f,
              ((store_list (s.mem, wsub (base + min_stk_bytes) WORD -
                wsub (base + min_stk_bytes) WORD % 16)
                [s.procs.length + 1, 0, 0, 0, 0, 0, 0]).2 + WORD) % WORD_MOD, 0, 0, 0]).1 ∧
        rec_.rust_sp = ((store_list (s.mem, wsub (base + min_stk_bytes) WORD -
              wsub (base + min_stk_bytes) WORD % 16)
            [s.procs.length + 1, 0, 0, 0, 0, 0, 0, 0, s.procs.length + 1, 0, g, f,
              ((store_list (s.mem, wsub (base + min_stk_bytes) WORD -
                wsub (base + min_stk_bytes) WORD % 16)
                [s.procs.length + 1, 0, 0, 0, 0, 0, 0]).2 + WORD) % WORD_MOD, 0, 0, 0]).2 + WORD)
          % WORD_MOD := by
  have hseg : (s.stks ++ [some (⟨0, 0, 0, 0, 0, base + min_stk_bytes, base⟩ : stk_seg)]).get
      (s.stks.length + 1) = some ⟨0, 0, 0, 0, 0, base + min_stk_bytes, base⟩ :=
    (Store.get_alloc s.stks _ (s.stks.length + 1)).trans (if_pos rfl)
  have hmin : (if 0 < min_stk_bytes then min_stk_bytes else 0) = min_stk_bytes := rfl
  unfold rust_proc.new at h
  simp only [new_stk, rust_rt.malloc, Store.alloc] at h
  rw [deref_bind_eq_ok] at h
  obtain ⟨seg, hs, h⟩ := h
  rw [hmin, hseg] at hs
  have hl : seg.limit = base + min_stk_bytes := by cases hs; rfl
  rw [hl, hmin] at h
  clear hs hl hseg hmin
  simp only [store_zero_saves_eq, store_spawnee_saves_eq, store_dec_eq_list, ← store_list_append,
    List.cons_append, List.nil_append] at h
  rw [Res.bind_eq_ok] at h
  obtain ⟨m9, hb, h⟩ := h
  rw [if_neg (show ¬ ((0 : Nat) ≠ 0) from fun h => h rfl), I_bind_eq_ok] at hb
  obtain ⟨hc, hb⟩ := hb
  rw [Res.pure_eq, ok_eq_ok] at hb
  subst hb
  simp only [← store_list_append, List.cons_append, List.nil_append] at h
  simp only [Res.pure_eq, ok_eq_ok, Prod.mk.injEq] at h
  obtain ⟨e1, e2⟩ := h
  have hm := congrArg rust_rt.mem e1
  have hst := congrArg rust_rt.stks e1
  have hpr := congrArg rust_rt.procs e1
  have hla := congrArg rust_rt.live_allocs e1
  clear e1
  dsimp only at hm hst hpr hla
  exact ⟨hc, e2.symm, hst.symm, hla.symm, _, hpr.symm, rfl, rfl, rfl, hm.symm, rfl⟩

theorem proc_new_root_returns (s : rust_rt) (g f base : Nat) :
    ∃ t, rust_proc.new s 0 g f 0 base = Res.ok (t, s.procs.length + 1) := by
  have hseg : (s.stks ++ [some (⟨0, 0, 0, 0, 0, base + min_stk_bytes, base⟩ : stk_seg)]).get
      (s.stks.length + 1) = some ⟨0, 0, 0, 0, 0, base + min_stk_bytes, base⟩ :=
    (Store.get_alloc s.stks _ (s.stks.length + 1)).trans (if_pos rfl)
  unfold rust_proc.new
  simp only [new_stk_zero, rust_rt.malloc, Store.deref_of_get hseg, Res.ok_bind, ne_eq,
    not_true_eq_false, if_false, I_bind, if_true, Res.pure_eq, Store.alloc]
  exact ⟨_, rfl⟩

theorem proc_new_root_fatal (s : rust_rt) (g f c base : Nat) (hc : c ≠ 0) :
    rust_proc.new s 0 g f c base = Res.err (Err.fatal 895) := by
  have hseg : (s.stks ++ [some (⟨0, 0, 0, 0, 0, base + min_stk_bytes, base⟩ : stk_seg)]).get
      (s.stks.length + 1) = some ⟨0, 0, 0, 0, 0, base + min_stk_bytes, base⟩ :=
    (Store.get_alloc s.stks _ (s.stks.length + 1)).trans (if_pos rfl)
  unfold rust_proc.new
  simp only [new_stk_zero, rust_rt.malloc, Store.deref_of_get hseg, Res.ok_bind, ne_eq,
    not_true_eq_false, if_false, I_bind, if_neg hc, Res.err_bind]

theorem proc_new_spawn_returns (s : rust_rt) (spawner : Ptr) (spr : rust_proc)
    (g f c base : Nat) (hsp : s.procs.get spawner = some spr) :
    ∃ t, rust_proc.new s spawner g f c base = Res.ok (t, s.procs.length + 1) := by
  have hseg : (s.stks ++ [some (⟨0, 0, 0, 0, 0, base + min_stk_bytes, base⟩ : stk_seg)]).get
      (s.stks.length + 1) = some ⟨0, 0, 0, 0, 0, base + min_stk_bytes, base⟩ :=
    (Store.get_alloc s.stks _ (s.stks.length + 1)).trans (if_pos rfl)
  have hne : spawner ≠ 0 := Store.ne_zero_of_get hsp
  unfold rust_proc.new
  simp only [new_stk_zero, rust_rt.malloc, Store.deref_of_get hseg, Res.ok_bind,
    if_pos hne, Store.deref_of_get hsp, Res.pure_eq, Store.alloc]
  exact ⟨_, rfl⟩

/-- Inversion of a construction with a spawner that returns: the upper frame
is stored from `T`, `callsz - 2 * WORD` bytes are copied below it from `src`,
and the lower frame follows below the copy. -/
theorem proc_new_spawn {s t : rust_rt} {spawner p : Ptr} {spr : rust_proc} {g f c base : Nat}
    (hsp : s.procs.get spawner = some spr)
    (h : rust_proc.new s spawner g f c base = Res.ok (t, p)) (T : Nat)
    (hT : T = wsub (base + min_stk_bytes) WORD - wsub (base + min_stk_bytes) WORD % 16)
    (X : (Nat → Nat) × Nat)
    (hX : X = store_list (s.mem, T) [s.procs.length + 1, 0, 0, 0, 0, 0, 0, 0]) :
    p = s.procs.length + 1 ∧
      t.stks = s.stks ++ [some ⟨0, 0, 0, 0, 0, base + min_stk_bytes, base⟩] ∧
      t.live_allocs = s.live_allocs + 2 ∧
      ∃ rec_ : rust_proc, t.procs = s.procs ++ [some rec_] ∧
        rec_.stk = s.stks.length + 1 ∧ rec_.state = .running ∧ rec_.fn = f ∧
        t.mem = (store_list
          (mem_write X.1 (wsub X.2 (wsub c (2 * WORD)))
            (mem_read X.1 ((spr.rust_sp + (1 + n_callee_saves + 1 + 1) * WORD) % WORD_MOD)
              (wsub c (2 * WORD))),
           wsub (wsub X.2 (wsub c (2 * WORD))) WORD)
          [s.procs.length + 1, 0, g, f,
            ((store_list (s.mem, T) [s.procs.length + 1, 0, 0, 0, 0, 0, 0]).2 + WORD) % WORD_MOD,
            0, 0, 0]).1 ∧
        rec_.rust_sp = ((store_list
          (mem_write X.1 (wsub X.2 (wsub c (2 * WORD)))
            (mem_read X.1 ((spr.rust_sp + (1 + n_callee_saves + 1 + 1) * WORD) % WORD_MOD)
              (wsub c (2 * WORD))),
           wsub (wsub X.2 (wsub c (2 * WORD))) WORD)
          [s.procs.length + 1, 0, g, f,
            ((store_list (s.mem, T) [s.procs.length + 1, 0, 0, 0, 0, 0, 0]).2 + WORD) % WORD_MOD,
            0, 0, 0]).2 + WORD) % WORD_MOD := by
  have hseg : (s.stks ++ [some (⟨0, 0, 0, 0, 0, base + min_stk_bytes, base⟩ : stk_seg)]).get
      (s.stks.length + 1) = some ⟨0, 0, 0, 0, 0, base + min_stk_bytes, base⟩ :=
    (Store.get_alloc s.stks _ (s.stks.length + 1)).trans (if_pos rfl)
  have hmin : (if 0 < min_stk_bytes then min_stk_bytes else 0) = min_stk_bytes := rfl
  have hne : spawner ≠ 0 := Store.ne_zero_of_get hsp
  unfold rust_proc.new at h
  simp only [new_stk, rust_rt.malloc, Store.alloc] at h
  rw [deref_bind_eq_ok] at h
  obtain ⟨seg, hs, h⟩ := h
  rw [hmin, hseg] at hs
  have hl : seg.limit = base + min_stk_bytes := by cases hs; rfl
  rw [hl, hmin, ← hT] at h
  clear hs hl hseg hmin
  simp only [store_zero_saves_eq, store_spawnee_saves_eq, store_dec_eq_list, ← store_list_append,
    List.cons_append, List.nil_append] at h
  rw [← hX] at h
  rw [Res.bind_eq_ok] at h
  obtain ⟨m9, hb, h⟩ := h
  rw [if_pos hne, deref_bind_eq_ok] at hb
  obtain ⟨spr', hspr, hb⟩ := hb
  rw [hsp] at hspr
  cases hspr
  rw [Res.pure_eq, ok_eq_ok] at hb
  subst hb
  simp only [Res.pure_eq, ok_eq_ok, Prod.mk.injEq] at h
  obtain ⟨e1, e2⟩ := h
  have hm := congrArg rust_rt.mem e1
  have hst := congrArg rust_rt.stks e1
  have hpr := congrArg rust_rt.procs e1
  have hla := congrArg rust_rt.live_allocs e1
  clear e1
  dsimp only at hm hst hpr hla
  exact ⟨e2.symm, hst.symm, hla.symm, _, hpr.symm, rfl, rfl, rfl, hm.symm, rfl⟩

theorem min_stk_bytes_eq : min_stk_bytes = 768 := rfl

theorem n_callee_saves_eq : n_callee_saves = 4 := rfl

theorem callee_save_fp_eq : callee_save_fp = 0 := rfl

/-- Layout of a root construction: it returns, the sixteen frame words lie at
`T`, `T - 4`, ... and everything outside `[T - 60, T + 4)` is unchanged. -/
theorem proc_new_root_layout (s : rust_rt) (g f base T : Nat)
    (hb : base + min_stk_bytes < 4294967296) (hp : s.procs.length + 1 < 4294967296)
    (hg : g < 4294967296) (hf : f < 4294967296)
    (hT : T = base + min_stk_bytes - 4 - (base + min_stk_bytes - 4) % 16) :
    ∃ (t : rust_rt) (rec_ : rust_proc),
      rust_proc.new s 0 g f 0 base = Res.ok (t, s.procs.length + 1) ∧
      t.procs = s.procs ++ [some rec_] ∧
      t.stks = s.stks ++ [some ⟨0, 0, 0, 0, 0, base + min_stk_bytes, base⟩] ∧
      t.live_allocs = s.live_allocs + 2 ∧
      rec_.stk = s.stks.length + 1 ∧ rec_.state = .running ∧ rec_.fn = f ∧
      (∀ i v, [s.procs.length + 1, 0, 0, 0, 0, 0, 0, 0, s.procs.length + 1, 0, g, f,
          T - 24, 0, 0, 0][i]? = some v → read_word t.mem (T - 4 * i) = v) ∧
      rec_.rust_sp = T - 60 ∧
      (∀ x, x < T - 60 ∨ T + 4 ≤ x → t.mem x = s.mem x) := by
  obtain ⟨t, ht⟩ := proc_new_root_returns s g f base
  obtain ⟨_, _, hst, hla, rec_, hpr, h1, h2, h3, hm, hsp⟩ := proc_new_root ht
  have hw : wsub (base + min_stk_bytes) WORD = base + min_stk_bytes - 4 := by
    rw [WORD_eq, wsub_sub (by rw [min_stk_bytes_eq]; omega) hb]
  rw [hw, ← hT] at hm hsp
  rw [min_stk_bytes_eq] at hb hT
  have hT1 : 64 ≤ T := by omega
  have hT2 : T < 4294967296 := by omega
  have h7 := (store_list_spec [s.procs.length + 1, 0, 0, 0, 0, 0, 0] s.mem T
    (by simp only [List.length_cons, List.length_nil]; omega) hT2).1
  have hfb : ((store_list (s.mem, T) [s.procs.length + 1, 0, 0, 0, 0, 0, 0]).2 + WORD) % WORD_MOD
      = T - 24 := by
    rw [h7, WORD_eq, WORD_MOD_eq]
    simp only [List.length_cons, List.length_nil]
    omega
  rw [hfb] at hm hsp
  obtain ⟨k1, k2, k3⟩ := store_list_spec [s.procs.length + 1, 0, 0, 0, 0, 0, 0, 0,
    s.procs.length + 1, 0, g, f, T - 24, 0, 0, 0] s.mem T
    (by simp only [List.length_cons, List.length_nil]; omega) hT2
  simp only [List.length_cons, List.length_nil] at k1 k3
  refine ⟨t, rec_, ht, hpr, hst, hla, h1, h2, h3, ?_, ?_, ?_⟩
  · intro i v hi
    rw [hm]
    apply k2 i v hi
    have hmem := List.getElem?_mem hi
    simp only [List.mem_cons, List.mem_singleton, List.not_mem_nil, or_false] at hmem
    omega
  · rw [hsp, k1, WORD_eq, WORD_MOD_eq]
    omega
  · intro x hx
    rw [hm]
    apply k3
    omega

/-- C22: a proc constructed with no spawner and `callsz` 0 on a fresh segment of
`min_stk_bytes` bytes at `base` carries, from the aligned top `T` downwards, the
words proc, 0, 0, four zero callee-saves, 0 (frame glue), then proc, 0,
`exit_proc_glue`, `spawnee_fn` and four callee-saves whose frame-pointer slot
holds `T - 24`, the address of the last callee-save of the upper frame; its
`rust_sp` is `T - 60`, the lowest of these words; `get_fp` is `T - 24`, the
frame glue of that frame is null, its previous frame pointer is 0, and the
frame walk visits exactly that one frame. -/
theorem C22_root_frames (s : rust_rt) (g f base T : Nat)
    (hb : base + min_stk_bytes < 4294967296) (hp : s.procs.length + 1 < 4294967296)
    (hg : g < 4294967296) (hf : f < 4294967296)
    (hT : T = base + min_stk_bytes - WORD - (base + min_stk_bytes - WORD) % 16) :
    ∃ (t : rust_rt) (rec_ : rust_proc) (seg : stk_seg),
      rust_proc.new s 0 g f 0 base = Res.ok (t, s.procs.length + 1) ∧
      t.procs.get (s.procs.length + 1) = some rec_ ∧
      t.stks.get rec_.stk = some seg ∧ seg.limit = base + min_stk_bytes ∧ seg.data = base ∧
      (List.range 16).map (fun i => read_word t.mem (T - WORD * i)) =
        [s.procs.length + 1, 0, 0, 0, 0, 0, 0, 0, s.procs.length + 1, 0, g, f, T - 24, 0, 0, 0] ∧
      rec_.rust_sp = T - 15 * WORD ∧
      rec_.get_fp t.mem = T - 6 * WORD ∧
      get_frame_glue_fns t.mem (rec_.get_fp t.mem) = 0 ∧
      get_previous_fp t.mem (rec_.get_fp t.mem) = 0 ∧
      ∀ n, frames_walked t.mem (n + 2) (rec_.get_fp t.mem) = Res.ok [T - 6 * WORD] := by
  rw [WORD_eq] at hT ⊢
  obtain ⟨t, rec_, ht, hpr, hst, _, h1, _, _, hw, hsp, _⟩ :=
    proc_new_root_layout s g f base T hb hp hg hf hT
  have hT1 : 64 ≤ T := by rw [min_stk_bytes_eq] at hT hb; omega
  have hT2 : T < 4294967296 := by rw [min_stk_bytes_eq] at hT hb; omega
  have hfp : rec_.get_fp t.mem = T - 6 * 4 := by
    unfold rust_proc.get_fp get_callee_save_fp
    rw [hsp, n_callee_saves_eq, callee_save_fp_eq, WORD_eq]
    have e : T - 60 + (4 - (0 + 1)) * 4 = T - 4 * 12 := by omega
    rw [e]
    exact hw 12 _ rfl
  have hgl : get_frame_glue_fns t.mem (T - 6 * 4) = 0 := by
    unfold get_frame_glue_fns
    rw [WORD_eq, wsub_sub (by omega) (by omega)]
    have e : T - 6 * 4 - 4 = T - 4 * 7 := by omega
    rw [e]
    exact hw 7 _ rfl
  have hpv : get_previous_fp t.mem (T - 6 * 4) = 0 := by
    unfold get_previous_fp get_callee_save_fp
    rw [n_callee_saves_eq, callee_save_fp_eq, WORD_eq]
    have e : T - 6 * 4 + (4 - (0 + 1)) * 4 = T - 4 * 3 := by omega
    rw [e]
    exact hw 3 _ rfl
  have hga := Store.get_alloc s.procs rec_ (s.procs.length + 1)
  have hgs := Store.get_alloc s.stks (⟨0, 0, 0, 0, 0, base + min_stk_bytes, base⟩ : stk_seg)
    (s.stks.length + 1)
  simp only [Store.alloc, if_pos] at hga hgs
  refine ⟨t, rec_, ⟨0, 0, 0, 0, 0, base + min_stk_bytes, base⟩, ht, by rw [hpr]; exact hga,
    by rw [hst, h1]; exact hgs, rfl, rfl, ?_, by rw [hsp], hfp, ?_, ?_, ?_⟩
  · have hr : List.range 16 = [0, 1, 2, 3, 4, 5, 6, 7, 8, 9, 10, 11, 12, 13, 14, 15] := rfl
    rw [hr]
    simp only [List.map_cons, List.map_nil]
    rw [hw 0 _ rfl, hw 1 _ rfl, hw 2 _ rfl, hw 3 _ rfl, hw 4 _ rfl, hw 5 _ rfl, hw 6 _ rfl,
      hw 7 _ rfl, hw 8 _ rfl, hw 9 _ rfl, hw 10 _ rfl, hw 11 _ rfl, hw 12 _ rfl, hw 13 _ rfl,
      hw 14 _ rfl, hw 15 _ rfl]
    rfl
  · rw [hfp]
    exact hgl
  · rw [hfp]
    exact hpv
  · intro n
    rw [hfp]
    have hne : T - 6 * 4 ≠ 0 := by omega
    unfold frames_walked
    rw [if_pos hne, hpv]
    unfold frames_walked
    rfl

theorem C22_root_frames_witness :
    (0x2020 + min_stk_bytes < 4294967296 ∧ demo_idle.procs.length + 1 < 4294967296 ∧
      (7 : Nat) < 4294967296 ∧ (9 : Nat) < 4294967296 ∧
      0x2310 = 0x2020 + min_stk_bytes - WORD - (0x2020 + min_stk_bytes - WORD) % 16) ∧
    ∃ (t : rust_rt) (rec_ : rust_proc) (seg : stk_seg),
      rust_proc.new demo_idle 0 7 9 0 0x2020 = Res.ok (t, demo_idle.procs.length + 1) ∧
      t.procs.get (demo_idle.procs.length + 1) = some rec_ ∧
      t.stks.get rec_.stk = some seg ∧ seg.limit = 0x2020 + min_stk_bytes ∧ seg.data = 0x2020 ∧
      (List.range 16).map (fun i => read_word t.mem (0x2310 - WORD * i)) =
        [demo_idle.procs.length + 1, 0, 0, 0, 0, 0, 0, 0, demo_idle.procs.length + 1, 0, 7, 9,
          0x2310 - 24, 0, 0, 0] ∧
      rec_.rust_sp = 0x2310 - 15 * WORD ∧
      rec_.get_fp t.mem = 0x2310 - 6 * WORD ∧
      get_frame_glue_fns t.mem (rec_.get_fp t.mem) = 0 ∧
      get_previous_fp t.mem (rec_.get_fp t.mem) = 0 ∧
      ∀ n, frames_walked t.mem (n + 2) (rec_.get_fp t.mem) = Res.ok [0x2310 - 6 * WORD] :=
  ⟨⟨by decide, by decide, by decide, by decide, by decide⟩,
    C22_root_frames demo_idle 7 9 0x2020 0x2310 (by decide) (by decide) (by decide) (by decide)
      (by decide)⟩

/-- Layout of a construction with a spawner, for a `callsz` of at least two
words whose copy does not wrap around address 0: with `n = callsz - 8` and
`D = T - 32 - n`, the upper frame lies at `T`, ..., `T - 28`, the `n` argument
bytes at `[D, D + n)`, the lower frame at `D - 4`, ..., `D - 32`, `rust_sp` is
`D - 32` and everything outside `[D - 32, T + 4)` is unchanged, as is the word
at `T - 32`. -/
theorem proc_new_spawn_layout (s : rust_rt) (spawner : Ptr) (spr : rust_proc)
    (g f c base T n D : Nat) (hsp : s.procs.get spawner = some spr)
    (hb : base + min_stk_bytes < 4294967296) (hp : s.procs.length + 1 < 4294967296)
    (hg : g < 4294967296) (hf : f < 4294967296)
    (hT : T = base + min_stk_bytes - 4 - (base + min_stk_bytes - 4) % 16)
    (hc1 : 8 ≤ c) (hc2 : c < 4294967296) (hn : n = c - 8) (hw : n + 68 ≤ T)
    (hD : D = T - 32 - n) :
    ∃ (t : rust_rt) (rec_ : rust_proc),
      rust_proc.new s spawner g f c base = Res.ok (t, s.procs.length + 1) ∧
      t.procs = s.procs ++ [some rec_] ∧
      t.stks = s.stks ++ [some ⟨0, 0, 0, 0, 0, base + min_stk_bytes, base⟩] ∧
      t.live_allocs = s.live_allocs + 2 ∧
      rec_.stk = s.stks.length + 1 ∧ rec_.state = .running ∧ rec_.fn = f ∧
      (∀ i v, [s.procs.length + 1, 0, 0, 0, 0, 0, 0, 0][i]? = some v →
        read_word t.mem (T - 4 * i) = v) ∧
      (∀ k, k < n → t.mem (D + k) =
        (store_list (s.mem, T) [s.procs.length + 1, 0, 0, 0, 0, 0, 0, 0]).1
          ((spr.rust_sp + 28) % 4294967296 + k)) ∧
      (∀ x, x < T - 28 ∨ T + 4 ≤ x →
        (store_list (s.mem, T) [s.procs.length + 1, 0, 0, 0, 0, 0, 0, 0]).1 x = s.mem x) ∧
      (∀ i v, [s.procs.length + 1, 0, g, f, T - 24, 0, 0, 0][i]? = some v →
        read_word t.mem (D - 4 - 4 * i) = v) ∧
      rec_.rust_sp = D - 32 ∧
      (∀ x, x < D - 32 ∨ T + 4 ≤ x ∨ (T - 32 ≤ x ∧ x < T - 28) → t.mem x = s.mem x) := by
  obtain ⟨t, ht⟩ := proc_new_spawn_returns s spawner spr g f c base hsp
  have hwl : wsub (base + min_stk_bytes) WORD = base + min_stk_bytes - 4 := by
    rw [WORD_eq, wsub_sub (by rw [min_stk_bytes_eq]; omega) hb]
  obtain ⟨_, hst, hla, rec_, hpr, h1, h2, h3, hm, hrs⟩ := proc_new_spawn hsp ht T
    (by rw [hwl]; exact hT) _ rfl
  rw [min_stk_bytes_eq] at hb hT
  have hT2 : T < 4294967296 := by omega
  obtain ⟨x1, x2, x3⟩ := store_list_spec [s.procs.length + 1, 0, 0, 0, 0, 0, 0, 0] s.mem T
    (by simp only [List.length_cons, List.length_nil]; omega) hT2
  simp only [List.length_cons, List.length_nil] at x1 x3
  have h7 := (store_list_spec [s.procs.length + 1, 0, 0, 0, 0, 0, 0] s.mem T
    (by simp only [List.length_cons, List.length_nil]; omega) hT2).1
  have hfb : ((store_list (s.mem, T) [s.procs.length + 1, 0, 0, 0, 0, 0, 0]).2 + WORD) % WORD_MOD
      = T - 24 := by
    rw [h7, WORD_eq, WORD_MOD_eq]
    simp only [List.length_cons, List.length_nil]
    omega
  have hcs : wsub c (2 * WORD) = n := by
    rw [WORD_eq, wsub_sub hc1 hc2, hn]
  have hsrc : (spr.rust_sp + (1 + n_callee_saves + 1 + 1) * WORD) % WORD_MOD =
      (spr.rust_sp + 28) % 4294967296 := by
    rw [n_callee_saves_eq, WORD_eq, WORD_MOD_eq]
  have hd : wsub (store_list (s.mem, T) [s.procs.length + 1, 0, 0, 0, 0, 0, 0, 0]).2 n = D := by
    rw [x1, wsub_sub (by omega) (by omega), hD]
  have hd4 : wsub D WORD = D - 4 := by
    rw [WORD_eq, wsub_sub (by omega) (by omega)]
  rw [hfb, hcs, hsrc, hd, hd4] at hm hrs
  obtain ⟨y1, y2, y3⟩ := store_list_spec [s.procs.length + 1, 0, g, f, T - 24, 0, 0, 0]
    (mem_write (store_list (s.mem, T) [s.procs.length + 1, 0, 0, 0, 0, 0, 0, 0]).1 D
      (mem_read (store_list (s.mem, T) [s.procs.length + 1, 0, 0, 0, 0, 0, 0, 0]).1
        ((spr.rust_sp + 28) % 4294967296) n)) (D - 4)
    (by simp only [List.length_cons, List.length_nil]; omega) (by omega)
  simp only [List.length_cons, List.length_nil] at y1 y3
  refine ⟨t, rec_, ht, hpr, hst, hla, h1, h2, h3, ?_, ?_, ?_, ?_, ?_, ?_⟩
  · intro i v hi
    have hlt : i < 8 := by
      have := (List.getElem?_eq_some.1 hi).1
      simpa using this
    have hv : v < 4294967296 := by
      have hmem := List.getElem?_mem hi
      simp only [List.mem_cons, List.mem_singleton, List.not_mem_nil, or_false] at hmem
      omega
    rw [← x2 i v hi hv, hm]
    apply read_word_congr
    intro k hk
    rw [y3 _ (by omega), mem_copy_out _ _ _ _ _ (by omega)]
  · intro k hk
    rw [hm, y3 _ (by omega)]
    exact mem_copy_in _ _ _ _ _ hk
  · intro x hx
    apply x3
    omega
  · intro i v hi
    rw [hm]
    apply y2 i v hi
    have hmem := List.getElem?_mem hi
    simp only [List.mem_cons, List.mem_singleton, List.not_mem_nil, or_false] at hmem
    omega
  · rw [hrs, y1, WORD_eq, WORD_MOD_eq]
    omega
  · intro x hx
    rw [hm, y3 _ (by omega), mem_copy_out _ _ _ _ _ (by omega)]
    apply x3
    omega

theorem demo_spawner_mem (a : Nat) : demo_spawner.mem a = a % 256 := rfl

/-- C23: a proc constructed with a spawner and a `callsz` of at least two words
(and no wrap-around of the copy below address 0).  With `n = callsz - 2 * WORD`,
`src = spawner.rust_sp + (1 + n_callee_saves + 2) * WORD` and
`D = T - 8 * WORD - n`, the construction returns, the `n` bytes at `[D, D + n)`
are the bytes the spawner had at `[src, src + n)` (where these lie outside the
upper frame), they end below the frame-glue word at `T - 7 * WORD` and start
directly above the proc-pointer cell of the lower frame at `D - WORD`, and the
spawner's record is unchanged.  When the copy and the lower frame fit into the
new segment, all memory outside that segment is unchanged.  When they do not
fit, the construction returns all the same: the new `rust_sp` lies below the
segment's data, the word there is overwritten with 0, and every copied byte
below the data start overwrites memory that is not part of the new stack. -/
theorem C23_spawn_copies_arguments (s : rust_rt) (spawner : Ptr) (spr : rust_proc)
    (g f c base T n D src : Nat) (hsp : s.procs.get spawner = some spr)
    (hb : base + min_stk_bytes < 4294967296) (hp : s.procs.length + 1 < 4294967296)
    (hg : g < 4294967296) (hf : f < 4294967296)
    (hT : T = base + min_stk_bytes - WORD - (base + min_stk_bytes - WORD) % 16)
    (hc1 : 2 * WORD ≤ c) (hc2 : c < 4294967296) (hn : n = c - 2 * WORD) (hw : n + 68 ≤ T)
    (hD : D = T - 8 * WORD - n)
    (hsrc : src = (spr.rust_sp + (1 + n_callee_saves + 2) * WORD) % 4294967296) :
    ∃ (t : rust_rt) (rec_ : rust_proc),
      rust_proc.new s spawner g f c base = Res.ok (t, s.procs.length + 1) ∧
      t.procs.get (s.procs.length + 1) = some rec_ ∧
      t.procs.get spawner = some spr ∧
      (∀ k, k < n → src + k < T - 7 * WORD ∨ T + WORD ≤ src + k →
        t.mem (D + k) = s.mem (src + k)) ∧
      D + n + WORD = T - 7 * WORD ∧
      read_word t.mem (T - 7 * WORD) = 0 ∧
      read_word t.mem (D - WORD) = s.procs.length + 1 ∧
      rec_.rust_sp = D - 8 * WORD ∧
      (base + 16 * WORD + n ≤ T →
        ∀ x, x < base ∨ base + min_stk_bytes ≤ x → t.mem x = s.mem x) ∧
      (T < base + 16 * WORD + n →
        rec_.rust_sp < base ∧ read_word t.mem rec_.rust_sp = 0 ∧
        ∀ k, k < n → D + k < base → src + k < T - 7 * WORD ∨ T + WORD ≤ src + k →
          t.mem (D + k) = s.mem (src + k)) := by
  rw [WORD_eq] at hT hc1 hn hD ⊢
  rw [n_callee_saves_eq, WORD_eq] at hsrc
  obtain ⟨t, rec_, ht, hpr, _, _, _, _, _, u1, u2, u3, u4, u5, u6⟩ :=
    proc_new_spawn_layout s spawner spr g f c base T n D hsp hb hp hg hf hT hc1 hc2 hn hw
      (by rw [hD])
  have hT0 : T + 4 ≤ base + min_stk_bytes := by rw [min_stk_bytes_eq] at hT hb ⊢; omega
  have hga := Store.get_alloc s.procs rec_
  simp only [Store.alloc] at hga
  have hne : spawner ≠ s.procs.length + 1 := by
    intro e
    rw [e, Store.get_of_length_lt s.procs (by omega)] at hsp
    cases hsp
  have hcopy : ∀ k, k < n → src + k < T - 7 * 4 ∨ T + 4 ≤ src + k →
      t.mem (D + k) = s.mem (src + k) := by
    intro k hk hx
    rw [u2 k hk, ← hsrc]
    exact u3 _ (by omega)
  refine ⟨t, rec_, ht, by rw [hpr, hga, if_pos rfl], by rw [hpr, hga, if_neg hne]; exact hsp,
    hcopy, by omega, u1 7 0 rfl, u4 0 _ rfl, by rw [u5], ?_, ?_⟩
  · intro hfit x hx
    apply u6
    omega
  · intro hbad
    refine ⟨by rw [u5]; omega, ?_, fun k hk _ hx => hcopy k hk hx⟩
    have h7 := u4 7 0 rfl
    have e : D - 8 * 4 = D - 4 - 4 * 7 := by omega
    rw [u5, e]
    exact h7

theorem C23_spawn_copies_arguments_witness :
    (demo_spawner.procs.get 1 =
        some { demo_proc 1 .calling_c 0 [] [0, 0] with rust_sp := 0x1800 } ∧
      0x2020 + min_stk_bytes < 4294967296 ∧ demo_spawner.procs.length + 1 < 4294967296 ∧
      (7 : Nat) < 4294967296 ∧ (9 : Nat) < 4294967296 ∧
      0x2310 = 0x2020 + min_stk_bytes - WORD - (0x2020 + min_stk_bytes - WORD) % 16 ∧
      2 * WORD ≤ 0x408 ∧ 0x408 < 4294967296 ∧ 0x400 = 0x408 - 2 * WORD ∧ 0x400 + 68 ≤ 0x2310 ∧
      0x1EF0 = 0x2310 - 8 * WORD - 0x400 ∧
      0x181C = (0x1800 + (1 + n_callee_saves + 2) * WORD) % 4294967296) ∧
    ∃ (t : rust_rt) (rec_ : rust_proc),
      rust_proc.new demo_spawner 1 7 9 0x408 0x2020 = Res.ok (t, 2) ∧
      t.procs.get 2 = some rec_ ∧
      rec_.rust_sp = 0x1ED0 ∧
      demo_spawner.stks.get 1 = some ⟨0, 0, 0, 0, 0, 0x2000, 0x1000⟩ ∧
      demo_spawner.mem 0x1EF0 = 240 ∧ t.mem 0x1EF0 = 28 ∧
      demo_spawner.mem 0x1FFF = 255 ∧ t.mem 0x1FFF = 43 := by
  have hsp : demo_spawner.procs.get 1 =
      some { demo_proc 1 .calling_c 0 [] [0, 0] with rust_sp := 0x1800 } := rfl
  obtain ⟨t, rec_, ht, hr, _, hc, _, _, _, hs, _, _⟩ :=
    C23_spawn_copies_arguments demo_spawner 1 _ 7 9 0x408 0x2020 0x2310 0x400 0x1EF0 0x181C hsp
      (by decide) (by decide) (by decide) (by decide) (by decide) (by decide) (by decide)
      (by decide) (by decide) (by decide) (by decide)
  refine ⟨⟨hsp, by decide, by decide, by decide, by decide, by decide, by decide, by decide,
    by decide, by decide, by decide, by decide⟩, t, rec_, ht, hr, hs, rfl, rfl, ?_, rfl, ?_⟩
  · have := hc 0 (by decide) (Or.inl (by decide))
    rw [demo_spawner_mem] at this
    exact this
  · have := hc 271 (by decide) (Or.inl (by decide))
    rw [demo_spawner_mem] at this
    exact this

/-- C24: with no spawner the construction returns for `callsz` 0 and is fatal
(line 895) for every other `callsz`; with a live spawner it returns for every
`callsz`, also for 0 and for every value below two words: nothing is rejected,
the new proc is in state running, and the memory it leaves is the lower frame
stored below a block copy of `callsz - 2 * WORD` bytes taken modulo the word
size, which is 4294967288 bytes for `callsz` 0. -/
theorem C24_callsz_zero (s : rust_rt) (spawner : Ptr) (spr : rust_proc) (g f c c2 base : Nat)
    (hsp : s.procs.get spawner = some spr) (hc : c ≠ 0) :
    (∃ t, rust_proc.new s 0 g f 0 base = Res.ok (t, s.procs.length + 1)) ∧
    rust_proc.new s 0 g f c base = Res.err (Err.fatal 895) ∧
    (∃ (t : rust_rt) (rec_ : rust_proc) (X : Nat → Nat) (d src fb : Nat),
      rust_proc.new s spawner g f c2 base = Res.ok (t, s.procs.length + 1) ∧
      t.procs = s.procs ++ [some rec_] ∧ rec_.state = .running ∧
      t.mem = (store_list (mem_write X d (mem_read X src (wsub c2 (2 * WORD))), wsub d WORD)
        [s.procs.length + 1, 0, g, f, fb, 0, 0, 0]).1) ∧
    wsub 0 (2 * WORD) = 4294967288 := by
  refine ⟨proc_new_root_returns s g f base, proc_new_root_fatal s g f c base hc, ?_, by decide⟩
  obtain ⟨t, ht⟩ := proc_new_spawn_returns s spawner spr g f c2 base hsp
  obtain ⟨_, _, _, rec_, hpr, _, h2, _, hm, _⟩ := proc_new_spawn hsp ht _ rfl _ rfl
  exact ⟨t, rec_, _, _, _, _, ht, hpr, h2, hm⟩

theorem C24_callsz_zero_witness :
    (demo_spawner.procs.get 1 =
        some { demo_proc 1 .calling_c 0 [] [0, 0] with rust_sp := 0x1800 } ∧ (8 : Nat) ≠ 0) ∧
    (∃ t, rust_proc.new demo_spawner 0 7 9 0 0x2020 = Res.ok (t, demo_spawner.procs.length + 1)) ∧
    rust_proc.new demo_spawner 0 7 9 8 0x2020 = Res.err (Err.fatal 895) ∧
    (∃ (t : rust_rt) (rec_ : rust_proc) (X : Nat → Nat) (d src fb : Nat),
      rust_proc.new demo_spawner 1 7 9 0 0x2020 = Res.ok (t, demo_spawner.procs.length + 1) ∧
      t.procs = demo_spawner.procs ++ [some rec_] ∧ rec_.state = .running ∧
      t.mem = (store_list (mem_write X d (mem_read X src (wsub 0 (2 * WORD))), wsub d WORD)
        [demo_spawner.procs.length + 1, 0, 7, 9, fb, 0, 0, 0]).1) ∧
    wsub 0 (2 * WORD) = 4294967288 :=
  ⟨⟨rfl, by decide⟩, C24_callsz_zero demo_spawner 1 _ 7 9 8 0 0x2020 rfl (by decide)⟩

/-- C35: a root construction leaves `rust_sp` inside the new segment, with the
sixteen frame words inside it and all memory outside `[rust_sp, T + WORD)`
unchanged.  A construction with a spawner and a `callsz` of at least two words
leaves `rust_sp` at `T - 16 * WORD - (callsz - 2 * WORD)`, below the limit; it
is at or above the segment's data exactly when
`base + 16 * WORD + (callsz - 2 * WORD) ≤ T`, and when it is below, the stack
pointer check of the main loop (line 1722) is fatal for the new proc. -/
theorem C35_construction_sp (s : rust_rt) (spawner : Ptr) (spr : rust_proc)
    (g f c base T : Nat) (hsp : s.procs.get spawner = some spr)
    (hb : base + min_stk_bytes < 4294967296) (hp : s.procs.length + 1 < 4294967296)
    (hg : g < 4294967296) (hf : f < 4294967296)
    (hT : T = base + min_stk_bytes - WORD - (base + min_stk_bytes - WORD) % 16)
    (hc1 : 2 * WORD ≤ c) (hc2 : c < 4294967296) (hw : c - 2 * WORD + 68 ≤ T) :
    (∃ (t : rust_rt) (rec_ : rust_proc) (seg : stk_seg),
      rust_proc.new s 0 g f 0 base = Res.ok (t, s.procs.length + 1) ∧
      t.procs.get (s.procs.length + 1) = some rec_ ∧ t.stks.get rec_.stk = some seg ∧
      seg.data ≤ rec_.rust_sp ∧ rec_.rust_sp < seg.limit ∧
      rec_.rust_sp = T - 15 * WORD ∧ T + WORD ≤ seg.limit ∧
      (∀ x, x < rec_.rust_sp ∨ T + WORD ≤ x → t.mem x = s.mem x)) ∧
    (∃ (t : rust_rt) (rec_ : rust_proc) (seg : stk_seg),
      rust_proc.new s spawner g f c base = Res.ok (t, s.procs.length + 1) ∧
      t.procs.get (s.procs.length + 1) = some rec_ ∧ t.stks.get rec_.stk = some seg ∧
      seg.data = base ∧ seg.limit = base + min_stk_bytes ∧
      rec_.rust_sp = T - 16 * WORD - (c - 2 * WORD) ∧ rec_.rust_sp < seg.limit ∧
      (seg.data ≤ rec_.rust_sp ↔ base + 16 * WORD + (c - 2 * WORD) ≤ T) ∧
      (rec_.rust_sp < seg.data →
        ∀ env, main_loop_handle t (s.procs.length + 1) env = Res.err (Err.fatal 1722))) := by
  rw [WORD_eq] at hT hc1 hw ⊢
  have hT0 : T + 4 ≤ base + min_stk_bytes ∧ base + 60 ≤ T := by
    rw [min_stk_bytes_eq] at hT hb ⊢
    omega
  have hgs := Store.get_alloc s.stks (⟨0, 0, 0, 0, 0, base + min_stk_bytes, base⟩ : stk_seg)
    (s.stks.length + 1)
  simp only [Store.alloc, if_pos] at hgs
  constructor
  · obtain ⟨t, rec_, ht, hpr, hst, _, h1, _, _, _, hsp, hfr⟩ :=
      proc_new_root_layout s g f base T hb hp hg hf hT
    have hga := Store.get_alloc s.procs rec_ (s.procs.length + 1)
    simp only [Store.alloc, if_pos] at hga
    refine ⟨t, rec_, ⟨0, 0, 0, 0, 0, base + min_stk_bytes, base⟩, ht, by rw [hpr]; exact hga,
      by rw [hst, h1]; exact hgs, ?_, ?_, by rw [hsp], hT0.1, ?_⟩
    · show base ≤ rec_.rust_sp
      rw [hsp]
      omega
    · show rec_.rust_sp < base + min_stk_bytes
      rw [hsp]
      omega
    · intro x hx
      apply hfr
      rw [hsp] at hx
      omega
  · obtain ⟨t, rec_, ht, hpr, hst, _, h1, _, _, _, _, _, _, u5, _⟩ :=
      proc_new_spawn_layout s spawner spr g f c base T (c - 2 * 4) (T - 32 - (c - 2 * 4)) hsp hb
        hp hg hf hT hc1 hc2 rfl hw rfl
    have hga := Store.get_alloc s.procs rec_ (s.procs.length + 1)
    simp only [Store.alloc, if_pos] at hga
    have hget : t.procs.get (s.procs.length + 1) = some rec_ := by rw [hpr]; exact hga
    have hseg : t.stks.get rec_.stk =
        some (⟨0, 0, 0, 0, 0, base + min_stk_bytes, base⟩ : stk_seg) := by
      rw [hst, h1]; exact hgs
    refine ⟨t, rec_, ⟨0, 0, 0, 0, 0, base + min_stk_bytes, base⟩, ht, hget, hseg, rfl, rfl,
      by rw [u5]; omega, ?_, ?_, ?_⟩
    · show rec_.rust_sp < base + min_stk_bytes
      rw [u5]
      omega
    · show base ≤ rec_.rust_sp ↔ _
      rw [u5]
      omega
    · intro hlt env
      have hlt' : ¬ (rec_.rust_sp ≥ base) := by
        have : rec_.rust_sp < base := hlt
        omega
      unfold main_loop_handle
      rw [Store.deref_of_get hget, Res.ok_bind, Store.deref_of_get hseg, Res.ok_bind, I_bind,
        if_neg hlt']

theorem C35_construction_sp_witness :
    (demo_spawner.procs.get 1 =
        some { demo_proc 1 .calling_c 0 [] [0, 0] with rust_sp := 0x1800 } ∧
      0x2020 + min_stk_bytes < 4294967296 ∧ demo_spawner.procs.length + 1 < 4294967296 ∧
      (7 : Nat) < 4294967296 ∧ (9 : Nat) < 4294967296 ∧
      0x2310 = 0x2020 + min_stk_bytes - WORD - (0x2020 + min_stk_bytes - WORD) % 16 ∧
      2 * WORD ≤ 0x408 ∧ 0x408 < 4294967296 ∧ 0x408 - 2 * WORD + 68 ≤ 0x2310) ∧
    (∃ (t : rust_rt) (rec_ : rust_proc) (seg : stk_seg),
      rust_proc.new demo_spawner 0 7 9 0 0x2020 = Res.ok (t, 2) ∧
      t.procs.get 2 = some rec_ ∧ t.stks.get rec_.stk = some seg ∧
      seg.data ≤ rec_.rust_sp ∧ rec_.rust_sp < seg.limit ∧ rec_.rust_sp = 0x22D4) ∧
    ∃ (t : rust_rt) (rec_ : rust_proc) (seg : stk_seg),
      rust_proc.new demo_spawner 1 7 9 0x408 0x2020 = Res.ok (t, 2) ∧
      t.procs.get 2 = some rec_ ∧ t.stks.get rec_.stk = some seg ∧
      seg.data = 0x2020 ∧ rec_.rust_sp = 0x1ED0 ∧ rec_.rust_sp < seg.data ∧
      ∀ env, main_loop_handle t 2 env = Res.err (Err.fatal 1722) := by
  have hsp : demo_spawner.procs.get 1 =
      some { demo_proc 1 .calling_c 0 [] [0, 0] with rust_sp := 0x1800 } := rfl
  obtain ⟨⟨t0, r0, g0, a1, a2, a3, a4, a5, a6, _⟩, t, rec_, seg, b1, b2, b3, b4, _, b6, _, b8, b9⟩ :=
    C35_construction_sp demo_spawner 1 _ 7 9 0x408 0x2020 0x2310 hsp
      (by decide) (by decide) (by decide) (by decide) (by decide) (by decide) (by decide)
      (by decide)
  have hlt : rec_.rust_sp < seg.data := by
    rw [b4, b6]
    decide
  exact ⟨⟨hsp, by decide, by decide, by decide, by decide, by decide, by decide, by decide,
    by decide⟩, ⟨t0, r0, g0, a1, a2, a3, a4, a5, a6⟩, t, rec_, seg, b1, b2, b3, b4, b6, hlt,
    b9 hlt⟩

/-! ## C37: the state-name table -/

/-- C37: the table `state_names` has five entries for the six proc states.  The
entries at the values of running and calling-host are these states' names; the
entry at the value of failing is "exited", the one at the value of
blocked-exited is "blocked_reading", the one at the value of blocked-reading is
"blocked_writing", and the value of blocked-writing, 5, is past the end of the
table.  So the entry at a state's value is the state's own name for running and
calling-host only. -/
theorem C37_state_names :
    state_names.length = 5 ∧ all_states.length = 6 ∧ (∀ st, st ∈ all_states) ∧
    state_name .running = some "running" ∧
    state_name .calling_c = some "calling_c" ∧
    state_name .failing = some "exited" ∧
    state_name .blocked_exited = some "blocked_reading" ∧
    state_name .blocked_reading = some "blocked_writing" ∧
    state_name .blocked_writing = none ∧
    proc_state_t.blocked_writing.val = state_names.length ∧
    (∀ st, state_name st = some st.own_name ↔ st = .running ∨ st = .calling_c) := by
  refine ⟨rfl, rfl, ?_, rfl, rfl, rfl, rfl, rfl, rfl, rfl, ?_⟩
  · intro st
    cases st <;> decide
  · intro st
    cases st <;> decide

/-! ## C36: the byte size requested for the storage of a `ptr_vec` -/

/-- C36: the constructor of a `ptr_vec` requests `alloc * WORD` bytes, room for
its `alloc` slots.  A push that grows the vector (`fill = alloc`) requests
`2 * alloc` bytes, the new number of slots and not that number times the size
of a pointer: the `alloc + 1` elements the vector is to hold need more than the
bytes requested, and the push of a live element stops at the store to
`data[fill]`, which lies outside the reallocated storage.  A trim that halves
a vector requests `alloc / 2` bytes, again the new number of slots: it returns
with the halved capacity and a storage of `alloc / 2 / WORD` slots. -/
theorem C36_ptr_vec_bytes {α : Type} [HasIdx α] (v u : ptr_vec) (H : Store α) (p : Ptr) (x : α)
    (bytes sz : Nat) (hfull : v.fill = v.alloc) (hpos : 0 < v.alloc)
    (hp : H.get p = some x)
    (hsz : sz ≤ u.alloc / 4 ∧ u.alloc / 2 ≥ 8) (hu : u.fill ≤ u.alloc / 2) :
    ptr_vec.init_bytes = ptr_vec.init.alloc * WORD ∧ ptr_vec.init.fill = 0 ∧
    v.push_bytes bytes = 2 * v.alloc ∧ v.push_bytes bytes < (v.fill + 1) * WORD ∧
    v.push H p = Res.err Err.oob ∧
    ∃ w, u.trim sz = Res.ok w ∧ u.trim_bytes sz bytes = w.alloc ∧ w.alloc = u.alloc / 2 ∧
      w.fill = u.fill ∧ w.data.length = u.alloc / 2 / WORD ∧
      w.data.length * WORD ≤ u.trim_bytes sz bytes := by
  have hb : v.push_bytes bytes = v.alloc * 2 := by
    unfold ptr_vec.push_bytes
    rw [if_pos hfull]
  have ht : u.trim_bytes sz bytes = u.alloc / 2 := by
    unfold ptr_vec.trim_bytes
    rw [if_pos hsz]
  refine ⟨rfl, rfl, by rw [hb]; omega, ?_, ptr_vec.push_full_oob hfull hpos hp, ?_⟩
  · rw [hb, WORD_eq]
    omega
  · refine ⟨{ u with alloc := u.alloc / 2, data := realloc_slots u.data (u.alloc / 2 / WORD) },
      ?_, ht, rfl, rfl, realloc_slots_length _ _, ?_⟩
    · have : u.alloc / 2 ≥ u.fill := hu
      simp [ptr_vec.trim, hsz, this]
    · rw [ht]
      show (realloc_slots u.data (u.alloc / 2 / WORD)).length * WORD ≤ u.alloc / 2
      rw [realloc_slots_length, WORD_eq]
      omega

/-- Nine channels pushed onto a fresh vector: after eight pushes the vector is
full and the storage was requested with 32 bytes; the ninth push requests 16
bytes, while nine elements need 36 bytes, and stops at the store of the ninth
element.  A vector of 32 slots holding six elements is trimmed to 16 slots with
a request of 16 bytes, room for four elements. -/
theorem C36_ptr_vec_bytes_witness :
    ptr_vec.push_all ptr_vec.init ptr_vec.init_bytes demo_nine [1, 2, 3, 4, 5, 6, 7, 8] =
      Res.ok (⟨8, 8, [1, 2, 3, 4, 5, 6, 7, 8]⟩, 32,
        ((ptr_vec.push_all ptr_vec.init ptr_vec.init_bytes demo_nine
          [1, 2, 3, 4, 5, 6, 7, 8]).getD (ptr_vec.init, 0, [])).2.2) ∧
    (ptr_vec.push_all ptr_vec.init ptr_vec.init_bytes demo_nine
      [1, 2, 3, 4, 5, 6, 7, 8, 9]).stop = some Err.oob ∧
    (ptr_vec.init_bytes = ptr_vec.init.alloc * WORD ∧ ptr_vec.init.fill = 0 ∧
      (⟨8, 8, [1, 2, 3, 4, 5, 6, 7, 8]⟩ : ptr_vec).push_bytes 32 = 2 * 8 ∧
      (⟨8, 8, [1, 2, 3, 4, 5, 6, 7, 8]⟩ : ptr_vec).push_bytes 32 < (8 + 1) * WORD ∧
      (⟨8, 8, [1, 2, 3, 4, 5, 6, 7, 8]⟩ : ptr_vec).push demo_nine 9 = Res.err Err.oob ∧
      ∃ w, (⟨32, 6, [1, 2, 3, 4, 5, 6] ++ List.replicate 26 0⟩ : ptr_vec).trim 6 = Res.ok w ∧
        (⟨32, 6, [1, 2, 3, 4, 5, 6] ++ List.replicate 26 0⟩ : ptr_vec).trim_bytes 6 128 =
          w.alloc ∧
        w.alloc = 32 / 2 ∧ w.fill = 6 ∧ w.data.length = 32 / 2 / WORD ∧
        w.data.length * WORD ≤
          (⟨32, 6, [1, 2, 3, 4, 5, 6] ++ List.replicate 26 0⟩ : ptr_vec).trim_bytes 6 128) :=
  ⟨by decide, by decide,
   C36_ptr_vec_bytes ⟨8, 8, [1, 2, 3, 4, 5, 6, 7, 8]⟩
     ⟨32, 6, [1, 2, 3, 4, 5, 6] ++ List.replicate 26 0⟩ demo_nine 9 (demo_chan 0 0 0 0 []) 32 6
     (by decide) (by decide) (by decide) (by decide) (by decide)⟩

/-! ## C34: sequences of pushes and shifts -/

/-- C34: two sequences of pushes and shifts on a freshly constructed `circ_buf`
of unit size 1, each shift called with a unit unread and the capacity far below
the maximum.  Six pushes and four shifts return, the fourth shift halving the
storage to 4 bytes while `next` has reached 4: `next < alloc` fails before the
next call, and a fifth shift (two units are unread) reads at offset 4 of the 4
bytes of storage.  One push, one shift and four pushes return with the buffer
full at `next = 1`, all three bounds holding; a further push, which has to
grow the buffer, reads one byte past the end of the storage in its transfer. -/
theorem C34_push_shift_sequences :
    push_then_shift demo_bytes 1 [1, 2, 3, 4, 5, 6] 300 4 =
      Res.ok (⟨4, 1, 4, 2, [5, 6, 0, 0]⟩, [[1], [2], [3], [4]]) ∧
    ¬ (⟨4, 1, 4, 2, [5, 6, 0, 0]⟩ : circ_buf).in_bounds ∧
    (push_then_shift demo_bytes 1 [1, 2, 3, 4, 5, 6] 300 5).stop = some Err.oob ∧
    (fresh_run demo_bytes 1 [.push 1, .shift 300, .push 2, .push 3, .push 4, .push 5]).isOk
      = true ∧
    ((fresh_run demo_bytes 1 [.push 1, .shift 300, .push 2, .push 3, .push 4, .push 5]).getD
      (demo_bytes, ⟨0, 0, 0, 0, []⟩)).2 = ⟨4, 1, 1, 4, [5, 2, 3, 4]⟩ ∧
    (⟨4, 1, 1, 4, [5, 2, 3, 4]⟩ : circ_buf).in_bounds ∧
    (4 : Nat) ≤ MAX_CIRC_BUF_SIZE ∧
    (fresh_run demo_bytes 1
      [.push 1, .shift 300, .push 2, .push 3, .push 4, .push 5, .push 6]).stop = some Err.oob := by
  refine ⟨by decide, by decide, by decide, by rfl, by decide, by decide, by decide, by decide⟩

/-! ## C31: `implode` -/

theorem read_word_lt (mem : Nat → Nat) (a : Nat) : read_word mem a < 4294967296 := by
  unfold read_word
  rw [WORD_eq, range_four]
  simp only [List.map_cons, List.map_nil, List.sum_cons, List.sum_nil]
  have h0 := Nat.mod_lt (mem (a + 0)) (show 0 < 256 by decide)
  have h1 := Nat.mod_lt (mem (a + 1)) (show 0 < 256 by decide)
  have h2 := Nat.mod_lt (mem (a + 2)) (show 0 < 256 by decide)
  have h3 := Nat.mod_lt (mem (a + 3)) (show 0 < 256 by decide)
  omega

/-- The loop of `implode` stores the low byte of the 32-bit value at `src` in
each of the `n` bytes from `dst` on, when the word at `src` lies outside them. -/
theorem implode_loop_spec (src : Nat) : ∀ (n dst : Nat) (mem : Nat → Nat),
    src + 4 ≤ dst ∨ dst + n ≤ src → ∀ x, implode_loop src n dst mem x =
      if dst ≤ x ∧ x < dst + n then read_word mem src % 256 else mem x
  | 0, dst, mem, _, x => by
    rw [if_neg (by omega)]
    rfl
  | n + 1, dst, mem, h, x => by
    have hw : read_word (mem_write mem dst [read_word mem src % 256]) src = read_word mem src := by
      apply read_word_congr
      intro k hk
      apply mem_write_out
      simp only [List.length_singleton]
      omega
    show implode_loop src n (dst + 1) (mem_write mem dst [read_word mem src % 256]) x = _
    rw [implode_loop_spec src n (dst + 1) _ (by omega) x, hw]
    by_cases h1 : dst + 1 ≤ x ∧ x < dst + 1 + n
    · rw [if_pos h1, if_pos (by omega)]
    · rw [if_neg h1]
      by_cases h2 : x = dst
      · rw [if_pos (by omega), h2, mem_write_in (by omega) (by simp)]
        simp
      · rw [if_neg (by omega)]
        apply mem_write_out
        simp only [List.length_singleton]
        omega

/-- C31: `implode` on a vector at `v` with `fill` bytes, called by a live proc,
the string block `[addr, addr + 3 * WORD + fill / 4)` lying clear of the first
character of the vector.  It returns the string at `addr` with reference count
1, length `fill / 4` and allocation `next_power_of_two (fill / 4)`; every byte
of the string is the low byte of the first 32-bit character of the vector, the
source pointer not being advanced in the loop. -/
theorem C31_implode (s : rust_rt) (proc v addr n : Nat) (p : rust_proc)
    (hp : s.procs.get proc = some p) (hn : n = read_word s.mem (v + 2 * WORD) / 4)
    (hd : v + 4 * WORD ≤ addr ∨ addr + 3 * WORD + n ≤ v + 3 * WORD) :
    ∃ t, implode s proc v addr = Res.ok (t, addr) ∧
      t.live_allocs = s.live_allocs + 1 ∧
      read_word t.mem addr = 1 ∧
      read_word t.mem (addr + WORD) = next_power_of_two n ∧
      read_word t.mem (addr + 2 * WORD) = n ∧
      ∀ i, i < n → t.mem (addr + 3 * WORD + i) = read_word s.mem (v + 3 * WORD) % 256 := by
  rw [WORD_eq] at hn hd ⊢
  have hsh : read_word s.mem (v + 2 * 4) >>> 2 = n := by
    rw [Nat.shiftRight_eq_div_pow, hn]
  have hn4 : n < 4294967296 := by
    have := read_word_lt s.mem (v + 2 * 4)
    omega
  have ha : next_power_of_two n < 4294967296 := by
    unfold next_power_of_two
    simp only
    rw [WORD_MOD_eq]
    exact Nat.mod_lt _ (by decide)
  have hne : ¬ ((0 : Nat) ≠ 0) := fun h => h rfl
  have himp : implode s proc v addr = Res.ok
      ({ s with
          live_allocs := s.live_allocs + 1
          mem := implode_loop (v + 3 * 4) n (addr + 3 * 4)
            (write_word (write_word (write_word s.mem addr 1) (addr + 2 * 4) n) (addr + 4)
              (next_power_of_two n)) }, addr) := by
    unfold implode upcall_new_str
    rw [WORD_eq, hsh, Store.deref_of_get hp]
    simp only [Res.ok_bind, if_neg hne, Res.pure_eq, rust_rt.malloc]
  refine ⟨_, himp, rfl, ?_, ?_, ?_, ?_⟩
  · show read_word (implode_loop (v + 3 * 4) n (addr + 3 * 4) _) addr = 1
    have e : read_word (implode_loop (v + 3 * 4) n (addr + 3 * 4)
        (write_word (write_word (write_word s.mem addr 1) (addr + 2 * 4) n) (addr + 4)
          (next_power_of_two n))) addr =
        read_word (write_word (write_word (write_word s.mem addr 1) (addr + 2 * 4) n) (addr + 4)
          (next_power_of_two n)) addr := by
      apply read_word_congr
      intro k hk
      rw [implode_loop_spec _ _ _ _ (by omega), if_neg (by omega)]
    rw [e, read_write_word_ne _ (by omega), read_write_word_ne _ (by omega)]
    exact read_write_word_same _ _ (by decide)
  · show read_word (implode_loop (v + 3 * 4) n (addr + 3 * 4) _) (addr + 4) = _
    have e : read_word (implode_loop (v + 3 * 4) n (addr + 3 * 4)
        (write_word (write_word (write_word s.mem addr 1) (addr + 2 * 4) n) (addr + 4)
          (next_power_of_two n))) (addr + 4) =
        read_word (write_word (write_word (write_word s.mem addr 1) (addr + 2 * 4) n) (addr + 4)
          (next_power_of_two n)) (addr + 4) := by
      apply read_word_congr
      intro k hk
      rw [implode_loop_spec _ _ _ _ (by omega), if_neg (by omega)]
    rw [e]
    exact read_write_word_same _ _ ha
  · show read_word (implode_loop (v + 3 * 4) n (addr + 3 * 4) _) (addr + 2 * 4) = _
    have e : read_word (implode_loop (v + 3 * 4) n (addr + 3 * 4)
        (write_word (write_word (write_word s.mem addr 1) (addr + 2 * 4) n) (addr + 4)
          (next_power_of_two n))) (addr + 2 * 4) =
        read_word (write_word (write_word (write_word s.mem addr 1) (addr + 2 * 4) n) (addr + 4)
          (next_power_of_two n)) (addr + 2 * 4) := by
      apply read_word_congr
      intro k hk
      rw [implode_loop_spec _ _ _ _ (by omega), if_neg (by omega)]
    rw [e, read_write_word_ne _ (by omega)]
    exact read_write_word_same _ _ hn4
  · intro i hi
    show implode_loop (v + 3 * 4) n (addr + 3 * 4) _ (addr + 3 * 4 + i) = _
    rw [implode_loop_spec _ _ _ _ (by omega), if_pos (by omega)]
    congr 1
    apply read_word_congr
    intro k hk
    rw [write_word_out _ (by omega), write_word_out _ (by omega), write_word_out _ (by omega)]

/-- The vector of `demo_chars` holds the characters `0x61` and `0x62`; the
string `implode` returns for it holds the bytes `0x61`, `0x61`. -/
theorem C31_implode_witness :
    (demo_chars.procs.get 1 = some (demo_proc 1 .calling_c 0 [] [300, 1]) ∧
      2 = read_word demo_chars.mem (400 + 2 * WORD) / 4 ∧
      (400 + 4 * WORD ≤ 1000 ∨ 1000 + 3 * WORD + 2 ≤ 400 + 3 * WORD)) ∧
    (read_word demo_chars.mem (400 + 3 * WORD) = 0x61 ∧
      read_word demo_chars.mem (400 + 4 * WORD) = 0x62) ∧
    ∃ t, implode demo_chars 1 400 1000 = Res.ok (t, 1000) ∧
      t.live_allocs = demo_chars.live_allocs + 1 ∧
      read_word t.mem 1000 = 1 ∧
      read_word t.mem (1000 + WORD) = next_power_of_two 2 ∧
      read_word t.mem (1000 + 2 * WORD) = 2 ∧
      t.mem (1000 + 3 * WORD + 0) = 0x61 ∧ t.mem (1000 + 3 * WORD + 1) = 0x61 := by
  obtain ⟨t, h1, h2, h3, h4, h5, h6⟩ := C31_implode demo_chars 1 400 1000 2 _ rfl (by decide)
    (Or.inl (by decide))
  refine ⟨⟨rfl, by decide, Or.inl (by decide)⟩, ⟨by decide, by decide⟩, t, h1, h2, h3, h4, h5,
    ?_, ?_⟩
  · rw [h6 0 (by decide)]
    decide
  · rw [h6 1 (by decide)]
    decide

/-! ## Channels that hold a unit belong to their blocked sender -/

theorem owner_inv_iff (s : rust_rt) :
    owner_inv s ↔ ∀ x c, s.chan_heap.get x = some c → c.buf.unread ≠ 0 →
      ∃ r, s.procs.get c.blocked = some r ∧ x ∈ r.chans := by
  constructor
  · intro h x c hx hu
    exact h x (by have := Store.lt_of_get hx; omega) c hx hu
  · intro h x _ c hx hu
    exact h x c hx hu

/-- The tables of `t` hold what the tables of `s` hold. -/
theorem tables_grow_of_same {s t : rust_rt} (h : same_tables s t) :
    ∀ q r, s.procs.get q = some r →
      ∃ r', t.procs.get q = some r' ∧ ∀ x, x ∈ r.chans → x ∈ r'.chans := by
  intro q r hq
  obtain ⟨r', hr', e⟩ := same_tables_get_fwd h hq
  exact ⟨r', hr', fun x hx => by rw [e]; exact hx⟩

theorem bview_of_map {a b : Option rust_chan} {ct : rust_chan}
    (h : a.map rust_chan.bview = b.map rust_chan.bview) (ha : a = some ct) :
    ∃ c, b = some c ∧ c.bview = ct.bview := by
  subst ha
  cases b with
  | none => simp at h
  | some c =>
    refine ⟨c, rfl, ?_⟩
    simp only [Option.map_some', Option.some.injEq] at h
    exact h.symm

/-- The owner invariant passes from `s` to `t` when tables only grow and every
channel of `t` that holds a unit either is as in `s` or is in the table of its
blocked sender. -/
theorem owner_inv_step {s t : rust_rt} (hs : owner_inv s)
    (htab : ∀ q r, s.procs.get q = some r →
      ∃ r', t.procs.get q = some r' ∧ ∀ x, x ∈ r.chans → x ∈ r'.chans)
    (hch : ∀ x ct, t.chan_heap.get x = some ct → ct.buf.unread ≠ 0 →
      (∃ c, s.chan_heap.get x = some c ∧ c.bview = ct.bview) ∨
      (∃ r, t.procs.get ct.blocked = some r ∧ x ∈ r.chans)) : owner_inv t := by
  rw [owner_inv_iff] at hs ⊢
  intro x ct hx hu
  rcases hch x ct hx hu with ⟨c, hc, e⟩ | h
  · have e1 : c.buf = ct.buf := congrArg Prod.fst e
    have e2 : c.blocked = ct.blocked := congrArg Prod.snd e
    obtain ⟨r, hr, hmem⟩ := hs x c hc (by rw [e1]; exact hu)
    obtain ⟨r', hr', hsub⟩ := htab _ r hr
    exact ⟨r', by rw [← e2]; exact hr', hsub x hmem⟩
  · exact h

theorem hash_find_mem {s : rust_rt} {l : List Ptr} {port chan : Ptr}
    (h : hash_find s l port = some chan) : chan ∈ l := by
  unfold hash_find at h
  exact List.mem_of_find?_eq_some h

theorem send_chan_mem {t : rust_rt} {src port chan : Ptr} {ct : rust_chan}
    (h : send_chan t src port = some (chan, ct)) :
    ∃ r, t.procs.get src = some r ∧ chan ∈ r.chans := by
  unfold send_chan at h
  cases hp : t.procs.get src with
  | none => simp [hp] at h
  | some sp =>
    simp only [hp] at h
    cases hf : hash_find t sp.chans port with
    | none => simp [hf] at h
    | some ch =>
      simp only [hf] at h
      cases hc : t.chan_heap.get ch with
      | none => simp [hc] at h
      | some c =>
        simp only [hc, Option.some.injEq, Prod.mk.injEq] at h
        obtain ⟨e, _⟩ := h
        subst e
        exact ⟨sp, rfl, hash_find_mem hf⟩

/-- What a send does to tables and to the channels that hold a unit. -/
theorem send_owner {s t : rust_rt} {src port : Ptr} {sptr : Nat} (hinv : chan_inv s)
    (h : upcall_send s src port sptr = Res.ok t) :
    (∀ q r, s.procs.get q = some r →
      ∃ r', t.procs.get q = some r' ∧ ∀ x, x ∈ r.chans → x ∈ r'.chans) ∧
    (∀ x ct, t.chan_heap.get x = some ct → ct.buf.unread ≠ 0 →
      (∃ c, s.chan_heap.get x = some c ∧ c.bview = ct.bview) ∨
      (∃ r, t.procs.get ct.blocked = some r ∧ x ∈ r.chans)) := by
  rcases send_inv h with ⟨h0, e⟩ |
    ⟨hp0, hsptr, sp, s1, chan, c, sp1, pt, hsp, hfn, hloc, hpt, hblk, hrest⟩
  · subst e
    exact ⟨fun q r hq => ⟨r, hq, fun _ hx => hx⟩, fun x ct hx _ => Or.inl ⟨ct, hx, rfl⟩⟩
  · obtain ⟨hinv1, hpend1, hstate1⟩ := located_fifo hsp hloc hinv
    have hloc' := hloc
    obtain ⟨_, hc1, _, hsp1, hst1, hargs1, _, hprocs, _, hch1, hph1, hmem1, _, _, _, hcase⟩ :=
      hloc'
    -- tables and channels after the lookup
    have htab1 : ∀ q r, s.procs.get q = some r →
        ∃ r', s1.procs.get q = some r' ∧ ∀ x, x ∈ r.chans → x ∈ r'.chans := by
      intro q r hq
      by_cases hqs : q = src
      · subst hqs
        rw [hsp] at hq
        cases hq
        refine ⟨sp1, hsp1, ?_⟩
        rcases hcase with ⟨_, _, e⟩ | ⟨_, _, _, e, _⟩
        · rw [e]
          exact fun _ hx => hx
        · rw [e]
          exact fun x hx => List.mem_append_left _ hx
      · exact ⟨r, by rw [hprocs q hqs]; exact hq, fun _ hx => hx⟩
    have hchan1 : ∀ x c1, s1.chan_heap.get x = some c1 → c1.buf.unread ≠ 0 →
        s.chan_heap.get x = some c1 := by
      intro x c1 hx hu
      by_cases hxc : x = chan
      · subst hxc
        rw [hc1] at hx
        cases hx
        rcases hcase with ⟨_, e, _⟩ | ⟨_, _, _, _, _, pt', _, _, e⟩
        · rw [← e]
          exact hc1
        · rw [e] at hu
          exact absurd rfl hu
      · rw [← hch1 x hxc]
        exact hx
    rcases hrest with ⟨hpz, e⟩ | ⟨hpnz, buf, s4, s5, n, c5, hpush, hs4, hs5, hc5, hfin⟩
    · subst e
      exact ⟨htab1, fun x ct hx hu => Or.inl ⟨ct, hchan1 x ct hx hu, rfl⟩⟩
    · have hframes : same_ports s1 t ∧ same_tables s1 t := by
        rcases send_located h with ⟨h0, _⟩ | ⟨_, s1', chan', _, _, _, _, _, hfn', f, g, _⟩
        · exact absurd h0 hp0
        · rw [hfn] at hfn'
          simp only [ok_eq_ok, Prod.mk.injEq] at hfn'
          obtain ⟨e1, e2⟩ := hfn'
          subst e1
          exact ⟨f, g⟩
      obtain ⟨f, g⟩ := hframes
      obtain ⟨hinv4, hc0, hc4, hbu, hbsz, hbold, hne4, hmem4, hmv4, hsrc1⟩ :=
        push_fifo hinv1 hc1 hblk hpush hs4
      have hlast : (∀ x, (t.chan_heap.get x).map rust_chan.bview =
          (s5.chan_heap.get x).map rust_chan.bview) ∧ t.procs = s5.procs ∧ t.mem = s5.mem := by
        rcases hfin with ⟨_, e⟩ | ⟨_, _, pt5, w, heap1, _, hpw, e⟩
        · rw [e]
          exact ⟨fun _ => rfl, rfl, rfl⟩
        · have hc5q : (s5.chan_heap.put chan { c5 with queued := 1 }).get chan =
              some { c5 with queued := 1 } := Store.get_put_self _ hc5
          obtain ⟨i, hh⟩ := push_heap_chan hc5q hpw
          rw [e]
          refine ⟨?_, rfl, rfl⟩
          intro x
          show (heap1.get x).map rust_chan.bview = _
          rw [hh, Store.get_put _ hc5q, Store.get_put _ hc5]
          by_cases hx : x = chan
          · rw [if_pos hx, hx, hc5]
            rfl
          · rw [if_neg hx, if_neg hx]
      obtain ⟨hbv, hprocs5, hmem5⟩ := hlast
      refine ⟨?_, ?_⟩
      · intro q r hq
        obtain ⟨r1, hr1, h1⟩ := htab1 q r hq
        obtain ⟨r', hr', h2⟩ := tables_grow_of_same g q r1 hr1
        exact ⟨r', hr', fun x hx => h2 x (h1 x hx)⟩
      · intro x ct hx hu
        obtain ⟨c5x, hc5x, e5⟩ := bview_of_map (hbv x) hx
        have e5b : c5x.buf = ct.buf := congrArg Prod.fst e5
        have e5k : c5x.blocked = ct.blocked := congrArg Prod.snd e5
        rcases attempt_fifo hinv4 hs5 with ⟨_, e⟩ |
          ⟨_, d, c4, c', hd, hds, hc4', hu4, hk5, hu5, hsz5, hne5, hinv5, hrd, hrun5⟩
        · rw [e] at hc5x
          by_cases hxc : x = chan
          · right
            subst hxc
            rw [hc4] at hc5x
            cases hc5x
            have hct : t.chan_heap.get x = some ct := hx
            have hsc := send_chan_eq hloc f g hct
            obtain ⟨r, hr, hmem⟩ := send_chan_mem hsc
            have ek : ct.blocked = src := e5k.symm
            exact ⟨r, by rw [ek]; exact hr, hmem⟩
          · left
            rw [hne4 x hxc] at hc5x
            have hu1 : c5x.buf.unread ≠ 0 := by rw [e5b]; exact hu
            exact ⟨c5x, hchan1 x c5x hc5x hu1, e5⟩
        · by_cases hxc : x = chan
          · subst hxc
            rw [hk5] at hc5x
            cases hc5x
            rw [e5b] at hu5
            exact absurd hu5 hu
          · left
            rw [hne5 x hxc, hne4 x hxc] at hc5x
            have hu1 : c5x.buf.unread ≠ 0 := by rw [e5b]; exact hu
            exact ⟨c5x, hchan1 x c5x hc5x hu1, e5⟩

/-- What a receive does to tables and to the channels that hold a unit. -/
theorem recv_owner {s t : rust_rt} {dst port : Ptr} {r : Nat} (hinv : chan_inv s)
    (h : upcall_recv s dst port r = Res.ok t) :
    (∀ q r, s.procs.get q = some r →
      ∃ r', t.procs.get q = some r' ∧ ∀ x, x ∈ r.chans → x ∈ r'.chans) ∧
    (∀ x ct, t.chan_heap.get x = some ct → ct.buf.unread ≠ 0 →
      (∃ c, s.chan_heap.get x = some c ∧ c.bview = ct.bview) ∨
      (∃ r, t.procs.get ct.blocked = some r ∧ x ∈ r.chans)) := by
  refine ⟨tables_grow_of_same (recv_frames h).2.1, ?_⟩
  obtain ⟨d, pt, s1, hd, hds, hpt, hown, hs1, hrest⟩ := recv_inv h
  obtain ⟨_, _, _, hrest1, hmv1⟩ := pst_frame hs1
  have hch1 : s1.chan_heap = s.chan_heap := hrest1.2.2.2.2.1
  have hnbw : ¬ in_blocked_writing s dst := by
    unfold in_blocked_writing
    rw [state_of_get hd, hds]
    intro e
    cases e
  have hinv1 : chan_inv s1 := moved_chan_inv hmv1 hch1 hnbw hinv
  have hquiet : t = s1 → ∀ x ct, t.chan_heap.get x = some ct → ct.buf.unread ≠ 0 →
      (∃ c, s.chan_heap.get x = some c ∧ c.bview = ct.bview) ∨
      (∃ r, t.procs.get ct.blocked = some r ∧ x ∈ r.chans) := by
    intro e x ct hx _
    rw [e, hch1] at hx
    exact Or.inl ⟨ct, hx, rfl⟩
  rcases hrest with ⟨_, e⟩ | ⟨hfill, schan, sc, s2, res, hpk, hsc, hidx, hatt, hfin⟩
  · exact hquiet e
  · rcases attempt_fifo hinv1 hatt with ⟨hn, e2⟩ |
      ⟨hn, d1, c, c', hd1, hds1, hc, hu, hk2, hu2, hsz2, hne2, hinv2, hrd, hrun2⟩
    · rcases hfin with ⟨_, e⟩ | ⟨hres, _⟩
      · exact hquiet (e.trans e2)
      · exact absurd hn hres
    · rcases hfin with ⟨hres, _⟩ | ⟨_, pt2, w, heap, w1, sc2, hpt2, hsw, htr, hsc2, e⟩
      · rw [hn] at hres
        cases hres
      · have hbv : ∀ x, (t.chan_heap.get x).map rust_chan.bview =
            (s2.chan_heap.get x).map rust_chan.bview := by
          intro x
          rw [e]
          show ((heap.put schan { sc2 with queued := 0 }).get x).map rust_chan.bview = _
          rw [bview_put (b := { sc2 with queued := 0 }) hsc2 rfl]
          rcases ptr_vec.swapdel_heap hsw with e1 | ⟨q, sb, i, hq, e1⟩
          · rw [e1]
          · rw [e1]
            exact bview_put (b := HasIdx.set_idx sb i) hq rfl x
        intro x ct hx hu'
        obtain ⟨c2, hc2, e5⟩ := bview_of_map (hbv x) hx
        have e5b : c2.buf = ct.buf := congrArg Prod.fst e5
        by_cases hxc : x = schan
        · subst hxc
          rw [hk2] at hc2
          cases hc2
          rw [e5b] at hu2
          exact absurd hu2 hu'
        · left
          rw [hne2 x hxc, hch1] at hc2
          exact ⟨c2, hc2, e5⟩

/-- A step that changes one proc record but not its table, and no channel,
keeps the owner invariant. -/
theorem quiet_owner {s t : rust_rt} {p : Ptr} {r r' : rust_proc} (hch : t.chan_heap = s.chan_heap)
    (hr : s.procs.get p = some r) (ht : t.procs = s.procs.put p r') (hc : r'.chans = r.chans)
    (hinv : owner_inv s) : owner_inv t := by
  refine owner_inv_step hinv ?_ ?_
  · intro q rq hq
    by_cases hqp : q = p
    · subst hqp
      rw [hr] at hq
      cases hq
      exact ⟨r', by rw [ht]; exact Store.get_put_self _ hr, fun x hx => by rw [hc]; exact hx⟩
    · exact ⟨rq, by rw [ht, Store.get_put_ne _ hqp]; exact hq, fun _ hx => hx⟩
  · intro x ct hx _
    rw [hch] at hx
    exact Or.inl ⟨ct, hx, rfl⟩

/-- One step of a trace keeps the owner invariant. -/
theorem step_owner {s t : rust_rt} {e : Event} {a b : Log} (hinv : chan_inv s)
    (how : owner_inv s) (h : step s e = Res.ok (t, a, b)) : owner_inv t := by
  cases e with
  | send src port sptr =>
    simp only [step] at h
    rw [Res.bind_eq_ok] at h
    obtain ⟨t', ht', h⟩ := h
    simp only [Res.pure_eq, ok_eq_ok, Prod.mk.injEq] at h
    obtain ⟨e1, e2, e3⟩ := h
    subst e1 e2 e3
    obtain ⟨h1, h2⟩ := send_owner hinv ht'
    exact owner_inv_step how h1 h2
  | recv dst port r =>
    simp only [step] at h
    rw [Res.bind_eq_ok] at h
    obtain ⟨t', ht', h⟩ := h
    simp only [Res.pure_eq, ok_eq_ok, Prod.mk.injEq] at h
    obtain ⟨e1, e2, e3⟩ := h
    subst e1 e2 e3
    obtain ⟨h1, h2⟩ := recv_owner hinv ht'
    exact owner_inv_step how h1 h2
  | guest p code args mem =>
    simp only [step] at h
    rw [Res.bind_eq_ok] at h
    obtain ⟨t', ht', h⟩ := h
    simp only [Res.pure_eq, ok_eq_ok, Prod.mk.injEq] at h
    obtain ⟨e1, e2, e3⟩ := h
    subst e1 e2 e3
    unfold enter_upcall at ht'
    rw [deref_bind_eq_ok] at ht'
    obtain ⟨r, hr, ht'⟩ := ht'
    split at ht'
    · simp only [Res.pure_eq, ok_eq_ok] at ht'
      subst ht'
      exact @quiet_owner s _ p r _ rfl hr rfl rfl how
    · cases ht'
  | resume p =>
    simp only [step] at h
    rw [Res.bind_eq_ok] at h
    obtain ⟨t', ht', h⟩ := h
    simp only [Res.pure_eq, ok_eq_ok, Prod.mk.injEq] at h
    obtain ⟨e1, e2, e3⟩ := h
    subst e1 e2 e3
    unfold restore_running at ht'
    rw [deref_bind_eq_ok] at ht'
    obtain ⟨r, hr, ht'⟩ := ht'
    split at ht'
    · simp only [Res.pure_eq, ok_eq_ok] at ht'
      subst ht'
      exact @quiet_owner s _ p r _ rfl hr rfl rfl how
    · simp only [Res.pure_eq, ok_eq_ok] at ht'
      subst ht'
      exact how

theorem run_owner (evs : List Event) : ∀ (s t : rust_rt) (a b : Log), chan_inv s →
    owner_inv s → run s evs = Res.ok (t, a, b) → chan_inv t ∧ owner_inv t := by
  induction evs with
  | nil =>
    intro s t a b hinv how h
    simp only [run, Res.pure_eq, ok_eq_ok, Prod.mk.injEq] at h
    obtain ⟨e1, _, _⟩ := h
    subst e1
    exact ⟨hinv, how⟩
  | cons e es ih =>
    intro s t a b hinv how h
    simp only [run] at h
    rw [Res.bind_eq_ok] at h
    obtain ⟨⟨t1, a1, b1⟩, hstep, h⟩ := h
    simp only at h
    rw [Res.bind_eq_ok] at h
    obtain ⟨⟨u, xs, ys⟩, hrun, h⟩ := h
    simp only [Res.pure_eq, ok_eq_ok, Prod.mk.injEq] at h
    obtain ⟨e1, _, _⟩ := h
    subst e1
    exact ih t1 u xs ys (step_fifo hinv hstep).1 (step_owner hinv how hstep) hrun

theorem inv_of_no_chans {s : rust_rt} (h : s.chan_heap = []) : chan_inv s ∧ owner_inv s := by
  have hget : ∀ x, s.chan_heap.get x = none := by
    intro x
    rw [h]
    cases x with
    | zero => rfl
    | succ x => simp [Store.get]
  refine ⟨(chan_inv_iff s).2 ⟨?_, ?_⟩, (owner_inv_iff s).2 ?_⟩
  · intro x c hx
    rw [hget] at hx
    cases hx
  · intro x y c1 c2 hx
    rw [hget] at hx
    cases hx
  · intro x c hx
    rw [hget] at hx
    cases hx

/-- C32: in every runtime reached by a trace of sends, receives, procs entering
upcalls and procs resumed (a send or a receive by a proc that is not in
calling-host stops at the assertion of the state transition and the trace does
not return), from a runtime without channels or one that satisfies the channel
and the owner invariant: every channel buffer holds no unit or exactly one
unit; when it holds one, the blocked sender the channel names is a live proc in
blocked-writing that has the channel in its table; and the buffer's storage has
the size `alloc`, which is at most the initial capacity of eight units. -/
theorem C32_channel_buffers (s : rust_rt) (evs : List Event) (t : rust_rt) (sent got : Log)
    (h0 : s.chan_heap = [] ∨ (chan_inv s ∧ owner_inv s))
    (hrun : run s evs = Res.ok (t, sent, got)) :
    ∀ x c, t.chan_heap.get x = some c →
      (c.buf.unread = 0 ∨ c.buf.unread = c.buf.unit_sz) ∧
      (c.buf.unread ≠ 0 → ∃ r, t.procs.get c.blocked = some r ∧
        r.state = .blocked_writing ∧ x ∈ r.chans) ∧
      c.buf.alloc ≤ INIT_CIRC_BUF_UNITS * c.buf.unit_sz ∧ c.buf.data.length = c.buf.alloc := by
  have hs : chan_inv s ∧ owner_inv s := by
    rcases h0 with h | h
    · exact inv_of_no_chans h
    · exact h
  obtain ⟨hc, ho⟩ := run_owner evs s t sent got hs.1 hs.2 hrun
  intro x c hx
  obtain ⟨⟨hu, hlen, hal, hun⟩, hbw⟩ := ((chan_inv_iff t).1 hc).1 x c hx
  refine ⟨hun, ?_, ?_, hlen⟩
  · intro hne
    obtain ⟨r, hr, hmem⟩ := (owner_inv_iff t).1 ho x c hx hne
    have := hbw hne
    unfold in_blocked_writing at this
    rw [state_of_get hr] at this
    exact ⟨r, hr, Option.some.inj this, hmem⟩
  · unfold INIT_CIRC_BUF_UNITS
    rcases hal with ⟨e, _⟩ | ⟨e, _⟩
    · rw [e]
      rfl
    · rw [e]
      omega

/-- The send of proc 2 in `demo_busy` returns with the unit in channel 1: the
buffer holds one unit of 4 bytes in its initial 32 bytes of storage, and the
channel names proc 2, which is in blocked-writing and has channel 1 in its
table. -/
theorem C32_channel_buffers_witness :
    (demo_busy.chan_heap = [] ∨ (chan_inv demo_busy ∧ owner_inv demo_busy)) ∧
    run demo_busy [.send 2 1 200] =
      Res.ok ((run demo_busy [.send 2 1 200]).getD (demo_busy, [], [])) ∧
    (((run demo_busy [.send 2 1 200]).getD (demo_busy, [], [])).1.chan_heap.get 1).map
      (fun c => (c.buf.unread, c.buf.unit_sz, c.buf.alloc, c.blocked)) = some (4, 4, 32, 2) ∧
    (((run demo_busy [.send 2 1 200]).getD (demo_busy, [], [])).1.procs.get 2).map
      (fun r => (r.state, r.chans)) = some (.blocked_writing, [1]) ∧
    ∀ x c, ((run demo_busy [.send 2 1 200]).getD (demo_busy, [], [])).1.chan_heap.get x = some c →
      (c.buf.unread = 0 ∨ c.buf.unread = c.buf.unit_sz) ∧
      (c.buf.unread ≠ 0 →
        ∃ r, ((run demo_busy [.send 2 1 200]).getD (demo_busy, [], [])).1.procs.get c.blocked =
          some r ∧ r.state = .blocked_writing ∧ x ∈ r.chans) ∧
      c.buf.alloc ≤ INIT_CIRC_BUF_UNITS * c.buf.unit_sz ∧ c.buf.data.length = c.buf.alloc :=
  ⟨Or.inl rfl, Res.eq_ok_of_isOk (demo_busy, [], []) (by rfl), by decide, by decide,
    C32_channel_buffers demo_busy [.send 2 1 200] _ _ _ (Or.inl rfl)
      (Res.eq_ok_of_isOk (demo_busy, [], []) (by rfl))⟩

/-! ## C33: the port of a delivered unit -/

/-- The channel a receive on port `P` delivers from is queued at `P` and
targets `P`. -/
theorem recv_obs_port {s t : rust_rt} {dst P : Ptr} {r : Nat} (hW : writers_inv s)
    {x : Ptr} {u : List Nat} (h : (x, u) ∈ recv_obs s t dst P r) :
    ∃ c, s.chan_heap.get x = some c ∧ c.port = P := by
  unfold recv_obs at h
  cases h1 : s.port_heap.get P with
  | none => simp [h1] at h
  | some pt =>
    cases h2 : s.procs.get dst with
    | none => simp [h1, h2] at h
    | some d =>
      cases h3 : t.procs.get dst with
      | none => simp [h1, h2, h3] at h
      | some d' =>
        simp only [h1, h2, h3] at h
        split at h
        · rename_i hc
          cases h4 : pt.writers.data[r % pt.writers.fill]? with
          | none => simp [h4] at h
          | some schan =>
            simp only [h4] at h
            cases h5 : s.chan_heap.get schan with
            | none => simp [h5] at h
            | some c =>
              simp only [h5, List.mem_singleton, Prod.mk.injEq] at h
              obtain ⟨e, _⟩ := h
              subst e
              have hslot : pt.writers.slot (r % pt.writers.fill) = some x := by
                unfold ptr_vec.slot
                rw [if_pos (Nat.mod_lt _ hc.1)]
                exact h4
              obtain ⟨ch, hch, hp, _⟩ := (((writers_inv_iff s).1 hW).1 P pt h1).2 _ _ hslot
              have e2 : ch = c := by
                rw [h5] at hch
                exact (Option.some.inj hch).symm
              exact ⟨c, h5, by rw [← e2]; exact hp⟩
        · simp at h

/-- C33: a unit a receive on port `P` delivers comes from a channel that is
queued at `P` and targets `P`.  A send to another port `Q` whose owner waits in
blocked-reading for a unit of `P` completes that receive all the same: the
send returns (the two proc vectors having a free slot each, at a capacity
`trim` does not halve) with the owner in running and the unit of the sender's
channel for `Q`, of that channel's unit size, at the owner's destination
address. -/
theorem C33_delivery_port (s : rust_rt) (src dst P Q : Ptr) (sptr r : Nat) (sp o : rust_proc)
    (pt : rust_port) (hinv : procs_inv s) (hW : writers_inv s)
    (hsp : s.procs.get src = some sp) (hst : sp.state = .calling_c)
    (hpt : s.port_heap.get Q = some pt) (ho : s.procs.get pt.proc = some o)
    (hsptr : sptr ≠ 0)
    (hnew : hash_find s sp.chans Q = none → pt.unit_sz ≠ 0)
    (hold : ∀ chan c, hash_find s sp.chans Q = some chan → s.chan_heap.get chan = some c →
      c.buf.room ∧ (c.blocked = 0 ∨ c.blocked = src))
    (hos : o.state = .blocked_reading) (harg : o.arg 0 ≠ 0) (hP : o.arg 1 = P) (hPQ : P ≠ Q)
    (hsm : procs_small s) (hbr : s.blocked_procs.room) (hrr : s.running_procs.room) :
    (∀ t x u, upcall_recv s dst P r = Res.ok t → (x, u) ∈ recv_obs s t dst P r →
      ∃ c, s.chan_heap.get x = some c ∧ c.port = P) ∧
    (∃ t o' chan ch, upcall_send s src Q sptr = Res.ok t ∧
      t.procs.get pt.proc = some o' ∧ o'.state = .running ∧ o'.arg 1 = P ∧
      t.chan_heap.get chan = some ch ∧ ch.port = Q ∧ ch.port ≠ P ∧
      mem_read t.mem (o.arg 0) ch.buf.unit_sz = mem_read s.mem sptr ch.buf.unit_sz ∧
      woken_obs s t src Q = [(chan, mem_read t.mem (o.arg 0) ch.buf.unit_sz)]) := by
  refine ⟨fun t x u _ hx => recv_obs_port hW hx, ?_⟩
  obtain ⟨t, s1, chan, c, b1, ht, _, _, hc1, hcp, _, _, hch, _, hb1s, _, _, hmem,
    ⟨sp', hsp', _, _, hfind⟩, ⟨o', ho', hos', _, hoa⟩, _⟩ :=
    send_delivered hinv hsp hst hpt ho hsptr hnew hold hos harg hsm hbr hrr
  have hct : t.chan_heap.get chan = some { c with blocked := 0, buf := b1 } := by
    rw [hch]
    exact Store.get_put_self _ hc1
  have hrd : mem_read t.mem (o.arg 0) b1.unit_sz = mem_read s.mem sptr b1.unit_sz := by
    rw [hb1s, hmem]
    have hlen := mem_read_length s.mem sptr c.buf.unit_sz
    have := mem_read_write s.mem (o.arg 0) (mem_read s.mem sptr c.buf.unit_sz)
    rw [hlen] at this
    exact this
  have hsc : send_chan t src Q = some (chan, { c with blocked := 0, buf := b1 }) := by
    unfold send_chan
    rw [hsp']
    simp only
    rw [hfind]
    simp only
    rw [hct]
  refine ⟨t, o', chan, { c with blocked := 0, buf := b1 }, ht, ho', hos', ?_, hct, hcp, ?_, hrd,
    woken_obs_one hpt ho ho' hos hos' hsc⟩
  · unfold rust_proc.arg at hP ⊢
    rw [hoa]
    exact hP
  · show c.port ≠ P
    rw [hcp]
    exact fun e => hPQ e.symm

/-- In `demo_cross_waiting` proc 1, the owner of ports 1 (unit size 4) and 2
(unit size 8), waits in blocked-reading for a unit of port 1 at address 300.
The send of proc 2 to port 2 returns with proc 1 in running and the eight bytes
of the unit for port 2 at address 300; the whole trace `demo_cross` from
`demo_two_ports` returns with that unit delivered from channel 1, which
targets port 2. -/
theorem C33_delivery_port_witness :
    (procs_inv demo_cross_waiting ∧ writers_inv demo_cross_waiting ∧
      demo_cross_waiting.procs.get 2 =
        some { demo_proc 2 .calling_c 0 [] [2, 200] with upcall_code := 9 } ∧
      demo_cross_waiting.port_heap.get 2 = some { demo_port [] with unit_sz := 8 } ∧
      demo_cross_waiting.procs.get 1 = some (demo_proc 1 .blocked_reading 0 [] [300, 1]) ∧
      (demo_proc 1 .blocked_reading 0 [] [300, 1]).arg 1 = 1 ∧ (1 : Ptr) ≠ 2) ∧
    (run demo_two_ports demo_cross).isOk = true ∧
    ((run demo_two_ports demo_cross).getD (demo_two_ports, [], [])).2.2 =
      [(1, [200, 201, 202, 203, 204, 205, 206, 207])] ∧
    ((((run demo_two_ports demo_cross).getD (demo_two_ports, [], [])).1.chan_heap.get 1).map
      fun c => c.port) = some 2 ∧
    (∃ t o' chan ch, upcall_send demo_cross_waiting 2 2 200 = Res.ok t ∧
      t.procs.get 1 = some o' ∧ o'.state = .running ∧ o'.arg 1 = 1 ∧
      t.chan_heap.get chan = some ch ∧ ch.port = 2 ∧ ch.port ≠ 1 ∧
      mem_read t.mem 300 ch.buf.unit_sz = mem_read demo_cross_waiting.mem 200 ch.buf.unit_sz ∧
      woken_obs demo_cross_waiting t 2 2 = [(chan, mem_read t.mem 300 ch.buf.unit_sz)]) :=
  ⟨⟨by decide, by decide, by rfl, by rfl, by rfl, by decide, by decide⟩, by rfl, by decide,
    by decide,
    (C33_delivery_port demo_cross_waiting 2 1 1 2 200 0
      { demo_proc 2 .calling_c 0 [] [2, 200] with upcall_code := 9 }
      (demo_proc 1 .blocked_reading 0 [] [300, 1]) { demo_port [] with unit_sz := 8 }
      (by decide) (by decide) (by rfl) (by rfl) (by rfl) (by rfl) (by decide)
      (fun _ => by decide) (fun chan c h => by simp [hash_find, demo_proc] at h)
      (by rfl) (by decide) (by decide) (by decide) (by decide) (by decide) (by decide)).2⟩

end RustRt
